import Mathlib

/-!
# coati: codon-aware pairwise alignment — verification development

A shallow embedding of the alignment engines of `src/lib/gotoh.cc` and
`src/lib/profile_aln.cc`.

Conventions of the embedding

* `std::string` is `List Char`; `s[k]` is `charAt s k`.
* `float`/`double` are the elements of an ordered field `α` (exact arithmetic: rounding is
  not modelled).  The C library functions `log` and `exp` are the two fields of `Num α`;
  `realNum` interprets them by `Real.log` and `Real.exp`.  Where exactness of a result in
  `double` is itself the question, the doubles are the rationals `isBinary64` and every
  operation is rounded explicitly (`nuc_pi_fp`).
* An Eigen matrix is a function of its two indices; `M(i, j) = v` is `setAt M i j v`.
  `MatrixXf::Constant(m + 1, n + 1, c)` is the constant function `c`.
* `exit(EXIT_FAILURE)`, an access outside a string or vector, and a loop that never ends are
  the three values of `Failure`; functions that can end this way return `Except Failure _`.
* The tensor `p` (64 x 3 x 4), which `mg94_marginal_p(p, P_m)` builds from the codon matrix
  `P_m`, is an argument of the engines: the builder is not among the sources.
-/

set_option autoImplicit false
set_option linter.unusedSectionVars false
set_option linter.unusedVariables false

namespace Coati

/-! ## Basic types -/

/-- Ways in which a call ends without returning. -/
inductive Failure where
  | exitFailure
  | outOfRange
  | diverged
  deriving DecidableEq, Repr

/-- The type of `std::string`. -/
abbrev Str := List Char

/-- The element `s[k]`; `s[s.size()]` is the null character. -/
def charAt (s : Str) (k : Nat) : Char := s.getD k (Char.ofNat 0)

/-- The string `s.substr(pos, len)`. -/
def substr (s : Str) (pos len : Nat) : Str := (s.drop pos).take len

/-- Interpretation of the C library functions `log` and `exp`. -/
structure Num (α : Type) where
  log : α → α
  exp : α → α

/-- The functions `log` and `exp` on the real numbers. -/
noncomputable def realNum : Num ℝ := ⟨Real.log, Real.exp⟩

section Engines

variable {α : Type} [LinearOrderedField α]

/-- The value `std::numeric_limits<float>::max()`. -/
def fltMax : α := (2 ^ 24 - 1) * 2 ^ 104

/-- The value `std::numeric_limits<double>::max()`. -/
def dblMax : α := (2 ^ 53 - 1) * 2 ^ 971

/-- Modelled from the spec: the lookup table `nt4_table` of the absent header `utils.hpp`,
with A = 0, C = 1, G = 2, T = 3 and every other symbol (`N` among them) 4. -/
def nt4_table (c : Char) : Nat :=
  if c = 'A' then 0 else if c = 'C' then 1 else if c = 'G' then 2 else if c = 'T' then 3 else 4

/-- The codon index `cod_int(codon)` of `utils.cc`. -/
def cod_int (codon : Str) : Nat :=
  (nt4_table (charAt codon 0) <<< 4) + (nt4_table (charAt codon 1) <<< 2)
    + nt4_table (charAt codon 2)

/-- The struct `fasta_t` held by an alignment: names and sequences. -/
structure fasta_t where
  seq_names : List Str
  seq_data : List Str
  deriving DecidableEq, Repr

/-- The struct `alignment_t`: the aligned strings `f.seq_data` and the weight. -/
structure alignment_t (α : Type) where
  f : fasta_t
  weight : α

/-- The six matrices of a dynamic-programming pass: the costs `D`, `P`, `Q` and the
predecessor tags `Bd`, `Bp`, `Bq`. -/
structure Mats (α : Type) where
  D : Nat → Nat → α
  P : Nat → Nat → α
  Q : Nat → Nat → α
  Bd : Nat → Nat → Int
  Bp : Nat → Nat → Int
  Bq : Nat → Nat → Int

/-- The assignment `M(i, j) = v`. -/
def setAt {β : Type} (M : Nat → Nat → β) (i j : Nat) (v : β) : Nat → Nat → β :=
  fun a b => if a = i ∧ b = j then v else M a b

/-- The matrices as allocated: every cost is `fltMax`, every tag is `-1`. -/
def Mats.fresh : Mats α :=
  { D := fun _ _ => fltMax, P := fun _ _ => fltMax, Q := fun _ _ => fltMax,
    Bd := fun _ _ => -1, Bp := fun _ _ => -1, Bq := fun _ _ => -1 }

/-- The loop `for (k = lo; k < hi; k++) body`. -/
def forLoop {σ : Type} (lo hi : Nat) (body : Nat → σ → σ) (s : σ) : σ :=
  (List.range' lo (hi - lo)).foldl (fun s k => body k s) s

/-- The loop `for (k = lo; k < hi; k += 3) body`. -/
def forLoop3 {σ : Type} (lo hi : Nat) (body : Nat → σ → σ) (s : σ) : σ :=
  (List.range' lo ((hi - lo + 2) / 3) 3).foldl (fun s k => body k s) s

/-- The raw-sequence `transition(codon, position, nuc, p)` of `gotoh.cc`. -/
def transition (codon : Str) (position : Nat) (nuc : Char) (p : Nat → Nat → Nat → α) : α :=
  let position := if position = 0 then 2 else position - 1
  if nuc ≠ 'N' then p (cod_int codon) position (nt4_table nuc)
  else (0 + p (cod_int codon) position 0 + p (cod_int codon) position 1
          + p (cod_int codon) position 2 + p (cod_int codon) position 3) / 4

/-! ## The gap parameters of `mg94_marginal` and `gotoh_profile_marginal` -/

/-- Local `insertion = log(0.001)`. -/
def insertion (N : Num α) : α := N.log 0.001
/-- Local `deletion = log(0.001)`. -/
def deletion (N : Num α) : α := N.log 0.001
/-- Local `insertion_ext = log(1.0 - (1.0 / 6.0))`. -/
def insertion_ext (N : Num α) : α := N.log (1 - 1 / 6)
/-- Local `deletion_ext = log(1.0 - (1.0 / 6.0))`. -/
def deletion_ext (N : Num α) : α := N.log (1 - 1 / 6)
/-- Local `no_insertion = log(1.0 - 0.001)`. -/
def no_insertion (N : Num α) : α := N.log (1 - 0.001)
/-- Local `no_deletion = log(1.0 - 0.001)`. -/
def no_deletion (N : Num α) : α := N.log (1 - 0.001)
/-- Local `no_insertion_ext = log(1.0 / 6.0)`. -/
def no_insertion_ext (N : Num α) : α := N.log (1 / 6)
/-- Local `no_deletion_ext = log(1.0 / 6.0)`. -/
def no_deletion_ext (N : Num α) : α := N.log (1 / 6)

/-- The vector `nuc_freqs << log(0.308), log(0.185), log(0.199), log(0.308), log(0.25)`. -/
def nuc_freqs (N : Num α) (k : Nat) : α :=
  match k with
  | 0 => N.log 0.308
  | 1 => N.log 0.185
  | 2 => N.log 0.199
  | 3 => N.log 0.308
  | _ => N.log 0.25

/-! ## `mg94_marginal` (gotoh.cc) -/

/-- Body of the loop of `mg94_marginal` that fills the first row, at column `j`. -/
def mg94_row0 (N : Num α) (seq_b : Str) (j : Nat) (s : Mats α) : Mats α :=
  let g := nuc_freqs N (nt4_table (charAt seq_b (j - 1)))
  let s := { s with D := setAt s.D 0 j (s.D 0 (j - 1) - insertion_ext N - g) }
  let s := { s with P := setAt s.P 0 j (s.P 0 (j - 1) - insertion_ext N - g) }
  let s := { s with Bd := setAt s.Bd 0 j 1 }
  { s with Bp := setAt s.Bp 0 j 1 }

/-- Body of the loop of `mg94_marginal` that fills the first column, at row `i`. -/
def mg94_col0 (N : Num α) (i : Nat) (s : Mats α) : Mats α :=
  let s := { s with D := setAt s.D i 0 (s.D (i - 1) 0 - deletion_ext N) }
  let s := { s with Q := setAt s.Q i 0 (s.Q (i - 1) 0 - deletion_ext N) }
  let s := { s with Bd := setAt s.Bd i 0 2 }
  { s with Bq := setAt s.Bq i 0 1 }

/-- The assignments of `mg94_marginal` that precede the loops: cells (0,0), (0,1), (1,0). -/
def mg94_init0 (N : Num α) (seq_b : Str) : Mats α :=
  let s : Mats α := Mats.fresh
  let s := { s with D := setAt s.D 0 0 0 }
  let s := { s with Bd := setAt s.Bd 0 0 0 }
  let v := -insertion N - nuc_freqs N (nt4_table (charAt seq_b 0)) - no_insertion_ext N
  let s := { s with D := setAt s.D 0 1 v }
  let s := { s with P := setAt s.P 0 1 v }
  let s := { s with Bd := setAt s.Bd 0 1 1 }
  let s := { s with Bp := setAt s.Bp 0 1 2 }
  let s := { s with D := setAt s.D 1 0 (-no_insertion N - deletion N - no_deletion_ext N) }
  let s := { s with Q := setAt s.Q 1 0 (-no_insertion N - deletion N - no_deletion_ext N) }
  let s := { s with Bd := setAt s.Bd 1 0 2 }
  { s with Bq := setAt s.Bq 1 0 2 }

/-- Initialisation of `mg94_marginal`: cell (0,0), the cells (0,1) and (1,0), the first row
and the first column. -/
def mg94_init (N : Num α) (seq_b : Str) (m n : Nat) : Mats α :=
  let s := mg94_init0 N seq_b
  let s := if n + 1 ≥ 2 then forLoop 2 (n + 1) (mg94_row0 N seq_b) s else s
  if m + 1 ≥ 2 then forLoop 2 (m + 1) (mg94_col0 N) s else s

/-- Local `p1` of `mg94_marginal` at cell (i,j): the insertion-extension candidate. -/
def mg94_p1 (N : Num α) (seq_b : Str) (s : Mats α) (i j : Nat) : α :=
  s.P i (j - 1) - insertion_ext N - nuc_freqs N (nt4_table (charAt seq_b (j - 1)))

/-- Local `p2` of `mg94_marginal` at cell (i,j): the insertion-opening candidate. -/
def mg94_p2 (N : Num α) (seq_b : Str) (s : Mats α) (i j : Nat) : α :=
  if s.Bd i (j - 1) = 0 then
    s.D i (j - 1) - insertion N - nuc_freqs N (nt4_table (charAt seq_b (j - 1)))
      - no_insertion_ext N
  else if s.Bd i (j - 1) = 1 then
    s.D i (j - 1) - insertion_ext N - nuc_freqs N (nt4_table (charAt seq_b (j - 1)))
  else dblMax

/-- Local `q1` of `mg94_marginal` at cell (i,j): the deletion-extension candidate. -/
def mg94_q1 (N : Num α) (s : Mats α) (i j : Nat) : α :=
  s.Q (i - 1) j - deletion_ext N

/-- Local `q2` of `mg94_marginal` at cell (i,j): the deletion-opening candidate. -/
def mg94_q2 (N : Num α) (s : Mats α) (i j : Nat) : α :=
  if s.Bd (i - 1) j = 0 then s.D (i - 1) j - no_insertion N - deletion N - no_deletion_ext N
  else if s.Bd (i - 1) j = 1 then s.D (i - 1) j - no_deletion_ext N - deletion N
  else s.D (i - 1) j - deletion_ext N

/-- Local `d` of `mg94_marginal` at cell (i,j): the match/mismatch candidate. -/
def mg94_d (N : Num α) (p : Nat → Nat → Nat → α) (seq_a seq_b : Str) (s : Mats α)
    (i j : Nat) : α :=
  let codon := substr seq_a (((i - 1) / 3) * 3) 3
  if s.Bd (i - 1) (j - 1) = 0 then
    s.D (i - 1) (j - 1) - no_insertion N - no_deletion N
      - N.log (transition codon (i % 3) (charAt seq_b (j - 1)) p)
  else if s.Bd (i - 1) (j - 1) = 1 then
    s.D (i - 1) (j - 1) - no_deletion N
      - N.log (transition codon (i % 3) (charAt seq_b (j - 1)) p)
  else
    s.D (i - 1) (j - 1) - N.log (transition codon (i % 3) (charAt seq_b (j - 1)) p)

/-- The choice of `D(i,j)` and `Bd(i,j)` among `d`, `P(i,j)` and `Q(i,j)`, shared by the
three engines (`if(d < P(i, j)) { if(d < Q(i, j)) ... } else { if(P(i, j) < Q(i, j)) ... }`). -/
def selectD (s : Mats α) (i j : Nat) (d : α) : Mats α :=
  if d < s.P i j then
    if d < s.Q i j then
      { s with D := setAt s.D i j d, Bd := setAt s.Bd i j 0 }
    else
      { s with D := setAt s.D i j (s.Q i j), Bd := setAt s.Bd i j 2 }
  else
    if s.P i j < s.Q i j then
      { s with D := setAt s.D i j (s.P i j), Bd := setAt s.Bd i j 1 }
    else
      { s with D := setAt s.D i j (s.Q i j), Bd := setAt s.Bd i j 2 }

/-- Body of the inner loop of `mg94_marginal` at cell (i,j). -/
def mg94_cell (N : Num α) (p : Nat → Nat → Nat → α) (seq_a seq_b : Str) (i j : Nat)
    (s : Mats α) : Mats α :=
  let p1 := mg94_p1 N seq_b s i j
  let p2 := mg94_p2 N seq_b s i j
  let s := { s with P := setAt s.P i j (min p1 p2) }
  let s := { s with Bp := setAt s.Bp i j (if p1 < p2 then 1 else 2) }
  let q1 := mg94_q1 N s i j
  let q2 := mg94_q2 N s i j
  let s := { s with Q := setAt s.Q i j (min q1 q2) }
  let s := { s with Bq := setAt s.Bq i j (if q1 < q2 then 1 else 2) }
  let d := mg94_d N p seq_a seq_b s i j
  selectD s i j d

/-- The forward pass of `mg94_marginal`: initialisation, then the two nested loops. -/
def mg94_forward (N : Num α) (p : Nat → Nat → Nat → α) (seq_a seq_b : Str) : Mats α :=
  let m := seq_a.length
  let n := seq_b.length
  forLoop 1 (m + 1) (fun i s =>
    forLoop 1 (n + 1) (fun j s => mg94_cell N p seq_a seq_b i j s) s)
    (mg94_init N seq_b m n)

/-- The statement `aln.f.seq_data[k].insert(0, 1, c)`; `none` when there is no string `k`. -/
def insertFront (k : Nat) (c : Char) : List Str → Option (List Str)
  | [] => none
  | s :: rest =>
    match k with
    | 0 => some ((c :: s) :: rest)
    | k + 1 => (insertFront k c rest).map (fun r => s :: r)

/-- One alignment column written by `backtracking`: `c0` in front of string 0 and `c1` in
front of string 1. -/
def emit (c0 c1 : Char) (sd : List Str) : Except Failure (List Str) :=
  match insertFront 0 c0 sd with
  | none => .error .outOfRange
  | some sd =>
    match insertFront 1 c1 sd with
    | none => .error .outOfRange
    | some sd => .ok sd

/-- The inner loop `while(Bp(i, j) == 1) { ...; j--; }` of `backtracking`, run `steps` times
per test (`steps` is 1, and 3 in the frame-preserving variant).  Reading `seqb[j - 1]` at
`j = 0` is a failure. -/
def insRun (Bp : Nat → Nat → Int) (seqb : Str) (steps : Nat) (i : Nat) :
    Nat → Nat → List Str → Except Failure (Nat × List Str)
  | 0, _, _ => .error .diverged
  | fuel + 1, j, sd =>
    if Bp i j = 1 then
      match insSteps steps j sd with
      | .error e => .error e
      | .ok (j, sd) => insRun Bp seqb steps i fuel j sd
    else .ok (j, sd)
where
  /-- The block `insert('-'); insert(seqb[j - 1]); j--` repeated `h` times. -/
  insSteps : Nat → Nat → List Str → Except Failure (Nat × List Str)
    | 0, j, sd => .ok (j, sd)
    | h + 1, j, sd =>
      if j = 0 then .error .outOfRange
      else
        match emit '-' (charAt seqb (j - 1)) sd with
        | .error e => .error e
        | .ok sd => insSteps h (j - 1) sd

/-- The inner loop `while(Bq(i, j) == 1) { ...; i--; }` of `backtracking`, the mirror image
of `insRun`.  Reading `seqa[i - 1]` at `i = 0` is a failure. -/
def delRun (Bq : Nat → Nat → Int) (seqa : Str) (steps : Nat) (j : Nat) :
    Nat → Nat → List Str → Except Failure (Nat × List Str)
  | 0, _, _ => .error .diverged
  | fuel + 1, i, sd =>
    if Bq i j = 1 then
      match delSteps steps i sd with
      | .error e => .error e
      | .ok (i, sd) => delRun Bq seqa steps j fuel i sd
    else .ok (i, sd)
where
  /-- The block `insert(seqa[i - 1]); insert('-'); i--` repeated `h` times. -/
  delSteps : Nat → Nat → List Str → Except Failure (Nat × List Str)
    | 0, i, sd => .ok (i, sd)
    | h + 1, i, sd =>
      if i = 0 then .error .outOfRange
      else
        match emit (charAt seqa (i - 1)) '-' sd with
        | .error e => .error e
        | .ok sd => delSteps h (i - 1) sd

/-- The loop `while((i != 0) || (j != 0))` of `backtracking` (`steps = 1`) and of
`backtracking_noframeshifts` (`steps = 3`: every gap block is the `for(h = 0; h < 3; h++)`
loop).  A tag other than 0 and 1 takes the final `else` branch. -/
def btLoop (Bd Bp Bq : Nat → Nat → Int) (seqa seqb : Str) (steps : Nat) :
    Nat → Nat → Nat → List Str → Except Failure (List Str)
  | 0, i, j, sd => if i = 0 ∧ j = 0 then .ok sd else .error .diverged
  | fuel + 1, i, j, sd =>
    if i = 0 ∧ j = 0 then .ok sd
    else if Bd i j = 0 then
      if i = 0 ∨ j = 0 then .error .outOfRange
      else
        match emit (charAt seqa (i - 1)) (charAt seqb (j - 1)) sd with
        | .error e => .error e
        | .ok sd => btLoop Bd Bp Bq seqa seqb steps fuel (i - 1) (j - 1) sd
    else if Bd i j = 1 then
      match insRun Bp seqb steps i (j + 1) j sd with
      | .error e => .error e
      | .ok (j, sd) =>
        match insRun.insSteps seqb steps j sd with
        | .error e => .error e
        | .ok (j, sd) => btLoop Bd Bp Bq seqa seqb steps fuel i j sd
    else
      match delRun Bq seqa steps j (i + 1) i sd with
      | .error e => .error e
      | .ok (i, sd) =>
        match delRun.delSteps seqa steps i sd with
        | .error e => .error e
        | .ok (i, sd) => btLoop Bd Bp Bq seqa seqb steps fuel i j sd

/-- The function `backtracking` of `gotoh.cc`: two empty strings are pushed onto
`aln.f.seq_data`, then the walk from `(|seqa|, |seqb|)` writes in front of strings 0 and 1. -/
def backtracking (Bd Bp Bq : Nat → Nat → Int) (seqa seqb : Str) (aln : alignment_t α) :
    Except Failure (Int × alignment_t α) :=
  let i := seqa.length
  let j := seqb.length
  let sd := aln.f.seq_data ++ [[]] ++ [[]]
  match btLoop Bd Bp Bq seqa seqb 1 (i + j) i j sd with
  | .error e => .error e
  | .ok sd => .ok (0, { aln with f := { aln.f with seq_data := sd } })

/-- The function `backtracking_noframeshifts` of `gotoh.cc`. -/
def backtracking_noframeshifts (Bd Bp Bq : Nat → Nat → Int) (seqa seqb : Str)
    (aln : alignment_t α) : Except Failure (Int × alignment_t α) :=
  let i := seqa.length
  let j := seqb.length
  let sd := aln.f.seq_data ++ [[]] ++ [[]]
  match btLoop Bd Bp Bq seqa seqb 3 (i + j) i j sd with
  | .error e => .error e
  | .ok sd => .ok (0, { aln with f := { aln.f with seq_data := sd } })

/-- The function `mg94_marginal` of `gotoh.cc`.  `sequences[0]` and `sequences[1]` must
exist; the frame check precedes the allocation of the matrices. -/
def mg94_marginal (N : Num α) (p : Nat → Nat → Nat → α) (sequences : List Str)
    (aln : alignment_t α) : Except Failure (Int × alignment_t α) :=
  match sequences with
  | seq_a :: seq_b :: _ =>
    let m := seq_a.length
    let n := seq_b.length
    if m % 3 ≠ 0 then .error .exitFailure
    else
      let s := mg94_forward N p seq_a seq_b
      let aln := { aln with weight := s.D m n }
      backtracking s.Bd s.Bp s.Bq seq_a seq_b aln
  | _ => .error .outOfRange

/-! ## `gotoh_noframeshifts` (gotoh.cc) -/

namespace nf

/-- Local `insertion = 0.001` of `gotoh_noframeshifts`. -/
def insertion : α := 0.001
/-- Local `deletion = 0.001` of `gotoh_noframeshifts`. -/
def deletion : α := 0.001
/-- Local `insertion_ext = 1.0 - (1.0 / 6.0)` of `gotoh_noframeshifts`. -/
def insertion_ext : α := 1 - 1 / 6
/-- Local `deletion_ext = 1.0 - (1.0 / 6.0)` of `gotoh_noframeshifts`. -/
def deletion_ext : α := 1 - 1 / 6

/-- The vector `nuc_freqs << 0.308, 0.185, 0.199, 0.308, 0.25` of `gotoh_noframeshifts`. -/
def nuc_freqs (k : Nat) : α :=
  match k with
  | 0 => 0.308
  | 1 => 0.185
  | 2 => 0.199
  | 3 => 0.308
  | _ => 0.25

/-- The sum `log(nuc_freqs[nt4_table[seq_b[j - 3]]]) + ... + log(nuc_freqs[nt4_table[seq_b[j - 1]]])`
subtracted by every insertion of the codon that ends at column `j`. -/
def codonFreq (N : Num α) (seq_b : Str) (j : Nat) : α :=
  N.log (nuc_freqs (nt4_table (charAt seq_b (j - 3))))
    + N.log (nuc_freqs (nt4_table (charAt seq_b (j - 2))))
    + N.log (nuc_freqs (nt4_table (charAt seq_b (j - 1))))

/-- Local `d` at cell (i,j): the match/mismatch candidate, from cell (i-1,j-1). -/
def d (N : Num α) (p : Nat → Nat → Nat → α) (seq_a seq_b : Str) (s : Mats α) (i j : Nat) : α :=
  let codon := substr seq_a (((i - 1) / 3) * 3) 3
  if s.Bd (i - 1) (j - 1) = 0 then
    s.D (i - 1) (j - 1) - N.log (1 - insertion) - N.log (1 - deletion)
      - N.log (transition codon (i % 3) (charAt seq_b (j - 1)) p)
  else if s.Bd (i - 1) (j - 1) = 1 then
    s.D (i - 1) (j - 1) - N.log (1 - deletion)
      - N.log (transition codon (i % 3) (charAt seq_b (j - 1)) p)
  else
    s.D (i - 1) (j - 1) - N.log (transition codon (i % 3) (charAt seq_b (j - 1)) p)

/-- Local `p1` at cell (i,j): extension of an insertion by one codon, from `P(i, j - 3)`. -/
def p1 (N : Num α) (seq_b : Str) (s : Mats α) (i j : Nat) : α :=
  s.P i (j - 3) - 3 * N.log insertion_ext
    - N.log (nuc_freqs (nt4_table (charAt seq_b (j - 3))))
    - N.log (nuc_freqs (nt4_table (charAt seq_b (j - 2))))
    - N.log (nuc_freqs (nt4_table (charAt seq_b (j - 1))))

/-- Local `p2` at cell (i,j): opening of an insertion.  The second alternative tests
`Bd(i, j - 1)` and starts from `D(i, j - 1)`, as the source does. -/
def p2 (N : Num α) (seq_b : Str) (s : Mats α) (i j : Nat) : α :=
  if s.Bd i (j - 3) = 0 then
    s.D i (j - 3) - N.log insertion - 2 * N.log insertion_ext
      - N.log (nuc_freqs (nt4_table (charAt seq_b (j - 3))))
      - N.log (nuc_freqs (nt4_table (charAt seq_b (j - 2))))
      - N.log (nuc_freqs (nt4_table (charAt seq_b (j - 1))))
      - N.log (1 - insertion_ext)
  else if s.Bd i (j - 1) = 1 then
    s.D i (j - 1) - 3 * N.log insertion_ext
      - N.log (nuc_freqs (nt4_table (charAt seq_b (j - 3))))
      - N.log (nuc_freqs (nt4_table (charAt seq_b (j - 2))))
      - N.log (nuc_freqs (nt4_table (charAt seq_b (j - 1))))
  else dblMax

/-- Local `q1` at cell (i,j): extension of a deletion by one codon, from `Q(i - 3, j)`. -/
def q1 (N : Num α) (s : Mats α) (i j : Nat) : α :=
  s.Q (i - 3) j - 3 * N.log deletion_ext

/-- Local `q2` at cell (i,j): opening of a deletion, from `D(i - 3, j)`. -/
def q2 (N : Num α) (s : Mats α) (i j : Nat) : α :=
  if s.Bd (i - 3) j = 0 then
    s.D (i - 3) j - N.log (1 - insertion) - N.log deletion - N.log (1 - deletion_ext)
      - 2 * N.log deletion_ext
  else if s.Bd (i - 3) j = 1 then
    s.D (i - 3) j - N.log (1 - deletion_ext) - N.log deletion - 2 * N.log deletion_ext
  else s.D (i - 3) j - 3 * N.log deletion_ext

/-- Body of the loop of `gotoh_noframeshifts` that fills the first row, at column `j`. -/
def row0 (N : Num α) (seq_b : Str) (j : Nat) (s : Mats α) : Mats α :=
  let v : α := s.D 0 (j - 3) - 3 * N.log insertion_ext
    - N.log (nuc_freqs (nt4_table (charAt seq_b (j - 3))))
    - N.log (nuc_freqs (nt4_table (charAt seq_b (j - 2))))
    - N.log (nuc_freqs (nt4_table (charAt seq_b (j - 1))))
  let s := { s with P := setAt s.P 0 j v }
  let s := { s with D := setAt s.D 0 j v }
  let s := { s with Bd := setAt s.Bd 0 j 1 }
  { s with Bp := setAt s.Bp 0 j 1 }

/-- Body of the loop of `gotoh_noframeshifts` that fills the first column, at row `i`. -/
def col0 (N : Num α) (i : Nat) (s : Mats α) : Mats α :=
  let s := { s with D := setAt s.D i 0 (s.D (i - 3) 0 - 3 * N.log deletion_ext) }
  let s := { s with Q := setAt s.Q i 0 (s.Q (i - 3) 0 - 3 * N.log deletion_ext) }
  let s := { s with Bd := setAt s.Bd i 0 2 }
  { s with Bq := setAt s.Bq i 0 1 }

/-- The value stored in `D(0, 3)` and `P(0, 3)`: one inserted codon. -/
def open03 (N : Num α) (seq_b : Str) : α :=
  -N.log insertion - N.log (nuc_freqs (nt4_table (charAt seq_b 0)))
    - N.log (nuc_freqs (nt4_table (charAt seq_b 1)))
    - N.log (nuc_freqs (nt4_table (charAt seq_b 2)))
    - N.log (1 - insertion_ext) - 2 * N.log insertion_ext

/-- The value stored in `D(3, 0)` and `Q(3, 0)`: one deleted codon. -/
def open30 (N : Num α) : α :=
  -N.log (1 - insertion) - N.log deletion - 2 * N.log deletion_ext - N.log (1 - deletion_ext)

/-- Initialisation of `gotoh_noframeshifts`: cells (0,0), (0,3), (3,0), the first row and the
first column, in steps of one codon. -/
def init (N : Num α) (seq_b : Str) (m n : Nat) : Mats α :=
  let s : Mats α := Mats.fresh
  let s := { s with D := setAt s.D 0 0 0 }
  let s := { s with Bd := setAt s.Bd 0 0 0 }
  let s := { s with P := setAt s.P 0 3 (open03 N seq_b) }
  let s := { s with D := setAt s.D 0 3 (open03 N seq_b) }
  let s := { s with Q := setAt s.Q 3 0 (open30 N) }
  let s := { s with D := setAt s.D 3 0 (open30 N) }
  let s := { s with Bd := setAt s.Bd 0 3 1 }
  let s := { s with Bq := setAt s.Bq 3 0 2 }
  let s := { s with Bp := setAt s.Bp 0 3 2 }
  let s := { s with Bd := setAt s.Bd 3 0 2 }
  let s := if n + 1 ≥ 6 then forLoop3 6 (n + 1) (row0 N seq_b) s else s
  if m + 1 ≥ 6 then forLoop3 6 (m + 1) (col0 N) s else s

/-- Body of the loop over the cells (1,1) and (2,2), which only a match can reach. -/
def seedCell (N : Num α) (p : Nat → Nat → Nat → α) (seq_a seq_b : Str) (i : Nat)
    (s : Mats α) : Mats α :=
  let codon := substr seq_a 0 3
  let v : α := s.D (i - 1) (i - 1) - N.log (1 - insertion) - N.log (1 - deletion)
    - N.log (transition codon (i % 3) (charAt seq_b (i - 1)) p)
  let s := { s with D := setAt s.D i i v }
  { s with Bd := setAt s.Bd i i 0 }

/-- Body of the loop commented `rows`, at cell (i,j) with i = 1 or 2: match or insertion. -/
def rowCell (N : Num α) (p : Nat → Nat → Nat → α) (seq_a seq_b : Str) (i j : Nat)
    (s : Mats α) : Mats α :=
  let dv := d N p seq_a seq_b s i j
  let a := p1 N seq_b s i j
  let b := p2 N seq_b s i j
  let s := { s with P := setAt s.P i j (min a b) }
  let s := { s with Bp := setAt s.Bp i j (if a < b then 1 else 2) }
  let s := { s with D := setAt s.D i j (if s.P i j < dv then s.P i j else dv) }
  { s with Bd := setAt s.Bd i j (if s.P i j < dv then 1 else 0) }

/-- Body of the loop commented `columns`, at cell (r,c) with c = 1 or 2 (the source writes
`(j, i)`): match or deletion.  The tag is `Q(j, i) < d ? 1 : 2`, as in the source. -/
def colCell (N : Num α) (p : Nat → Nat → Nat → α) (seq_a seq_b : Str) (r c : Nat)
    (s : Mats α) : Mats α :=
  let dv := d N p seq_a seq_b s r c
  let a := q1 N s r c
  let b := q2 N s r c
  let s := { s with Q := setAt s.Q r c (min a b) }
  let s := { s with Bq := setAt s.Bq r c (if a < b then 1 else 2) }
  let s := { s with D := setAt s.D r c (if s.Q r c < dv then s.Q r c else dv) }
  { s with Bd := setAt s.Bd r c (if s.Q r c < dv then 1 else 2) }

/-- Body of the last loop at cell (i,j): match, insertion or deletion. -/
def cell (N : Num α) (p : Nat → Nat → Nat → α) (seq_a seq_b : Str) (i j : Nat)
    (s : Mats α) : Mats α :=
  let dv := d N p seq_a seq_b s i j
  let a := p1 N seq_b s i j
  let b := p2 N seq_b s i j
  let s := { s with P := setAt s.P i j (min a b) }
  let s := { s with Bp := setAt s.Bp i j (if a < b then 1 else 2) }
  let a := q1 N s i j
  let b := q2 N s i j
  let s := { s with Q := setAt s.Q i j (min a b) }
  let s := { s with Bq := setAt s.Bq i j (if a < b then 1 else 2) }
  selectD s i j dv

/-- The forward pass of `gotoh_noframeshifts`.  In the last loop the header variable `j`
runs over 3, 6, ... and the cell filled is `(i, j + i % 3)`; `continue` skips it when it
lies beyond column `n` (the loop then ends, its variable being past `n`). -/
def forward (N : Num α) (p : Nat → Nat → Nat → α) (seq_a seq_b : Str) : Mats α :=
  let m := seq_a.length
  let n := seq_b.length
  let s := init N seq_b m n
  let s := forLoop 1 3 (seedCell N p seq_a seq_b) s
  let s := forLoop 1 3 (fun i s =>
    let s := forLoop3 (i + 3) (n + 1) (fun j s => rowCell N p seq_a seq_b i j s) s
    forLoop3 (i + 3) (m + 1) (fun j s => colCell N p seq_a seq_b j i s) s) s
  forLoop 3 (m + 1) (fun i s =>
    forLoop3 3 (n + 1) (fun j s =>
      if j + i % 3 > n then s else cell N p seq_a seq_b i (j + i % 3) s) s) s

end nf

/-- The function `gotoh_noframeshifts` of `gotoh.cc`. -/
def gotoh_noframeshifts (N : Num α) (p : Nat → Nat → Nat → α) (sequences : List Str)
    (aln : alignment_t α) : Except Failure (Int × alignment_t α) :=
  match sequences with
  | seq_a :: seq_b :: _ =>
    let m := seq_a.length
    let n := seq_b.length
    if m % 3 ≠ 0 ∨ n % 3 ≠ 0 then .error .exitFailure
    else
      let s := nf.forward N p seq_a seq_b
      let aln := { aln with weight := s.D m n }
      backtracking_noframeshifts s.Bd s.Bp s.Bq seq_a seq_b aln
  | _ => .error .outOfRange

/-! ## Profiles (profile_aln.cc) -/

/-- An `Eigen::MatrixXd` with four rows: the number of columns and the entries. -/
structure Profile (α : Type) where
  cols : Nat
  val : Nat → Nat → α

/-- The column `pro.col(j)` as a vector of four entries. -/
def Profile.col (pro : Profile α) (j : Nat) : Nat → α := fun k => pro.val k j

/-- The block `pro.block(0, c, 4, 3)`: rows 0..3 of the three columns from `c` on. -/
def Profile.block (pro : Profile α) (c : Nat) : Nat → Nat → α := fun r k => pro.val r (c + k)

/-- The statement `profile(r, j) += v`. -/
def addAt (M : Nat → Nat → α) (r j : Nat) (v : α) : Nat → Nat → α :=
  setAt M r j (M r j + v)

/-- The `switch` of `create_profile` for row `i` and column `j`. -/
def profileCount (aln : List Str) (rows : Nat) (j i : Nat) (profile : Nat → Nat → α) :
    Nat → Nat → α :=
  let c := charAt (aln.getD i []) j
  if c = 'A' ∨ c = 'a' then addAt profile 0 j (1 / (rows : α))
  else if c = 'C' ∨ c = 'c' then addAt profile 1 j (1 / (rows : α))
  else if c = 'G' ∨ c = 'g' then addAt profile 2 j (1 / (rows : α))
  else if c = 'T' ∨ c = 't' then addAt profile 3 j (1 / (rows : α))
  else profile

/-- The function `create_profile(vector<string>& aln)`: fatal exit when a string differs in
length from `aln[0]`; `aln.at(0)` throws on an empty vector. -/
def create_profile (aln : List Str) : Except Failure (Profile α) :=
  if aln.any (fun s => decide (s.length ≠ (aln.getD 0 []).length)) then .error .exitFailure
  else
    match aln with
    | [] => .error .outOfRange
    | s0 :: _ =>
      let cols := s0.length
      let rows := aln.length
      .ok { cols := cols,
            val := forLoop 0 cols (fun j profile =>
              forLoop 0 rows (fun i profile => profileCount aln rows j i profile) profile)
              (fun _ _ => 0) }

/-- The function `create_profile(string seq)`. -/
def create_profile_seq (seq : Str) : Except Failure (Profile α) :=
  create_profile [seq]

/-- The call `v.maxCoeff(&index)` on a vector of four entries: the maximum and the first
index that holds it. -/
def maxCoeff (v : Nat → α) : α × Nat :=
  let r : α × Nat := (v 0, 0)
  let r := if v 1 > r.1 then (v 1, 1) else r
  let r := if v 2 > r.1 then (v 2, 2) else r
  if v 3 > r.1 then (v 3, 3) else r

/-- The loop `for(i = 0; i < 4; i++) val += w * nuc[i] * p(cod_index, pos, i)`. -/
def addWeighted (val w : α) (nuc : Nat → α) (p : Nat → Nat → Nat → α) (cod_index pos : Nat) :
    α :=
  val + w * nuc 0 * p cod_index pos 0 + w * nuc 1 * p cod_index pos 1
    + w * nuc 2 * p cod_index pos 2 + w * nuc 3 * p cod_index pos 3

namespace profile_aln

/-- The function `transition(Matrix4x3d cod, int pos, Vector4d nuc, p)` of
`profile_aln.cc`; `cod r k` is the entry in row `r` (nucleotide) and column `k` (position). -/
def transition (cod : Nat → Nat → α) (pos : Nat) (nuc : Nat → α) (p : Nat → Nat → Nat → α) :
    α :=
  let val : α := 0
  let pos := if pos = 0 then 2 else pos - 1
  let m0 := maxCoeff (fun r => cod r 0)
  let m1 := maxCoeff (fun r => cod r 1)
  let m2 := maxCoeff (fun r => cod r 2)
  let cod_index := (m0.2 <<< 4) + (m1.2 <<< 2) + m2.2
  let val := addWeighted val (m0.1 * m1.1 * m2.1) nuc p cod_index pos
  let cod := setAt cod m0.2 0 (-1)
  let cod := setAt cod m1.2 1 (-1)
  let cod := setAt cod m2.2 2 (-1)
  let s0 := maxCoeff (fun r => cod r 0)
  let s1 := maxCoeff (fun r => cod r 1)
  let s2 := maxCoeff (fun r => cod r 2)
  let cod_index := (s0.2 <<< 4) + (m1.2 <<< 2) + m2.2
  let val := addWeighted val (s0.1 * m1.1 * m2.1) nuc p cod_index pos
  let cod_index := (m0.2 <<< 4) + (s1.2 <<< 2) + m2.2
  let val := addWeighted val (m0.1 * s1.1 * m2.1) nuc p cod_index pos
  let cod_index := (m0.2 <<< 4) + (m1.2 <<< 2) + s2.2
  addWeighted val (m0.1 * m1.1 * s2.1) nuc p cod_index pos

end profile_aln

/-- The function `nuc_pi(Vector4d n, Vector5d pis)`. -/
def nuc_pi (N : Num α) (n : Nat → α) (pis : Nat → α) : α :=
  let t : Nat → α := fun i => if n i = 0 then 0 else n i * N.exp (pis i)
  0 + t 0 + t 1 + t 2 + t 3

/-! ## `gotoh_profile_marginal` (profile_aln.cc) -/

namespace prof

/-- Body of the loop of `gotoh_profile_marginal` that fills the first row, at column `j`. -/
def row0 (N : Num α) (pro2 : Profile α) (j : Nat) (s : Mats α) : Mats α :=
  let g := nuc_pi N (pro2.col (j - 1)) (nuc_freqs N)
  let s := { s with D := setAt s.D 0 j (s.D 0 (j - 1) - insertion_ext N - g) }
  let s := { s with P := setAt s.P 0 j (s.P 0 (j - 1) - insertion_ext N - g) }
  let s := { s with Bd := setAt s.Bd 0 j 1 }
  { s with Bp := setAt s.Bp 0 j 1 }

/-- Initialisation of `gotoh_profile_marginal`. -/
def init (N : Num α) (pro2 : Profile α) (m n : Nat) : Mats α :=
  let s : Mats α := Mats.fresh
  let s := { s with D := setAt s.D 0 0 0 }
  let s := { s with Bd := setAt s.Bd 0 0 0 }
  let v := -insertion N - nuc_pi N (pro2.col 0) (nuc_freqs N) - no_insertion_ext N
  let s := { s with D := setAt s.D 0 1 v }
  let s := { s with P := setAt s.P 0 1 v }
  let s := { s with Bd := setAt s.Bd 0 1 1 }
  let s := { s with Bp := setAt s.Bp 0 1 2 }
  let s := { s with D := setAt s.D 1 0 (-no_insertion N - deletion N - no_deletion_ext N) }
  let s := { s with Q := setAt s.Q 1 0 (-no_insertion N - deletion N - no_deletion_ext N) }
  let s := { s with Bd := setAt s.Bd 1 0 2 }
  let s := { s with Bq := setAt s.Bq 1 0 2 }
  let s := if n + 1 ≥ 2 then forLoop 2 (n + 1) (row0 N pro2) s else s
  if m + 1 ≥ 2 then forLoop 2 (m + 1) (mg94_col0 N) s else s

/-- Local `p1` of `gotoh_profile_marginal` at cell (i,j). -/
def p1 (N : Num α) (pro2 : Profile α) (s : Mats α) (i j : Nat) : α :=
  s.P i (j - 1) - insertion_ext N - nuc_pi N (pro2.col (j - 1)) (nuc_freqs N)

/-- Local `p2` of `gotoh_profile_marginal` at cell (i,j). -/
def p2 (N : Num α) (pro2 : Profile α) (s : Mats α) (i j : Nat) : α :=
  if s.Bd i (j - 1) = 0 then
    s.D i (j - 1) - insertion N - nuc_pi N (pro2.col (j - 1)) (nuc_freqs N)
      - no_insertion_ext N
  else if s.Bd i (j - 1) = 1 then
    s.D i (j - 1) - insertion_ext N - nuc_pi N (pro2.col (j - 1)) (nuc_freqs N)
  else dblMax

/-- Local `d` of `gotoh_profile_marginal` at cell (i,j). -/
def d (N : Num α) (p : Nat → Nat → Nat → α) (pro1 pro2 : Profile α) (s : Mats α)
    (i j : Nat) : α :=
  let codon := pro1.block (((i - 1) / 3) * 3)
  if s.Bd (i - 1) (j - 1) = 0 then
    s.D (i - 1) (j - 1) - no_insertion N - no_deletion N
      - N.log (profile_aln.transition codon (i % 3) (pro2.col (j - 1)) p)
  else if s.Bd (i - 1) (j - 1) = 1 then
    s.D (i - 1) (j - 1) - no_deletion N
      - N.log (profile_aln.transition codon (i % 3) (pro2.col (j - 1)) p)
  else
    s.D (i - 1) (j - 1) - N.log (profile_aln.transition codon (i % 3) (pro2.col (j - 1)) p)

/-- Body of the inner loop of `gotoh_profile_marginal` at cell (i,j); the deletion
candidates are those of `mg94_marginal`. -/
def cell (N : Num α) (p : Nat → Nat → Nat → α) (pro1 pro2 : Profile α) (i j : Nat)
    (s : Mats α) : Mats α :=
  let a := p1 N pro2 s i j
  let b := p2 N pro2 s i j
  let s := { s with P := setAt s.P i j (min a b) }
  let s := { s with Bp := setAt s.Bp i j (if a < b then 1 else 2) }
  let a := mg94_q1 N s i j
  let b := mg94_q2 N s i j
  let s := { s with Q := setAt s.Q i j (min a b) }
  let s := { s with Bq := setAt s.Bq i j (if a < b then 1 else 2) }
  let dv := d N p pro1 pro2 s i j
  selectD s i j dv

/-- The forward pass of `gotoh_profile_marginal`. -/
def forward (N : Num α) (p : Nat → Nat → Nat → α) (pro1 pro2 : Profile α) : Mats α :=
  let m := pro1.cols
  let n := pro2.cols
  forLoop 1 (m + 1) (fun i s =>
    forLoop 1 (n + 1) (fun j s => cell N p pro1 pro2 i j s) s)
    (init N pro2 m n)

end prof

/-- One alignment column of `backtracking_profile` written in front of every string:
`col` holds one character per string of `aln_seqs`. -/
def pushColumn (col : List Char) (aln_seqs : List Str) : List Str :=
  List.zipWith (fun c s => c :: s) col aln_seqs

/-- The characters `seqs[s][k - 1]`, one per string `s`. -/
def columnAt (seqs : List Str) (k : Nat) : List Char := seqs.map (fun s => charAt s (k - 1))

/-- A column of gap symbols, one per string. -/
def gapColumn (seqs : List Str) : List Char := seqs.map (fun _ => '-')

/-- The loop `while(Bp(i, j) == 1)` of `backtracking_profile`. -/
def insRunP (Bp : Nat → Nat → Int) (seqs1 seqs2 : List Str) (i : Nat) :
    Nat → Nat → List Str → Except Failure (Nat × List Str)
  | 0, _, _ => .error .diverged
  | fuel + 1, j, sd =>
    if Bp i j = 1 then
      if j = 0 then .error .outOfRange
      else insRunP Bp seqs1 seqs2 i fuel (j - 1)
        (pushColumn (gapColumn seqs1 ++ columnAt seqs2 j) sd)
    else .ok (j, sd)

/-- The loop `while(Bq(i, j) == 1)` of `backtracking_profile`. -/
def delRunP (Bq : Nat → Nat → Int) (seqs1 seqs2 : List Str) (j : Nat) :
    Nat → Nat → List Str → Except Failure (Nat × List Str)
  | 0, _, _ => .error .diverged
  | fuel + 1, i, sd =>
    if Bq i j = 1 then
      if i = 0 then .error .outOfRange
      else delRunP Bq seqs1 seqs2 j fuel (i - 1)
        (pushColumn (columnAt seqs1 i ++ gapColumn seqs2) sd)
    else .ok (i, sd)

/-- The loop `while((i != 0) || (j != 0))` of `backtracking_profile`.  The `switch` has the
cases 0, 1 and 2 only: with any other tag the loop makes no move and never ends. -/
def btLoopP (Bd Bp Bq : Nat → Nat → Int) (seqs1 seqs2 : List Str) :
    Nat → Nat → Nat → List Str → Except Failure (List Str)
  | 0, i, j, sd => if i = 0 ∧ j = 0 then .ok sd else .error .diverged
  | fuel + 1, i, j, sd =>
    if i = 0 ∧ j = 0 then .ok sd
    else if Bd i j = 0 then
      if i = 0 ∨ j = 0 then .error .outOfRange
      else btLoopP Bd Bp Bq seqs1 seqs2 fuel (i - 1) (j - 1)
        (pushColumn (columnAt seqs1 i ++ columnAt seqs2 j) sd)
    else if Bd i j = 1 then
      match insRunP Bp seqs1 seqs2 i (j + 1) j sd with
      | .error e => .error e
      | .ok (j, sd) =>
        if j = 0 then .error .outOfRange
        else btLoopP Bd Bp Bq seqs1 seqs2 fuel i (j - 1)
          (pushColumn (gapColumn seqs1 ++ columnAt seqs2 j) sd)
    else if Bd i j = 2 then
      match delRunP Bq seqs1 seqs2 j (i + 1) i sd with
      | .error e => .error e
      | .ok (i, sd) =>
        if i = 0 then .error .outOfRange
        else btLoopP Bd Bp Bq seqs1 seqs2 fuel (i - 1) j
          (pushColumn (columnAt seqs1 i ++ gapColumn seqs2) sd)
    else .error .diverged

/-- The function `backtracking_profile` of `profile_aln.cc`; `seqs1[0]` and `seqs2[0]` must
exist. -/
def backtracking_profile (Bd Bp Bq : Nat → Nat → Int) (seqs1 seqs2 : List Str)
    (aln : alignment_t α) : Except Failure (Int × alignment_t α) :=
  match seqs1, seqs2 with
  | s1 :: _, s2 :: _ =>
    let i := s1.length
    let j := s2.length
    let aln_seqs : List Str := List.replicate (seqs1.length + seqs2.length) []
    match btLoopP Bd Bp Bq seqs1 seqs2 (i + j) i j aln_seqs with
    | .error e => .error e
    | .ok aln_seqs => .ok (0, { aln with f := { aln.f with seq_data := aln_seqs } })
  | _, _ => .error .outOfRange

/-- The function `gotoh_profile_marginal` of `profile_aln.cc`. -/
def gotoh_profile_marginal (N : Num α) (p : Nat → Nat → Nat → α) (seqs1 seqs2 : List Str)
    (aln : alignment_t α) : Except Failure (Int × alignment_t α) :=
  match (create_profile seqs1 : Except Failure (Profile α)) with
  | .error e => .error e
  | .ok pro1 =>
    match (create_profile seqs2 : Except Failure (Profile α)) with
    | .error e => .error e
    | .ok pro2 =>
      let m := pro1.cols
      let n := pro2.cols
      if m % 3 ≠ 0 then .error .exitFailure
      else
        let s := prof.forward N p pro1 pro2
        let aln := { aln with weight := aln.weight + s.D m n }
        backtracking_profile s.Bd s.Bp s.Bq seqs1 seqs2 aln

/-- The six entries of cell `c` of the matrices. -/
def Mats.cellAt (s : Mats α) (c : Nat × Nat) : α × α × α × Int × Int × Int :=
  (s.D c.1 c.2, s.P c.1 c.2, s.Q c.1 c.2, s.Bd c.1 c.2, s.Bp c.1 c.2, s.Bq c.1 c.2)

/-- The cells of the two nested loops `for i in [1, m]`, `for j in [1, n]`, in the order in
which the loops visit them. -/
def gridCells (m n : Nat) : List (Nat × Nat) :=
  (List.range' 1 m).flatMap (fun i => (List.range' 1 n).map (fun j => (i, j)))

/-- The vector `v << a, b, c, d` (a `Vector4d`). -/
def vec4 (a b c d : α) (k : Nat) : α :=
  match k with
  | 0 => a
  | 1 => b
  | 2 => c
  | _ => d

/-- The vector `v << a, b, c, d, e` (a `Vector5d`). -/
def vec5 (a b c d e : α) (k : Nat) : α :=
  match k with
  | 0 => a
  | 1 => b
  | 2 => c
  | 3 => d
  | _ => e

/-- The entries of cell `c` that the first-row loops write: `D`, `P`, `Bd`, `Bp`. -/
def Mats.rowPart (s : Mats α) (c : Nat × Nat) : α × α × Int × Int :=
  (s.D c.1 c.2, s.P c.1 c.2, s.Bd c.1 c.2, s.Bp c.1 c.2)

/-- The entries of cell `c` that the first-column loops write: `D`, `Q`, `Bd`, `Bq`. -/
def Mats.colPart (s : Mats α) (c : Nat × Nat) : α × α × Int × Int :=
  (s.D c.1 c.2, s.Q c.1 c.2, s.Bd c.1 c.2, s.Bq c.1 c.2)

/-- The contents of row 0 and column 0 of the matrices `F` after the initialisation of
`mg94_marginal` for a second sequence `seq_b` and sizes `m`, `n`. -/
structure Mg94Border (N : Num α) (seq_b : Str) (m n : Nat) (F : Mats α) : Prop where
  d00 : F.D 0 0 = 0
  bd00 : F.Bd 0 0 = 0
  d01 : F.D 0 1 = -insertion N - nuc_freqs N (nt4_table (charAt seq_b 0)) - no_insertion_ext N
  p01 : F.P 0 1 = -insertion N - nuc_freqs N (nt4_table (charAt seq_b 0)) - no_insertion_ext N
  d10 : F.D 1 0 = -no_insertion N - deletion N - no_deletion_ext N
  q10 : F.Q 1 0 = -no_insertion N - deletion N - no_deletion_ext N
  drow : ∀ j, 2 ≤ j → j ≤ n →
    F.D 0 j = F.D 0 (j - 1) - insertion_ext N - nuc_freqs N (nt4_table (charAt seq_b (j - 1)))
  prow : ∀ j, 2 ≤ j → j ≤ n →
    F.P 0 j = F.P 0 (j - 1) - insertion_ext N - nuc_freqs N (nt4_table (charAt seq_b (j - 1)))
  dcol : ∀ i, 2 ≤ i → i ≤ m → F.D i 0 = F.D (i - 1) 0 - deletion_ext N
  qcol : ∀ i, 2 ≤ i → i ≤ m → F.Q i 0 = F.Q (i - 1) 0 - deletion_ext N
  bdrow : ∀ j, 1 ≤ j → j ≤ n → F.Bd 0 j = 1
  bp01 : F.Bp 0 1 = 2
  bprow : ∀ j, 2 ≤ j → j ≤ n → F.Bp 0 j = 1
  bdcol : ∀ i, 1 ≤ i → i ≤ m → F.Bd i 0 = 2
  bq10 : F.Bq 1 0 = 2
  bqcol : ∀ i, 2 ≤ i → i ≤ m → F.Bq i 0 = 1
  pcol : ∀ i, F.P i 0 = fltMax
  qrow : ∀ j, F.Q 0 j = fltMax

/-- The properties of the logarithm that the cost bounds rest on: `log x <= 0` on `(0, 1]`
and `1 - 1/x <= log x <= x - 1` for positive `x`. -/
structure Num.Sound (N : Num α) : Prop where
  log_nonpos : ∀ x, 0 < x → x ≤ 1 → N.log x ≤ 0
  log_lower : ∀ x, 0 < x → 1 - 1 / x ≤ N.log x
  log_upper : ∀ x, 0 < x → N.log x ≤ x - 1

/-- Every maximal run of `-` in `s` has a length divisible by 3: whenever `s` is
`pre ++ (k gaps) ++ post` with no gap at the end of `pre` nor at the start of `post`, `k` is
a multiple of 3. -/
def Framed (s : Str) : Prop :=
  ∀ (pre : Str) (k : Nat) (post : Str), s = pre ++ List.replicate k '-' ++ post →
    pre.getLast? ≠ some '-' → post.head? ≠ some '-' → k % 3 = 0

/-- The symbols `s[lo], ..., s[hi - 1]`. -/
def slice (s : Str) (lo hi : Nat) : Str := (List.range' lo (hi - lo)).map (charAt s)

/-- Two strings, each with all its gap runs of a length divisible by 3. -/
def FramedPair (sd : List Str) : Prop :=
  ∃ x0 x1 : Str, sd = [x0, x1] ∧ Framed x0 ∧ Framed x1

/-- The tags `Bd`, `Bp`, `Bq` lead the traceback of `backtracking` from every cell of the
`(m + 1) x (n + 1)` grid other than (0,0) to a cell of the grid: a match tag occurs only off
row 0 and column 0; from an insertion tag the `Bp` extend tags (1) to the left end in a tag
other than 1 at a column `js >= 1`; from any other tag the `Bq` extend tags upwards end in a
tag other than 1 at a row `is >= 1`. -/
def TagsOK (Bd Bp Bq : Nat → Nat → Int) (m n : Nat) : Prop :=
  ∀ i j, i ≤ m → j ≤ n → ¬ (i = 0 ∧ j = 0) →
    (Bd i j = 0 ∧ 1 ≤ i ∧ 1 ≤ j) ∨
    (Bd i j = 1 ∧ ∃ js, 1 ≤ js ∧ js ≤ j ∧ Bp i js ≠ 1 ∧
      ∀ j2, js < j2 → j2 ≤ j → Bp i j2 = 1) ∨
    (Bd i j ≠ 0 ∧ Bd i j ≠ 1 ∧ ∃ is, 1 ≤ is ∧ is ≤ i ∧ Bq is j ≠ 1 ∧
      ∀ i2, is < i2 → i2 ≤ i → Bq i2 j = 1)

/-- The string `s` without its gap symbols. -/
def degap (s : Str) : Str := s.filter (fun c => decide (c ≠ '-'))

/-- The nucleotide at position `pos` (0, 1, 2) of the codon with index `c`. -/
def codonDigit (c pos : Nat) : Nat := (c >>> (4 - 2 * pos)) % 4

/-- A tensor of probabilities that favours identity: a codon emits its own nucleotide at
each position with probability 0.997 and each other nucleotide with probability 0.001. -/
def nearTensor : Nat → Nat → Nat → α := fun c pos x =>
  if codonDigit c pos = x then 0.997 else 0.001

/-- Bounds, for a sound logarithm, on the logarithms that `gotoh_noframeshifts` takes of its
gap parameters and that the engines take of the entries 0.997 and 0.001 of `nearTensor`. -/
structure nf.Bounds (N : Num α) : Prop where
  noIns : -(1 / 999) ≤ N.log (1 - nf.insertion) ∧ N.log (1 - nf.insertion) ≤ 0
  noDel : -(1 / 999) ≤ N.log (1 - nf.deletion) ∧ N.log (1 - nf.deletion) ≤ 0
  ins : -999 ≤ N.log nf.insertion ∧ N.log nf.insertion ≤ -(999 / 1000)
  del : -999 ≤ N.log nf.deletion ∧ N.log nf.deletion ≤ -(999 / 1000)
  insExt : -(1 / 5) ≤ N.log nf.insertion_ext ∧ N.log nf.insertion_ext ≤ -(1 / 6)
  delExt : -(1 / 5) ≤ N.log nf.deletion_ext ∧ N.log nf.deletion_ext ≤ -(1 / 6)
  noInsExt : -5 ≤ N.log (1 - nf.insertion_ext) ∧ N.log (1 - nf.insertion_ext) ≤ -(5 / 6)
  noDelExt : -5 ≤ N.log (1 - nf.deletion_ext) ∧ N.log (1 - nf.deletion_ext) ≤ -(5 / 6)
  freq : ∀ k, -5 ≤ N.log (nf.nuc_freqs k) ∧ N.log (nf.nuc_freqs k) ≤ -(692 / 1000)
  hit : -(3 / 997) ≤ N.log 0.997 ∧ N.log 0.997 ≤ 0
  miss : -999 ≤ N.log 0.001 ∧ N.log 0.001 ≤ -(999 / 1000)

/-! ## Guide trees (tree.cc) -/

/-- Modelled from the spec: the struct `node_t` of the absent header `tree.hpp`; the spec
does not describe it, so its fields are those that `tree.cc` reads and writes: the label,
the branch length, the leaf flag, the index of the parent and the list of children.  The
constructor `node_t(label, length, is_leaf = false, parent = 0)` leaves `children` empty. -/
structure node_t (α : Type) where
  label : Str
  length : α
  is_leaf : Bool
  parent : Nat
  children : List Nat

/-- The type `tree_t`, a vector of nodes. -/
abbrev tree_t (α : Type) := List (node_t α)

/-- The function `find_node` of `tree.cc`: the result and the final value of `index`
(`find_if` returns the end of the vector when no node has the label). -/
def find_node (tree : tree_t α) (name : Str) : Bool × Int :=
  let it := tree.findIdx (fun node => decide (node.label = name))
  let index : Int := if it = tree.length then -1 else (it : Int)
  (decide (index ≠ -1), index)

/-- Body of the loop of `find_seq` at position `i`; the element `f.seq_data[i]` must exist
when `f.seq_names[i]` equals `name`. -/
def find_seq.step (name : Str) (f : fasta_t) (seq : Str) (i : Nat) : Except Failure Str :=
  if f.seq_names.getD i [] = name then
    match f.seq_data.get? i with
    | some s => .ok s
    | none => .error .outOfRange
  else .ok seq

/-- The function `find_seq` of `tree.cc`: the result and the final value of `seq`. -/
def find_seq (name : Str) (f : fasta_t) : Except Failure (Bool × Str) :=
  match (List.range f.seq_names.length).foldlM (find_seq.step name f) [] with
  | .error e => .error e
  | .ok seq => .ok (!seq.isEmpty, seq)

/-- The loop `while(tree[node].parent != node)` of `distance_ref`, with the number of tests
that are left. -/
def distance_ref.climb (tree : tree_t α) : Nat → Nat → α → Except Failure α
  | 0, _, _ => .error .diverged
  | fuel + 1, node, distance =>
    match tree.get? node with
    | none => .error .outOfRange
    | some nd =>
      if nd.parent ≠ node then climb tree fuel nd.parent (distance + nd.length)
      else .ok distance

/-- The function `distance_ref` of `tree.cc`.  A walk that has not met the root after
`tree.size()` nodes has met a node twice and never ends. -/
def distance_ref (tree : tree_t α) (ref node : Nat) : Except Failure α :=
  match distance_ref.climb tree (tree.length + 1) node 0 with
  | .error e => .error e
  | .ok distance =>
    match tree.get? ref with
    | none => .error .outOfRange
    | some r => .ok (distance + r.length)

/-- The loop of `reroot` that collects the nodes from `node` up to the current root,
followed by `ancestors.push_back(node)` for the root itself. -/
def reroot.collect (tree : tree_t α) : Nat → Nat → List Nat → Except Failure (List Nat)
  | 0, _, _ => .error .diverged
  | fuel + 1, node, ancestors =>
    match tree.get? node with
    | none => .error .outOfRange
    | some nd =>
      if nd.parent ≠ node then collect tree fuel nd.parent (ancestors ++ [node])
      else .ok (ancestors ++ [node])

/-- Body of the loop of `reroot` at position `i` of `ancestors`: the two assignments to
`tree[ancestors[i]]`. -/
def reroot.flip (ancestors : List Nat) (i : Nat) (tree : tree_t α) :
    Except Failure (tree_t α) :=
  match ancestors.get? i, ancestors.get? (i - 1) with
  | some a, some b =>
    match tree.get? a with
    | none => .error .outOfRange
    | some na =>
      let tree := tree.set a { na with parent := b }
      match tree.get? a, tree.get? b with
      | some na, some nb => .ok (tree.set a { na with length := nb.length })
      | _, _ => .error .outOfRange
  | _, _ => .error .outOfRange

/-- The function `reroot` of `tree.cc`: the result and the tree it leaves. -/
def reroot (tree : tree_t α) (outgroup : Str) : Except Failure (Bool × tree_t α) :=
  let found := find_node tree outgroup
  if found.1 = false then .ok (false, tree)
  else
    match tree.get? found.2.toNat with
    | none => .error .outOfRange
    | some r =>
      let newroot := r.parent
      match reroot.collect tree (tree.length + 1) newroot [] with
      | .error e => .error e
      | .ok ancestors =>
        match (List.range' 1 (ancestors.length - 1)).reverse.foldlM
            (fun t i => reroot.flip ancestors i t) tree with
        | .error e => .error e
        | .ok tree =>
          match tree.get? newroot with
          | none => .error .outOfRange
          | some nr => .ok (true, tree.set newroot { nr with parent := newroot, length := 0 })


/-- The way from `node` up to the root of a parent-indexed tree: the nodes passed, the root
left out, and the root that is reached (the node that is its own parent); `none` when the
way leaves the vector or does not reach a root within `fuel` nodes. -/
def chainUp (tree : tree_t α) : Nat → Nat → Option (List Nat × Nat)
  | 0, _ => none
  | fuel + 1, node =>
    match tree.get? node with
    | none => none
    | some nd =>
      if nd.parent ≠ node then
        match chainUp tree fuel nd.parent with
        | none => none
        | some (c, root) => some (node :: c, root)
      else some ([], node)

/-- The sum of the lengths of the branches above the nodes of `l`. -/
def branchSum (tree : tree_t α) (l : List Nat) : α :=
  (l.map (fun x => match tree.get? x with
    | none => 0
    | some nd => nd.length)).sum

/-- The distance between two nodes of a rooted tree as claim C18 words it: the sum of the
lengths of the branches on the tree path between them, that is, of the branches above the
nodes that lie on the way to the root of exactly one of the two. -/
def treeDistance (tree : tree_t α) (u v : Nat) : Option α :=
  match chainUp tree (tree.length + 1) u, chainUp tree (tree.length + 1) v with
  | some (cu, ru), some (cv, rv) =>
    if ru = rv then
      some (branchSum tree (cu.filter (fun x => decide (x ∉ cv)))
        + branchSum tree (cv.filter (fun x => decide (x ∉ cu))))
    else none
  | _, _ => none

/-- The tree of the tests `reroot` and `distance_ref` of `tree.cc` (14 nodes). -/
def carnivoresTree : tree_t α :=
  [⟨[], 0, false, 0, []⟩, ⟨[], 0.8, false, 0, []⟩, ⟨"racoon".toList, 19.2, true, 1, []⟩,
   ⟨"bear".toList, 6.8, true, 1, []⟩, ⟨[], 3.9, false, 0, []⟩, ⟨[], 7.5, false, 4, []⟩,
   ⟨"sea_lion".toList, 12, true, 5, []⟩, ⟨"seal".toList, 12, true, 5, []⟩,
   ⟨[], 2.1, false, 4, []⟩, ⟨[], 20.6, false, 8, []⟩, ⟨"monkey".toList, 100.9, true, 9, []⟩,
   ⟨"cat".toList, 47.1, true, 9, []⟩, ⟨"weasel".toList, 18.9, true, 8, []⟩,
   ⟨"dog".toList, 25.5, true, 0, []⟩]

/-- The tree of the tests `aln_order`, `find_node` and `reroot` of `tree.cc` (7 nodes):
`(B_b:6.0,(A-a:5.0,C/c:3.0,E.e:4.0)Ancestor:5.0,D%:11.0);`. -/
def ancestorTree : tree_t α :=
  [⟨[], 0, false, 0, []⟩, ⟨"B_b".toList, 6, true, 0, []⟩, ⟨"Ancestor".toList, 5, false, 0, []⟩,
   ⟨"A-a".toList, 5, true, 2, []⟩, ⟨"C/c".toList, 3, true, 2, []⟩,
   ⟨"E.e".toList, 4, true, 2, []⟩, ⟨"D%".toList, 11, true, 0, []⟩]


/-- The nucleotide with code `k` in `nt4_table`: A, C, G, T for 0, 1, 2, 3. -/
def nucOfCode (k : Fin 4) : Char :=
  match k with
  | 0 => 'A'
  | 1 => 'C'
  | 2 => 'G'
  | 3 => 'T'


/-! ## `aln_order` (tree.cc) -/

/-- Body of the first loop of `aln_order` at node `i`:
`tree[tree[i].parent].children.push_back(i)`. -/
def aln_order.fill (i : Nat) (tree : tree_t α) : Except Failure (tree_t α) :=
  match tree.get? i with
  | none => .error .outOfRange
  | some nd =>
    match tree.get? nd.parent with
    | none => .error .outOfRange
    | some pn => .ok (tree.set nd.parent { pn with children := pn.children ++ [i] })

/-- Body of the innermost loop of the search for the closest pair, for the children `cj` and
`ck` of a node; the state is `d` and `closest_pair`. -/
def aln_order.pairStep (tree : tree_t α) (cj ck : Nat) (s : α × Nat × Nat) :
    Except Failure (α × Nat × Nat) :=
  match tree.get? cj, tree.get? ck with
  | some nj, some nk =>
    if ¬ (nj.is_leaf = true ∧ nk.is_leaf = true) then .ok s
    else if nj.length + nk.length < s.1 then .ok (nj.length + nk.length, cj, ck)
    else .ok s
  | _, _ => .error .outOfRange

/-- The loops over `j` and `k` of the search for the closest pair, for a node with the
non-empty list of children `ch`. -/
def aln_order.scanNode (tree : tree_t α) (ch : List Nat) (s : α × Nat × Nat) :
    Except Failure (α × Nat × Nat) :=
  (List.range (ch.length - 1)).foldlM (fun s j =>
    (List.range' (j + 1) (ch.length - (j + 1))).foldlM (fun s k =>
      aln_order.pairStep tree (ch.getD j 0) (ch.getD k 0) s) s) s

/-- The loop over the nodes of the search for the closest pair. -/
def aln_order.scan (tree : tree_t α) (s : α × Nat × Nat) : Except Failure (α × Nat × Nat) :=
  (List.range tree.length).foldlM (fun s i =>
    match tree.get? i with
    | none => .error .outOfRange
    | some nd => if nd.children.isEmpty then .ok s else aln_order.scanNode tree nd.children s)
    s

/-- The variables of the second part of `aln_order`: the array `visited`, `ancestor`,
`branch` and the list `order_list`. -/
structure Walk (α : Type) where
  visited : Nat → Bool
  ancestor : Nat
  branch : α
  order_list : List (Nat × α)

/-- The assignment `visited[x] = true`. -/
def markVisited (v : Nat → Bool) (x : Nat) : Nat → Bool := fun y => if y = x then true else v y

/-- Body of the loop over the children of `ancestor` that visits the leaves, for the child
`c`. -/
def aln_order.visitLeaf (tree : tree_t α) (c : Nat) (w : Walk α) : Except Failure (Walk α) :=
  match tree.get? c with
  | none => .error .outOfRange
  | some nc =>
    if w.visited c = false ∧ nc.is_leaf = true then
      .ok { w with visited := markVisited w.visited c,
                   order_list := w.order_list ++ [(c, nc.length + w.branch)],
                   branch := 0 }
    else .ok w

/-- The call `find_if` of `aln_order`: the first child that is not visited and not a leaf. -/
def aln_order.findInode (tree : tree_t α) (visited : Nat → Bool) :
    List Nat → Except Failure (Option Nat)
  | [] => .ok none
  | i :: rest =>
    match tree.get? i with
    | none => .error .outOfRange
    | some ni =>
      if visited i = false ∧ ni.is_leaf = false then .ok (some i)
      else findInode tree visited rest

/-- One round of the `while` loop of the second part of `aln_order`. -/
def aln_order.round (tree : tree_t α) (w : Walk α) : Except Failure (Walk α) :=
  match tree.get? w.ancestor with
  | none => .error .outOfRange
  | some na =>
    match na.children.foldlM (fun w c => aln_order.visitLeaf tree c w) w with
    | .error e => .error e
    | .ok w =>
      if na.children.any (fun c => !w.visited c) then
        match aln_order.findInode tree w.visited na.children with
        | .error e => .error e
        | .ok none => .ok w
        | .ok (some node) =>
          match tree.get? node with
          | none => .error .outOfRange
          | some nn =>
            .ok { w with ancestor := node, visited := markVisited w.visited node,
                         branch := w.branch + nn.length }
      else
        .ok { w with visited := markVisited w.visited w.ancestor,
                     branch := w.branch + na.length, ancestor := na.parent }

/-- The `while` loop of the second part of `aln_order`, with the number of rounds that are
left. -/
def aln_order.walk (tree : tree_t α) : Nat → Walk α → Except Failure (Walk α)
  | 0, w =>
    if (List.range tree.length).any (fun x => !w.visited x) then .error .diverged else .ok w
  | fuel + 1, w =>
    if (List.range tree.length).any (fun x => !w.visited x) then
      match aln_order.round tree w with
      | .error e => .error e
      | .ok w => walk tree fuel w
    else .ok w

/-- The function `aln_order` of `tree.cc`: the result, the tree with its lists of children
and the list `order_list`.  A round of the second part visits a node or moves `ancestor`
towards the root, so `size * size + size` rounds are allowed. -/
def aln_order (tree : tree_t α) (order_list : List (Nat × α)) :
    Except Failure (Int × tree_t α × List (Nat × α)) :=
  match (List.range' 1 (tree.length - 1)).foldlM (fun t i => aln_order.fill i t) tree with
  | .error e => .error e
  | .ok tree =>
    match aln_order.scan tree (fltMax, 0, 0) with
    | .error e => .error e
    | .ok (_, first, second) =>
      match tree.get? first, tree.get? second with
      | some nf, some ns =>
        let order_list := order_list ++ [(first, 0)]
        let order_list := order_list ++ [(second, nf.length + ns.length)]
        match order_list.get? 0, order_list.get? 1, order_list.getLast? with
        | some o0, some o1, some ob =>
          match tree.get? ob.1 with
          | none => .error .outOfRange
          | some nb =>
            let visited : Nat → Bool := fun _ => false
            let visited := markVisited visited o1.1
            let visited := markVisited visited o0.1
            let w : Walk α := ⟨visited, nb.parent, 0, order_list⟩
            match aln_order.walk tree (tree.length * tree.length + tree.length) w with
            | .error e => .error e
            | .ok w => .ok (0, tree, w.order_list)
        | _, _, _ => .error .outOfRange
      | _, _ => .error .outOfRange


/-- Node `i` has `x` as its parent. -/
def isChildOf (tree : tree_t α) (x i : Nat) : Bool :=
  match tree.get? i with
  | some nd => decide (nd.parent = x)
  | none => false

/-- The children of node `x` in a parent-indexed tree: the nodes `i >= 1` whose parent is
`x`, in increasing order. -/
def childrenOf (tree : tree_t α) (x : Nat) : List Nat :=
  (List.range' 1 (tree.length - 1)).filter (isChildOf tree x)

/-- The pairs `(ch[j], ch[k])`, `j < k`, in the order in which the loops over `j` and `k` of
`aln_order` visit them. -/
def pairsOf (ch : List Nat) : List (Nat × Nat) :=
  (List.range (ch.length - 1)).flatMap (fun j =>
    (List.range' (j + 1) (ch.length - (j + 1))).map (fun k => (ch.getD j 0, ch.getD k 0)))

/-- The pairs of children of one node, node after node. -/
def siblingPairs (tree : tree_t α) : List (Nat × Nat) :=
  (List.range tree.length).flatMap (fun i =>
    match tree.get? i with
    | some nd => pairsOf nd.children
    | none => [])

/-- The state `(d, closest_pair)` of the search for the closest pair after the pairs `S`:
`d` is at most the sum of the lengths of every pair of leaves of `S`, and when it is below
its initial value `closest_pair` is a pair of leaves of `S` with that sum. -/
def Closest (tree : tree_t α) (S : List (Nat × Nat)) (s : α × Nat × Nat) : Prop :=
  (∀ u v nu nv, (u, v) ∈ S → tree.get? u = some nu → tree.get? v = some nv →
    nu.is_leaf = true → nv.is_leaf = true → s.1 ≤ nu.length + nv.length) ∧
  (s.1 < fltMax → ∃ nu nv, (s.2.1, s.2.2) ∈ S ∧ tree.get? s.2.1 = some nu ∧
    tree.get? s.2.2 = some nv ∧ nu.is_leaf = true ∧ nv.is_leaf = true ∧
    s.1 = nu.length + nv.length) ∧
  s.1 ≤ fltMax

/-- A guide tree as `aln_order` receives it: more than one node, the root at index 0 (its own
parent), every other node after its parent, no list of children filled in yet, the leaf
flag set exactly on the nodes without children, at least two children below every other
node, and the sum of two leaf lengths below the largest `float`. -/
structure GuideTree (tree : tree_t α) : Prop where
  size : 2 ≤ tree.length
  root : ∀ nd, tree.get? 0 = some nd → nd.parent = 0
  below : ∀ i nd, 1 ≤ i → tree.get? i = some nd → nd.parent < i
  fresh : ∀ nd ∈ tree, nd.children = []
  leaf : ∀ x nd, tree.get? x = some nd → (nd.is_leaf = true ↔ childrenOf tree x = [])
  inner : ∀ x nd, tree.get? x = some nd → nd.is_leaf = false → 2 ≤ (childrenOf tree x).length
  finite : ∀ x y nx ny, tree.get? x = some nx → tree.get? y = some ny →
    nx.is_leaf = true → ny.is_leaf = true → nx.length + ny.length < fltMax

/-- The tree after the first loop of `aln_order`: every node of `tree` with its list of
children filled in. -/
def Filled (tree T : tree_t α) : Prop :=
  T.length = tree.length ∧
  ∀ x nd, tree.get? x = some nd →
    T.get? x = some { nd with children := nd.children ++ childrenOf tree x }

/-- The properties of the tree that the second part of `aln_order` walks. -/
structure WalkTree (T : tree_t α) : Prop where
  root : ∃ nd, T.get? 0 = some nd ∧ nd.parent = 0
  below : ∀ i nd, 1 ≤ i → T.get? i = some nd → nd.parent < i
  kids : ∀ x nd, T.get? x = some nd → ∀ c, c ∈ nd.children ↔
    (1 ≤ c ∧ ∃ nc, T.get? c = some nc ∧ nc.parent = x)
  leaf : ∀ x nd, T.get? x = some nd → nd.is_leaf = true → nd.children = []

/-- Node `x` is `a` or one of the nodes above `a`. -/
inductive OnSpine (T : tree_t α) : Nat → Nat → Prop where
  | self (a : Nat) : OnSpine T a a
  | up (x a : Nat) (nd : node_t α) : T.get? a = some nd → OnSpine T x nd.parent → OnSpine T x a

/-- The number of nodes that are not visited. -/
def unvisited (n : Nat) (v : Nat → Bool) : Nat := (List.range n).countP (fun x => !v x)

/-- The invariant of the second part of `aln_order`: `ancestor` is a node and not a leaf;
`order_list` holds the visited leaves, each once; and every visited node that is neither
`ancestor` nor above it has all its children visited. -/
structure WalkInv (T : tree_t α) (w : Walk α) : Prop where
  anc : w.ancestor < T.length
  inode : ∀ nd, T.get? w.ancestor = some nd → nd.is_leaf = false
  nodup : (w.order_list.map Prod.fst).Nodup
  listed : ∀ x, x ∈ w.order_list.map Prod.fst ↔
    (w.visited x = true ∧ ∃ nd, T.get? x = some nd ∧ nd.is_leaf = true)
  closed : ∀ x nd, T.get? x = some nd → w.visited x = true → ¬ OnSpine T x w.ancestor →
    ∀ c ∈ nd.children, w.visited c = true


/-! ## `parse_newick` (tree.cc)

The rules of the grammar are parsers in the sense of Boost.Spirit X3: a parser takes the
input and fails or returns an attribute and the rest of the input; `a | b` tries `b` on the
same input when `a` fails; `-a`, `+a` and `a % b` take as much as they can.  The parser
`x3::float_` of the library is an argument `float_` of the embedding. -/

/-- The set `char_("-0-9A-Za-z/%_.")` of the rule `label`. -/
def isLabelChar (c : Char) : Bool :=
  decide (c = '-') || (decide ('0' ≤ c) && decide (c ≤ '9'))
    || (decide ('A' ≤ c) && decide (c ≤ 'Z')) || (decide ('a' ≤ c) && decide (c ≤ 'z'))
    || decide (c = '/') || decide (c = '%') || decide (c = '_') || decide (c = '.')

namespace newick

/-- The rule `label = +char_("-0-9A-Za-z/%_.")`. -/
def label (s : Str) : Option (Str × Str) :=
  if s.takeWhile isLabelChar = [] then none
  else some (s.takeWhile isLabelChar, s.dropWhile isLabelChar)

/-- The rule `ilabel = label | attr("")`. -/
def ilabel (s : Str) : Str × Str :=
  match label s with
  | some r => r
  | none => ([], s)

/-- The rule `length = (':' >> float_) | attr(0.0)`. -/
def length (float_ : Str → Option (α × Str)) (s : Str) : α × Str :=
  match s with
  | ':' :: s1 =>
    match float_ s1 with
    | some r => r
    | none => (0, s)
  | _ => (0, s)

/-- The semantic action `make_leaf`: a tree of one leaf node. -/
def make_leaf (lab : Str) (len : α) : tree_t α := [⟨lab, len, true, 0, []⟩]

/-- Body of the loop `for(auto&& w : v)` of `make_inode`: the nodes of `w` are appended
with their parents shifted by the size `n` reached so far, then `val[n].parent = 0`. -/
def make_inode.attach (val : tree_t α) (w : tree_t α) : Except Failure (tree_t α) :=
  let n := val.length
  let val := val ++ w.map (fun x => { x with parent := x.parent + n })
  match val.get? n with
  | none => .error .outOfRange
  | some nd => .ok (val.set n { nd with parent := 0 })

/-- The semantic action `make_inode`: the node itself, followed by the nodes of its
subtrees. -/
def make_inode (v : List (tree_t α)) (lab : Str) (len : α) : Except Failure (tree_t α) :=
  v.foldlM make_inode.attach [⟨lab, len, false, 0, []⟩]

/-- The tail `*(',' >> p)` of the list `p % ','`, with the number of elements that may
still follow. -/
def listTail {β : Type} (p : Str → Except Failure (Option (β × Str))) :
    Nat → Str → Except Failure (List β × Str)
  | 0, _ => .error .diverged
  | k + 1, s =>
    match s with
    | ',' :: s1 =>
      match p s1 with
      | .error e => .error e
      | .ok none => .ok ([], s)
      | .ok (some (w, s2)) =>
        match listTail p k s2 with
        | .error e => .error e
        | .ok (ws, s3) => .ok (w :: ws, s3)
    | _ => .ok ([], s)

/-- The rule `leaf`, `leaf_def = (label >> length)[make_leaf]`. -/
def leaf_def (float_ : Str → Option (α × Str)) (s : Str) : Option (tree_t α × Str) :=
  match label s with
  | some (lab, s1) =>
    let r := length float_ s1
    some (make_leaf lab r.1, r.2)
  | none => none

/-- The rule `inode`,
`inode_def = (('(' >> (node % ',') >> ')') >> ilabel >> length)[make_inode]`, over the
parser `node` of the subtrees. -/
def inode_def (float_ : Str → Option (α × Str))
    (node : Str → Except Failure (Option (tree_t α × Str))) (s : Str) :
    Except Failure (Option (tree_t α × Str)) :=
  match s with
  | '(' :: s1 =>
    match node s1 with
    | .error e => .error e
    | .ok none => .ok none
    | .ok (some (w, s2)) =>
      match listTail node (s2.length + 1) s2 with
      | .error e => .error e
      | .ok (ws, s3) =>
        match s3 with
        | ')' :: s4 =>
          let l := ilabel s4
          let r := length float_ l.2
          match make_inode (w :: ws) l.1 r.1 with
          | .error e => .error e
          | .ok t => .ok (some (t, r.2))
        | _ => .ok none
  | _ => .ok none

/-- The alternative `node_def = leaf | inode`. -/
def node_def (float_ : Str → Option (α × Str))
    (node : Str → Except Failure (Option (tree_t α × Str))) (s : Str) :
    Except Failure (Option (tree_t α × Str)) :=
  match leaf_def float_ s with
  | some r => .ok (some r)
  | none => inode_def float_ node s

/-- The rule `node`; `fuel` bounds the depth of the nesting of the subtrees. -/
def node (float_ : Str → Option (α × Str)) :
    Nat → Str → Except Failure (Option (tree_t α × Str))
  | 0 => fun _ => .error .diverged
  | fuel + 1 => node_def float_ (node float_ fuel)

/-- The rule `tree`, `tree_def = node >> -lit(';')`. -/
def tree (float_ : Str → Option (α × Str)) (fuel : Nat) (s : Str) :
    Except Failure (Option (tree_t α × Str)) :=
  match node float_ fuel s with
  | .error e => .error e
  | .ok none => .ok none
  | .ok (some (t, s1)) =>
    match s1 with
    | ';' :: s2 => .ok (some (t, s2))
    | _ => .ok (some (t, s1))

end newick

/-- The function `parse_newick` of `tree.cc`: the result and, when it is `EXIT_SUCCESS`,
the tree left in `guide_tree` (what a failed parse leaves there is not modelled).  Every
level of nesting takes a symbol of the input, so `content.length() + 1` levels are
allowed. -/
def parse_newick (float_ : Str → Option (α × Str)) (content : Str) :
    Except Failure (Int × Option (tree_t α)) :=
  let content := content.filter (fun c => decide (c ≠ '\t'))
  let content := content.filter (fun c => decide (c ≠ '\n'))
  let content := content.filter (fun c => decide (c ≠ ' '))
  match newick.tree float_ (content.length + 1) content with
  | .error e => .error e
  | .ok none => .ok (1, none)
  | .ok (some (t, rest)) => if rest = [] then .ok (0, some t) else .ok (1, none)

/-- A parser for the numbers `digits` and `digits.digits`, a fragment of what `x3::float_`
accepts, for the lengths of the test of `parse_newick`. -/
def decimalFloat (s : Str) : Option (ℚ × Str) :=
  let ds := s.takeWhile Char.isDigit
  let r1 := s.dropWhile Char.isDigit
  if ds = [] then none
  else
    let whole : Nat := ds.foldl (fun n c => 10 * n + (c.toNat - '0'.toNat)) 0
    match r1 with
    | '.' :: r2 =>
      let fs := r2.takeWhile Char.isDigit
      let frac : Nat := fs.foldl (fun n c => 10 * n + (c.toNat - '0'.toNat)) 0
      some ((whole : ℚ) + (frac : ℚ) / (10 : ℚ) ^ fs.length, r2.dropWhile Char.isDigit)
    | _ => some ((whole : ℚ), r1)


/-- The shape of a node list in pre-order: node 0 is the root and its own parent, every
other node comes after its parent, and the leaves are the nodes that are the parent of no
other node. -/
structure PreOrder (t : tree_t α) : Prop where
  root : ∃ nd, t.get? 0 = some nd ∧ nd.parent = 0
  below : ∀ i nd, 1 ≤ i → t.get? i = some nd → nd.parent < i
  leaf : ∀ i nd, t.get? i = some nd →
    (nd.is_leaf = true ↔ ∀ j nj, 1 ≤ j → t.get? j = some nj → nj.parent ≠ i)

/-- The tree of the test of `parse_newick`. -/
def newickTest : Str :=
  "(B_b:6.0,(A-a:5.0,C/c:3.0,E.e:4.0)Ancestor:5.0,D%:11.0);".toList


/-- The state of `_val(ctx)` while `make_inode` appends the subtrees: the node of the rule
at index 0, the nodes after it in pre-order below it. -/
structure Attached (val : tree_t α) : Prop where
  root : ∃ nd, val.get? 0 = some nd ∧ nd.parent = 0 ∧ nd.is_leaf = false
  below : ∀ i nd, 1 ≤ i → val.get? i = some nd → nd.parent < i
  leaf : ∀ i nd, 1 ≤ i → val.get? i = some nd →
    (nd.is_leaf = true ↔ ∀ j nj, 1 ≤ j → val.get? j = some nj → nj.parent ≠ i)
  child : 2 ≤ val.length → ∃ j nj, 1 ≤ j ∧ val.get? j = some nj ∧ nj.parent = 0


/-! ## The Score Evaluator -/

/-- Modelled from the spec: one column of the Score Evaluator (§4.6; `alignment_score` is
declared in `mut_models.hpp` and defined in no file of `src/`).  The state holds the weight
so far, the type of the preceding column (0 match/mismatch, 1 insertion, 2 deletion; 0
before the first column) and the number of symbols of the reference passed.  A column with
`-` in the first row is an insertion, one with `-` in the second row a deletion, any other
a match/mismatch; each is charged what the recurrences of `mg94_marginal` charge for a
column of its type after a column of the preceding type: the substitution cost of the
symbol under the codon of the reference, the opening or the extension of a gap, and the
sentinel for an insertion that follows a deletion. -/
def alignment_score.column (N : Num α) (p : Nat → Nat → Nat → α) (seq_a : Str)
    (st : α × Int × Nat) (col : Char × Char) : α × Int × Nat :=
  if col.1 = '-' then
    ((if st.2.1 = 0 then
        st.1 - insertion N - nuc_freqs N (nt4_table col.2) - no_insertion_ext N
      else if st.2.1 = 1 then st.1 - insertion_ext N - nuc_freqs N (nt4_table col.2)
      else dblMax), 1, st.2.2)
  else if col.2 = '-' then
    ((if st.2.1 = 0 then st.1 - no_insertion N - deletion N - no_deletion_ext N
      else if st.2.1 = 1 then st.1 - no_deletion_ext N - deletion N
      else st.1 - deletion_ext N), 2, st.2.2 + 1)
  else
    ((if st.2.1 = 0 then
        st.1 - no_insertion N - no_deletion N
          - N.log (transition (substr seq_a ((st.2.2 / 3) * 3) 3) ((st.2.2 + 1) % 3) col.2 p)
      else if st.2.1 = 1 then
        st.1 - no_deletion N
          - N.log (transition (substr seq_a ((st.2.2 / 3) * 3) 3) ((st.2.2 + 1) % 3) col.2 p)
      else
        st.1 - N.log (transition (substr seq_a ((st.2.2 / 3) * 3) 3) ((st.2.2 + 1) % 3)
          col.2 p)), 0, st.2.2 + 1)

/-- Modelled from the spec: the Score Evaluator of §4.6 for the model of `mg94_marginal`:
the columns of the two rows are classified and charged from left to right; the reference
is the first row without its gaps. -/
def alignment_score (N : Num α) (p : Nat → Nat → Nat → α) (alignment : List Str) :
    Except Failure α :=
  match alignment with
  | s0 :: s1 :: _ =>
    .ok ((s0.zip s1).foldl (alignment_score.column N p (degap s0)) (0, 0, 0)).1
  | _ => .error .outOfRange


/-- A tensor of probabilities in which codon AAA emits `C` with probability 1/2 at its
first position and 999/2000 at its second, and `G` with probability 9/10 at its third
position and 1/10 at the others; every marginal of another codon is uniform. -/
def nearTieTensor : Nat → Nat → Nat → α := fun c pos x =>
  if c = 0 then
    (if pos = 0 then vec4 (3 / 10) (1 / 2) (1 / 10) (1 / 10) x
     else if pos = 1 then vec4 (3 / 10) (999 / 2000) (1 / 10) (201 / 2000) x
     else vec4 (1 / 20) (1 / 40) (9 / 10) (1 / 40) x)
  else 1 / 4


/-- The cost of the gap-free alignment of the first `i` symbols of `seq_a` with the first
`i` symbols of `seq_b` under the model of `mg94_marginal`: every column is a match that
follows a match (the start counts as one). -/
def diagCost (N : Num α) (p : Nat → Nat → Nat → α) (seq_a seq_b : Str) : Nat → α
  | 0 => 0
  | i + 1 =>
    diagCost N p seq_a seq_b i - no_insertion N - no_deletion N
      - N.log (transition (substr seq_a ((i / 3) * 3) 3) ((i + 1) % 3) (charAt seq_b i) p)

/-- A marginal tensor that favours identity: for every codon and position the four
entries are positive probabilities that sum to 1, and none exceeds that of the codon's own
nucleotide. -/
def IdentityFavouring (p : Nat → Nat → Nat → α) : Prop :=
  ∀ c pos, c < 64 → pos < 3 →
    (∀ x, x < 4 → 0 < p c pos x) ∧
    p c pos 0 + p c pos 1 + p c pos 2 + p c pos 3 = 1 ∧
    ∀ x, x < 4 → p c pos x ≤ p c pos (codonDigit c pos)


/-- The pair `(t, k)` is the highest entry of the column `v` of four entries and the first
row that holds it. -/
def IsHighest (v : Nat → α) (t : α) (k : Nat) : Prop :=
  k < 4 ∧ v k = t ∧ (∀ r, r < 4 → v r ≤ t) ∧ (∀ r, r < k → v r < t)

/-- The pair `(s, k2)` is the second-highest entry of the column `v` of four entries, the
highest of the rows other than row `k` (which holds the highest), and the first such row
that holds it. -/
def IsSecondHighest (v : Nat → α) (k : Nat) (s : α) (k2 : Nat) : Prop :=
  k2 < 4 ∧ k2 ≠ k ∧ v k2 = s ∧ (∀ r, r < 4 → r ≠ k → v r ≤ s) ∧
    (∀ r, r < k2 → r ≠ k → v r < s)

/-- The sum `sum_i nuc[i] * p[codon][pos][i]` for the codon with the nucleotides `a`, `b`,
`c` (codon index `16 a + 4 b + c`). -/
def emissionMean (nuc : Nat → α) (p : Nat → Nat → Nat → α) (a b c pos : Nat) : α :=
  nuc 0 * p (16 * a + 4 * b + c) pos 0 + nuc 1 * p (16 * a + 4 * b + c) pos 1
    + nuc 2 * p (16 * a + 4 * b + c) pos 2 + nuc 3 * p (16 * a + 4 * b + c) pos 3

/-- The matrix `cod << 0.4, 0.2, 0.4, 0.3, 0.4, 0.1, 0.2, 0.3, 0.2, 0.1, 0.1, 0.3` of the
test of the profile `transition` (filled row by row). -/
def testCodon : Nat → Nat → α := fun r k =>
  match r, k with
  | 0, 0 => 0.4 | 0, 1 => 0.2 | 0, 2 => 0.4
  | 1, 0 => 0.3 | 1, 1 => 0.4 | 1, 2 => 0.1
  | 2, 0 => 0.2 | 2, 1 => 0.3 | 2, 2 => 0.2
  | 3, 0 => 0.1 | 3, 1 => 0.1 | 3, 2 => 0.3
  | _, _ => 0


/-- The character `c` is the nucleotide with code `k` (A, C, G, T for 0, 1, 2, 3), in upper
or lower case. -/
def holdsNuc (k : Nat) (c : Char) : Bool :=
  match k with
  | 0 => c = 'A' || c = 'a'
  | 1 => c = 'C' || c = 'c'
  | 2 => c = 'G' || c = 'g'
  | 3 => c = 'T' || c = 't'
  | _ => false

/-- The number of rows of `aln` whose character `j` is the nucleotide with code `k`. -/
def nucCount (aln : List Str) (k j : Nat) : Nat :=
  aln.countP (fun s => holdsNuc k (charAt s j))

/-- The number of rows of `aln` that hold a nucleotide at position `j`. -/
def nucRows (aln : List Str) (j : Nat) : Nat :=
  aln.countP (fun s => holdsNuc 0 (charAt s j) || holdsNuc 1 (charAt s j)
    || holdsNuc 2 (charAt s j) || holdsNuc 3 (charAt s j))

/-- The alignment of the test of `create_profile`. -/
def testAlignment : List Str :=
  ["CTCTGGATAGTG".toList, "CT----ATAGTG".toList, "CTCT---TAGTG".toList,
   "CTCTG--TAGTG".toList]


/-- The assignments of `gotoh_noframeshifts` that precede the loops of the initialisation:
cells (0,0), (0,3) and (3,0). -/
def nf.init0 (N : Num α) (seq_b : Str) : Mats α :=
  let s : Mats α := Mats.fresh
  let s := { s with D := setAt s.D 0 0 0 }
  let s := { s with Bd := setAt s.Bd 0 0 0 }
  let s := { s with P := setAt s.P 0 3 (nf.open03 N seq_b) }
  let s := { s with D := setAt s.D 0 3 (nf.open03 N seq_b) }
  let s := { s with Q := setAt s.Q 3 0 (nf.open30 N) }
  let s := { s with D := setAt s.D 3 0 (nf.open30 N) }
  let s := { s with Bd := setAt s.Bd 0 3 1 }
  let s := { s with Bq := setAt s.Bq 3 0 2 }
  let s := { s with Bp := setAt s.Bp 0 3 2 }
  { s with Bd := setAt s.Bd 3 0 2 }


/-- The assignments of `gotoh_profile_marginal` that precede the loops of the
initialisation: cells (0,0), (0,1) and (1,0). -/
def prof.init0 (N : Num α) (pro2 : Profile α) : Mats α :=
  let s : Mats α := Mats.fresh
  let s := { s with D := setAt s.D 0 0 0 }
  let s := { s with Bd := setAt s.Bd 0 0 0 }
  let v := -insertion N - nuc_pi N (pro2.col 0) (nuc_freqs N) - no_insertion_ext N
  let s := { s with D := setAt s.D 0 1 v }
  let s := { s with P := setAt s.P 0 1 v }
  let s := { s with Bd := setAt s.Bd 0 1 1 }
  let s := { s with Bp := setAt s.Bp 0 1 2 }
  let s := { s with D := setAt s.D 1 0 (-no_insertion N - deletion N - no_deletion_ext N) }
  let s := { s with Q := setAt s.Q 1 0 (-no_insertion N - deletion N - no_deletion_ext N) }
  let s := { s with Bd := setAt s.Bd 1 0 2 }
  { s with Bq := setAt s.Bq 1 0 2 }

/-- The contents of row 0 and column 0 of the matrices `F` after the initialisation of
`gotoh_profile_marginal`; `g k` is the term that an insertion of column `k` of the second
operand subtracts (the value of `nuc_pi` for that column). -/
structure GapBorder (N : Num α) (g : Nat → α) (m n : Nat) (F : Mats α) : Prop where
  d00 : F.D 0 0 = 0
  bd00 : F.Bd 0 0 = 0
  d01 : F.D 0 1 = -insertion N - g 0 - no_insertion_ext N
  p01 : F.P 0 1 = -insertion N - g 0 - no_insertion_ext N
  d10 : F.D 1 0 = -no_insertion N - deletion N - no_deletion_ext N
  q10 : F.Q 1 0 = -no_insertion N - deletion N - no_deletion_ext N
  drow : ∀ j, 2 ≤ j → j ≤ n → F.D 0 j = F.D 0 (j - 1) - insertion_ext N - g (j - 1)
  prow : ∀ j, 2 ≤ j → j ≤ n → F.P 0 j = F.P 0 (j - 1) - insertion_ext N - g (j - 1)
  dcol : ∀ i, 2 ≤ i → i ≤ m → F.D i 0 = F.D (i - 1) 0 - deletion_ext N
  qcol : ∀ i, 2 ≤ i → i ≤ m → F.Q i 0 = F.Q (i - 1) 0 - deletion_ext N
  bdrow : ∀ j, 1 ≤ j → j ≤ n → F.Bd 0 j = 1
  bp01 : F.Bp 0 1 = 2
  bprow : ∀ j, 2 ≤ j → j ≤ n → F.Bp 0 j = 1
  bdcol : ∀ i, 1 ≤ i → i ≤ m → F.Bd i 0 = 2
  bq10 : F.Bq 1 0 = 2
  bqcol : ∀ i, 2 ≤ i → i ≤ m → F.Bq i 0 = 1
  pcol : ∀ i, F.P i 0 = fltMax
  qrow : ∀ j, F.Q 0 j = fltMax

/-- The row `s` laid out along the mask `keep`: its symbols, in order, at the positions
marked `true` and the gap symbol `-` at the positions marked `false`. -/
def spread : List Bool → Str → Str
  | [], _ => []
  | true :: ks, c :: cs => c :: spread ks cs
  | true :: ks, [] => '-' :: spread ks []
  | false :: ks, s => '-' :: spread ks s

/-- The symbols of the row `s` at the positions that the mask `keep` marks `true`: the row
without the columns that the mask marks as inserted. -/
def pick (keep : List Bool) (s : Str) : Str :=
  ((s.zip keep).filter (fun x => x.2)).map (fun x => x.1)


/-- The finite values of the type `double` (IEEE 754 binary64) as rational numbers:
`m * 2^(e - 1074)` with an integer significand `|m| < 2^53` and `0 <= e <= 2045`. -/
def isBinary64 (x : ℚ) : Prop :=
  ∃ (m : ℤ) (e : ℕ), |m| < 2 ^ 53 ∧ e ≤ 2045 ∧ x = (m : ℚ) * 2 ^ e / 2 ^ 1074

/-- The function `nuc_pi(Vector4d n, Vector5d pis)` in the arithmetic of `double`: `N.exp`
is the library function `exp` on doubles and `rnd` rounds every product and every sum to a
double. -/
def nuc_pi_fp (rnd : ℚ → ℚ) (N : Num ℚ) (n : Nat → ℚ) (pis : Nat → ℚ) : ℚ :=
  let t : Nat → ℚ := fun i => if n i = 0 then 0 else rnd (n i * N.exp (pis i))
  rnd (rnd (rnd (rnd (0 + t 0) + t 1) + t 2) + t 3)


/-! # Theorems -/

/-! ## Loops as folds over the cells they write -/

/-- A fold of steps that each write one cell leaves every other cell as it was. -/
theorem foldl_frame {σ A ι V : Type} (cellOf : σ → ι → V) (run : A → σ → σ) (tgt : A → ι)
    (frame : ∀ a s c, c ≠ tgt a → cellOf (run a s) c = cellOf s c)
    (acts : List A) (s0 : σ) (c : ι) (hc : ∀ a ∈ acts, c ≠ tgt a) :
    cellOf (acts.foldl (fun s a => run a s) s0) c = cellOf s0 c := by
  induction acts generalizing s0 with
  | nil => rfl
  | cons a rest ih =>
    simp only [List.foldl_cons]
    rw [ih (run a s0) (fun b hb => hc b (List.mem_cons_of_mem _ hb))]
    exact frame a s0 c (hc a (List.mem_cons_self _ _))

/-- When no step writes a cell that an earlier step wrote or read, every step of the fold
is stable on the final state: running it again would write the same entries. -/
theorem foldl_stable {σ A ι V : Type} (cellOf : σ → ι → V) (run : A → σ → σ) (tgt : A → ι)
    (reads : A → ι → Prop)
    (frame : ∀ a s c, c ≠ tgt a → cellOf (run a s) c = cellOf s c)
    (acts : List A) (s0 : σ)
    (loc : ∀ a ∈ acts, ∀ s t, (∀ c, reads a c → cellOf s c = cellOf t c) →
      cellOf (run a s) (tgt a) = cellOf (run a t) (tgt a))
    (hself : ∀ a ∈ acts, ¬ reads a (tgt a))
    (hord : acts.Pairwise (fun a b => tgt b ≠ tgt a ∧ ¬ reads a (tgt b))) :
    ∀ a ∈ acts, cellOf (run a (acts.foldl (fun s a => run a s) s0)) (tgt a)
      = cellOf (acts.foldl (fun s a => run a s) s0) (tgt a) := by
  induction acts generalizing s0 with
  | nil => intro a ha; cases ha
  | cons b rest ih =>
    intro a ha
    simp only [List.foldl_cons]
    rw [List.pairwise_cons] at hord
    rcases List.mem_cons.1 ha with rfl | hmem
    · have hfin : ∀ c, (∀ x ∈ rest, c ≠ tgt x) →
          cellOf (rest.foldl (fun s a => run a s) (run a s0)) c = cellOf (run a s0) c :=
        fun c hc => foldl_frame cellOf run tgt frame rest (run a s0) c hc
      have h1 : cellOf (run a (rest.foldl (fun s a => run a s) (run a s0))) (tgt a)
          = cellOf (run a s0) (tgt a) := by
        apply loc a (List.mem_cons_self _ _)
        intro c hc
        have hne : c ≠ tgt a := fun h => hself a (List.mem_cons_self _ _) (h ▸ hc)
        rw [hfin c (fun x hx h => (hord.1 x hx).2 (h ▸ hc)), frame a s0 c hne]
      rw [h1, hfin (tgt a) (fun x hx h => (hord.1 x hx).1 h.symm)]
    · exact ih (run b s0) (fun x hx => loc x (List.mem_cons_of_mem _ hx))
        (fun x hx => hself x (List.mem_cons_of_mem _ hx)) hord.2 a hmem

/-- Two nested `forLoop`s are one fold over `gridCells`. -/
theorem forLoop_grid {σ : Type} (step : Nat → Nat → σ → σ) (m n : Nat) (s0 : σ) :
    forLoop 1 (m + 1) (fun i s => forLoop 1 (n + 1) (fun j s => step i j s) s) s0
      = (gridCells m n).foldl (fun s c => step c.1 c.2 s) s0 := by
  unfold forLoop gridCells
  simp only [Nat.add_sub_cancel]
  generalize List.range' 1 m = L
  induction L generalizing s0 with
  | nil => rfl
  | cons i rest ih =>
    simp only [List.foldl_cons, List.flatMap_cons, List.foldl_append, List.foldl_map]
    exact ih _

/-- Membership in `gridCells`. -/
theorem mem_gridCells (m n : Nat) (c : Nat × Nat) :
    c ∈ gridCells m n ↔ (1 ≤ c.1 ∧ c.1 ≤ m) ∧ (1 ≤ c.2 ∧ c.2 ≤ n) := by
  obtain ⟨a, b⟩ := c
  simp only [gridCells, List.mem_flatMap, List.mem_map, List.mem_range'_1, Prod.mk.injEq]
  constructor
  · rintro ⟨i, hi, j, hj, rfl, rfl⟩
    omega
  · intro h
    exact ⟨a, by omega, b, by omega, rfl, rfl⟩

/-- The loops visit the cells in row-major order: later cells are below, or in the same
row and to the right. -/
theorem gridCells_pairwise (m n : Nat) :
    (gridCells m n).Pairwise (fun a b => a.1 < b.1 ∨ (a.1 = b.1 ∧ a.2 < b.2)) := by
  unfold gridCells
  rw [List.pairwise_flatMap]
  constructor
  · intro i _
    rw [List.pairwise_map]
    exact (List.pairwise_lt_range' 1 n).imp (fun h => Or.inr ⟨rfl, h⟩)
  · refine (List.pairwise_lt_range' 1 m).imp ?_
    intro i i2 hlt x hx y hy
    simp only [List.mem_map] at hx hy
    obtain ⟨_, _, rfl⟩ := hx
    obtain ⟨_, _, rfl⟩ := hy
    exact Or.inl hlt

/-- Cells outside the grid keep their initial entries through the two nested loops. -/
theorem grid_frame {σ V : Type} (cellOf : σ → Nat × Nat → V) (step : Nat → Nat → σ → σ)
    (frame : ∀ i j s c, c ≠ (i, j) → cellOf (step i j s) c = cellOf s c)
    (m n : Nat) (s0 : σ) (c : Nat × Nat)
    (hc : ¬ ((1 ≤ c.1 ∧ c.1 ≤ m) ∧ (1 ≤ c.2 ∧ c.2 ≤ n))) :
    cellOf (forLoop 1 (m + 1) (fun i s => forLoop 1 (n + 1) (fun j s => step i j s) s) s0) c
      = cellOf s0 c := by
  rw [forLoop_grid]
  apply foldl_frame cellOf (fun (a : Nat × Nat) s => step a.1 a.2 s) (fun a => a)
  · intro a s c hne
    exact frame a.1 a.2 s c hne
  · intro a ha h
    exact hc (h ▸ (mem_gridCells m n a).1 ha)

/-- After the two nested loops every cell of the grid is stable: its entries are those that
the step of that cell computes from the final matrices. -/
theorem grid_stable {σ V : Type} (cellOf : σ → Nat × Nat → V) (step : Nat → Nat → σ → σ)
    (frame : ∀ i j s c, c ≠ (i, j) → cellOf (step i j s) c = cellOf s c)
    (loc : ∀ i j s t, 1 ≤ i → 1 ≤ j →
      cellOf s (i - 1, j - 1) = cellOf t (i - 1, j - 1) →
      cellOf s (i - 1, j) = cellOf t (i - 1, j) →
      cellOf s (i, j - 1) = cellOf t (i, j - 1) →
      cellOf (step i j s) (i, j) = cellOf (step i j t) (i, j))
    (m n : Nat) (s0 : σ) (i j : Nat) (hi : 1 ≤ i) (him : i ≤ m) (hj : 1 ≤ j) (hjn : j ≤ n) :
    cellOf (step i j
        (forLoop 1 (m + 1) (fun i s => forLoop 1 (n + 1) (fun j s => step i j s) s) s0)) (i, j)
      = cellOf
        (forLoop 1 (m + 1) (fun i s => forLoop 1 (n + 1) (fun j s => step i j s) s) s0) (i, j) := by
  rw [forLoop_grid]
  have key := foldl_stable cellOf (fun (a : Nat × Nat) s => step a.1 a.2 s) (fun a => a)
    (fun a c => c = (a.1 - 1, a.2 - 1) ∨ c = (a.1 - 1, a.2) ∨ c = (a.1, a.2 - 1))
    (fun a s c hne => frame a.1 a.2 s c hne) (gridCells m n) s0
    (by
      intro a ha s t h
      have hm := (mem_gridCells m n a).1 ha
      exact loc a.1 a.2 s t hm.1.1 hm.2.1 (h _ (Or.inl rfl)) (h _ (Or.inr (Or.inl rfl)))
        (h _ (Or.inr (Or.inr rfl))))
    (by
      intro a ha h
      have hm := (mem_gridCells m n a).1 ha
      obtain ⟨a1, a2⟩ := a
      simp only [Prod.mk.injEq] at h
      omega)
    (by
      refine (gridCells_pairwise m n).imp_of_mem ?_
      intro a b ha _ hlt
      have hm := (mem_gridCells m n a).1 ha
      obtain ⟨a1, a2⟩ := a
      obtain ⟨b1, b2⟩ := b
      simp only [ne_eq, Prod.mk.injEq] at hlt hm ⊢
      omega)
  exact key (i, j) ((mem_gridCells m n (i, j)).2 ⟨⟨hi, him⟩, ⟨hj, hjn⟩⟩)

/-! ## The cell step of `mg94_marginal` -/

theorem setAt_same {β : Type} (M : Nat → Nat → β) (i j : Nat) (v : β) :
    setAt M i j v i j = v := by
  simp [setAt]

theorem setAt_other {β : Type} (M : Nat → Nat → β) (i j a b : Nat) (v : β)
    (h : ¬ (a = i ∧ b = j)) : setAt M i j v a b = M a b := by
  simp [setAt, h]

/-- The choice among the three candidates writes cell (i,j) of `D` and `Bd` only. -/
theorem selectD_frame (s : Mats α) (i j : Nat) (d : α) (c : Nat × Nat) (hc : c ≠ (i, j)) :
    (selectD s i j d).cellAt c = s.cellAt c := by
  obtain ⟨a, b⟩ := c
  have h : ¬ (a = i ∧ b = j) := fun h => hc (by rw [h.1, h.2])
  unfold selectD
  split_ifs <;> simp [Mats.cellAt, setAt, h]

/-- The entries that the choice writes in cell (i,j). -/
theorem selectD_at (s : Mats α) (i j : Nat) (d : α) :
    (selectD s i j d).cellAt (i, j)
      = (if d < s.P i j then (if d < s.Q i j then d else s.Q i j)
          else (if s.P i j < s.Q i j then s.P i j else s.Q i j),
         s.P i j, s.Q i j,
         if d < s.P i j then (if d < s.Q i j then 0 else 2)
          else (if s.P i j < s.Q i j then 1 else 2),
         s.Bp i j, s.Bq i j) := by
  unfold selectD
  split_ifs <;> simp [Mats.cellAt, setAt]

/-- The cell step of `mg94_marginal` writes cell (i,j) only. -/
theorem mg94_cell_frame (N : Num α) (p : Nat → Nat → Nat → α) (seq_a seq_b : Str)
    (i j : Nat) (s : Mats α) (c : Nat × Nat) (hc : c ≠ (i, j)) :
    (mg94_cell N p seq_a seq_b i j s).cellAt c = s.cellAt c := by
  unfold mg94_cell
  simp only []
  rw [selectD_frame _ _ _ _ _ hc]
  obtain ⟨a, b⟩ := c
  have h : ¬ (a = i ∧ b = j) := fun h => hc (by rw [h.1, h.2])
  simp [Mats.cellAt, setAt, h]

/-- The entries that the cell step of `mg94_marginal` writes in cell (i,j), in terms of the
candidates `p1`, `p2`, `q1`, `q2` and `d` computed from the matrices before the step. -/
theorem mg94_cell_at (N : Num α) (p : Nat → Nat → Nat → α) (seq_a seq_b : Str)
    (i j : Nat) (s : Mats α) (hi : 1 ≤ i) :
    (mg94_cell N p seq_a seq_b i j s).cellAt (i, j)
      = (if mg94_d N p seq_a seq_b s i j < min (mg94_p1 N seq_b s i j) (mg94_p2 N seq_b s i j)
          then (if mg94_d N p seq_a seq_b s i j < min (mg94_q1 N s i j) (mg94_q2 N s i j)
            then mg94_d N p seq_a seq_b s i j else min (mg94_q1 N s i j) (mg94_q2 N s i j))
          else (if min (mg94_p1 N seq_b s i j) (mg94_p2 N seq_b s i j)
              < min (mg94_q1 N s i j) (mg94_q2 N s i j)
            then min (mg94_p1 N seq_b s i j) (mg94_p2 N seq_b s i j)
            else min (mg94_q1 N s i j) (mg94_q2 N s i j)),
         min (mg94_p1 N seq_b s i j) (mg94_p2 N seq_b s i j),
         min (mg94_q1 N s i j) (mg94_q2 N s i j),
         if mg94_d N p seq_a seq_b s i j < min (mg94_p1 N seq_b s i j) (mg94_p2 N seq_b s i j)
          then (if mg94_d N p seq_a seq_b s i j < min (mg94_q1 N s i j) (mg94_q2 N s i j)
            then 0 else 2)
          else (if min (mg94_p1 N seq_b s i j) (mg94_p2 N seq_b s i j)
              < min (mg94_q1 N s i j) (mg94_q2 N s i j) then 1 else 2),
         if mg94_p1 N seq_b s i j < mg94_p2 N seq_b s i j then 1 else 2,
         if mg94_q1 N s i j < mg94_q2 N s i j then 1 else 2) := by
  have h1 : ¬ (i - 1 = i) := by omega
  unfold mg94_cell
  simp only []
  rw [selectD_at]
  simp [mg94_q1, mg94_q2, mg94_d, setAt, h1]

/-- The candidates of cell (i,j) read the three neighbouring cells only. -/
theorem mg94_cands_congr (N : Num α) (p : Nat → Nat → Nat → α) (seq_a seq_b : Str)
    (i j : Nat) (s t : Mats α)
    (h1 : s.cellAt (i - 1, j - 1) = t.cellAt (i - 1, j - 1))
    (h2 : s.cellAt (i - 1, j) = t.cellAt (i - 1, j))
    (h3 : s.cellAt (i, j - 1) = t.cellAt (i, j - 1)) :
    mg94_p1 N seq_b s i j = mg94_p1 N seq_b t i j ∧
    mg94_p2 N seq_b s i j = mg94_p2 N seq_b t i j ∧
    mg94_q1 N s i j = mg94_q1 N t i j ∧
    mg94_q2 N s i j = mg94_q2 N t i j ∧
    mg94_d N p seq_a seq_b s i j = mg94_d N p seq_a seq_b t i j := by
  simp only [Mats.cellAt, Prod.mk.injEq] at h1 h2 h3
  obtain ⟨a1, -, -, a4, -, -⟩ := h1
  obtain ⟨b1, -, b3, b4, -, -⟩ := h2
  obtain ⟨c1, c2, -, c4, -, -⟩ := h3
  simp only [mg94_p1, mg94_p2, mg94_q1, mg94_q2, mg94_d, a1, a4, b1, b3, b4, c1, c2, c4]
  exact ⟨trivial, trivial, trivial, trivial, trivial⟩

/-- After the forward pass of `mg94_marginal`, the entries of every interior cell are those
that its step computes from the final matrices. -/
theorem mg94_forward_cell (N : Num α) (p : Nat → Nat → Nat → α) (seq_a seq_b : Str)
    (i j : Nat) (hi : 1 ≤ i) (him : i ≤ seq_a.length) (hj : 1 ≤ j) (hjn : j ≤ seq_b.length) :
    (mg94_forward N p seq_a seq_b).cellAt (i, j)
      = (mg94_cell N p seq_a seq_b i j (mg94_forward N p seq_a seq_b)).cellAt (i, j) := by
  unfold mg94_forward
  simp only []
  refine (grid_stable Mats.cellAt (fun i j s => mg94_cell N p seq_a seq_b i j s)
    (fun i j s c hc => mg94_cell_frame N p seq_a seq_b i j s c hc) ?_
    seq_a.length seq_b.length _ i j hi him hj hjn).symm
  intro i j s t hi _ h1 h2 h3
  obtain ⟨e1, e2, e3, e4, e5⟩ := mg94_cands_congr N p seq_a seq_b i j s t h1 h2 h3
  rw [mg94_cell_at N p seq_a seq_b i j s hi, mg94_cell_at N p seq_a seq_b i j t hi,
    e1, e2, e3, e4, e5]

/-- The forward pass of `mg94_marginal` leaves the cells of row 0 and of column 0 as the
initialisation wrote them. -/
theorem mg94_forward_border (N : Num α) (p : Nat → Nat → Nat → α) (seq_a seq_b : Str)
    (c : Nat × Nat) (hc : c.1 = 0 ∨ c.2 = 0) :
    (mg94_forward N p seq_a seq_b).cellAt c
      = (mg94_init N seq_b seq_a.length seq_b.length).cellAt c := by
  unfold mg94_forward
  simp only []
  apply grid_frame Mats.cellAt (fun i j s => mg94_cell N p seq_a seq_b i j s)
    (fun i j s c hc => mg94_cell_frame N p seq_a seq_b i j s c hc)
  omega

/-! ## The traceback never calls `exit` -/

theorem emit_ne_exit (c0 c1 : Char) (sd : List Str) :
    emit c0 c1 sd ≠ .error .exitFailure := by
  unfold emit
  split
  · simp
  · split <;> simp

theorem insSteps_ne_exit (seqb : Str) (h j : Nat) (sd : List Str) :
    insRun.insSteps seqb h j sd ≠ .error .exitFailure := by
  induction h generalizing j sd with
  | zero => simp [insRun.insSteps]
  | succ h ih =>
    unfold insRun.insSteps
    split
    · simp
    · split
      · rename_i e he
        intro h2
        injection h2 with h3
        exact emit_ne_exit _ _ _ (h3 ▸ he)
      · exact ih _ _

theorem delSteps_ne_exit (seqa : Str) (h i : Nat) (sd : List Str) :
    delRun.delSteps seqa h i sd ≠ .error .exitFailure := by
  induction h generalizing i sd with
  | zero => simp [delRun.delSteps]
  | succ h ih =>
    unfold delRun.delSteps
    split
    · simp
    · split
      · rename_i e he
        intro h2
        injection h2 with h3
        exact emit_ne_exit _ _ _ (h3 ▸ he)
      · exact ih _ _

theorem insRun_ne_exit (Bp : Nat → Nat → Int) (seqb : Str) (steps i fuel j : Nat)
    (sd : List Str) : insRun Bp seqb steps i fuel j sd ≠ .error .exitFailure := by
  induction fuel generalizing j sd with
  | zero => simp [insRun]
  | succ fuel ih =>
    unfold insRun
    split
    · split
      · rename_i e he
        intro h2
        injection h2 with h3
        exact insSteps_ne_exit _ _ _ _ (h3 ▸ he)
      · exact ih _ _
    · simp

theorem delRun_ne_exit (Bq : Nat → Nat → Int) (seqa : Str) (steps j fuel i : Nat)
    (sd : List Str) : delRun Bq seqa steps j fuel i sd ≠ .error .exitFailure := by
  induction fuel generalizing i sd with
  | zero => simp [delRun]
  | succ fuel ih =>
    unfold delRun
    split
    · split
      · rename_i e he
        intro h2
        injection h2 with h3
        exact delSteps_ne_exit _ _ _ _ (h3 ▸ he)
      · exact ih _ _
    · simp

theorem btLoop_ne_exit (Bd Bp Bq : Nat → Nat → Int) (seqa seqb : Str) (steps fuel i j : Nat)
    (sd : List Str) : btLoop Bd Bp Bq seqa seqb steps fuel i j sd ≠ .error .exitFailure := by
  induction fuel generalizing i j sd with
  | zero =>
    unfold btLoop
    split <;> simp
  | succ fuel ih =>
    unfold btLoop
    split
    · simp
    · split
      · split
        · simp
        · split
          · rename_i e he
            intro h2
            injection h2 with h3
            exact emit_ne_exit _ _ _ (h3 ▸ he)
          · exact ih _ _ _
      · split
        · split
          · rename_i e he
            intro h2
            injection h2 with h3
            exact insRun_ne_exit _ _ _ _ _ _ _ (h3 ▸ he)
          · split
            · rename_i e he
              intro h2
              injection h2 with h3
              exact insSteps_ne_exit _ _ _ _ (h3 ▸ he)
            · exact ih _ _ _
        · split
          · rename_i e he
            intro h2
            injection h2 with h3
            exact delRun_ne_exit _ _ _ _ _ _ _ (h3 ▸ he)
          · split
            · rename_i e he
              intro h2
              injection h2 with h3
              exact delSteps_ne_exit _ _ _ _ (h3 ▸ he)
            · exact ih _ _ _

theorem backtracking_ne_exit (Bd Bp Bq : Nat → Nat → Int) (seqa seqb : Str)
    (aln : alignment_t α) :
    backtracking Bd Bp Bq seqa seqb aln ≠ .error .exitFailure := by
  unfold backtracking
  simp only []
  split
  · rename_i e he
    intro h2
    injection h2 with h3
    exact btLoop_ne_exit _ _ _ _ _ _ _ _ _ _ (h3 ▸ he)
  · simp

theorem backtracking_noframeshifts_ne_exit (Bd Bp Bq : Nat → Nat → Int) (seqa seqb : Str)
    (aln : alignment_t α) :
    backtracking_noframeshifts Bd Bp Bq seqa seqb aln ≠ .error .exitFailure := by
  unfold backtracking_noframeshifts
  simp only []
  split
  · rename_i e he
    intro h2
    injection h2 with h3
    exact btLoop_ne_exit _ _ _ _ _ _ _ _ _ _ (h3 ▸ he)
  · simp

/-! ## Claims C7 and C8: the frame checks -/

/-- The fatal exit of `create_profile`: some string differs in length from the first. -/
theorem create_profile_exit (aln : List Str) :
    (create_profile aln : Except Failure (Profile α)) = .error .exitFailure
      ↔ ∃ s ∈ aln, s.length ≠ (aln.headD []).length := by
  have hhead : aln.getD 0 [] = aln.headD [] := by cases aln <;> rfl
  unfold create_profile
  rw [hhead]
  by_cases h : ∃ s ∈ aln, s.length ≠ (aln.headD []).length
  · have : aln.any (fun s => decide (s.length ≠ (aln.headD []).length)) = true := by
      rw [List.any_eq_true]
      obtain ⟨s, hs, hne⟩ := h
      exact ⟨s, hs, by simpa using hne⟩
    rw [if_pos this]
    exact ⟨fun _ => h, fun _ => rfl⟩
  · have : ¬ (aln.any (fun s => decide (s.length ≠ (aln.headD []).length)) = true) := by
      rw [List.any_eq_true]
      rintro ⟨s, hs, hne⟩
      exact h ⟨s, hs, by simpa using hne⟩
    rw [if_neg this]
    constructor
    · intro hc
      cases aln <;> simp at hc
    · intro h2
      exact absurd h2 h

/-- C9: `create_profile` ends in the fatal exit, returning no profile, if and only if some
string differs in length from the first one; and `gotoh_profile_marginal` does not return
when either operand holds such a string (it ends in the fatal exit, or, when the first
operand is empty, in the range error of `aln.at(0)`). -/
theorem create_profile_fails_iff (aln : List Str) :
    ((create_profile aln : Except Failure (Profile α)) = .error .exitFailure
      ↔ ∃ s ∈ aln, s.length ≠ (aln.headD []).length) ∧
    ∀ (N : Num α) (p : Nat → Nat → Nat → α) (seqs1 seqs2 : List Str) (a : alignment_t α),
      ((∃ s ∈ seqs1, s.length ≠ (seqs1.headD []).length) ∨
        (∃ s ∈ seqs2, s.length ≠ (seqs2.headD []).length)) →
      gotoh_profile_marginal N p seqs1 seqs2 a
        = .error (if seqs1 = [] then .outOfRange else .exitFailure) := by
  refine ⟨create_profile_exit aln, ?_⟩
  intro N p seqs1 seqs2 a h
  unfold gotoh_profile_marginal
  by_cases h1 : ∃ s ∈ seqs1, s.length ≠ (seqs1.headD []).length
  · have hne : seqs1 ≠ [] := by
      rintro rfl
      obtain ⟨s, hs, _⟩ := h1
      cases hs
    rw [(create_profile_exit seqs1).2 h1]
    simp [hne]
  · have h2 : ∃ s ∈ seqs2, s.length ≠ (seqs2.headD []).length := h.resolve_left h1
    cases hc : (create_profile seqs1 : Except Failure (Profile α)) with
    | error e =>
      cases seqs1 with
      | nil =>
        simp [create_profile] at hc
        simp [hc]
      | cons s0 rest =>
        exfalso
        have hany : ¬ ((s0 :: rest).any
            (fun s => decide (s.length ≠ ((s0 :: rest).getD 0 []).length)) = true) := by
          rw [List.any_eq_true]
          rintro ⟨s, hs, hne⟩
          exact h1 ⟨s, hs, by simpa using hne⟩
        simp only [create_profile, hany] at hc
        simp at hc
    | ok pro1 =>
      have hne : seqs1 ≠ [] := by
        rintro rfl
        simp [create_profile] at hc
      simp only [(create_profile_exit seqs2).2 h2, hne, if_false]

/-- C9, at two strings of lengths 3 and 1. -/
theorem create_profile_fails_iff_witness :
    gotoh_profile_marginal (⟨id, id⟩ : Num ℚ) (fun _ _ _ => 1) [['A', 'C', 'G'], ['A']]
      [['A']] ⟨⟨[], []⟩, 0⟩ = .error .exitFailure :=
  (create_profile_fails_iff (α := ℚ) []).2 ⟨id, id⟩ (fun _ _ _ => 1) [['A', 'C', 'G'], ['A']]
    [['A']] ⟨⟨[], []⟩, 0⟩ (Or.inl ⟨['A'], by simp, by simp⟩)

/-! ## Claim C10: the weighted frequency of a profile column -/

/-- C10: over the real numbers, for every column `n` and positive frequencies `f`,
`nuc_pi(n, (log f0, log f1, log f2, log f3, x))` is `n0*f0 + n1*f1 + n2*f2 + n3*f3`,
whatever the fifth entry `x` is. -/
theorem nuc_pi_weighted (n0 n1 n2 n3 f0 f1 f2 f3 x : ℝ)
    (h0 : 0 < f0) (h1 : 0 < f1) (h2 : 0 < f2) (h3 : 0 < f3) :
    nuc_pi realNum (vec4 n0 n1 n2 n3)
        (vec5 (Real.log f0) (Real.log f1) (Real.log f2) (Real.log f3) x)
      = n0 * f0 + n1 * f1 + n2 * f2 + n3 * f3 := by
  simp only [nuc_pi, vec4, vec5, realNum, Real.exp_log h0, Real.exp_log h1, Real.exp_log h2,
    Real.exp_log h3, zero_add]
  have e : ∀ a b : ℝ, (if a = 0 then 0 else a * b) = a * b := by
    intro a b
    split_ifs with h
    · rw [h, zero_mul]
    · rfl
  rw [e, e, e, e]

/-- C10, at the three columns of the test: (1,0,0,0), the uniform column and
(0.5,0.1,0.2,0.2) against the frequencies (0.3,0.2,0.2,0.3) give 0.3, 0.25 and 0.27. -/
theorem nuc_pi_weighted_witness :
    nuc_pi realNum (vec4 1 0 0 0)
        (vec5 (Real.log 0.3) (Real.log 0.2) (Real.log 0.2) (Real.log 0.3) (Real.log 0.25))
      = 0.3 ∧
    nuc_pi realNum (vec4 0.25 0.25 0.25 0.25)
        (vec5 (Real.log 0.3) (Real.log 0.2) (Real.log 0.2) (Real.log 0.3) (Real.log 0.25))
      = 0.25 ∧
    nuc_pi realNum (vec4 0.5 0.1 0.2 0.2)
        (vec5 (Real.log 0.3) (Real.log 0.2) (Real.log 0.2) (Real.log 0.3) (Real.log 0.25))
      = 0.27 := by
  refine ⟨?_, ?_, ?_⟩
  · rw [nuc_pi_weighted _ _ _ _ _ _ _ _ _ (by norm_num) (by norm_num) (by norm_num)
      (by norm_num)]
    norm_num
  · rw [nuc_pi_weighted _ _ _ _ _ _ _ _ _ (by norm_num) (by norm_num) (by norm_num)
      (by norm_num)]
    norm_num
  · rw [nuc_pi_weighted _ _ _ _ _ _ _ _ _ (by norm_num) (by norm_num) (by norm_num)
      (by norm_num)]
    norm_num

/-! ## Claim C10 in the arithmetic of `double` -/

/-- The doubles of the binade [1/16, 1/8): the 2^52 values `(2^52 + k) / 2^56`. -/
theorem binary64_binade (k : Nat) (hk : k < 2 ^ 52) :
    isBinary64 (((2 ^ 52 + k : Nat) : ℚ) / 2 ^ 56) ∧
    (1 : ℚ) / 16 ≤ ((2 ^ 52 + k : Nat) : ℚ) / 2 ^ 56 ∧
    ((2 ^ 52 + k : Nat) : ℚ) / 2 ^ 56 < 1 / 8 ∧
    (0 : ℚ) < ((2 ^ 52 + k : Nat) : ℚ) / 2 ^ 56 := by
  have hk2 : (k : ℚ) < 2 ^ 52 := by exact_mod_cast hk
  have hk0 : (0 : ℚ) ≤ (k : ℚ) := Nat.cast_nonneg k
  have h56 : (0 : ℚ) < 2 ^ 56 := by positivity
  refine ⟨⟨((2 ^ 52 + k : Nat) : ℤ), 1018, ?_, by norm_num, ?_⟩, ?_, ?_, ?_⟩
  · rw [abs_of_nonneg (by positivity)]
    have : 2 ^ 52 + k < 2 ^ 53 := by omega
    exact_mod_cast this
  · have e : (2 : ℚ) ^ 1074 = 2 ^ 1018 * 2 ^ 56 := by rw [← pow_add]
    rw [e, Int.cast_natCast, mul_comm (((2 ^ 52 + k : Nat) : ℚ)) (2 ^ 1018),
      mul_div_mul_left _ _ (by positivity)]
  · rw [le_div_iff₀ h56]
    push_cast
    have e2 : (1 : ℚ) / 16 * 2 ^ 56 = 2 ^ 52 := by norm_num
    rw [e2]
    linarith
  · rw [div_lt_iff₀ h56]
    push_cast
    have e2 : (1 : ℚ) / 8 * 2 ^ 56 = 2 ^ 52 + 2 ^ 52 := by norm_num
    rw [e2]
    linarith
  · apply div_pos _ h56
    push_cast
    linarith

/-- The doubles between -3 and -2 are multiples of 2^-51: a double of magnitude at least 2
has at most 51 binary places. -/
theorem binary64_grid (x : ℚ) (hx : isBinary64 x) (h1 : -3 ≤ x) (h2 : x ≤ -2) :
    ∃ z : ℤ, z ∈ Finset.Icc (-(3 * 2 ^ 51) : ℤ) (-(2 ^ 52)) ∧ x = (z : ℚ) / 2 ^ 51 := by
  obtain ⟨m, e, hm, he, rfl⟩ := hx
  have h51 : (0 : ℚ) < 2 ^ 51 := by positivity
  have h1074 : (0 : ℚ) < 2 ^ 1074 := by positivity
  by_cases hlow : e ≤ 1022
  · -- fewer than 2 in magnitude
    exfalso
    have hm2 : -(2 ^ 53 : ℤ) < m := (abs_lt.mp hm).1
    have hm3 : -(2 ^ 53 : ℚ) < (m : ℚ) := by exact_mod_cast hm2
    have hpe : (2 : ℚ) ^ e ≤ 2 ^ 1022 := pow_le_pow_right₀ (by norm_num) hlow
    have hpe0 : (0 : ℚ) < 2 ^ e := by positivity
    have hx2 := (div_le_iff₀ h1074).mp h2
    have e1 : (2 : ℚ) ^ 1074 = 2 ^ 52 * 2 ^ 1022 := by rw [← pow_add]
    have e2 : (2 : ℚ) ^ 53 = 2 * 2 ^ 52 := by norm_num
    have hlt : -(2 ^ 53 : ℚ) * 2 ^ e < (m : ℚ) * 2 ^ e := mul_lt_mul_of_pos_right hm3 hpe0
    have hle : (2 ^ 53 : ℚ) * 2 ^ e ≤ 2 ^ 53 * 2 ^ 1022 :=
      mul_le_mul_of_nonneg_left hpe (by positivity)
    have e3 : -2 * (2 : ℚ) ^ 1074 = -(2 ^ 53 * 2 ^ 1022) := by rw [e1, e2]; ring
    rw [e3] at hx2
    linarith
  · obtain ⟨d, rfl⟩ : ∃ d, e = 1023 + d := ⟨e - 1023, by omega⟩
    have e1 : (2 : ℚ) ^ 1074 = 2 ^ 51 * 2 ^ 1023 := by rw [← pow_add]
    have hval : (m : ℚ) * 2 ^ (1023 + d) / 2 ^ 1074 = ((m * 2 ^ d : ℤ) : ℚ) / 2 ^ 51 := by
      rw [e1, pow_add]
      push_cast
      rw [show (m : ℚ) * (2 ^ 1023 * 2 ^ d) = (m * 2 ^ d) * 2 ^ 1023 by ring,
        mul_div_mul_right _ _ (by positivity)]
    refine ⟨m * 2 ^ d, ?_, hval⟩
    rw [hval] at h1 h2
    have a1 := (le_div_iff₀ h51).mp h1
    have a2 := (div_le_iff₀ h51).mp h2
    rw [Finset.mem_Icc]
    constructor
    · have : ((-(3 * 2 ^ 51) : ℤ) : ℚ) ≤ ((m * 2 ^ d : ℤ) : ℚ) := by
        push_cast at a1 ⊢
        linarith
      exact_mod_cast this
    · have : ((m * 2 ^ d : ℤ) : ℚ) ≤ ((-(2 ^ 52) : ℤ) : ℚ) := by
        push_cast at a2 ⊢
        have e52 : (2 : ℚ) ^ 52 = 2 * 2 ^ 51 := by norm_num
        linarith
      exact_mod_cast this

/-- A function that sends the doubles of the binade [1/16, 1/8) to doubles between -3 and -2
takes one value at two of them: the binade holds 2^52 doubles and the target 2^51 + 1. -/
theorem binary64_log_collision (lg : ℚ → ℚ)
    (hlg : ∀ f : ℚ, isBinary64 f → 1 / 16 ≤ f → f < 1 / 8 →
      isBinary64 (lg f) ∧ -3 ≤ lg f ∧ lg f ≤ -2) :
    ∃ f g : ℚ, isBinary64 f ∧ 0 < f ∧ isBinary64 g ∧ 0 < g ∧ f ≠ g ∧ lg f = lg g := by
  have hcard : ((Finset.Icc (-(3 * 2 ^ 51) : ℤ) (-(2 ^ 52))).image
      (fun z : ℤ => (z : ℚ) / 2 ^ 51)).card < (Finset.range (2 ^ 52)).card := by
    refine lt_of_le_of_lt Finset.card_image_le ?_
    rw [Int.card_Icc, Finset.card_range]
    norm_num
  obtain ⟨a, ha, b, hb, hab, heq⟩ := Finset.exists_ne_map_eq_of_card_lt_of_maps_to hcard
    (f := fun k : Nat => lg (((2 ^ 52 + k : Nat) : ℚ) / 2 ^ 56)) (by
      intro k hk
      rw [Finset.mem_range] at hk
      obtain ⟨b1, b2, b3, -⟩ := binary64_binade k hk
      obtain ⟨c1, c2, c3⟩ := hlg _ b1 b2 b3
      obtain ⟨z, hz, hzx⟩ := binary64_grid _ c1 c2 c3
      rw [Finset.mem_image]
      exact ⟨z, hz, hzx.symm⟩)
  rw [Finset.mem_range] at ha hb
  obtain ⟨a1, -, -, a4⟩ := binary64_binade a ha
  obtain ⟨b1, -, -, b4⟩ := binary64_binade b hb
  refine ⟨_, _, a1, a4, b1, b4, ?_, heq⟩
  intro h
  apply hab
  have h56 : (2 : ℚ) ^ 56 ≠ 0 := by positivity
  have h2 := (div_left_inj' h56).mp h
  have h3 : (2 ^ 52 + a : Nat) = 2 ^ 52 + b := by exact_mod_cast h2
  omega

/-- The condition on `log` in `binary64_log_collision` is one that functions on doubles do
satisfy: -5/2 is a double, so the constant function -5/2 is an instance. -/
theorem binary64_log_range (f : ℚ) :
    isBinary64 ((fun _ : ℚ => (-5 / 2 : ℚ)) f) ∧ -3 ≤ (fun _ : ℚ => (-5 / 2 : ℚ)) f ∧
      (fun _ : ℚ => (-5 / 2 : ℚ)) f ≤ -2 := by
  refine ⟨⟨-5, 1073, by norm_num, by norm_num, ?_⟩, by norm_num, by norm_num⟩
  have e : (2 : ℚ) ^ 1074 = 2 ^ 1073 * 2 := by rw [← pow_succ]
  have h : (2 : ℚ) ^ 1073 ≠ 0 := by positivity
  rw [e]
  field_simp
  ring

/-- With a column (1,0,0,0) and exact rounding of doubles, `nuc_pi` in the arithmetic of
`double` returns `exp(pis[0])`: the test `n[i] == 0` skips the other entries. -/
theorem nuc_pi_fp_first (rnd : ℚ → ℚ) (N : Num ℚ) (pis : Nat → ℚ)
    (hr : ∀ x, isBinary64 x → rnd x = x) (he : isBinary64 (N.exp (pis 0))) :
    nuc_pi_fp rnd N (vec4 1 0 0 0) pis = N.exp (pis 0) := by
  simp [nuc_pi_fp, vec4, hr _ he]

/-- C10 as stated fails in the arithmetic of `double`.  Whatever the rounding `rnd` and the
library functions `exp` and `log` on doubles are, as long as `log` sends the doubles of
[1/16, 1/8) to doubles between -3 and -2 (the logarithms lie between -2.78 and -2.07), it is
not the case that `nuc_pi((1,0,0,0), (log f, log 0.25, log 0.25, log 0.25, 0))` returns
`1 * f + 0 * 0.25 + 0 * 0.25 + 0 * 0.25` for every positive double `f`: the result depends
on `f` through `log f` only, and `log` takes one value at two doubles of the binade. -/
theorem nuc_pi_not_exact :
    ¬ ∃ (rnd : ℚ → ℚ) (N : Num ℚ),
      (∀ f : ℚ, isBinary64 f → 1 / 16 ≤ f → f < 1 / 8 →
        isBinary64 (N.log f) ∧ -3 ≤ N.log f ∧ N.log f ≤ -2) ∧
      (∀ f : ℚ, isBinary64 f → 0 < f →
        nuc_pi_fp rnd N (vec4 1 0 0 0)
            (vec5 (N.log f) (N.log (1 / 4)) (N.log (1 / 4)) (N.log (1 / 4)) 0)
          = 1 * f + 0 * (1 / 4) + 0 * (1 / 4) + 0 * (1 / 4)) := by
  rintro ⟨rnd, N, hlog, hex⟩
  obtain ⟨f, g, hf, hf0, hg, hg0, hne, heq⟩ := binary64_log_collision N.log hlog
  have h1 := hex f hf hf0
  have h2 := hex g hg hg0
  rw [heq, h2] at h1
  apply hne
  linarith

/-! ## The cell step of `gotoh_profile_marginal` -/

/-- The cell step of `gotoh_profile_marginal` writes cell (i,j) only. -/
theorem prof_cell_frame (N : Num α) (p : Nat → Nat → Nat → α) (pro1 pro2 : Profile α)
    (i j : Nat) (s : Mats α) (c : Nat × Nat) (hc : c ≠ (i, j)) :
    (prof.cell N p pro1 pro2 i j s).cellAt c = s.cellAt c := by
  unfold prof.cell
  simp only []
  rw [selectD_frame _ _ _ _ _ hc]
  obtain ⟨a, b⟩ := c
  have h : ¬ (a = i ∧ b = j) := fun h => hc (by rw [h.1, h.2])
  simp [Mats.cellAt, setAt, h]

/-- The entries that the cell step of `gotoh_profile_marginal` writes in cell (i,j). -/
theorem prof_cell_at (N : Num α) (p : Nat → Nat → Nat → α) (pro1 pro2 : Profile α)
    (i j : Nat) (s : Mats α) (hi : 1 ≤ i) :
    (prof.cell N p pro1 pro2 i j s).cellAt (i, j)
      = (if prof.d N p pro1 pro2 s i j < min (prof.p1 N pro2 s i j) (prof.p2 N pro2 s i j)
          then (if prof.d N p pro1 pro2 s i j < min (mg94_q1 N s i j) (mg94_q2 N s i j)
            then prof.d N p pro1 pro2 s i j else min (mg94_q1 N s i j) (mg94_q2 N s i j))
          else (if min (prof.p1 N pro2 s i j) (prof.p2 N pro2 s i j)
              < min (mg94_q1 N s i j) (mg94_q2 N s i j)
            then min (prof.p1 N pro2 s i j) (prof.p2 N pro2 s i j)
            else min (mg94_q1 N s i j) (mg94_q2 N s i j)),
         min (prof.p1 N pro2 s i j) (prof.p2 N pro2 s i j),
         min (mg94_q1 N s i j) (mg94_q2 N s i j),
         if prof.d N p pro1 pro2 s i j < min (prof.p1 N pro2 s i j) (prof.p2 N pro2 s i j)
          then (if prof.d N p pro1 pro2 s i j < min (mg94_q1 N s i j) (mg94_q2 N s i j)
            then 0 else 2)
          else (if min (prof.p1 N pro2 s i j) (prof.p2 N pro2 s i j)
              < min (mg94_q1 N s i j) (mg94_q2 N s i j) then 1 else 2),
         if prof.p1 N pro2 s i j < prof.p2 N pro2 s i j then 1 else 2,
         if mg94_q1 N s i j < mg94_q2 N s i j then 1 else 2) := by
  have h1 : ¬ (i - 1 = i) := by omega
  unfold prof.cell
  simp only []
  rw [selectD_at]
  simp [mg94_q1, mg94_q2, prof.d, setAt, h1]

/-- The candidates of cell (i,j) of `gotoh_profile_marginal` read the three neighbouring
cells only. -/
theorem prof_cands_congr (N : Num α) (p : Nat → Nat → Nat → α) (pro1 pro2 : Profile α)
    (i j : Nat) (s t : Mats α)
    (h1 : s.cellAt (i - 1, j - 1) = t.cellAt (i - 1, j - 1))
    (h2 : s.cellAt (i - 1, j) = t.cellAt (i - 1, j))
    (h3 : s.cellAt (i, j - 1) = t.cellAt (i, j - 1)) :
    prof.p1 N pro2 s i j = prof.p1 N pro2 t i j ∧
    prof.p2 N pro2 s i j = prof.p2 N pro2 t i j ∧
    mg94_q1 N s i j = mg94_q1 N t i j ∧
    mg94_q2 N s i j = mg94_q2 N t i j ∧
    prof.d N p pro1 pro2 s i j = prof.d N p pro1 pro2 t i j := by
  simp only [Mats.cellAt, Prod.mk.injEq] at h1 h2 h3
  obtain ⟨a1, -, -, a4, -, -⟩ := h1
  obtain ⟨b1, -, b3, b4, -, -⟩ := h2
  obtain ⟨c1, c2, -, c4, -, -⟩ := h3
  simp only [prof.p1, prof.p2, mg94_q1, mg94_q2, prof.d, a1, a4, b1, b3, b4, c1, c2, c4]
  exact ⟨trivial, trivial, trivial, trivial, trivial⟩

/-- After the forward pass of `gotoh_profile_marginal`, the entries of every interior cell
are those that its step computes from the final matrices. -/
theorem prof_forward_cell (N : Num α) (p : Nat → Nat → Nat → α) (pro1 pro2 : Profile α)
    (i j : Nat) (hi : 1 ≤ i) (him : i ≤ pro1.cols) (hj : 1 ≤ j) (hjn : j ≤ pro2.cols) :
    (prof.forward N p pro1 pro2).cellAt (i, j)
      = (prof.cell N p pro1 pro2 i j (prof.forward N p pro1 pro2)).cellAt (i, j) := by
  unfold prof.forward
  simp only []
  refine (grid_stable Mats.cellAt (fun i j s => prof.cell N p pro1 pro2 i j s)
    (fun i j s c hc => prof_cell_frame N p pro1 pro2 i j s c hc) ?_
    pro1.cols pro2.cols _ i j hi him hj hjn).symm
  intro i j s t hi _ h1 h2 h3
  obtain ⟨e1, e2, e3, e4, e5⟩ := prof_cands_congr N p pro1 pro2 i j s t h1 h2 h3
  rw [prof_cell_at N p pro1 pro2 i j s hi, prof_cell_at N p pro1 pro2 i j t hi,
    e1, e2, e3, e4, e5]

/-! ## The recurrences satisfied by the final matrices of `mg94_marginal` -/

/-- Interior cells of `mg94_marginal`: `P`, `Q`, the gap tags, `Bd` and `D` in terms of the
candidates computed from the final matrices. -/
theorem mg94_forward_eqs (N : Num α) (p : Nat → Nat → Nat → α) (seq_a seq_b : Str)
    (i j : Nat) (hi : 1 ≤ i) (him : i ≤ seq_a.length) (hj : 1 ≤ j) (hjn : j ≤ seq_b.length) :
    (mg94_forward N p seq_a seq_b).P i j
      = min (mg94_p1 N seq_b (mg94_forward N p seq_a seq_b) i j)
          (mg94_p2 N seq_b (mg94_forward N p seq_a seq_b) i j) ∧
    (mg94_forward N p seq_a seq_b).Q i j
      = min (mg94_q1 N (mg94_forward N p seq_a seq_b) i j)
          (mg94_q2 N (mg94_forward N p seq_a seq_b) i j) ∧
    (mg94_forward N p seq_a seq_b).Bp i j
      = (if mg94_p1 N seq_b (mg94_forward N p seq_a seq_b) i j
          < mg94_p2 N seq_b (mg94_forward N p seq_a seq_b) i j then 1 else 2) ∧
    (mg94_forward N p seq_a seq_b).Bq i j
      = (if mg94_q1 N (mg94_forward N p seq_a seq_b) i j
          < mg94_q2 N (mg94_forward N p seq_a seq_b) i j then 1 else 2) ∧
    (mg94_forward N p seq_a seq_b).Bd i j
      = (if mg94_d N p seq_a seq_b (mg94_forward N p seq_a seq_b) i j
            < (mg94_forward N p seq_a seq_b).P i j
          then (if mg94_d N p seq_a seq_b (mg94_forward N p seq_a seq_b) i j
            < (mg94_forward N p seq_a seq_b).Q i j then 0 else 2)
          else (if (mg94_forward N p seq_a seq_b).P i j < (mg94_forward N p seq_a seq_b).Q i j
            then 1 else 2)) ∧
    (mg94_forward N p seq_a seq_b).D i j
      = (if mg94_d N p seq_a seq_b (mg94_forward N p seq_a seq_b) i j
            < (mg94_forward N p seq_a seq_b).P i j
          then (if mg94_d N p seq_a seq_b (mg94_forward N p seq_a seq_b) i j
            < (mg94_forward N p seq_a seq_b).Q i j
            then mg94_d N p seq_a seq_b (mg94_forward N p seq_a seq_b) i j
            else (mg94_forward N p seq_a seq_b).Q i j)
          else (if (mg94_forward N p seq_a seq_b).P i j < (mg94_forward N p seq_a seq_b).Q i j
            then (mg94_forward N p seq_a seq_b).P i j
            else (mg94_forward N p seq_a seq_b).Q i j)) := by
  have h := mg94_forward_cell N p seq_a seq_b i j hi him hj hjn
  rw [mg94_cell_at N p seq_a seq_b i j _ hi] at h
  simp only [Mats.cellAt, Prod.mk.injEq] at h
  obtain ⟨hD, hP, hQ, hBd, hBp, hBq⟩ := h
  refine ⟨hP, hQ, hBp, hBq, ?_, ?_⟩
  · rw [← hP, ← hQ] at hBd
    exact hBd
  · rw [← hP, ← hQ] at hD
    exact hD

/-- Interior cells of `gotoh_profile_marginal`: the gap tags in terms of the candidates
computed from the final matrices. -/
theorem prof_forward_tags (N : Num α) (p : Nat → Nat → Nat → α) (pro1 pro2 : Profile α)
    (i j : Nat) (hi : 1 ≤ i) (him : i ≤ pro1.cols) (hj : 1 ≤ j) (hjn : j ≤ pro2.cols) :
    (prof.forward N p pro1 pro2).Bp i j
      = (if prof.p1 N pro2 (prof.forward N p pro1 pro2) i j
          < prof.p2 N pro2 (prof.forward N p pro1 pro2) i j then 1 else 2) ∧
    (prof.forward N p pro1 pro2).Bq i j
      = (if mg94_q1 N (prof.forward N p pro1 pro2) i j
          < mg94_q2 N (prof.forward N p pro1 pro2) i j then 1 else 2) := by
  have h := prof_forward_cell N p pro1 pro2 i j hi him hj hjn
  rw [prof_cell_at N p pro1 pro2 i j _ hi] at h
  simp only [Mats.cellAt, Prod.mk.injEq] at h
  exact ⟨h.2.2.2.2.1, h.2.2.2.2.2⟩

/-! ## Claim C4: open is preferred to extend on a tie -/

/-- C4: at every interior cell of `mg94_marginal` and of `gotoh_profile_marginal`, the tag
`Bp(i,j)` is 1 (extend) exactly when `p1 < p2` and 2 (open) otherwise, in particular on a
tie; likewise `Bq(i,j)` with `q1` and `q2`.  The candidates are those of the cell, computed
from the final matrices. -/
theorem gap_tag_extend_iff (N : Num α) (p : Nat → Nat → Nat → α) (i j : Nat) (hi : 1 ≤ i)
    (hj : 1 ≤ j) :
    (∀ seq_a seq_b : Str, i ≤ seq_a.length → j ≤ seq_b.length →
      ((mg94_forward N p seq_a seq_b).Bp i j = 1
        ↔ mg94_p1 N seq_b (mg94_forward N p seq_a seq_b) i j
            < mg94_p2 N seq_b (mg94_forward N p seq_a seq_b) i j) ∧
      ((mg94_forward N p seq_a seq_b).Bp i j = 2
        ↔ ¬ mg94_p1 N seq_b (mg94_forward N p seq_a seq_b) i j
            < mg94_p2 N seq_b (mg94_forward N p seq_a seq_b) i j) ∧
      ((mg94_forward N p seq_a seq_b).Bq i j = 1
        ↔ mg94_q1 N (mg94_forward N p seq_a seq_b) i j
            < mg94_q2 N (mg94_forward N p seq_a seq_b) i j) ∧
      ((mg94_forward N p seq_a seq_b).Bq i j = 2
        ↔ ¬ mg94_q1 N (mg94_forward N p seq_a seq_b) i j
            < mg94_q2 N (mg94_forward N p seq_a seq_b) i j)) ∧
    (∀ pro1 pro2 : Profile α, i ≤ pro1.cols → j ≤ pro2.cols →
      ((prof.forward N p pro1 pro2).Bp i j = 1
        ↔ prof.p1 N pro2 (prof.forward N p pro1 pro2) i j
            < prof.p2 N pro2 (prof.forward N p pro1 pro2) i j) ∧
      ((prof.forward N p pro1 pro2).Bp i j = 2
        ↔ ¬ prof.p1 N pro2 (prof.forward N p pro1 pro2) i j
            < prof.p2 N pro2 (prof.forward N p pro1 pro2) i j) ∧
      ((prof.forward N p pro1 pro2).Bq i j = 1
        ↔ mg94_q1 N (prof.forward N p pro1 pro2) i j
            < mg94_q2 N (prof.forward N p pro1 pro2) i j) ∧
      ((prof.forward N p pro1 pro2).Bq i j = 2
        ↔ ¬ mg94_q1 N (prof.forward N p pro1 pro2) i j
            < mg94_q2 N (prof.forward N p pro1 pro2) i j)) := by
  constructor
  · intro seq_a seq_b him hjn
    obtain ⟨-, -, hBp, hBq, -, -⟩ := mg94_forward_eqs N p seq_a seq_b i j hi him hj hjn
    rw [hBp, hBq]
    refine ⟨?_, ?_, ?_, ?_⟩ <;> split_ifs with h <;> simp [h]
  · intro pro1 pro2 him hjn
    obtain ⟨hBp, hBq⟩ := prof_forward_tags N p pro1 pro2 i j hi him hj hjn
    rw [hBp, hBq]
    refine ⟨?_, ?_, ?_, ?_⟩ <;> split_ifs with h <;> simp [h]

/-- C4, at cell (1,1) of the pair AAA, A over the real numbers. -/
theorem gap_tag_extend_iff_witness :
    ((mg94_forward realNum (fun _ _ _ => 1 / 4) ['A', 'A', 'A'] ['A']).Bp 1 1 = 2
      ↔ ¬ mg94_p1 realNum ['A']
            (mg94_forward realNum (fun _ _ _ => 1 / 4) ['A', 'A', 'A'] ['A']) 1 1
          < mg94_p2 realNum ['A']
            (mg94_forward realNum (fun _ _ _ => 1 / 4) ['A', 'A', 'A'] ['A']) 1 1) :=
  ((gap_tag_extend_iff realNum (fun _ _ _ => 1 / 4) 1 1 (le_refl 1) (le_refl 1)).1
    ['A', 'A', 'A'] ['A'] (by decide) (by decide)).2.1

/-! ## Claim C3: the choice among match, insertion and deletion -/

/-- A property that every iteration preserves holds after the loop. -/
theorem forLoop_inv {σ : Type} (Pr : σ → Prop) (body : Nat → σ → σ) (lo hi : Nat) (s0 : σ)
    (h0 : Pr s0) (hstep : ∀ k s, lo ≤ k → k < hi → Pr s → Pr (body k s)) :
    Pr (forLoop lo hi body s0) := by
  unfold forLoop
  have : ∀ (L : List Nat) (s : σ), (∀ k ∈ L, lo ≤ k ∧ k < hi) → Pr s →
      Pr (L.foldl (fun s k => body k s) s) := by
    intro L
    induction L with
    | nil => intro s _ hs; exact hs
    | cons k rest ih =>
      intro s hL hs
      simp only [List.foldl_cons]
      apply ih
      · intro x hx
        exact hL x (List.mem_cons_of_mem _ hx)
      · exact hstep k s (hL k (List.mem_cons_self _ _)).1 (hL k (List.mem_cons_self _ _)).2 hs
  apply this _ _ _ h0
  intro k hk
  rw [List.mem_range'_1] at hk
  omega

/-- A loop whose iteration `k` writes cell `tgt k` leaves the other cells as they were. -/
theorem forLoop_frame {σ ι V : Type} (cellOf : σ → ι → V) (body : Nat → σ → σ)
    (tgt : Nat → ι)
    (frame : ∀ k s c, c ≠ tgt k → cellOf (body k s) c = cellOf s c)
    (lo hi : Nat) (s0 : σ) (c : ι) (hc : ∀ k, lo ≤ k → k < hi → c ≠ tgt k) :
    cellOf (forLoop lo hi body s0) c = cellOf s0 c := by
  unfold forLoop
  apply foldl_frame cellOf body tgt frame
  intro k hk
  rw [List.mem_range'_1] at hk
  exact hc k hk.1 (by omega)

/-- A loop whose iteration `k` writes cell `tgt k` after reading cell `dep k`, and whose
later iterations write neither: every iteration is stable on the final state. -/
theorem forLoop_stable {σ ι V : Type} (cellOf : σ → ι → V) (body : Nat → σ → σ)
    (tgt dep : Nat → ι)
    (frame : ∀ k s c, c ≠ tgt k → cellOf (body k s) c = cellOf s c)
    (loc : ∀ k s t, cellOf s (dep k) = cellOf t (dep k) →
      cellOf (body k s) (tgt k) = cellOf (body k t) (tgt k))
    (lo hi : Nat) (s0 : σ)
    (hself : ∀ k, lo ≤ k → k < hi → dep k ≠ tgt k)
    (hord : ∀ k k2, lo ≤ k → k < k2 → k2 < hi → tgt k2 ≠ tgt k ∧ tgt k2 ≠ dep k)
    (k : Nat) (hk : lo ≤ k) (hk2 : k < hi) :
    cellOf (body k (forLoop lo hi body s0)) (tgt k) = cellOf (forLoop lo hi body s0) (tgt k) := by
  unfold forLoop
  have hmem : ∀ x, x ∈ List.range' lo (hi - lo) ↔ lo ≤ x ∧ x < hi := by
    intro x
    rw [List.mem_range'_1]
    omega
  apply foldl_stable cellOf body tgt (fun a c => c = dep a) frame (List.range' lo (hi - lo)) s0
  · intro a _ s t h
    exact loc a s t (h _ rfl)
  · intro a ha h
    exact hself a ((hmem a).1 ha).1 ((hmem a).1 ha).2 h.symm
  · refine (List.pairwise_lt_range' lo (hi - lo)).imp_of_mem ?_
    intro a b ha hb hlt
    exact hord a b ((hmem a).1 ha).1 hlt ((hmem b).1 hb).2
  · exact (hmem k).2 ⟨hk, hk2⟩

/-! ## The initialisation of `mg94_marginal` -/

/-- The initialisation is the three explicit cells followed by the two loops: a loop whose
guard `n + 1 >= 2` fails has no iteration. -/
theorem mg94_init_loops (N : Num α) (seq_b : Str) (m n : Nat) :
    mg94_init N seq_b m n
      = forLoop 2 (m + 1) (mg94_col0 N) (forLoop 2 (n + 1) (mg94_row0 N seq_b)
          (mg94_init0 N seq_b)) := by
  have hempty : ∀ {σ : Type} (k : Nat) (body : Nat → σ → σ) (s : σ), ¬ (k + 1 ≥ 2) →
      forLoop 2 (k + 1) body s = s := by
    intro σ k body s hk
    have : k + 1 - 2 = 0 := by omega
    simp [forLoop, this]
  unfold mg94_init
  simp only []
  by_cases hn : n + 1 ≥ 2 <;> by_cases hm : m + 1 ≥ 2
  · rw [if_pos hn, if_pos hm]
  · rw [if_pos hn, if_neg hm, hempty m _ _ hm]
  · rw [if_neg hn, if_pos hm, hempty n _ _ hn]
  · rw [if_neg hn, if_neg hm, hempty m _ _ hm, hempty n _ _ hn]

theorem mg94_row0_frame (N : Num α) (seq_b : Str) (j : Nat) (s : Mats α) (c : Nat × Nat)
    (hc : c ≠ (0, j)) : (mg94_row0 N seq_b j s).rowPart c = s.rowPart c := by
  obtain ⟨a, b⟩ := c
  have h : ¬ (a = 0 ∧ b = j) := fun h => hc (by rw [h.1, h.2])
  simp [mg94_row0, Mats.rowPart, setAt, h]

theorem mg94_row0_at (N : Num α) (seq_b : Str) (j : Nat) (s : Mats α) (hj : 1 ≤ j) :
    (mg94_row0 N seq_b j s).rowPart (0, j)
      = (s.D 0 (j - 1) - insertion_ext N - nuc_freqs N (nt4_table (charAt seq_b (j - 1))),
         s.P 0 (j - 1) - insertion_ext N - nuc_freqs N (nt4_table (charAt seq_b (j - 1))),
         1, 1) := by
  have h : ¬ (j - 1 = j) := by omega
  simp [mg94_row0, Mats.rowPart, setAt, h]

theorem mg94_col0_frame (N : Num α) (i : Nat) (s : Mats α) (c : Nat × Nat)
    (hc : c ≠ (i, 0)) : (mg94_col0 N i s).colPart c = s.colPart c := by
  obtain ⟨a, b⟩ := c
  have h : ¬ (a = i ∧ b = 0) := fun h => hc (by rw [h.1, h.2])
  simp [mg94_col0, Mats.colPart, setAt, h]

theorem mg94_col0_at (N : Num α) (i : Nat) (s : Mats α) (hi : 1 ≤ i) :
    (mg94_col0 N i s).colPart (i, 0)
      = (s.D (i - 1) 0 - deletion_ext N, s.Q (i - 1) 0 - deletion_ext N, 2, 1) := by
  have h : ¬ (i - 1 = i) := by omega
  simp [mg94_col0, Mats.colPart, setAt, h]

/-- The first-row loop writes neither `Q` nor `Bq`. -/
theorem mg94_rowLoop_Q (N : Num α) (seq_b : Str) (n : Nat) (s0 : Mats α) :
    (forLoop 2 (n + 1) (mg94_row0 N seq_b) s0).Q = s0.Q ∧
    (forLoop 2 (n + 1) (mg94_row0 N seq_b) s0).Bq = s0.Bq :=
  forLoop_inv (fun s : Mats α => s.Q = s0.Q ∧ s.Bq = s0.Bq) _ _ _ _ ⟨rfl, rfl⟩ (fun _ _ _ _ h => h)

/-- The first-column loop writes neither `P` nor `Bp`. -/
theorem mg94_colLoop_P (N : Num α) (m : Nat) (s0 : Mats α) :
    (forLoop 2 (m + 1) (mg94_col0 N) s0).P = s0.P ∧
    (forLoop 2 (m + 1) (mg94_col0 N) s0).Bp = s0.Bp :=
  forLoop_inv (fun s : Mats α => s.P = s0.P ∧ s.Bp = s0.Bp) _ _ _ _ ⟨rfl, rfl⟩ (fun _ _ _ _ h => h)

/-- Cells of the first row after the first-row loop. -/
theorem mg94_rowLoop_at (N : Num α) (seq_b : Str) (n : Nat) (s0 : Mats α) (j : Nat)
    (hj : 2 ≤ j) (hjn : j ≤ n) :
    (forLoop 2 (n + 1) (mg94_row0 N seq_b) s0).rowPart (0, j)
      = ((forLoop 2 (n + 1) (mg94_row0 N seq_b) s0).D 0 (j - 1) - insertion_ext N
            - nuc_freqs N (nt4_table (charAt seq_b (j - 1))),
         (forLoop 2 (n + 1) (mg94_row0 N seq_b) s0).P 0 (j - 1) - insertion_ext N
            - nuc_freqs N (nt4_table (charAt seq_b (j - 1))),
         1, 1) := by
  rw [← mg94_row0_at N seq_b j _ (by omega)]
  refine (forLoop_stable Mats.rowPart (mg94_row0 N seq_b) (fun j => (0, j))
    (fun j => (0, j - 1)) (fun k s c hc => mg94_row0_frame N seq_b k s c hc) ?_ 2 (n + 1) s0
    ?_ ?_ j hj (by omega)).symm
  · intro k s t h
    by_cases hk : 1 ≤ k
    · rw [mg94_row0_at N seq_b k s hk, mg94_row0_at N seq_b k t hk]
      simp only [Mats.rowPart, Prod.mk.injEq] at h
      rw [h.1, h.2.1]
    · have hk0 : k = 0 := by omega
      subst hk0
      simp [Mats.rowPart] at h
      simp [mg94_row0, Mats.rowPart, setAt, h.1, h.2.1]
  · intro k hk _ h
    simp only [Prod.mk.injEq] at h
    omega
  · intro k k2 hk hlt _
    simp only [ne_eq, Prod.mk.injEq]
    omega

/-- Cells off the range of the first-row loop keep their entries. -/
theorem mg94_rowLoop_off (N : Num α) (seq_b : Str) (n : Nat) (s0 : Mats α) (c : Nat × Nat)
    (hc : c.1 ≠ 0 ∨ c.2 < 2 ∨ n < c.2) :
    (forLoop 2 (n + 1) (mg94_row0 N seq_b) s0).rowPart c = s0.rowPart c := by
  apply forLoop_frame Mats.rowPart (mg94_row0 N seq_b) (fun j => (0, j))
    (fun k s c hc => mg94_row0_frame N seq_b k s c hc)
  intro k hk hk2 h
  rw [h] at hc
  simp only at hc
  omega

/-- Cells of the first column after the first-column loop. -/
theorem mg94_colLoop_at (N : Num α) (m : Nat) (s0 : Mats α) (i : Nat)
    (hi : 2 ≤ i) (him : i ≤ m) :
    (forLoop 2 (m + 1) (mg94_col0 N) s0).colPart (i, 0)
      = ((forLoop 2 (m + 1) (mg94_col0 N) s0).D (i - 1) 0 - deletion_ext N,
         (forLoop 2 (m + 1) (mg94_col0 N) s0).Q (i - 1) 0 - deletion_ext N, 2, 1) := by
  rw [← mg94_col0_at N i _ (by omega)]
  refine (forLoop_stable Mats.colPart (mg94_col0 N) (fun i => (i, 0))
    (fun i => (i - 1, 0)) (fun k s c hc => mg94_col0_frame N k s c hc) ?_ 2 (m + 1) s0
    ?_ ?_ i hi (by omega)).symm
  · intro k s t h
    by_cases hk : 1 ≤ k
    · rw [mg94_col0_at N k s hk, mg94_col0_at N k t hk]
      simp only [Mats.colPart, Prod.mk.injEq] at h
      rw [h.1, h.2.1]
    · have hk0 : k = 0 := by omega
      subst hk0
      simp [Mats.colPart] at h
      simp [mg94_col0, Mats.colPart, setAt, h.1, h.2.1]
  · intro k hk _ h
    simp only [Prod.mk.injEq] at h
    omega
  · intro k k2 hk hlt _
    simp only [ne_eq, Prod.mk.injEq]
    omega

/-- Cells off the range of the first-column loop keep their entries. -/
theorem mg94_colLoop_off (N : Num α) (m : Nat) (s0 : Mats α) (c : Nat × Nat)
    (hc : c.2 ≠ 0 ∨ c.1 < 2 ∨ m < c.1) :
    (forLoop 2 (m + 1) (mg94_col0 N) s0).colPart c = s0.colPart c := by
  apply forLoop_frame Mats.colPart (mg94_col0 N) (fun i => (i, 0))
    (fun k s c hc => mg94_col0_frame N k s c hc)
  intro k hk hk2 h
  rw [h] at hc
  simp only at hc
  omega

/-- Row 0 and column 0 after the initialisation of `mg94_marginal`. -/
theorem mg94_init_border (N : Num α) (seq_b : Str) (m n : Nat) :
    Mg94Border N seq_b m n (mg94_init N seq_b m n) := by
  rw [mg94_init_loops]
  have hP := (mg94_colLoop_P N m (forLoop 2 (n + 1) (mg94_row0 N seq_b) (mg94_init0 N seq_b)))
  have hQ := (mg94_rowLoop_Q N seq_b n (mg94_init0 N seq_b))
  have hcolAt := fun i => mg94_colLoop_at N m
    (forLoop 2 (n + 1) (mg94_row0 N seq_b) (mg94_init0 N seq_b)) i
  have hcolOff := fun c => mg94_colLoop_off N m
    (forLoop 2 (n + 1) (mg94_row0 N seq_b) (mg94_init0 N seq_b)) c
  have hrowAt := fun j => mg94_rowLoop_at N seq_b n (mg94_init0 N seq_b) j
  have hrowOff := fun c => mg94_rowLoop_off N seq_b n (mg94_init0 N seq_b) c
  simp only [Mats.colPart, Mats.rowPart, Prod.mk.injEq] at hcolAt hcolOff hrowAt hrowOff
  -- entries of the final matrices in terms of those after the first-row loop
  have eD : ∀ a b, (b ≠ 0 ∨ a < 2 ∨ m < a) →
      (forLoop 2 (m + 1) (mg94_col0 N)
        (forLoop 2 (n + 1) (mg94_row0 N seq_b) (mg94_init0 N seq_b))).D a b
      = (forLoop 2 (n + 1) (mg94_row0 N seq_b) (mg94_init0 N seq_b)).D a b :=
    fun a b h => (hcolOff (a, b) h).1
  have eBd : ∀ a b, (b ≠ 0 ∨ a < 2 ∨ m < a) →
      (forLoop 2 (m + 1) (mg94_col0 N)
        (forLoop 2 (n + 1) (mg94_row0 N seq_b) (mg94_init0 N seq_b))).Bd a b
      = (forLoop 2 (n + 1) (mg94_row0 N seq_b) (mg94_init0 N seq_b)).Bd a b :=
    fun a b h => (hcolOff (a, b) h).2.2.1
  have eQ : ∀ a b, (b ≠ 0 ∨ a < 2 ∨ m < a) →
      (forLoop 2 (m + 1) (mg94_col0 N)
        (forLoop 2 (n + 1) (mg94_row0 N seq_b) (mg94_init0 N seq_b))).Q a b
      = (mg94_init0 N seq_b).Q a b :=
    fun a b h => by rw [(hcolOff (a, b) h).2.1, hQ.1]
  have eBq : ∀ a b, (b ≠ 0 ∨ a < 2 ∨ m < a) →
      (forLoop 2 (m + 1) (mg94_col0 N)
        (forLoop 2 (n + 1) (mg94_row0 N seq_b) (mg94_init0 N seq_b))).Bq a b
      = (mg94_init0 N seq_b).Bq a b :=
    fun a b h => by rw [(hcolOff (a, b) h).2.2.2, hQ.2]
  have rD : ∀ a b, (a ≠ 0 ∨ b < 2 ∨ n < b) →
      (forLoop 2 (n + 1) (mg94_row0 N seq_b) (mg94_init0 N seq_b)).D a b
      = (mg94_init0 N seq_b).D a b :=
    fun a b h => (hrowOff (a, b) h).1
  have rP : ∀ a b, (a ≠ 0 ∨ b < 2 ∨ n < b) →
      (forLoop 2 (n + 1) (mg94_row0 N seq_b) (mg94_init0 N seq_b)).P a b
      = (mg94_init0 N seq_b).P a b :=
    fun a b h => (hrowOff (a, b) h).2.1
  have rBd : ∀ a b, (a ≠ 0 ∨ b < 2 ∨ n < b) →
      (forLoop 2 (n + 1) (mg94_row0 N seq_b) (mg94_init0 N seq_b)).Bd a b
      = (mg94_init0 N seq_b).Bd a b :=
    fun a b h => (hrowOff (a, b) h).2.2.1
  have rBp : ∀ a b, (a ≠ 0 ∨ b < 2 ∨ n < b) →
      (forLoop 2 (n + 1) (mg94_row0 N seq_b) (mg94_init0 N seq_b)).Bp a b
      = (mg94_init0 N seq_b).Bp a b :=
    fun a b h => (hrowOff (a, b) h).2.2.2
  constructor
  · rw [eD 0 0 (by omega), rD 0 0 (by omega)]; simp [mg94_init0, setAt]
  · rw [eBd 0 0 (by omega), rBd 0 0 (by omega)]; simp [mg94_init0, setAt]
  · rw [eD 0 1 (by omega), rD 0 1 (by omega)]; simp [mg94_init0, setAt]
  · rw [hP.1, rP 0 1 (by omega)]; simp [mg94_init0, setAt]
  · rw [eD 1 0 (by omega), rD 1 0 (by omega)]; simp [mg94_init0, setAt]
  · rw [eQ 1 0 (by omega)]; simp [mg94_init0, setAt]
  · intro j hj hjn
    rw [eD 0 j (by omega), eD 0 (j - 1) (by omega)]
    exact (hrowAt j hj hjn).1
  · intro j hj hjn
    rw [hP.1]
    exact (hrowAt j hj hjn).2.1
  · intro i hi him
    exact (hcolAt i hi him).1
  · intro i hi him
    exact (hcolAt i hi him).2.1
  · intro j hj hjn
    rw [eBd 0 j (by omega)]
    by_cases h2 : 2 ≤ j
    · exact (hrowAt j h2 hjn).2.2.1
    · have : j = 1 := by omega
      subst this
      rw [rBd 0 1 (by omega)]; simp [mg94_init0, setAt]
  · rw [hP.2, rBp 0 1 (by omega)]; simp [mg94_init0, setAt]
  · intro j hj hjn
    rw [hP.2]
    exact (hrowAt j hj hjn).2.2.2
  · intro i hi him
    by_cases h2 : 2 ≤ i
    · exact (hcolAt i h2 him).2.2.1
    · have : i = 1 := by omega
      subst this
      rw [eBd 1 0 (by omega), rBd 1 0 (by omega)]; simp [mg94_init0, setAt]
  · rw [eBq 1 0 (by omega)]; simp [mg94_init0, setAt]
  · intro i hi him
    exact (hcolAt i hi him).2.2.2
  · intro i
    rw [hP.1, rP i 0 (by omega)]; simp [mg94_init0, setAt, Mats.fresh]
  · intro j
    rw [eQ 0 j (by omega)]; simp [mg94_init0, setAt, Mats.fresh]

/-- Row 0 and column 0 after the forward pass of `mg94_marginal`. -/
theorem mg94_forward_border_spec (N : Num α) (p : Nat → Nat → Nat → α) (seq_a seq_b : Str) :
    Mg94Border N seq_b seq_a.length seq_b.length (mg94_forward N p seq_a seq_b) := by
  have hI := mg94_init_border N seq_b seq_a.length seq_b.length
  have hb := fun c hc => mg94_forward_border N p seq_a seq_b c hc
  simp only [Mats.cellAt, Prod.mk.injEq] at hb
  have eD : ∀ a b, (a = 0 ∨ b = 0) → (mg94_forward N p seq_a seq_b).D a b
      = (mg94_init N seq_b seq_a.length seq_b.length).D a b := fun a b h => (hb (a, b) h).1
  have eP : ∀ a b, (a = 0 ∨ b = 0) → (mg94_forward N p seq_a seq_b).P a b
      = (mg94_init N seq_b seq_a.length seq_b.length).P a b := fun a b h => (hb (a, b) h).2.1
  have eQ : ∀ a b, (a = 0 ∨ b = 0) → (mg94_forward N p seq_a seq_b).Q a b
      = (mg94_init N seq_b seq_a.length seq_b.length).Q a b := fun a b h => (hb (a, b) h).2.2.1
  have eBd : ∀ a b, (a = 0 ∨ b = 0) → (mg94_forward N p seq_a seq_b).Bd a b
      = (mg94_init N seq_b seq_a.length seq_b.length).Bd a b :=
    fun a b h => (hb (a, b) h).2.2.2.1
  have eBp : ∀ a b, (a = 0 ∨ b = 0) → (mg94_forward N p seq_a seq_b).Bp a b
      = (mg94_init N seq_b seq_a.length seq_b.length).Bp a b :=
    fun a b h => (hb (a, b) h).2.2.2.2.1
  have eBq : ∀ a b, (a = 0 ∨ b = 0) → (mg94_forward N p seq_a seq_b).Bq a b
      = (mg94_init N seq_b seq_a.length seq_b.length).Bq a b :=
    fun a b h => (hb (a, b) h).2.2.2.2.2
  constructor
  · rw [eD 0 0 (Or.inl rfl)]; exact hI.d00
  · rw [eBd 0 0 (Or.inl rfl)]; exact hI.bd00
  · rw [eD 0 1 (Or.inl rfl)]; exact hI.d01
  · rw [eP 0 1 (Or.inl rfl)]; exact hI.p01
  · rw [eD 1 0 (Or.inr rfl)]; exact hI.d10
  · rw [eQ 1 0 (Or.inr rfl)]; exact hI.q10
  · intro j hj hjn
    rw [eD 0 j (Or.inl rfl), eD 0 (j - 1) (Or.inl rfl)]; exact hI.drow j hj hjn
  · intro j hj hjn
    rw [eP 0 j (Or.inl rfl), eP 0 (j - 1) (Or.inl rfl)]; exact hI.prow j hj hjn
  · intro i hi him
    rw [eD i 0 (Or.inr rfl), eD (i - 1) 0 (Or.inr rfl)]; exact hI.dcol i hi him
  · intro i hi him
    rw [eQ i 0 (Or.inr rfl), eQ (i - 1) 0 (Or.inr rfl)]; exact hI.qcol i hi him
  · intro j hj hjn
    rw [eBd 0 j (Or.inl rfl)]; exact hI.bdrow j hj hjn
  · rw [eBp 0 1 (Or.inl rfl)]; exact hI.bp01
  · intro j hj hjn
    rw [eBp 0 j (Or.inl rfl)]; exact hI.bprow j hj hjn
  · intro i hi him
    rw [eBd i 0 (Or.inr rfl)]; exact hI.bdcol i hi him
  · rw [eBq 1 0 (Or.inr rfl)]; exact hI.bq10
  · intro i hi him
    rw [eBq i 0 (Or.inr rfl)]; exact hI.bqcol i hi him
  · intro i
    rw [eP i 0 (Or.inr rfl)]; exact hI.pcol i
  · intro j
    rw [eQ 0 j (Or.inl rfl)]; exact hI.qrow j

/-! ## Bounds on the gap parameters -/

/-- The real logarithm has the properties of `Num.Sound`. -/
theorem realNum_sound : realNum.Sound where
  log_nonpos := fun x hx hx1 => Real.log_nonpos hx.le hx1
  log_lower := fun x hx => by
    have := Real.one_sub_inv_le_log_of_pos hx
    rw [one_div]
    exact this
  log_upper := fun x hx => Real.log_le_sub_one_of_pos hx

/-- Bounds on the gap parameters of `mg94_marginal` for a sound logarithm. -/
theorem Num.Sound.gap_bounds {N : Num α} (hN : N.Sound) :
    (-999 ≤ insertion N ∧ insertion N ≤ 0) ∧
    (-999 ≤ deletion N ∧ deletion N ≤ 0) ∧
    (-1 ≤ insertion_ext N ∧ insertion_ext N ≤ 0) ∧
    (-1 ≤ deletion_ext N ∧ deletion_ext N ≤ 0) ∧
    (-1 ≤ no_insertion N ∧ no_insertion N ≤ 0) ∧
    (-1 ≤ no_deletion N ∧ no_deletion N ≤ 0) ∧
    (-5 ≤ no_insertion_ext N ∧ no_insertion_ext N ≤ 0) ∧
    (-5 ≤ no_deletion_ext N ∧ no_deletion_ext N ≤ 0) ∧
    (∀ k, -5 ≤ nuc_freqs N k ∧ nuc_freqs N k ≤ 0) := by
  have key : ∀ x c : α, 0 < x → x ≤ 1 → 1 - 1 / x ≥ c → c ≤ N.log x ∧ N.log x ≤ 0 :=
    fun x c hx hx1 hc => ⟨le_trans hc (hN.log_lower x hx), hN.log_nonpos x hx hx1⟩
  refine ⟨?_, ?_, ?_, ?_, ?_, ?_, ?_, ?_, ?_⟩
  · exact key _ _ (by norm_num) (by norm_num) (by norm_num)
  · exact key _ _ (by norm_num) (by norm_num) (by norm_num)
  · exact key _ _ (by norm_num) (by norm_num) (by norm_num)
  · exact key _ _ (by norm_num) (by norm_num) (by norm_num)
  · exact key _ _ (by norm_num) (by norm_num) (by norm_num)
  · exact key _ _ (by norm_num) (by norm_num) (by norm_num)
  · exact key _ _ (by norm_num) (by norm_num) (by norm_num)
  · exact key _ _ (by norm_num) (by norm_num) (by norm_num)
  · intro k
    unfold nuc_freqs
    split
    · exact key _ _ (by norm_num) (by norm_num) (by norm_num)
    · exact key _ _ (by norm_num) (by norm_num) (by norm_num)
    · exact key _ _ (by norm_num) (by norm_num) (by norm_num)
    · exact key _ _ (by norm_num) (by norm_num) (by norm_num)
    · exact key _ _ (by norm_num) (by norm_num) (by norm_num)

/-- The sentinel `fltMax` is at least 2^127. -/
theorem fltMax_large : (2 : α) ^ 127 ≤ fltMax := by
  unfold fltMax
  have h : (2 : α) ^ 127 = 2 ^ 23 * 2 ^ 104 := by rw [← pow_add]
  rw [h]
  apply mul_le_mul_of_nonneg_right _ (by positivity)
  norm_num

theorem framed_nil : Framed [] := by
  intro pre k post h _ _
  have h1 : (pre ++ List.replicate k '-' ++ post).length = 0 := by rw [← h]; rfl
  simp only [List.length_append, List.length_replicate] at h1
  have : k = 0 := by omega
  rw [this]

/-- A symbol other than the gap in front of a framed string. -/
theorem framed_cons (c : Char) (s : Str) (hc : c ≠ '-') (hs : Framed s) : Framed (c :: s) := by
  intro pre k post h hpre hpost
  cases pre with
  | nil =>
    cases k with
    | zero => rfl
    | succ k =>
      simp only [List.nil_append, List.replicate_succ, List.cons_append, List.cons.injEq] at h
      exact absurd h.1 hc
  | cons x pre1 =>
    simp only [List.cons_append, List.cons.injEq] at h
    apply hs pre1 k post h.2 _ hpost
    cases pre1 with
    | nil => simp
    | cons y pre2 =>
      rw [List.getLast?_cons_cons] at hpre
      exact hpre

/-- Three gaps in front of a framed string. -/
theorem framed_gaps (s : Str) (hs : Framed s) : Framed ('-' :: '-' :: '-' :: s) := by
  intro pre k post h hpre hpost
  cases pre with
  | nil =>
    simp only [List.nil_append] at h
    cases k with
    | zero => rfl
    | succ k =>
    cases k with
    | zero =>
      simp only [List.replicate_succ, List.replicate_zero, List.cons_append, List.nil_append,
        List.cons.injEq] at h
      rw [← h.2] at hpost
      simp at hpost
    | succ k =>
    cases k with
    | zero =>
      simp only [List.replicate_succ, List.replicate_zero, List.cons_append, List.nil_append,
        List.cons.injEq] at h
      rw [← h.2.2] at hpost
      simp at hpost
    | succ k =>
      simp only [List.replicate_succ, List.cons_append, List.cons.injEq] at h
      have := hs [] k post (by simpa using h.2.2.2) (by simp) hpost
      omega
  | cons x pre1 =>
    simp only [List.cons_append, List.cons.injEq] at h
    cases pre1 with
    | nil =>
      rw [← h.1] at hpre
      simp at hpre
    | cons y pre2 =>
    simp only [List.cons_append, List.cons.injEq] at h
    cases pre2 with
    | nil =>
      rw [← h.2.1] at hpre
      simp at hpre
    | cons z pre3 =>
    simp only [List.cons_append, List.cons.injEq] at h
    cases pre3 with
    | nil =>
      rw [← h.2.2.1] at hpre
      simp at hpre
    | cons w pre4 =>
      apply hs (w :: pre4) k post h.2.2.2 _ hpost
      simpa [List.getLast?_cons_cons] using hpre

/-- A symbol read from a gap-free string is not the gap. -/
theorem charAt_ne_gap (s : Str) (k : Nat) (hs : '-' ∉ s) : charAt s k ≠ '-' := by
  unfold charAt
  intro h
  by_cases hk : k < s.length
  · rw [List.getD_eq_getElem _ _ hk] at h
    exact hs (h ▸ List.getElem_mem hk)
  · rw [List.getD_eq_default _ _ (by omega)] at h
    revert h
    decide

/-- One column in front of two strings. -/
theorem emit_pair (c0 c1 : Char) (x0 x1 : Str) :
    emit c0 c1 [x0, x1] = .ok [c0 :: x0, c1 :: x1] := by
  simp [emit, insertFront]

theorem slice_empty (s : Str) (k : Nat) : slice s k k = [] := by
  simp [slice]

/-- The slice `[lo, hi + 1)` is the slice `[lo, hi)` followed by `s[hi]`. -/
theorem slice_succ (s : Str) (lo hi : Nat) (h : lo ≤ hi) :
    slice s lo (hi + 1) = slice s lo hi ++ [charAt s hi] := by
  unfold slice
  have e : hi + 1 - lo = (hi - lo) + 1 := by omega
  rw [e, List.range'_concat, List.map_append]
  simp only [List.map_cons, List.map_nil, Nat.one_mul]
  have e2 : lo + (hi - lo) = hi := by omega
  rw [e2]

/-- Two adjacent slices. -/
theorem slice_append (s : Str) (a b c : Nat) (hab : a ≤ b) (hbc : b ≤ c) :
    slice s a b ++ slice s b c = slice s a c := by
  unfold slice
  rw [← List.map_append]
  congr 1
  have e : c - a = (c - b) + (b - a) := by omega
  rw [e, ← List.range'_append_1]
  have e2 : a + (b - a) = b := by omega
  rw [e2]

/-- The symbols of a slice of a gap-free string are not gaps. -/
theorem slice_no_gap (s : Str) (lo hi : Nat) (hs : '-' ∉ s) : '-' ∉ slice s lo hi := by
  unfold slice
  intro h
  rw [List.mem_map] at h
  obtain ⟨k, _, hk⟩ := h
  exact charAt_ne_gap s k hs hk

/-- The whole string as a slice. -/
theorem slice_all (s : Str) : slice s 0 s.length = s := by
  unfold slice
  apply List.ext_getElem
  · simp
  · intro k h1 h2
    simp only [List.length_map, List.length_range'] at h1
    simp only [List.getElem_map, List.getElem_range', charAt]
    rw [List.getD_eq_getElem _ _ (by omega)]
    simp

/-- The gap block of an insertion: `h` columns, unless fewer than `h` symbols are left. -/
theorem insSteps_eq (seqb : Str) (h j : Nat) (x0 x1 : Str) :
    insRun.insSteps seqb h j [x0, x1]
      = if h ≤ j then
          .ok (j - h, [List.replicate h '-' ++ x0, slice seqb (j - h) j ++ x1])
        else .error .outOfRange := by
  induction h generalizing j x0 x1 with
  | zero => simp [insRun.insSteps, slice_empty]
  | succ h ih =>
    unfold insRun.insSteps
    by_cases hj : j = 0
    · simp [hj]
    · rw [if_neg hj, emit_pair]
      simp only []
      rw [ih]
      by_cases hle : h + 1 ≤ j
      · have hle2 : h ≤ j - 1 := by omega
        rw [if_pos hle, if_pos hle2]
        have e1 : j - 1 - h = j - (h + 1) := by omega
        have e2 : slice seqb (j - (h + 1)) j
            = slice seqb (j - (h + 1)) (j - 1) ++ [charAt seqb (j - 1)] := by
          have := slice_succ seqb (j - (h + 1)) (j - 1) (by omega)
          have e3 : j - 1 + 1 = j := by omega
          rw [e3] at this
          exact this
        rw [e1, e2, List.replicate_succ']
        simp
      · have hle2 : ¬ h ≤ j - 1 := by omega
        rw [if_neg hle, if_neg hle2]

/-- The gap block of a deletion. -/
theorem delSteps_eq (seqa : Str) (h i : Nat) (x0 x1 : Str) :
    delRun.delSteps seqa h i [x0, x1]
      = if h ≤ i then
          .ok (i - h, [slice seqa (i - h) i ++ x0, List.replicate h '-' ++ x1])
        else .error .outOfRange := by
  induction h generalizing i x0 x1 with
  | zero => simp [delRun.delSteps, slice_empty]
  | succ h ih =>
    unfold delRun.delSteps
    by_cases hi : i = 0
    · simp [hi]
    · rw [if_neg hi, emit_pair]
      simp only []
      rw [ih]
      by_cases hle : h + 1 ≤ i
      · have hle2 : h ≤ i - 1 := by omega
        rw [if_pos hle, if_pos hle2]
        have e1 : i - 1 - h = i - (h + 1) := by omega
        have e2 : slice seqa (i - (h + 1)) i
            = slice seqa (i - (h + 1)) (i - 1) ++ [charAt seqa (i - 1)] := by
          have := slice_succ seqa (i - (h + 1)) (i - 1) (by omega)
          have e3 : i - 1 + 1 = i := by omega
          rw [e3] at this
          exact this
        rw [e1, e2, List.replicate_succ']
        simp
      · have hle2 : ¬ h ≤ i - 1 := by omega
        rw [if_neg hle, if_neg hle2]

/-- A block of gaps whose length is a multiple of 3 in front of a framed string. -/
theorem framed_replicate (k : Nat) (s : Str) (hs : Framed s) :
    Framed (List.replicate (3 * k) '-' ++ s) := by
  induction k with
  | zero => simpa using hs
  | succ k ih =>
    have e : 3 * (k + 1) = (3 * k) + 1 + 1 + 1 := by omega
    rw [e]
    simp only [List.replicate_succ, List.cons_append]
    exact framed_gaps _ ih

/-- Gap-free symbols in front of a framed string. -/
theorem framed_append (y s : Str) (hy : '-' ∉ y) (hs : Framed s) : Framed (y ++ s) := by
  induction y with
  | nil => simpa using hs
  | cons c y ih =>
    simp only [List.cons_append]
    apply framed_cons
    · intro h
      exact hy (h ▸ List.mem_cons_self _ _)
    · exact ih (fun h => hy (List.mem_cons_of_mem _ h))

theorem insSteps_framed (seqb : Str) (hb : '-' ∉ seqb) (j : Nat) (sd : List Str)
    (r : Nat × List Str) (hsd : FramedPair sd)
    (h : insRun.insSteps seqb 3 j sd = .ok r) : FramedPair r.2 := by
  obtain ⟨x0, x1, rfl, h0, h1⟩ := hsd
  rw [insSteps_eq] at h
  split_ifs at h with hle
  injection h with h
  rw [← h]
  exact ⟨_, _, rfl, framed_replicate 1 x0 h0, framed_append _ _ (slice_no_gap _ _ _ hb) h1⟩

theorem delSteps_framed (seqa : Str) (ha : '-' ∉ seqa) (i : Nat) (sd : List Str)
    (r : Nat × List Str) (hsd : FramedPair sd)
    (h : delRun.delSteps seqa 3 i sd = .ok r) : FramedPair r.2 := by
  obtain ⟨x0, x1, rfl, h0, h1⟩ := hsd
  rw [delSteps_eq] at h
  split_ifs at h with hle
  injection h with h
  rw [← h]
  exact ⟨_, _, rfl, framed_append _ _ (slice_no_gap _ _ _ ha) h0, framed_replicate 1 x1 h1⟩

theorem insRun_framed (Bp : Nat → Nat → Int) (seqb : Str) (hb : '-' ∉ seqb) (i fuel j : Nat)
    (sd : List Str) (r : Nat × List Str) (hsd : FramedPair sd)
    (h : insRun Bp seqb 3 i fuel j sd = .ok r) : FramedPair r.2 := by
  induction fuel generalizing j sd with
  | zero => simp [insRun] at h
  | succ fuel ih =>
    unfold insRun at h
    split_ifs at h with hB
    · cases hs : insRun.insSteps seqb 3 j sd with
      | error e => rw [hs] at h; simp at h
      | ok r2 =>
        rw [hs] at h
        exact ih r2.1 r2.2 (insSteps_framed seqb hb j sd r2 hsd hs) h
    · injection h with h
      rw [← h]
      exact hsd

theorem delRun_framed (Bq : Nat → Nat → Int) (seqa : Str) (ha : '-' ∉ seqa) (j fuel i : Nat)
    (sd : List Str) (r : Nat × List Str) (hsd : FramedPair sd)
    (h : delRun Bq seqa 3 j fuel i sd = .ok r) : FramedPair r.2 := by
  induction fuel generalizing i sd with
  | zero => simp [delRun] at h
  | succ fuel ih =>
    unfold delRun at h
    split_ifs at h with hB
    · cases hs : delRun.delSteps seqa 3 i sd with
      | error e => rw [hs] at h; simp at h
      | ok r2 =>
        rw [hs] at h
        exact ih r2.1 r2.2 (delSteps_framed seqa ha i sd r2 hsd hs) h
    · injection h with h
      rw [← h]
      exact hsd

/-- The walk of `backtracking_noframeshifts` keeps both strings framed. -/
theorem btLoop_framed (Bd Bp Bq : Nat → Nat → Int) (seqa seqb : Str) (ha : '-' ∉ seqa)
    (hb : '-' ∉ seqb) (fuel i j : Nat) (sd r : List Str) (hsd : FramedPair sd)
    (h : btLoop Bd Bp Bq seqa seqb 3 fuel i j sd = .ok r) : FramedPair r := by
  induction fuel generalizing i j sd with
  | zero =>
    unfold btLoop at h
    split_ifs at h
    injection h with h
    rw [← h]
    exact hsd
  | succ fuel ih =>
    unfold btLoop at h
    split_ifs at h with h0 h1 h2 h3
    · injection h with h
      rw [← h]
      exact hsd
    · obtain ⟨x0, x1, rfl, f0, f1⟩ := hsd
      rw [emit_pair] at h
      exact ih _ _ _ ⟨_, _, rfl, framed_cons _ _ (charAt_ne_gap _ _ ha) f0,
        framed_cons _ _ (charAt_ne_gap _ _ hb) f1⟩ h
    · cases hr : insRun Bp seqb 3 i (j + 1) j sd with
      | error e => rw [hr] at h; simp at h
      | ok r2 =>
        rw [hr] at h
        simp only [] at h
        have hf2 := insRun_framed Bp seqb hb i (j + 1) j sd r2 hsd hr
        cases hs : insRun.insSteps seqb 3 r2.1 r2.2 with
        | error e => rw [hs] at h; simp at h
        | ok r3 =>
          rw [hs] at h
          exact ih _ _ _ (insSteps_framed seqb hb _ _ r3 hf2 hs) h
    · cases hr : delRun Bq seqa 3 j (i + 1) i sd with
      | error e => rw [hr] at h; simp at h
      | ok r2 =>
        rw [hr] at h
        simp only [] at h
        have hf2 := delRun_framed Bq seqa ha j (i + 1) i sd r2 hsd hr
        cases hs : delRun.delSteps seqa 3 r2.1 r2.2 with
        | error e => rw [hs] at h; simp at h
        | ok r3 =>
          rw [hs] at h
          exact ih _ _ _ (delSteps_framed seqa ha _ _ r3 hf2 hs) h

/-- C5: when `gotoh_noframeshifts`, called with an empty alignment on two gap-free
sequences, returns an alignment, that alignment consists of two strings and every maximal
run of `-` in either of them has a length divisible by 3. -/
theorem noframeshifts_gap_runs (N : Num α) (p : Nat → Nat → Nat → α) (seq_a seq_b : Str)
    (aln : alignment_t α) (r : Int × alignment_t α)
    (ha : '-' ∉ seq_a) (hb : '-' ∉ seq_b) (h0 : aln.f.seq_data = [])
    (h : gotoh_noframeshifts N p [seq_a, seq_b] aln = .ok r) :
    ∃ s0 s1 : Str, r.2.f.seq_data = [s0, s1] ∧ Framed s0 ∧ Framed s1 := by
  unfold gotoh_noframeshifts at h
  simp only [] at h
  split_ifs at h with hm
  unfold backtracking_noframeshifts at h
  simp only [h0, List.nil_append] at h
  cases hbt : btLoop (nf.forward N p seq_a seq_b).Bd (nf.forward N p seq_a seq_b).Bp
      (nf.forward N p seq_a seq_b).Bq seq_a seq_b 3 (seq_a.length + seq_b.length)
      seq_a.length seq_b.length ([[]] ++ [[]]) with
  | error e => rw [hbt] at h; simp at h
  | ok sd =>
    rw [hbt] at h
    injection h with h
    rw [← h]
    exact btLoop_framed _ _ _ seq_a seq_b ha hb _ _ _ _ sd
      ⟨[], [], rfl, framed_nil, framed_nil⟩ hbt

/-! ## The traceback of `backtracking` on well-formed tags -/

theorem degap_append (x y : Str) : degap (x ++ y) = degap x ++ degap y := by
  simp [degap]

theorem degap_gaps (k : Nat) : degap (List.replicate k '-') = [] := by
  simp [degap]

theorem degap_of_no_gap (s : Str) (hs : '-' ∉ s) : degap s = s := by
  unfold degap
  rw [List.filter_eq_self]
  intro c hc
  simp only [ne_eq, decide_eq_true_eq]
  intro h
  exact hs (h ▸ hc)

/-- A run of `k` extend tags that ends in another tag at column `js`: the loop
`while(Bp(i, j) == 1)` writes `k` gap columns and stops at `js`. -/
theorem insRun_chain (Bp : Nat → Nat → Int) (seqb : Str) (i js : Nat) (hjs : Bp i js ≠ 1)
    (k : Nat) : ∀ (fuel : Nat) (x0 x1 : Str),
    (∀ j2, js < j2 → j2 ≤ js + k → Bp i j2 = 1) → k + 1 ≤ fuel →
    insRun Bp seqb 1 i fuel (js + k) [x0, x1]
      = .ok (js, [List.replicate k '-' ++ x0, slice seqb js (js + k) ++ x1]) := by
  induction k with
  | zero =>
    intro fuel x0 x1 _ hf
    obtain ⟨f, rfl⟩ : ∃ f, fuel = f + 1 := ⟨fuel - 1, by omega⟩
    unfold insRun
    simp [hjs, slice_empty]
  | succ k ih =>
    intro fuel x0 x1 hrun hf
    obtain ⟨f, rfl⟩ : ∃ f, fuel = f + 1 := ⟨fuel - 1, by omega⟩
    unfold insRun
    rw [if_pos (hrun (js + (k + 1)) (by omega) (le_refl _)), insSteps_eq,
      if_pos (by omega)]
    simp only []
    have e : js + (k + 1) - 1 = js + k := by omega
    rw [e, ih f _ _ (fun j2 h1 h2 => hrun j2 h1 (by omega)) (by omega)]
    have e2 : slice seqb js (js + (k + 1))
        = slice seqb js (js + k) ++ slice seqb (js + k) (js + (k + 1)) :=
      (slice_append seqb js (js + k) (js + (k + 1)) (by omega) (by omega)).symm
    rw [e2]
    simp
    rw [List.replicate_succ', List.append_assoc]
    rfl

/-- The mirror image of `insRun_chain` for the loop `while(Bq(i, j) == 1)`. -/
theorem delRun_chain (Bq : Nat → Nat → Int) (seqa : Str) (j is : Nat) (his : Bq is j ≠ 1)
    (k : Nat) : ∀ (fuel : Nat) (x0 x1 : Str),
    (∀ i2, is < i2 → i2 ≤ is + k → Bq i2 j = 1) → k + 1 ≤ fuel →
    delRun Bq seqa 1 j fuel (is + k) [x0, x1]
      = .ok (is, [slice seqa is (is + k) ++ x0, List.replicate k '-' ++ x1]) := by
  induction k with
  | zero =>
    intro fuel x0 x1 _ hf
    obtain ⟨f, rfl⟩ : ∃ f, fuel = f + 1 := ⟨fuel - 1, by omega⟩
    unfold delRun
    simp [his, slice_empty]
  | succ k ih =>
    intro fuel x0 x1 hrun hf
    obtain ⟨f, rfl⟩ : ∃ f, fuel = f + 1 := ⟨fuel - 1, by omega⟩
    unfold delRun
    rw [if_pos (hrun (is + (k + 1)) (by omega) (le_refl _)), delSteps_eq,
      if_pos (by omega)]
    simp only []
    have e : is + (k + 1) - 1 = is + k := by omega
    rw [e, ih f _ _ (fun i2 h1 h2 => hrun i2 h1 (by omega)) (by omega)]
    have e2 : slice seqa is (is + (k + 1))
        = slice seqa is (is + k) ++ slice seqa (is + k) (is + (k + 1)) :=
      (slice_append seqa is (is + k) (is + (k + 1)) (by omega) (by omega)).symm
    rw [e2]
    simp
    rw [List.replicate_succ', List.append_assoc]
    rfl

/-- On well-formed tags the walk of `backtracking` from cell (i,j) ends at (0,0): it
returns, and what it writes in front of the two strings are two rows of equal length that
spell, without their gaps, the first `i` symbols of `seqa` and the first `j` symbols of
`seqb`. -/
theorem btLoop_ok (Bd Bp Bq : Nat → Nat → Int) (seqa seqb : Str) (m n : Nat)
    (ha : '-' ∉ seqa) (hb : '-' ∉ seqb) (hT : TagsOK Bd Bp Bq m n) (s : Nat) :
    ∀ (i j fuel : Nat) (x0 x1 : Str), i + j ≤ s → i ≤ m → j ≤ n → i + j ≤ fuel →
    ∃ y0 y1 : Str, btLoop Bd Bp Bq seqa seqb 1 fuel i j [x0, x1] = .ok [y0 ++ x0, y1 ++ x1] ∧
      y0.length = y1.length ∧ degap y0 = slice seqa 0 i ∧ degap y1 = slice seqb 0 j := by
  induction s with
  | zero =>
    intro i j fuel x0 x1 hs _ _ _
    have hi : i = 0 := by omega
    have hj : j = 0 := by omega
    subst hi hj
    refine ⟨[], [], ?_, rfl, by simp [degap, slice_empty], by simp [degap, slice_empty]⟩
    cases fuel <;> simp [btLoop]
  | succ s ih =>
    intro i j fuel x0 x1 hs him hjn hf
    by_cases h00 : i = 0 ∧ j = 0
    · obtain ⟨hi, hj⟩ := h00
      subst hi hj
      refine ⟨[], [], ?_, rfl, by simp [degap, slice_empty], by simp [degap, slice_empty]⟩
      cases fuel <;> simp [btLoop]
    · obtain ⟨f, rfl⟩ : ∃ f, fuel = f + 1 := ⟨fuel - 1, by omega⟩
      unfold btLoop
      rw [if_neg h00]
      rcases hT i j him hjn h00 with ⟨hd, hi1, hj1⟩ | ⟨hd, js, hjs1, hjs2, hjs3, hrun⟩ |
        ⟨hd0, hd1, is, his1, his2, his3, hrun⟩
      · -- match
        rw [if_pos hd, if_neg (by omega), emit_pair]
        simp only []
        obtain ⟨y0, y1, hrec, hlen, h0, h1⟩ := ih (i - 1) (j - 1) f
          (charAt seqa (i - 1) :: x0) (charAt seqb (j - 1) :: x1) (by omega) (by omega)
          (by omega) (by omega)
        refine ⟨y0 ++ [charAt seqa (i - 1)], y1 ++ [charAt seqb (j - 1)], ?_, ?_, ?_, ?_⟩
        · rw [hrec]; simp
        · simp [hlen]
        · rw [degap_append, h0, degap_of_no_gap [charAt seqa (i - 1)]
            (by simpa using (charAt_ne_gap seqa (i - 1) ha).symm)]
          have := slice_succ seqa 0 (i - 1) (by omega)
          have e : i - 1 + 1 = i := by omega
          rw [e] at this
          exact this.symm
        · rw [degap_append, h1, degap_of_no_gap [charAt seqb (j - 1)]
            (by simpa using (charAt_ne_gap seqb (j - 1) hb).symm)]
          have := slice_succ seqb 0 (j - 1) (by omega)
          have e : j - 1 + 1 = j := by omega
          rw [e] at this
          exact this.symm
      · -- insertion
        have hd0 : Bd i j ≠ 0 := by rw [hd]; decide
        rw [if_neg hd0, if_pos hd]
        have hchain := insRun_chain Bp seqb i js hjs3 (j - js) (j + 1) x0 x1
          (fun j2 h1 h2 => hrun j2 h1 (by omega)) (by omega)
        have e : js + (j - js) = j := by omega
        rw [e] at hchain
        rw [hchain]
        simp only []
        rw [insSteps_eq, if_pos hjs1]
        simp only []
        obtain ⟨y0, y1, hrec, hlen, h0, h1⟩ := ih i (js - 1) f
          (List.replicate 1 '-' ++ (List.replicate (j - js) '-' ++ x0))
          (slice seqb (js - 1) js ++ (slice seqb js j ++ x1)) (by omega) him (by omega)
          (by omega)
        refine ⟨y0 ++ (List.replicate 1 '-' ++ List.replicate (j - js) '-'),
          y1 ++ (slice seqb (js - 1) js ++ slice seqb js j), ?_, ?_, ?_, ?_⟩
        · rw [hrec]; simp
        · simp only [List.length_append, List.length_replicate, hlen, slice, List.length_map,
            List.length_range']
          omega
        · rw [degap_append, degap_append, degap_gaps, degap_gaps, h0]; simp
        · rw [degap_append, h1, slice_append seqb (js - 1) js j (by omega) hjs2,
            degap_of_no_gap _ (slice_no_gap seqb _ _ hb),
            slice_append seqb 0 (js - 1) j (by omega) (by omega)]
      · -- deletion
        rw [if_neg hd0, if_neg hd1]
        have hchain := delRun_chain Bq seqa j is his3 (i - is) (i + 1) x0 x1
          (fun i2 h1 h2 => hrun i2 h1 (by omega)) (by omega)
        have e : is + (i - is) = i := by omega
        rw [e] at hchain
        rw [hchain]
        simp only []
        rw [delSteps_eq, if_pos his1]
        simp only []
        obtain ⟨y0, y1, hrec, hlen, h0, h1⟩ := ih (is - 1) j f
          (slice seqa (is - 1) is ++ (slice seqa is i ++ x0))
          (List.replicate 1 '-' ++ (List.replicate (i - is) '-' ++ x1)) (by omega) (by omega)
          hjn (by omega)
        refine ⟨y0 ++ (slice seqa (is - 1) is ++ slice seqa is i),
          y1 ++ (List.replicate 1 '-' ++ List.replicate (i - is) '-'), ?_, ?_, ?_, ?_⟩
        · rw [hrec]; simp
        · simp only [List.length_append, List.length_replicate, hlen, slice, List.length_map,
            List.length_range']
          omega
        · rw [degap_append, h0, slice_append seqa (is - 1) is i (by omega) his2,
            degap_of_no_gap _ (slice_no_gap seqa _ _ ha),
            slice_append seqa 0 (is - 1) i (by omega) (by omega)]
        · rw [degap_append, degap_append, degap_gaps, degap_gaps, h1]; simp

/-! ## The tags left by the forward pass of `mg94_marginal` are well formed -/

/-- The cost stored in `D(i,j)` is at most that of `Q(i,j)`, and the tag is 0, 1 or 2. -/
theorem mg94_D_le_Q (N : Num α) (p : Nat → Nat → Nat → α) (seq_a seq_b : Str)
    (i j : Nat) (hi : 1 ≤ i) (him : i ≤ seq_a.length) (hj : 1 ≤ j) (hjn : j ≤ seq_b.length) :
    (mg94_forward N p seq_a seq_b).D i j ≤ (mg94_forward N p seq_a seq_b).Q i j := by
  obtain ⟨-, -, -, -, -, hD⟩ := mg94_forward_eqs N p seq_a seq_b i j hi him hj hjn
  rw [hD]
  split_ifs with h1 h2 h3
  · exact h2.le
  · exact le_refl _
  · exact h3.le
  · exact le_refl _

/-- Every cost `D(i,j)` of the grid is at most 1009 per row and column passed: the cost of
reaching the cell by gaps alone. -/
theorem mg94_D_bound (N : Num α) (hN : N.Sound) (p : Nat → Nat → Nat → α) (seq_a seq_b : Str)
    (i j : Nat) (him : i ≤ seq_a.length) (hjn : j ≤ seq_b.length) :
    (mg94_forward N p seq_a seq_b).D i j ≤ 1009 * ((i : α) + (j : α)) := by
  have hB := mg94_forward_border_spec N p seq_a seq_b
  obtain ⟨⟨i1, i2⟩, ⟨d1, d2⟩, ⟨ie1, ie2⟩, ⟨de1, de2⟩, ⟨ni1, ni2⟩, ⟨nd1, nd2⟩, ⟨nie1, nie2⟩,
    ⟨nde1, nde2⟩, hnf⟩ := hN.gap_bounds
  -- row 0
  have hrow : ∀ j, j ≤ seq_b.length →
      (mg94_forward N p seq_a seq_b).D 0 j ≤ 1009 * (((0 : Nat) : α) + (j : α)) := by
    intro j
    induction j with
    | zero => intro _; rw [hB.d00]; simp
    | succ j ih =>
      intro hj
      by_cases h1 : j = 0
      · subst h1
        rw [hB.d01]
        have := hnf (nt4_table (charAt seq_b 0))
        push_cast
        linarith
      · rw [hB.drow (j + 1) (by omega) hj]
        have h5 := hnf (nt4_table (charAt seq_b j))
        have := ih (by omega)
        simp only [Nat.add_sub_cancel]
        push_cast at this ⊢
        linarith
  induction i with
  | zero => exact hrow j hjn
  | succ i ih =>
    have ih := ih (by omega)
    by_cases hj0 : j = 0
    · subst hj0
      by_cases h1 : i = 0
      · subst h1
        rw [hB.d10]
        push_cast
        linarith
      · rw [hB.dcol (i + 1) (by omega) him]
        simp only [Nat.add_sub_cancel]
        push_cast at ih ⊢
        linarith
    · have hle := mg94_D_le_Q N p seq_a seq_b (i + 1) j (by omega) him (by omega) hjn
      obtain ⟨-, hQ, -, -, -, -⟩ := mg94_forward_eqs N p seq_a seq_b (i + 1) j (by omega) him
        (by omega) hjn
      have hq2 : mg94_q2 N (mg94_forward N p seq_a seq_b) (i + 1) j
          ≤ (mg94_forward N p seq_a seq_b).D i j + 1005 := by
        unfold mg94_q2
        simp only [Nat.add_sub_cancel]
        split_ifs <;> linarith
      have : (mg94_forward N p seq_a seq_b).Q (i + 1) j
          ≤ mg94_q2 N (mg94_forward N p seq_a seq_b) (i + 1) j := by
        rw [hQ]; exact min_le_right _ _
      push_cast at ih ⊢
      linarith

/-- A cost `P(i,j)` below the sentinel comes from an opening: the extend tags to the left of
cell (i,j) end at a column `js >= 1`. -/
theorem mg94_P_chain (N : Num α) (hN : N.Sound) (p : Nat → Nat → Nat → α) (seq_a seq_b : Str)
    (i : Nat) (hi : 1 ≤ i) (him : i ≤ seq_a.length) (j : Nat) :
    1 ≤ j → j ≤ seq_b.length → (mg94_forward N p seq_a seq_b).P i j < fltMax →
    ∃ js, 1 ≤ js ∧ js ≤ j ∧ (mg94_forward N p seq_a seq_b).Bp i js ≠ 1 ∧
      ∀ j2, js < j2 → j2 ≤ j → (mg94_forward N p seq_a seq_b).Bp i j2 = 1 := by
  have hB := mg94_forward_border_spec N p seq_a seq_b
  obtain ⟨-, -, ⟨ie1, ie2⟩, -, -, -, -, -, hnf⟩ := hN.gap_bounds
  induction j with
  | zero => intro h; omega
  | succ j ih =>
    intro hj hjn hlt
    by_cases hBp : (mg94_forward N p seq_a seq_b).Bp i (j + 1) = 1
    · obtain ⟨hP, -, hBp2, -, -, -⟩ := mg94_forward_eqs N p seq_a seq_b i (j + 1) hi him
        (by omega) hjn
      have hp12 : mg94_p1 N seq_b (mg94_forward N p seq_a seq_b) i (j + 1)
          < mg94_p2 N seq_b (mg94_forward N p seq_a seq_b) i (j + 1) := by
        by_contra hcon
        rw [hBp2, if_neg hcon] at hBp
        exact absurd hBp (by decide)
      rw [hP, min_eq_left hp12.le] at hlt
      unfold mg94_p1 at hlt
      simp only [Nat.add_sub_cancel] at hlt
      have hnfj := hnf (nt4_table (charAt seq_b j))
      have hprev : (mg94_forward N p seq_a seq_b).P i j < fltMax := by linarith
      by_cases hj0 : j = 0
      · subst hj0
        rw [hB.pcol i] at hprev
        exact absurd hprev (lt_irrefl _)
      · obtain ⟨js, h1, h2, h3, h4⟩ := ih (by omega) (by omega) hprev
        refine ⟨js, h1, by omega, h3, ?_⟩
        intro j2 hj2 hj2'
        by_cases he : j2 = j + 1
        · rw [he]; exact hBp
        · exact h4 j2 hj2 (by omega)
    · exact ⟨j + 1, hj, le_refl _, hBp, fun j2 h1 h2 => by omega⟩

/-- A cost `Q(i,j)` below the sentinel comes from an opening: the extend tags above cell
(i,j) end at a row `is >= 1`. -/
theorem mg94_Q_chain (N : Num α) (hN : N.Sound) (p : Nat → Nat → Nat → α) (seq_a seq_b : Str)
    (j : Nat) (hj : 1 ≤ j) (hjn : j ≤ seq_b.length) (i : Nat) :
    1 ≤ i → i ≤ seq_a.length → (mg94_forward N p seq_a seq_b).Q i j < fltMax →
    ∃ is, 1 ≤ is ∧ is ≤ i ∧ (mg94_forward N p seq_a seq_b).Bq is j ≠ 1 ∧
      ∀ i2, is < i2 → i2 ≤ i → (mg94_forward N p seq_a seq_b).Bq i2 j = 1 := by
  have hB := mg94_forward_border_spec N p seq_a seq_b
  obtain ⟨-, -, -, ⟨de1, de2⟩, -, -, -, -, -⟩ := hN.gap_bounds
  induction i with
  | zero => intro h; omega
  | succ i ih =>
    intro hi him hlt
    by_cases hBq : (mg94_forward N p seq_a seq_b).Bq (i + 1) j = 1
    · obtain ⟨-, hQ, -, hBq2, -, -⟩ := mg94_forward_eqs N p seq_a seq_b (i + 1) j (by omega)
        him hj hjn
      have hq12 : mg94_q1 N (mg94_forward N p seq_a seq_b) (i + 1) j
          < mg94_q2 N (mg94_forward N p seq_a seq_b) (i + 1) j := by
        by_contra hcon
        rw [hBq2, if_neg hcon] at hBq
        exact absurd hBq (by decide)
      rw [hQ, min_eq_left hq12.le] at hlt
      unfold mg94_q1 at hlt
      simp only [Nat.add_sub_cancel] at hlt
      have hprev : (mg94_forward N p seq_a seq_b).Q i j < fltMax := by linarith
      by_cases hi0 : i = 0
      · subst hi0
        rw [hB.qrow j] at hprev
        exact absurd hprev (lt_irrefl _)
      · obtain ⟨is, h1, h2, h3, h4⟩ := ih (by omega) (by omega) hprev
        refine ⟨is, h1, by omega, h3, ?_⟩
        intro i2 hi2 hi2'
        by_cases he : i2 = i + 1
        · rw [he]; exact hBq
        · exact h4 i2 hi2 (by omega)
    · exact ⟨i + 1, hi, le_refl _, hBq, fun i2 h1 h2 => by omega⟩

/-- The tags left by the forward pass of `mg94_marginal` are well formed, provided the
logarithm is sound and the cost of a path of gaps, at most 1009 per symbol, stays below the
sentinel. -/
theorem mg94_tags_ok (N : Num α) (hN : N.Sound) (p : Nat → Nat → Nat → α) (seq_a seq_b : Str)
    (hsize : 1009 * ((seq_a.length : α) + (seq_b.length : α)) < fltMax) :
    TagsOK (mg94_forward N p seq_a seq_b).Bd (mg94_forward N p seq_a seq_b).Bp
      (mg94_forward N p seq_a seq_b).Bq seq_a.length seq_b.length := by
  have hB := mg94_forward_border_spec N p seq_a seq_b
  obtain ⟨⟨i1, i2⟩, ⟨d1, d2⟩, ⟨ie1, ie2⟩, ⟨de1, de2⟩, ⟨ni1, ni2⟩, ⟨nd1, nd2⟩, ⟨nie1, nie2⟩,
    ⟨nde1, nde2⟩, hnf⟩ := hN.gap_bounds
  intro i j him hjn h00
  by_cases hi0 : i = 0
  · -- row 0
    subst hi0
    have hj1 : 1 ≤ j := by omega
    right; left
    exact ⟨hB.bdrow j hj1 hjn, 1, le_refl _, hj1, by rw [hB.bp01]; decide,
      fun j2 h1 h2 => hB.bprow j2 (by omega) (by omega)⟩
  by_cases hj0 : j = 0
  · -- column 0
    subst hj0
    have hi1 : 1 ≤ i := by omega
    right; right
    have hbd := hB.bdcol i hi1 him
    exact ⟨by rw [hbd]; decide, by rw [hbd]; decide, 1, le_refl _, hi1,
      by rw [hB.bq10]; decide, fun i2 h1 h2 => hB.bqcol i2 (by omega) (by omega)⟩
  -- interior
  have hi1 : 1 ≤ i := by omega
  have hj1 : 1 ≤ j := by omega
  obtain ⟨-, hQ, -, -, hBd, -⟩ := mg94_forward_eqs N p seq_a seq_b i j hi1 him hj1 hjn
  have hQlt : (mg94_forward N p seq_a seq_b).Q i j < fltMax := by
    have hq2 : mg94_q2 N (mg94_forward N p seq_a seq_b) i j
        ≤ (mg94_forward N p seq_a seq_b).D (i - 1) j + 1005 := by
      unfold mg94_q2
      split_ifs <;> linarith
    have hle : (mg94_forward N p seq_a seq_b).Q i j
        ≤ mg94_q2 N (mg94_forward N p seq_a seq_b) i j := by
      rw [hQ]; exact min_le_right _ _
    have hD := mg94_D_bound N hN p seq_a seq_b (i - 1) j (by omega) hjn
    have hc : ((i - 1 : Nat) : α) + 1 = (i : α) := by
      have : i - 1 + 1 = i := by omega
      exact_mod_cast this
    have hi' : (i : α) ≤ (seq_a.length : α) := by exact_mod_cast him
    have hj' : (j : α) ≤ (seq_b.length : α) := by exact_mod_cast hjn
    linarith
  by_cases hd0 : (mg94_forward N p seq_a seq_b).Bd i j = 0
  · left
    exact ⟨hd0, hi1, hj1⟩
  by_cases hd1 : (mg94_forward N p seq_a seq_b).Bd i j = 1
  · right; left
    refine ⟨hd1, ?_⟩
    have hPQ : (mg94_forward N p seq_a seq_b).P i j < (mg94_forward N p seq_a seq_b).Q i j := by
      rw [hBd] at hd1
      by_cases h1 : mg94_d N p seq_a seq_b (mg94_forward N p seq_a seq_b) i j
          < (mg94_forward N p seq_a seq_b).P i j
      · rw [if_pos h1] at hd1
        by_cases h2 : mg94_d N p seq_a seq_b (mg94_forward N p seq_a seq_b) i j
            < (mg94_forward N p seq_a seq_b).Q i j
        · rw [if_pos h2] at hd1
          exact absurd hd1 (by decide)
        · rw [if_neg h2] at hd1
          exact absurd hd1 (by decide)
      · rw [if_neg h1] at hd1
        by_contra h3
        rw [if_neg h3] at hd1
        exact absurd hd1 (by decide)
    exact mg94_P_chain N hN p seq_a seq_b i hi1 him j hj1 hjn (lt_trans hPQ hQlt)
  · right; right
    exact ⟨hd0, hd1, mg94_Q_chain N hN p seq_a seq_b j hj1 hjn i hi1 him hQlt⟩

/-- For a sound logarithm and sequences short enough for the sentinel, `mg94_marginal`,
called with an empty alignment on gap-free sequences the first of which has a length
divisible by 3, returns 0 and leaves two rows of equal length that are the two sequences
once their gaps are removed; the weight is `D(m, n)`. -/
theorem mg94_marginal_ok (N : Num α) (hN : N.Sound) (p : Nat → Nat → Nat → α)
    (seq_a seq_b : Str) (aln : alignment_t α)
    (hm3 : seq_a.length % 3 = 0) (ha : '-' ∉ seq_a) (hb : '-' ∉ seq_b)
    (hsize : 1009 * ((seq_a.length : α) + (seq_b.length : α)) < fltMax)
    (h0 : aln.f.seq_data = []) :
    ∃ s0 s1 : Str,
      mg94_marginal N p [seq_a, seq_b] aln
        = .ok (0, { f := { seq_names := aln.f.seq_names, seq_data := [s0, s1] },
                    weight := (mg94_forward N p seq_a seq_b).D seq_a.length seq_b.length }) ∧
      s0.length = s1.length ∧ degap s0 = seq_a ∧ degap s1 = seq_b := by
  obtain ⟨y0, y1, hrun, hlen, h1, h2⟩ := btLoop_ok (mg94_forward N p seq_a seq_b).Bd
    (mg94_forward N p seq_a seq_b).Bp (mg94_forward N p seq_a seq_b).Bq seq_a seq_b
    seq_a.length seq_b.length ha hb (mg94_tags_ok N hN p seq_a seq_b hsize)
    (seq_a.length + seq_b.length) seq_a.length seq_b.length (seq_a.length + seq_b.length)
    [] [] (le_refl _) (le_refl _) (le_refl _) (le_refl _)
  refine ⟨y0, y1, ?_, hlen, ?_, ?_⟩
  · unfold mg94_marginal
    simp only [hm3, ne_eq, not_true_eq_false, if_false]
    unfold backtracking
    simp only [h0, List.nil_append, List.singleton_append, hrun, List.append_nil]
  · rw [h1, slice_all]
  · rw [h2, slice_all]

/-- C1: over the real numbers, for every non-empty reference `A` over {A,C,G,T} whose length
is divisible by 3 and every non-empty sequence `B` over {A,C,G,T,N} (lengths within the
range of `int`), `mg94_marginal`, called with an empty alignment, returns exactly two
strings of equal length; deleting every `-` from the first gives `A` and from the second
gives `B`. -/
theorem mg94_marginal_strips (p : Nat → Nat → Nat → ℝ) (A B : Str) (aln : alignment_t ℝ)
    (hA : A ≠ []) (hA3 : A.length % 3 = 0) (hAc : ∀ c ∈ A, c ∈ ['A', 'C', 'G', 'T'])
    (hB : B ≠ []) (hBc : ∀ c ∈ B, c ∈ ['A', 'C', 'G', 'T', 'N'])
    (hAlen : A.length < 2 ^ 31) (hBlen : B.length < 2 ^ 31) (h0 : aln.f.seq_data = []) :
    ∃ (s0 s1 : Str) (w : ℝ),
      mg94_marginal realNum p [A, B] aln
        = .ok (0, { f := { seq_names := aln.f.seq_names, seq_data := [s0, s1] },
                    weight := w }) ∧
      s0.length = s1.length ∧ degap s0 = A ∧ degap s1 = B := by
  have ha : '-' ∉ A := by
    intro h
    have := hAc _ h
    revert this
    decide
  have hb : '-' ∉ B := by
    intro h
    have := hBc _ h
    revert this
    decide
  have hsize : 1009 * ((A.length : ℝ) + (B.length : ℝ)) < fltMax := by
    have h1 : (A.length : ℝ) < 2 ^ 31 := by exact_mod_cast hAlen
    have h2 : (B.length : ℝ) < 2 ^ 31 := by exact_mod_cast hBlen
    have h3 : (2 : ℝ) ^ 127 ≤ fltMax := fltMax_large
    have h4 : (1009 : ℝ) * (2 ^ 31 + 2 ^ 31) < 2 ^ 127 := by norm_num
    linarith
  obtain ⟨s0, s1, hrun, hlen, h1, h2⟩ :=
    mg94_marginal_ok realNum realNum_sound p A B aln hA3 ha hb hsize h0
  exact ⟨s0, s1, _, hrun, hlen, h1, h2⟩

/-- C1, at the pair CTCTGG, CCTGG of the test. -/
theorem mg94_marginal_strips_witness :
    ∃ (s0 s1 : Str) (w : ℝ),
      mg94_marginal realNum (fun _ _ _ => 1 / 4)
          [['C', 'T', 'C', 'T', 'G', 'G'], ['C', 'C', 'T', 'G', 'G']] ⟨⟨[], []⟩, 0⟩
        = .ok (0, { f := { seq_names := [], seq_data := [s0, s1] }, weight := w }) ∧
      s0.length = s1.length ∧ degap s0 = ['C', 'T', 'C', 'T', 'G', 'G'] ∧
      degap s1 = ['C', 'C', 'T', 'G', 'G'] :=
  mg94_marginal_strips (fun _ _ _ => 1 / 4) ['C', 'T', 'C', 'T', 'G', 'G']
    ['C', 'C', 'T', 'G', 'G'] ⟨⟨[], []⟩, 0⟩ (by decide) (by decide) (by decide) (by decide)
    (by decide) (by norm_num) (by norm_num) rfl

/-! ## The cell steps of `gotoh_noframeshifts` -/

theorem nf_seed_at (N : Num α) (p : Nat → Nat → Nat → α) (seq_a seq_b : Str) (i : Nat)
    (s : Mats α) :
    (nf.seedCell N p seq_a seq_b i s).cellAt (i, i)
      = (s.D (i - 1) (i - 1) - N.log (1 - nf.insertion) - N.log (1 - nf.deletion)
           - N.log (transition (substr seq_a 0 3) (i % 3) (charAt seq_b (i - 1)) p),
         s.P i i, s.Q i i, 0, s.Bp i i, s.Bq i i) := by
  simp [nf.seedCell, Mats.cellAt, setAt]

theorem nf_colCell_frame (N : Num α) (p : Nat → Nat → Nat → α) (seq_a seq_b : Str)
    (r c : Nat) (s : Mats α) (x : Nat × Nat) (hx : x ≠ (r, c)) :
    (nf.colCell N p seq_a seq_b r c s).cellAt x = s.cellAt x := by
  obtain ⟨a, b⟩ := x
  have h : ¬ (a = r ∧ b = c) := fun h => hx (by rw [h.1, h.2])
  simp [nf.colCell, Mats.cellAt, setAt, h]

/-- The entries that the step of the column band writes in cell (r,c). -/
theorem nf_colCell_at (N : Num α) (p : Nat → Nat → Nat → α) (seq_a seq_b : Str)
    (r c : Nat) (s : Mats α) (hr : 1 ≤ r) :
    (nf.colCell N p seq_a seq_b r c s).cellAt (r, c)
      = (if min (nf.q1 N s r c) (nf.q2 N s r c) < nf.d N p seq_a seq_b s r c
          then min (nf.q1 N s r c) (nf.q2 N s r c) else nf.d N p seq_a seq_b s r c,
         s.P r c, min (nf.q1 N s r c) (nf.q2 N s r c),
         if min (nf.q1 N s r c) (nf.q2 N s r c) < nf.d N p seq_a seq_b s r c then 1 else 2,
         s.Bp r c, if nf.q1 N s r c < nf.q2 N s r c then 1 else 2) := by
  simp [nf.colCell, Mats.cellAt, setAt]

theorem nf_rowCell_frame (N : Num α) (p : Nat → Nat → Nat → α) (seq_a seq_b : Str)
    (i j : Nat) (s : Mats α) (x : Nat × Nat) (hx : x ≠ (i, j)) :
    (nf.rowCell N p seq_a seq_b i j s).cellAt x = s.cellAt x := by
  obtain ⟨a, b⟩ := x
  have h : ¬ (a = i ∧ b = j) := fun h => hx (by rw [h.1, h.2])
  simp [nf.rowCell, Mats.cellAt, setAt, h]

/-- The entries that the step of the row band writes in cell (i,j). -/
theorem nf_rowCell_at (N : Num α) (p : Nat → Nat → Nat → α) (seq_a seq_b : Str)
    (i j : Nat) (s : Mats α) :
    (nf.rowCell N p seq_a seq_b i j s).cellAt (i, j)
      = (if min (nf.p1 N seq_b s i j) (nf.p2 N seq_b s i j) < nf.d N p seq_a seq_b s i j
          then min (nf.p1 N seq_b s i j) (nf.p2 N seq_b s i j)
          else nf.d N p seq_a seq_b s i j,
         min (nf.p1 N seq_b s i j) (nf.p2 N seq_b s i j), s.Q i j,
         if min (nf.p1 N seq_b s i j) (nf.p2 N seq_b s i j) < nf.d N p seq_a seq_b s i j
          then 1 else 0,
         if nf.p1 N seq_b s i j < nf.p2 N seq_b s i j then 1 else 2, s.Bq i j) := by
  simp [nf.rowCell, Mats.cellAt, setAt]

theorem nf_cell_frame (N : Num α) (p : Nat → Nat → Nat → α) (seq_a seq_b : Str)
    (i j : Nat) (s : Mats α) (c : Nat × Nat) (hc : c ≠ (i, j)) :
    (nf.cell N p seq_a seq_b i j s).cellAt c = s.cellAt c := by
  unfold nf.cell
  simp only []
  rw [selectD_frame _ _ _ _ _ hc]
  obtain ⟨a, b⟩ := c
  have h : ¬ (a = i ∧ b = j) := fun h => hc (by rw [h.1, h.2])
  simp [Mats.cellAt, setAt, h]

/-- The entries that the step of the last loop writes in cell (i,j). -/
theorem nf_cell_at (N : Num α) (p : Nat → Nat → Nat → α) (seq_a seq_b : Str)
    (i j : Nat) (s : Mats α) (hi : 3 ≤ i) :
    (nf.cell N p seq_a seq_b i j s).cellAt (i, j)
      = (if nf.d N p seq_a seq_b s i j < min (nf.p1 N seq_b s i j) (nf.p2 N seq_b s i j)
          then (if nf.d N p seq_a seq_b s i j < min (nf.q1 N s i j) (nf.q2 N s i j)
            then nf.d N p seq_a seq_b s i j else min (nf.q1 N s i j) (nf.q2 N s i j))
          else (if min (nf.p1 N seq_b s i j) (nf.p2 N seq_b s i j)
              < min (nf.q1 N s i j) (nf.q2 N s i j)
            then min (nf.p1 N seq_b s i j) (nf.p2 N seq_b s i j)
            else min (nf.q1 N s i j) (nf.q2 N s i j)),
         min (nf.p1 N seq_b s i j) (nf.p2 N seq_b s i j),
         min (nf.q1 N s i j) (nf.q2 N s i j),
         if nf.d N p seq_a seq_b s i j < min (nf.p1 N seq_b s i j) (nf.p2 N seq_b s i j)
          then (if nf.d N p seq_a seq_b s i j < min (nf.q1 N s i j) (nf.q2 N s i j)
            then 0 else 2)
          else (if min (nf.p1 N seq_b s i j) (nf.p2 N seq_b s i j)
              < min (nf.q1 N s i j) (nf.q2 N s i j) then 1 else 2),
         if nf.p1 N seq_b s i j < nf.p2 N seq_b s i j then 1 else 2,
         if nf.q1 N s i j < nf.q2 N s i j then 1 else 2) := by
  have h1 : ¬ (i - 3 = i) := by omega
  unfold nf.cell
  simp only []
  rw [selectD_at]
  simp [nf.q1, nf.q2, setAt, h1]

/-- Bounds on the logarithms taken by `gotoh_noframeshifts`, for a sound logarithm. -/
theorem Num.Sound.nf_bounds {N : Num α} (hN : N.Sound) : nf.Bounds N := by
  have key : ∀ x lo hi : α, 0 < x → lo ≤ 1 - 1 / x → x - 1 ≤ hi →
      lo ≤ N.log x ∧ N.log x ≤ hi :=
    fun x lo hi hx hlo hhi =>
      ⟨le_trans hlo (hN.log_lower x hx), le_trans (hN.log_upper x hx) hhi⟩
  constructor
  · exact key _ _ _ (by norm_num [nf.insertion]) (by norm_num [nf.insertion])
      (by norm_num [nf.insertion])
  · exact key _ _ _ (by norm_num [nf.deletion]) (by norm_num [nf.deletion])
      (by norm_num [nf.deletion])
  · exact key _ _ _ (by norm_num [nf.insertion]) (by norm_num [nf.insertion])
      (by norm_num [nf.insertion])
  · exact key _ _ _ (by norm_num [nf.deletion]) (by norm_num [nf.deletion])
      (by norm_num [nf.deletion])
  · exact key _ _ _ (by norm_num [nf.insertion_ext]) (by norm_num [nf.insertion_ext])
      (by norm_num [nf.insertion_ext])
  · exact key _ _ _ (by norm_num [nf.deletion_ext]) (by norm_num [nf.deletion_ext])
      (by norm_num [nf.deletion_ext])
  · exact key _ _ _ (by norm_num [nf.insertion_ext]) (by norm_num [nf.insertion_ext])
      (by norm_num [nf.insertion_ext])
  · exact key _ _ _ (by norm_num [nf.deletion_ext]) (by norm_num [nf.deletion_ext])
      (by norm_num [nf.deletion_ext])
  · intro k
    unfold nf.nuc_freqs
    split <;> exact key _ _ _ (by norm_num) (by norm_num) (by norm_num)
  · exact key _ _ _ (by norm_num) (by norm_num) (by norm_num)
  · exact key _ _ _ (by norm_num) (by norm_num) (by norm_num)

/-- For two sequences of length 3 the forward pass of `gotoh_noframeshifts` is the
initialisation followed by the steps of the cells (1,1), (2,2) and (3,3). -/
theorem nf_forward_3_3 (N : Num α) (p : Nat → Nat → Nat → α) (a0 a1 a2 b0 b1 b2 : Char) :
    nf.forward N p [a0, a1, a2] [b0, b1, b2]
      = nf.cell N p [a0, a1, a2] [b0, b1, b2] 3 3
          (nf.seedCell N p [a0, a1, a2] [b0, b1, b2] 2
            (nf.seedCell N p [a0, a1, a2] [b0, b1, b2] 1
              (nf.init N [b0, b1, b2] 3 3))) := by
  simp [nf.forward, forLoop, forLoop3, List.range']

/-- Under `nearTensor` codon AAA emits `A` with probability 0.997 at every position. -/
theorem transition_AAA_A (k : Nat) :
    transition ['A', 'A', 'A'] k 'A' (nearTensor : Nat → Nat → Nat → α) = 0.997 := by
  have h : cod_int ['A', 'A', 'A'] = 0 := by decide
  have h2 : nt4_table 'A' = 0 := by decide
  simp [transition, h, h2, nearTensor, codonDigit]

/-- The sentinel `dblMax` is at least 2^127. -/
theorem dblMax_large : (2 : α) ^ 127 ≤ dblMax := by
  unfold dblMax
  have h : (2 : α) ^ 127 = 2 ^ 0 * 2 ^ 127 := by norm_num
  rw [h]
  apply mul_le_mul (by norm_num) _ (by positivity) (by norm_num)
  exact pow_le_pow_right₀ (by norm_num) (by norm_num)

/-- The frame-preserving variant on the pair AAA, AAA under `nearTensor`, over the real
numbers: the three symbols are matched. -/
theorem noframeshifts_AAA_run :
    gotoh_noframeshifts realNum nearTensor [['A', 'A', 'A'], ['A', 'A', 'A']] ⟨⟨[], []⟩, 0⟩
      = .ok (0, { f := { seq_names := [],
                         seq_data := [['A', 'A', 'A'], ['A', 'A', 'A']] },
                  weight := (nf.forward realNum nearTensor ['A', 'A', 'A']
                    ['A', 'A', 'A']).D 3 3 }) := by
  have hF : (2 : ℝ) ^ 127 ≤ fltMax := fltMax_large
  have hDB : (2 : ℝ) ^ 127 ≤ dblMax := dblMax_large
  have hbig : (100 : ℝ) < 2 ^ 127 := by norm_num
  obtain ⟨⟨ni1, ni2⟩, ⟨nd1, nd2⟩, ⟨i1, i2⟩, ⟨d1, d2⟩, ⟨ie1, ie2⟩, ⟨de1, de2⟩, ⟨nie1, nie2⟩,
    ⟨nde1, nde2⟩, hfreq, ⟨t1, t2⟩, -⟩ := (realNum_sound).nf_bounds
  have hf0 := hfreq 0
  have hfw := nf_forward_3_3 realNum nearTensor 'A' 'A' 'A' 'A' 'A' 'A'
  have hsub : substr ['A', 'A', 'A'] 0 3 = ['A', 'A', 'A'] := by decide
  have hsub2 : substr ['A', 'A', 'A'] ((3 - 1) / 3 * 3) 3 = ['A', 'A', 'A'] := by decide
  have hc0 : charAt ['A', 'A', 'A'] 0 = 'A' := by decide
  have hc1 : charAt ['A', 'A', 'A'] 1 = 'A' := by decide
  have hc2 : charAt ['A', 'A', 'A'] 2 = 'A' := by decide
  have hnt : nt4_table 'A' = 0 := by decide
  -- the matrices before the step of cell (3,3)
  have hD22 : (nf.seedCell realNum nearTensor ['A', 'A', 'A'] ['A', 'A', 'A'] 2
      (nf.seedCell realNum nearTensor ['A', 'A', 'A'] ['A', 'A', 'A'] 1
        (nf.init realNum ['A', 'A', 'A'] 3 3))).D 2 2
      = 0 - realNum.log (1 - nf.insertion) - realNum.log (1 - nf.deletion)
          - realNum.log 0.997
          - realNum.log (1 - nf.insertion) - realNum.log (1 - nf.deletion)
          - realNum.log 0.997 := by
    simp [nf.seedCell, nf.init, setAt, hsub, hc0, hc1, transition_AAA_A]
  have hBd22 : (nf.seedCell realNum nearTensor ['A', 'A', 'A'] ['A', 'A', 'A'] 2
      (nf.seedCell realNum nearTensor ['A', 'A', 'A'] ['A', 'A', 'A'] 1
        (nf.init realNum ['A', 'A', 'A'] 3 3))).Bd 2 2 = 0 := by
    simp [nf.seedCell, setAt]
  have hBd11 : (nf.seedCell realNum nearTensor ['A', 'A', 'A'] ['A', 'A', 'A'] 2
      (nf.seedCell realNum nearTensor ['A', 'A', 'A'] ['A', 'A', 'A'] 1
        (nf.init realNum ['A', 'A', 'A'] 3 3))).Bd 1 1 = 0 := by
    simp [nf.seedCell, setAt]
  have hd : nf.d realNum nearTensor ['A', 'A', 'A'] ['A', 'A', 'A']
      (nf.seedCell realNum nearTensor ['A', 'A', 'A'] ['A', 'A', 'A'] 2
        (nf.seedCell realNum nearTensor ['A', 'A', 'A'] ['A', 'A', 'A'] 1
          (nf.init realNum ['A', 'A', 'A'] 3 3))) 3 3
      = 0 - realNum.log (1 - nf.insertion) - realNum.log (1 - nf.deletion)
          - realNum.log 0.997
          - realNum.log (1 - nf.insertion) - realNum.log (1 - nf.deletion)
          - realNum.log 0.997
          - realNum.log (1 - nf.insertion) - realNum.log (1 - nf.deletion)
          - realNum.log 0.997 := by
    unfold nf.d
    simp only [Nat.add_one_sub_one, Nat.reduceSub, hBd22, if_true, hD22, hsub2, hc2,
      transition_AAA_A]
  have hp1 : nf.p1 realNum ['A', 'A', 'A']
      (nf.seedCell realNum nearTensor ['A', 'A', 'A'] ['A', 'A', 'A'] 2
        (nf.seedCell realNum nearTensor ['A', 'A', 'A'] ['A', 'A', 'A'] 1
          (nf.init realNum ['A', 'A', 'A'] 3 3))) 3 3
      = fltMax - 3 * realNum.log nf.insertion_ext - realNum.log (nf.nuc_freqs 0)
          - realNum.log (nf.nuc_freqs 0) - realNum.log (nf.nuc_freqs 0) := by
    simp [nf.p1, nf.seedCell, nf.init, setAt, Mats.fresh, hc0, hc1, hc2, hnt]
  have hp2 : nf.p2 realNum ['A', 'A', 'A']
      (nf.seedCell realNum nearTensor ['A', 'A', 'A'] ['A', 'A', 'A'] 2
        (nf.seedCell realNum nearTensor ['A', 'A', 'A'] ['A', 'A', 'A'] 1
          (nf.init realNum ['A', 'A', 'A'] 3 3))) 3 3 = dblMax := by
    simp [nf.p2, nf.seedCell, nf.init, setAt, Mats.fresh]
  have hq1 : nf.q1 realNum
      (nf.seedCell realNum nearTensor ['A', 'A', 'A'] ['A', 'A', 'A'] 2
        (nf.seedCell realNum nearTensor ['A', 'A', 'A'] ['A', 'A', 'A'] 1
          (nf.init realNum ['A', 'A', 'A'] 3 3))) 3 3
      = fltMax - 3 * realNum.log nf.deletion_ext := by
    simp [nf.q1, nf.seedCell, nf.init, setAt, Mats.fresh]
  have hq2 : nf.q2 realNum
      (nf.seedCell realNum nearTensor ['A', 'A', 'A'] ['A', 'A', 'A'] 2
        (nf.seedCell realNum nearTensor ['A', 'A', 'A'] ['A', 'A', 'A'] 1
          (nf.init realNum ['A', 'A', 'A'] 3 3))) 3 3
      = nf.open03 realNum ['A', 'A', 'A'] - realNum.log (1 - nf.deletion_ext)
          - realNum.log nf.deletion - 2 * realNum.log nf.deletion_ext := by
    simp [nf.q2, nf.seedCell, nf.init, setAt, Mats.fresh]
  have hopen : nf.open03 realNum ['A', 'A', 'A']
      = -realNum.log nf.insertion - realNum.log (nf.nuc_freqs 0)
          - realNum.log (nf.nuc_freqs 0) - realNum.log (nf.nuc_freqs 0)
          - realNum.log (1 - nf.insertion_ext) - 2 * realNum.log nf.insertion_ext := by
    simp [nf.open03, hc0, hc1, hc2, hnt]
  -- the tags on the path
  have hcell := nf_cell_at realNum nearTensor ['A', 'A', 'A'] ['A', 'A', 'A'] 3 3
    (nf.seedCell realNum nearTensor ['A', 'A', 'A'] ['A', 'A', 'A'] 2
      (nf.seedCell realNum nearTensor ['A', 'A', 'A'] ['A', 'A', 'A'] 1
        (nf.init realNum ['A', 'A', 'A'] 3 3))) (le_refl 3)
  rw [← hfw, hd, hp1, hp2, hq1, hq2, hopen] at hcell
  have hlt1 : (0 : ℝ) - realNum.log (1 - nf.insertion) - realNum.log (1 - nf.deletion)
          - realNum.log 0.997
          - realNum.log (1 - nf.insertion) - realNum.log (1 - nf.deletion)
          - realNum.log 0.997
          - realNum.log (1 - nf.insertion) - realNum.log (1 - nf.deletion)
          - realNum.log 0.997
      < min (fltMax - 3 * realNum.log nf.insertion_ext - realNum.log (nf.nuc_freqs 0)
          - realNum.log (nf.nuc_freqs 0) - realNum.log (nf.nuc_freqs 0)) dblMax := by
    apply lt_min <;> linarith
  have hlt2 : (0 : ℝ) - realNum.log (1 - nf.insertion) - realNum.log (1 - nf.deletion)
          - realNum.log 0.997
          - realNum.log (1 - nf.insertion) - realNum.log (1 - nf.deletion)
          - realNum.log 0.997
          - realNum.log (1 - nf.insertion) - realNum.log (1 - nf.deletion)
          - realNum.log 0.997
      < min (fltMax - 3 * realNum.log nf.deletion_ext)
          (-realNum.log nf.insertion - realNum.log (nf.nuc_freqs 0)
            - realNum.log (nf.nuc_freqs 0) - realNum.log (nf.nuc_freqs 0)
            - realNum.log (1 - nf.insertion_ext) - 2 * realNum.log nf.insertion_ext
            - realNum.log (1 - nf.deletion_ext)
            - realNum.log nf.deletion - 2 * realNum.log nf.deletion_ext) := by
    apply lt_min <;> linarith
  rw [if_pos hlt1, if_pos hlt2, if_pos hlt1, if_pos hlt2] at hcell
  simp only [Mats.cellAt, Prod.mk.injEq] at hcell
  have hT33 : (nf.forward realNum nearTensor ['A', 'A', 'A'] ['A', 'A', 'A']).Bd 3 3 = 0 :=
    hcell.2.2.2.1
  have hfr := fun c hc => nf_cell_frame realNum nearTensor ['A', 'A', 'A'] ['A', 'A', 'A'] 3 3
    (nf.seedCell realNum nearTensor ['A', 'A', 'A'] ['A', 'A', 'A'] 2
      (nf.seedCell realNum nearTensor ['A', 'A', 'A'] ['A', 'A', 'A'] 1
        (nf.init realNum ['A', 'A', 'A'] 3 3))) c hc
  rw [← hfw] at hfr
  simp only [Mats.cellAt, Prod.mk.injEq] at hfr
  have hT22 : (nf.forward realNum nearTensor ['A', 'A', 'A'] ['A', 'A', 'A']).Bd 2 2 = 0 := by
    rw [(hfr (2, 2) (by decide)).2.2.2.1, hBd22]
  have hT11 : (nf.forward realNum nearTensor ['A', 'A', 'A'] ['A', 'A', 'A']).Bd 1 1 = 0 := by
    rw [(hfr (1, 1) (by decide)).2.2.2.1, hBd11]
  -- the traceback
  simp [gotoh_noframeshifts, backtracking_noframeshifts, btLoop, hT33, hT22, hT11, emit_pair,
    charAt]

/-- For a first sequence of length 3 and a second of length 6 the forward pass of
`gotoh_noframeshifts` is the initialisation followed by the steps of the cells (1,1), (2,2),
(1,4), (2,5) of the bands and (3,3), (3,6) of the last loop. -/
theorem nf_forward_3_6 (N : Num α) (p : Nat → Nat → Nat → α)
    (a0 a1 a2 b0 b1 b2 b3 b4 b5 : Char) :
    nf.forward N p [a0, a1, a2] [b0, b1, b2, b3, b4, b5]
      = nf.cell N p [a0, a1, a2] [b0, b1, b2, b3, b4, b5] 3 6
          (nf.cell N p [a0, a1, a2] [b0, b1, b2, b3, b4, b5] 3 3
            (nf.rowCell N p [a0, a1, a2] [b0, b1, b2, b3, b4, b5] 2 5
              (nf.rowCell N p [a0, a1, a2] [b0, b1, b2, b3, b4, b5] 1 4
                (nf.seedCell N p [a0, a1, a2] [b0, b1, b2, b3, b4, b5] 2
                  (nf.seedCell N p [a0, a1, a2] [b0, b1, b2, b3, b4, b5] 1
                    (nf.init N [b0, b1, b2, b3, b4, b5] 3 6)))))) := by
  simp [nf.forward, forLoop, forLoop3, List.range']

/-- The matrices of `gotoh_noframeshifts` for the pair AAA, AAAAAA before the row band: the
entries that the later steps read. -/
theorem nf_AAA_AAAAAA_seeds (N : Num α) :
    ∃ s : Mats α,
      s = nf.seedCell N nearTensor ['A', 'A', 'A'] ['A', 'A', 'A', 'A', 'A', 'A'] 2
            (nf.seedCell N nearTensor ['A', 'A', 'A'] ['A', 'A', 'A', 'A', 'A', 'A'] 1
              (nf.init N ['A', 'A', 'A', 'A', 'A', 'A'] 3 6)) ∧
      s.D 1 1 = 0 - N.log (1 - nf.insertion) - N.log (1 - nf.deletion) - N.log 0.997 ∧
      s.D 2 2 = 0 - N.log (1 - nf.insertion) - N.log (1 - nf.deletion) - N.log 0.997
                  - N.log (1 - nf.insertion) - N.log (1 - nf.deletion) - N.log 0.997 ∧
      s.Bd 1 1 = 0 ∧ s.Bd 2 2 = 0 ∧ s.P 1 1 = fltMax ∧ s.P 2 2 = fltMax ∧
      s.Bd 0 3 = 1 ∧ s.D 0 3 = nf.open03 N ['A', 'A', 'A', 'A', 'A', 'A'] ∧ s.Bp 0 3 = 2 ∧
      s.Bd 3 0 = 2 ∧ s.P 3 0 = fltMax ∧ s.Bd 3 2 = -1 ∧ s.Q 0 3 = fltMax ∧
      s.Q 0 6 = fltMax ∧ s.Bd 0 6 = 1 ∧
      s.D 0 6 = nf.open03 N ['A', 'A', 'A', 'A', 'A', 'A'] - 3 * N.log nf.insertion_ext
                  - N.log (nf.nuc_freqs 0) - N.log (nf.nuc_freqs 0)
                  - N.log (nf.nuc_freqs 0) := by
  have hsub : substr ['A', 'A', 'A'] 0 3 = ['A', 'A', 'A'] := by decide
  have hc0 : charAt ['A', 'A', 'A', 'A', 'A', 'A'] 0 = 'A' := by decide
  have hc1 : charAt ['A', 'A', 'A', 'A', 'A', 'A'] 1 = 'A' := by decide
  have hc3 : charAt ['A', 'A', 'A', 'A', 'A', 'A'] 3 = 'A' := by decide
  have hc4 : charAt ['A', 'A', 'A', 'A', 'A', 'A'] 4 = 'A' := by decide
  have hc5 : charAt ['A', 'A', 'A', 'A', 'A', 'A'] 5 = 'A' := by decide
  have hnt : nt4_table 'A' = 0 := by decide
  refine ⟨_, rfl, ?_, ?_, ?_, ?_, ?_, ?_, ?_, ?_, ?_, ?_, ?_, ?_, ?_, ?_, ?_, ?_⟩ <;>
    simp [nf.seedCell, nf.init, nf.row0, forLoop3, List.range', setAt, Mats.fresh, hsub, hc0,
      hc1, hc3, hc4, hc5, hnt, transition_AAA_A]

/-- The frame-preserving variant on the pair AAA, AAAAAA under `nearTensor`, over the real
numbers: the first codon of the second sequence is inserted and the three symbols are
matched, so the first row starts with a run of three gap symbols. -/
theorem noframeshifts_AAA_AAAAAA_run :
    gotoh_noframeshifts realNum nearTensor
        [['A', 'A', 'A'], ['A', 'A', 'A', 'A', 'A', 'A']] ⟨⟨[], []⟩, 0⟩
      = .ok (0, { f := { seq_names := [],
                         seq_data := [['-', '-', '-', 'A', 'A', 'A'],
                                      ['A', 'A', 'A', 'A', 'A', 'A']] },
                  weight := (nf.forward realNum nearTensor ['A', 'A', 'A']
                    ['A', 'A', 'A', 'A', 'A', 'A']).D 3 6 }) := by
  have hF : (2 : ℝ) ^ 127 ≤ fltMax := fltMax_large
  have hDB : (2 : ℝ) ^ 127 ≤ dblMax := dblMax_large
  have hbig : (10000 : ℝ) < 2 ^ 127 := by norm_num
  obtain ⟨⟨ni1, ni2⟩, ⟨nd1, nd2⟩, ⟨i1, i2⟩, ⟨d1, d2⟩, ⟨ie1, ie2⟩, ⟨de1, de2⟩, ⟨nie1, nie2⟩,
    ⟨nde1, nde2⟩, hfreq, ⟨t1, t2⟩, -⟩ := (realNum_sound).nf_bounds
  have hf0 := hfreq 0
  have hni : realNum.log (1 - nf.insertion) < 0 := by
    show Real.log (1 - nf.insertion) < 0
    exact Real.log_neg (by norm_num [nf.insertion]) (by norm_num [nf.insertion])
  have hfw := nf_forward_3_6 realNum nearTensor 'A' 'A' 'A' 'A' 'A' 'A' 'A' 'A' 'A'
  have hsub0 : substr ['A', 'A', 'A'] 0 3 = ['A', 'A', 'A'] := by decide
  have hsub1 : substr ['A', 'A', 'A'] ((1 - 1) / 3 * 3) 3 = ['A', 'A', 'A'] := by decide
  have hsub2 : substr ['A', 'A', 'A'] ((2 - 1) / 3 * 3) 3 = ['A', 'A', 'A'] := by decide
  have hsub3 : substr ['A', 'A', 'A'] ((3 - 1) / 3 * 3) 3 = ['A', 'A', 'A'] := by decide
  have hc0 : charAt ['A', 'A', 'A', 'A', 'A', 'A'] 0 = 'A' := by decide
  have hc1 : charAt ['A', 'A', 'A', 'A', 'A', 'A'] 1 = 'A' := by decide
  have hc2 : charAt ['A', 'A', 'A', 'A', 'A', 'A'] 2 = 'A' := by decide
  have hc3 : charAt ['A', 'A', 'A', 'A', 'A', 'A'] 3 = 'A' := by decide
  have hc4 : charAt ['A', 'A', 'A', 'A', 'A', 'A'] 4 = 'A' := by decide
  have hc5 : charAt ['A', 'A', 'A', 'A', 'A', 'A'] 5 = 'A' := by decide
  have hnt : nt4_table 'A' = 0 := by decide
  have hopen : nf.open03 realNum ['A', 'A', 'A', 'A', 'A', 'A']
      = -realNum.log nf.insertion - realNum.log (nf.nuc_freqs 0) - realNum.log (nf.nuc_freqs 0)
          - realNum.log (nf.nuc_freqs 0) - realNum.log (1 - nf.insertion_ext)
          - 2 * realNum.log nf.insertion_ext := by
    simp [nf.open03, hc0, hc1, hc2, hnt]
  -- the matrices after the cells (1,1) and (2,2)
  obtain ⟨s2, hs2, D11, D22, Bd11, Bd22, P11, P22, Bd03, D03, Bp03, Bd30, P30, Bd32, Q03,
    Q06, Bd06, D06⟩ := nf_AAA_AAAAAA_seeds realNum
  rw [← hs2] at hfw
  clear hs2
  -- cell (1,4) of the row band
  obtain ⟨s3, hs3⟩ : ∃ s, s = nf.rowCell realNum nearTensor ['A', 'A', 'A'] ['A', 'A', 'A', 'A',
      'A', 'A'] 1 4 s2 := ⟨_, rfl⟩
  rw [← hs3] at hfw
  have fr3 := fun c hc => nf_rowCell_frame realNum nearTensor ['A', 'A', 'A'] ['A', 'A', 'A', 'A',
      'A', 'A'] 1 4 s2 c hc
  have at3 := nf_rowCell_at realNum nearTensor ['A', 'A', 'A'] ['A', 'A', 'A', 'A', 'A', 'A'] 1 4 s2
  rw [← hs3] at fr3 at3
  clear hs3
  simp only [Mats.cellAt, Prod.mk.injEq] at fr3
  have p1_14 : nf.p1 realNum ['A', 'A', 'A', 'A', 'A', 'A'] s2 1 4
      = fltMax - 3 * realNum.log nf.insertion_ext - realNum.log (nf.nuc_freqs 0)
          - realNum.log (nf.nuc_freqs 0) - realNum.log (nf.nuc_freqs 0) := by
    simp [nf.p1, P11, hc1, hc2, hc3, hnt]
  have p2_14 : nf.p2 realNum ['A', 'A', 'A', 'A', 'A', 'A'] s2 1 4
      = 0 - realNum.log (1 - nf.insertion) - realNum.log (1 - nf.deletion) - realNum.log 0.997
          - realNum.log nf.insertion - 2 * realNum.log nf.insertion_ext
          - realNum.log (nf.nuc_freqs 0) - realNum.log (nf.nuc_freqs 0)
          - realNum.log (nf.nuc_freqs 0) - realNum.log (1 - nf.insertion_ext) := by
    simp [nf.p2, Bd11, D11, hc1, hc2, hc3, hnt]
  have d_14 : nf.d realNum nearTensor ['A', 'A', 'A'] ['A', 'A', 'A', 'A', 'A', 'A'] s2 1 4
      = nf.open03 realNum ['A', 'A', 'A', 'A', 'A', 'A'] - realNum.log (1 - nf.deletion)
          - realNum.log 0.997 := by
    simp [nf.d, Bd03, D03, hsub0, hc3, transition_AAA_A]
  rw [p1_14, p2_14, d_14] at at3
  have hno14 : ¬ (min (fltMax - 3 * realNum.log nf.insertion_ext - realNum.log (nf.nuc_freqs 0)
      - realNum.log (nf.nuc_freqs 0) - realNum.log (nf.nuc_freqs 0))
        (0 - realNum.log (1 - nf.insertion) - realNum.log (1 - nf.deletion) - realNum.log 0.997
            - realNum.log nf.insertion - 2 * realNum.log nf.insertion_ext
            - realNum.log (nf.nuc_freqs 0) - realNum.log (nf.nuc_freqs 0)
            - realNum.log (nf.nuc_freqs 0) - realNum.log (1 - nf.insertion_ext))
      < nf.open03 realNum ['A', 'A', 'A', 'A', 'A', 'A'] - realNum.log (1 - nf.deletion)
          - realNum.log 0.997) := by
    rw [not_lt]
    apply le_min <;> linarith only [hF, hDB, hbig, ni1, ni2, nd1, nd2, i1, i2, d1, d2, ie1, ie2,
        de1, de2, nie1, nie2, nde1, nde2, hf0.1, hf0.2, t1, t2, hopen]
  rw [if_neg hno14, if_neg hno14] at at3
  simp only [Mats.cellAt, Prod.mk.injEq] at at3
  obtain ⟨D14, -, -, Bd14, -, -⟩ := at3
  -- cell (2,5) of the row band
  obtain ⟨s4, hs4⟩ : ∃ s, s = nf.rowCell realNum nearTensor ['A', 'A', 'A'] ['A', 'A', 'A', 'A',
      'A', 'A'] 2 5 s3 := ⟨_, rfl⟩
  rw [← hs4] at hfw
  have fr4 := fun c hc => nf_rowCell_frame realNum nearTensor ['A', 'A', 'A'] ['A', 'A', 'A', 'A',
      'A', 'A'] 2 5 s3 c hc
  have at4 := nf_rowCell_at realNum nearTensor ['A', 'A', 'A'] ['A', 'A', 'A', 'A', 'A', 'A'] 2 5 s3
  rw [← hs4] at fr4 at4
  clear hs4
  simp only [Mats.cellAt, Prod.mk.injEq] at fr4
  have p1_25 : nf.p1 realNum ['A', 'A', 'A', 'A', 'A', 'A'] s3 2 5
      = fltMax - 3 * realNum.log nf.insertion_ext - realNum.log (nf.nuc_freqs 0)
          - realNum.log (nf.nuc_freqs 0) - realNum.log (nf.nuc_freqs 0) := by
    simp [nf.p1, (fr3 (2, 2) (by decide)).2.1, P22, hc2, hc3, hc4, hnt]
  have p2_25 : nf.p2 realNum ['A', 'A', 'A', 'A', 'A', 'A'] s3 2 5
      = 0 - realNum.log (1 - nf.insertion) - realNum.log (1 - nf.deletion) - realNum.log 0.997
          - realNum.log (1 - nf.insertion) - realNum.log (1 - nf.deletion) - realNum.log 0.997
          - realNum.log nf.insertion - 2 * realNum.log nf.insertion_ext
          - realNum.log (nf.nuc_freqs 0) - realNum.log (nf.nuc_freqs 0)
          - realNum.log (nf.nuc_freqs 0) - realNum.log (1 - nf.insertion_ext) := by
    simp [nf.p2, (fr3 (2, 2) (by decide)).2.2.2.1, (fr3 (2, 2) (by decide)).1, Bd22, D22,
      hc2, hc3, hc4, hnt]
  have d_25 : nf.d realNum nearTensor ['A', 'A', 'A'] ['A', 'A', 'A', 'A', 'A', 'A'] s3 2 5
      = nf.open03 realNum ['A', 'A', 'A', 'A', 'A', 'A'] - realNum.log (1 - nf.deletion)
          - realNum.log 0.997 - realNum.log (1 - nf.insertion) - realNum.log (1 - nf.deletion)
          - realNum.log 0.997 := by
    simp [nf.d, Bd14, D14, hsub0, hc4, transition_AAA_A]
  rw [p1_25, p2_25, d_25] at at4
  have hno25 : ¬ (min (fltMax - 3 * realNum.log nf.insertion_ext - realNum.log (nf.nuc_freqs 0)
      - realNum.log (nf.nuc_freqs 0) - realNum.log (nf.nuc_freqs 0))
        (0 - realNum.log (1 - nf.insertion) - realNum.log (1 - nf.deletion) - realNum.log 0.997
            - realNum.log (1 - nf.insertion) - realNum.log (1 - nf.deletion) - realNum.log 0.997
            - realNum.log nf.insertion - 2 * realNum.log nf.insertion_ext
            - realNum.log (nf.nuc_freqs 0) - realNum.log (nf.nuc_freqs 0)
            - realNum.log (nf.nuc_freqs 0) - realNum.log (1 - nf.insertion_ext))
      < nf.open03 realNum ['A', 'A', 'A', 'A', 'A', 'A'] - realNum.log (1 - nf.deletion)
          - realNum.log 0.997 - realNum.log (1 - nf.insertion) - realNum.log (1 - nf.deletion)
          - realNum.log 0.997) := by
    rw [not_lt]
    apply le_min <;> linarith only [hF, hDB, hbig, ni1, ni2, nd1, nd2, i1, i2, d1, d2, ie1, ie2,
        de1, de2, nie1, nie2, nde1, nde2, hf0.1, hf0.2, t1, t2, hopen]
  rw [if_neg hno25, if_neg hno25] at at4
  simp only [Mats.cellAt, Prod.mk.injEq] at at4
  obtain ⟨D25, -, -, Bd25, -, -⟩ := at4
  -- cell (3,3)
  obtain ⟨s5, hs5⟩ : ∃ s, s = nf.cell realNum nearTensor ['A', 'A', 'A'] ['A', 'A', 'A', 'A', 'A',
      'A'] 3 3 s4 := ⟨_, rfl⟩
  rw [← hs5] at hfw
  have fr5 := fun c hc => nf_cell_frame realNum nearTensor ['A', 'A', 'A'] ['A', 'A', 'A', 'A',
      'A', 'A'] 3 3 s4 c hc
  have at5 := nf_cell_at realNum nearTensor ['A', 'A', 'A'] ['A', 'A', 'A', 'A', 'A',
      'A'] 3 3 s4 (le_refl 3)
  rw [← hs5] at fr5 at5
  clear hs5
  simp only [Mats.cellAt, Prod.mk.injEq] at fr5
  have d_33 : nf.d realNum nearTensor ['A', 'A', 'A'] ['A', 'A', 'A', 'A', 'A', 'A'] s4 3 3
      = 0 - realNum.log (1 - nf.insertion) - realNum.log (1 - nf.deletion) - realNum.log 0.997
          - realNum.log (1 - nf.insertion) - realNum.log (1 - nf.deletion) - realNum.log 0.997
          - realNum.log (1 - nf.insertion) - realNum.log (1 - nf.deletion) - realNum.log 0.997 := by
    simp [nf.d, (fr4 (2, 2) (by decide)).2.2.2.1, (fr3 (2, 2) (by decide)).2.2.2.1,
      (fr4 (2, 2) (by decide)).1, (fr3 (2, 2) (by decide)).1, Bd22, D22, hsub0, hc2,
      transition_AAA_A]
  have p1_33 : nf.p1 realNum ['A', 'A', 'A', 'A', 'A', 'A'] s4 3 3
      = fltMax - 3 * realNum.log nf.insertion_ext - realNum.log (nf.nuc_freqs 0)
          - realNum.log (nf.nuc_freqs 0) - realNum.log (nf.nuc_freqs 0) := by
    simp [nf.p1, (fr4 (3, 0) (by decide)).2.1, (fr3 (3, 0) (by decide)).2.1, P30, hc0, hc1,
      hc2, hnt]
  have p2_33 : nf.p2 realNum ['A', 'A', 'A', 'A', 'A', 'A'] s4 3 3 = dblMax := by
    simp [nf.p2, (fr4 (3, 0) (by decide)).2.2.2.1, (fr3 (3, 0) (by decide)).2.2.2.1, Bd30,
      (fr4 (3, 2) (by decide)).2.2.2.1, (fr3 (3, 2) (by decide)).2.2.2.1, Bd32]
  have q1_33 : nf.q1 realNum s4 3 3 = fltMax - 3 * realNum.log nf.deletion_ext := by
    simp [nf.q1, (fr4 (0, 3) (by decide)).2.2.1, (fr3 (0, 3) (by decide)).2.2.1, Q03]
  have q2_33 : nf.q2 realNum s4 3 3
      = nf.open03 realNum ['A', 'A', 'A', 'A', 'A', 'A'] - realNum.log (1 - nf.deletion_ext)
          - realNum.log nf.deletion - 2 * realNum.log nf.deletion_ext := by
    simp [nf.q2, (fr4 (0, 3) (by decide)).2.2.2.1, (fr3 (0, 3) (by decide)).2.2.2.1, Bd03,
      (fr4 (0, 3) (by decide)).1, (fr3 (0, 3) (by decide)).1, D03]
  rw [d_33, p1_33, p2_33, q1_33, q2_33] at at5
  have hltp33 : 0 - realNum.log (1 - nf.insertion) - realNum.log (1 - nf.deletion)
      - realNum.log 0.997 - realNum.log (1 - nf.insertion) - realNum.log (1 - nf.deletion)
      - realNum.log 0.997 - realNum.log (1 - nf.insertion) - realNum.log (1 - nf.deletion)
      - realNum.log 0.997
      < min (fltMax - 3 * realNum.log nf.insertion_ext - realNum.log (nf.nuc_freqs 0)
          - realNum.log (nf.nuc_freqs 0) - realNum.log (nf.nuc_freqs 0)) dblMax := by
    apply lt_min <;> linarith only [hF, hDB, hbig, ni1, ni2, nd1, nd2, i1, i2, d1, d2, ie1, ie2,
        de1, de2, nie1, nie2, nde1, nde2, hf0.1, hf0.2, t1, t2, hopen]
  have hltq33 : 0 - realNum.log (1 - nf.insertion) - realNum.log (1 - nf.deletion)
      - realNum.log 0.997 - realNum.log (1 - nf.insertion) - realNum.log (1 - nf.deletion)
      - realNum.log 0.997 - realNum.log (1 - nf.insertion) - realNum.log (1 - nf.deletion)
      - realNum.log 0.997
      < min (fltMax - 3 * realNum.log nf.deletion_ext)
          (nf.open03 realNum ['A', 'A', 'A', 'A', 'A', 'A'] - realNum.log (1 - nf.deletion_ext)
              - realNum.log nf.deletion - 2 * realNum.log nf.deletion_ext) := by
    apply lt_min <;> linarith only [hF, hDB, hbig, ni1, ni2, nd1, nd2, i1, i2, d1, d2, ie1, ie2,
        de1, de2, nie1, nie2, nde1, nde2, hf0.1, hf0.2, t1, t2, hopen]
  rw [if_pos hltp33, if_pos hltq33, if_pos hltp33, if_pos hltq33] at at5
  simp only [Mats.cellAt, Prod.mk.injEq] at at5
  obtain ⟨D33, P33, -, Bd33, -, -⟩ := at5
  have hP33 : (2 : ℝ) ^ 127 ≤ s5.P 3 3 := by
    rw [P33]
    apply le_min <;> linarith only [hF, hDB, hbig, ni1, ni2, nd1, nd2, i1, i2, d1, d2, ie1, ie2,
        de1, de2, nie1, nie2, nde1, nde2, hf0.1, hf0.2, t1, t2, hopen]
  -- cell (3,6)
  have fr6 := fun c hc => nf_cell_frame realNum nearTensor ['A', 'A', 'A'] ['A', 'A', 'A', 'A',
      'A', 'A'] 3 6 s5 c hc
  have at6 := nf_cell_at realNum nearTensor ['A', 'A', 'A'] ['A', 'A', 'A', 'A', 'A',
      'A'] 3 6 s5 (le_refl 3)
  rw [← hfw] at fr6 at6
  simp only [Mats.cellAt, Prod.mk.injEq] at fr6
  have d_36 : nf.d realNum nearTensor ['A', 'A', 'A'] ['A', 'A', 'A', 'A', 'A', 'A'] s5 3 6
      = nf.open03 realNum ['A', 'A', 'A', 'A', 'A', 'A'] - realNum.log (1 - nf.deletion)
          - realNum.log 0.997 - realNum.log (1 - nf.insertion) - realNum.log (1 - nf.deletion)
          - realNum.log 0.997 - realNum.log (1 - nf.insertion) - realNum.log (1 - nf.deletion)
          - realNum.log 0.997 := by
    simp [nf.d, (fr5 (2, 5) (by decide)).2.2.2.1, (fr5 (2, 5) (by decide)).1, Bd25, D25,
      hsub0, hc5, transition_AAA_A]
  have p1_36 : nf.p1 realNum ['A', 'A', 'A', 'A', 'A', 'A'] s5 3 6
      = s5.P 3 3 - 3 * realNum.log nf.insertion_ext - realNum.log (nf.nuc_freqs 0)
          - realNum.log (nf.nuc_freqs 0) - realNum.log (nf.nuc_freqs 0) := by
    simp [nf.p1, hc3, hc4, hc5, hnt]
  have p2_36 : nf.p2 realNum ['A', 'A', 'A', 'A', 'A', 'A'] s5 3 6
      = 0 - realNum.log (1 - nf.insertion) - realNum.log (1 - nf.deletion) - realNum.log 0.997
          - realNum.log (1 - nf.insertion) - realNum.log (1 - nf.deletion) - realNum.log 0.997
          - realNum.log (1 - nf.insertion) - realNum.log (1 - nf.deletion) - realNum.log 0.997
          - realNum.log nf.insertion - 2 * realNum.log nf.insertion_ext
          - realNum.log (nf.nuc_freqs 0) - realNum.log (nf.nuc_freqs 0)
          - realNum.log (nf.nuc_freqs 0) - realNum.log (1 - nf.insertion_ext) := by
    simp [nf.p2, Bd33, D33, hc3, hc4, hc5, hnt]
  have q1_36 : nf.q1 realNum s5 3 6 = fltMax - 3 * realNum.log nf.deletion_ext := by
    simp [nf.q1, (fr5 (0, 6) (by decide)).2.2.1, (fr4 (0, 6) (by decide)).2.2.1,
      (fr3 (0, 6) (by decide)).2.2.1, Q06]
  have q2_36 : nf.q2 realNum s5 3 6
      = nf.open03 realNum ['A', 'A', 'A', 'A', 'A', 'A'] - 3 * realNum.log nf.insertion_ext
          - realNum.log (nf.nuc_freqs 0) - realNum.log (nf.nuc_freqs 0)
          - realNum.log (nf.nuc_freqs 0) - realNum.log (1 - nf.deletion_ext)
          - realNum.log nf.deletion - 2 * realNum.log nf.deletion_ext := by
    simp [nf.q2, (fr5 (0, 6) (by decide)).2.2.2.1, (fr4 (0, 6) (by decide)).2.2.2.1,
      (fr3 (0, 6) (by decide)).2.2.2.1, Bd06, (fr5 (0, 6) (by decide)).1,
      (fr4 (0, 6) (by decide)).1, (fr3 (0, 6) (by decide)).1, D06]
  rw [d_36, p1_36, p2_36, q1_36, q2_36] at at6
  have hltp36 : nf.open03 realNum ['A', 'A', 'A', 'A', 'A', 'A'] - realNum.log (1 - nf.deletion)
      - realNum.log 0.997 - realNum.log (1 - nf.insertion) - realNum.log (1 - nf.deletion)
      - realNum.log 0.997 - realNum.log (1 - nf.insertion) - realNum.log (1 - nf.deletion)
      - realNum.log 0.997
      < min (s5.P 3 3 - 3 * realNum.log nf.insertion_ext - realNum.log (nf.nuc_freqs 0)
          - realNum.log (nf.nuc_freqs 0) - realNum.log (nf.nuc_freqs 0))
          (0 - realNum.log (1 - nf.insertion) - realNum.log (1 - nf.deletion) - realNum.log 0.997
              - realNum.log (1 - nf.insertion) - realNum.log (1 - nf.deletion)
              - realNum.log 0.997 - realNum.log (1 - nf.insertion) - realNum.log (1
              - nf.deletion) - realNum.log 0.997 - realNum.log nf.insertion
              - 2 * realNum.log nf.insertion_ext - realNum.log (nf.nuc_freqs 0)
              - realNum.log (nf.nuc_freqs 0) - realNum.log (nf.nuc_freqs 0) - realNum.log (1
              - nf.insertion_ext)) := by
    apply lt_min <;> linarith only [hP33, hni, hF, hDB, hbig, ni1, ni2, nd1, nd2, i1, i2, d1, d2,
        ie1, ie2, de1, de2, nie1, nie2, nde1, nde2, hf0.1, hf0.2, t1, t2, hopen]
  have hltq36 : nf.open03 realNum ['A', 'A', 'A', 'A', 'A', 'A'] - realNum.log (1 - nf.deletion)
      - realNum.log 0.997 - realNum.log (1 - nf.insertion) - realNum.log (1 - nf.deletion)
      - realNum.log 0.997 - realNum.log (1 - nf.insertion) - realNum.log (1 - nf.deletion)
      - realNum.log 0.997
      < min (fltMax - 3 * realNum.log nf.deletion_ext)
          (nf.open03 realNum ['A', 'A', 'A', 'A', 'A', 'A'] - 3 * realNum.log nf.insertion_ext
              - realNum.log (nf.nuc_freqs 0) - realNum.log (nf.nuc_freqs 0)
              - realNum.log (nf.nuc_freqs 0) - realNum.log (1 - nf.deletion_ext)
              - realNum.log nf.deletion - 2 * realNum.log nf.deletion_ext) := by
    apply lt_min <;> linarith only [hF, hDB, hbig, ni1, ni2, nd1, nd2, i1, i2, d1, d2, ie1, ie2,
        de1, de2, nie1, nie2, nde1, nde2, hf0.1, hf0.2, t1, t2, hopen]
  rw [if_pos hltp36, if_pos hltq36, if_pos hltp36, if_pos hltq36] at at6
  simp only [Mats.cellAt, Prod.mk.injEq] at at6
  -- the tags on the path
  have hT36 : (nf.forward realNum nearTensor ['A', 'A', 'A'] ['A', 'A', 'A', 'A', 'A',
      'A']).Bd 3 6 = 0 := at6.2.2.2.1
  have hT25 : (nf.forward realNum nearTensor ['A', 'A', 'A'] ['A', 'A', 'A', 'A', 'A',
      'A']).Bd 2 5 = 0 := by
    rw [(fr6 (2, 5) (by decide)).2.2.2.1, (fr5 (2, 5) (by decide)).2.2.2.1, Bd25]
  have hT14 : (nf.forward realNum nearTensor ['A', 'A', 'A'] ['A', 'A', 'A', 'A', 'A',
      'A']).Bd 1 4 = 0 := by
    rw [(fr6 (1, 4) (by decide)).2.2.2.1, (fr5 (1, 4) (by decide)).2.2.2.1,
      (fr4 (1, 4) (by decide)).2.2.2.1, Bd14]
  have hT03 : (nf.forward realNum nearTensor ['A', 'A', 'A'] ['A', 'A', 'A', 'A', 'A',
      'A']).Bd 0 3 = 1 := by
    rw [(fr6 (0, 3) (by decide)).2.2.2.1, (fr5 (0, 3) (by decide)).2.2.2.1,
      (fr4 (0, 3) (by decide)).2.2.2.1, (fr3 (0, 3) (by decide)).2.2.2.1, Bd03]
  have hP03 : (nf.forward realNum nearTensor ['A', 'A', 'A'] ['A', 'A', 'A', 'A', 'A',
      'A']).Bp 0 3 = 2 := by
    rw [(fr6 (0, 3) (by decide)).2.2.2.2.1, (fr5 (0, 3) (by decide)).2.2.2.2.1,
      (fr4 (0, 3) (by decide)).2.2.2.2.1, (fr3 (0, 3) (by decide)).2.2.2.2.1, Bp03]
  -- the traceback
  simp [gotoh_noframeshifts, backtracking_noframeshifts, btLoop, insRun, insSteps_eq,
    hT36, hT25, hT14, hT03, hP03, emit_pair, charAt, slice]
  decide

/-- C5, at the pair AAA, AAAAAA under `nearTensor`, over the real numbers: an alignment is
returned, its first row starts with a run of three gap symbols, and every maximal run of gap
symbols in its two rows has a length divisible by 3. -/
theorem noframeshifts_gap_runs_witness :
    gotoh_noframeshifts realNum nearTensor
        [['A', 'A', 'A'], ['A', 'A', 'A', 'A', 'A', 'A']] ⟨⟨[], []⟩, 0⟩
      = .ok (0, { f := { seq_names := [],
                         seq_data := [['-', '-', '-', 'A', 'A', 'A'],
                                      ['A', 'A', 'A', 'A', 'A', 'A']] },
                  weight := (nf.forward realNum nearTensor ['A', 'A', 'A']
                    ['A', 'A', 'A', 'A', 'A', 'A']).D 3 6 }) ∧
    ∃ s0 s1 : Str,
      [['-', '-', '-', 'A', 'A', 'A'], ['A', 'A', 'A', 'A', 'A', 'A']] = [s0, s1] ∧
      Framed s0 ∧ Framed s1 :=
  ⟨noframeshifts_AAA_AAAAAA_run,
    noframeshifts_gap_runs realNum nearTensor ['A', 'A', 'A'] ['A', 'A', 'A', 'A', 'A', 'A']
      ⟨⟨[], []⟩, 0⟩
      (0, { f := { seq_names := [],
                   seq_data := [['-', '-', '-', 'A', 'A', 'A'],
                                ['A', 'A', 'A', 'A', 'A', 'A']] },
            weight := (nf.forward realNum nearTensor ['A', 'A', 'A']
              ['A', 'A', 'A', 'A', 'A', 'A']).D 3 6 })
      (by decide) (by decide) rfl noframeshifts_AAA_AAAAAA_run⟩

/-- For a first sequence of length 6 and a second of length 3 the forward pass of
`gotoh_noframeshifts` is the initialisation followed by the steps of the cells (1,1), (2,2),
(4,1), (5,2) of the bands and (3,3), (6,3) of the last loop. -/
theorem nf_forward_6_3 (N : Num α) (p : Nat → Nat → Nat → α)
    (a0 a1 a2 a3 a4 a5 b0 b1 b2 : Char) :
    nf.forward N p [a0, a1, a2, a3, a4, a5] [b0, b1, b2]
      = nf.cell N p [a0, a1, a2, a3, a4, a5] [b0, b1, b2] 6 3
          (nf.cell N p [a0, a1, a2, a3, a4, a5] [b0, b1, b2] 3 3
            (nf.colCell N p [a0, a1, a2, a3, a4, a5] [b0, b1, b2] 5 2
              (nf.colCell N p [a0, a1, a2, a3, a4, a5] [b0, b1, b2] 4 1
                (nf.seedCell N p [a0, a1, a2, a3, a4, a5] [b0, b1, b2] 2
                  (nf.seedCell N p [a0, a1, a2, a3, a4, a5] [b0, b1, b2] 1
                    (nf.init N [b0, b1, b2] 6 3)))))) := by
  simp [nf.forward, forLoop, forLoop3, List.range']

/-- The emissions of `nearTensor` met on the pair AACCCA, AAA. -/
theorem transition_AACCCA (k : Nat) :
    transition ['A', 'A', 'C'] 1 'A' (nearTensor : Nat → Nat → Nat → α) = 0.997 ∧
    transition ['A', 'A', 'C'] 2 'A' (nearTensor : Nat → Nat → Nat → α) = 0.997 ∧
    transition ['A', 'A', 'C'] 0 'A' (nearTensor : Nat → Nat → Nat → α) = 0.001 ∧
    transition ['C', 'C', 'A'] 1 'A' (nearTensor : Nat → Nat → Nat → α) = 0.001 ∧
    transition ['C', 'C', 'A'] 2 'A' (nearTensor : Nat → Nat → Nat → α) = 0.001 ∧
    transition ['C', 'C', 'A'] 0 'A' (nearTensor : Nat → Nat → Nat → α) = 0.997 := by
  have h1 : cod_int ['A', 'A', 'C'] = 1 := by decide
  have h2 : cod_int ['C', 'C', 'A'] = 20 := by decide
  have h3 : nt4_table 'A' = 0 := by decide
  have d10 : codonDigit 1 0 = 0 := by decide
  have d11 : codonDigit 1 1 = 0 := by decide
  have d12 : codonDigit 1 2 = 1 := by decide
  have d20 : codonDigit 20 0 = 1 := by decide
  have d21 : codonDigit 20 1 = 1 := by decide
  have d22 : codonDigit 20 2 = 0 := by decide
  simp [transition, h1, h2, h3, nearTensor, d10, d11, d12, d20, d21, d22]

/-- The matrices of `gotoh_noframeshifts` for the pair AACCCA, AAA before the column band:
the entries that the later steps read. -/
theorem nf_AACCCA_seeds (N : Num α) :
    ∃ s : Mats α,
      s = nf.seedCell N nearTensor ['A', 'A', 'C', 'C', 'C', 'A'] ['A', 'A', 'A'] 2
            (nf.seedCell N nearTensor ['A', 'A', 'C', 'C', 'C', 'A'] ['A', 'A', 'A'] 1
              (nf.init N ['A', 'A', 'A'] 6 3)) ∧
      s.D 1 1 = 0 - N.log (1 - nf.insertion) - N.log (1 - nf.deletion) - N.log 0.997 ∧
      s.D 2 2 = 0 - N.log (1 - nf.insertion) - N.log (1 - nf.deletion) - N.log 0.997
                  - N.log (1 - nf.insertion) - N.log (1 - nf.deletion) - N.log 0.997 ∧
      s.Bd 1 1 = 0 ∧ s.Bd 2 2 = 0 ∧ s.Q 1 1 = fltMax ∧ s.Q 2 2 = fltMax ∧
      s.Bd 3 0 = 2 ∧ s.D 3 0 = nf.open30 N ∧
      s.P 3 0 = fltMax ∧ s.Bd 3 2 = -1 ∧ s.Q 0 3 = fltMax ∧ s.Bd 0 3 = 1 ∧
      s.D 0 3 = nf.open03 N ['A', 'A', 'A'] ∧
      s.P 6 0 = fltMax ∧ s.Bd 6 0 = 2 ∧ s.Bd 6 2 = -1 ∧ s.Bp 5 2 = -1 := by
  have hsub : substr ['A', 'A', 'C', 'C', 'C', 'A'] 0 3 = ['A', 'A', 'C'] := by decide
  have hc0 : charAt ['A', 'A', 'A'] 0 = 'A' := by decide
  have hc1 : charAt ['A', 'A', 'A'] 1 = 'A' := by decide
  obtain ⟨t1, t2, -⟩ := transition_AACCCA (α := α) 0
  refine ⟨_, rfl, ?_, ?_, ?_, ?_, ?_, ?_, ?_, ?_, ?_, ?_, ?_, ?_, ?_, ?_, ?_, ?_, ?_⟩ <;>
    simp [nf.seedCell, nf.init, nf.col0, forLoop3, List.range', setAt, Mats.fresh, hsub, hc0,
      hc1, t1, t2]

/-- The failing input for C6: on the pair AACCCA, AAA under `nearTensor`, over the real
numbers, the forward pass of `gotoh_noframeshifts` tags cell (6,3) as a match and cell (5,2)
of the column band, where the deletion of CCC is cheaper than a match, with the tag 1 of an
insertion; the traceback then emits three insertion columns from column 2 and reads
`seqb[-1]`. -/
theorem noframeshifts_AACCCA_fails :
    gotoh_noframeshifts realNum nearTensor
        [['A', 'A', 'C', 'C', 'C', 'A'], ['A', 'A', 'A']] ⟨⟨[], []⟩, 0⟩
      = .error .outOfRange := by
  have hF : (2 : ℝ) ^ 127 ≤ fltMax := fltMax_large
  have hDB : (2 : ℝ) ^ 127 ≤ dblMax := dblMax_large
  have hbig : (10000 : ℝ) < 2 ^ 127 := by norm_num
  obtain ⟨⟨ni1, ni2⟩, ⟨nd1, nd2⟩, ⟨i1, i2⟩, ⟨d1, d2⟩, ⟨ie1, ie2⟩, ⟨de1, de2⟩, ⟨nie1, nie2⟩,
    ⟨nde1, nde2⟩, hfreq, ⟨t1, t2⟩, ⟨m1, m2⟩⟩ := (realNum_sound).nf_bounds
  have hf0 := hfreq 0
  have hmiss : realNum.log 0.001 = realNum.log nf.insertion := rfl
  obtain ⟨-, -, T33, T41, T52, T63⟩ := transition_AACCCA (α := ℝ) 0
  have hfw := nf_forward_6_3 realNum nearTensor 'A' 'A' 'C' 'C' 'C' 'A' 'A' 'A' 'A'
  have hsubA : substr ['A', 'A', 'C', 'C', 'C', 'A'] ((3 - 1) / 3 * 3) 3 = ['A', 'A', 'C'] := by
    decide
  have hsubC4 : substr ['A', 'A', 'C', 'C', 'C', 'A'] ((4 - 1) / 3 * 3) 3 = ['C', 'C', 'A'] := by
    decide
  have hsubC5 : substr ['A', 'A', 'C', 'C', 'C', 'A'] ((5 - 1) / 3 * 3) 3 = ['C', 'C', 'A'] := by
    decide
  have hsubC6 : substr ['A', 'A', 'C', 'C', 'C', 'A'] ((6 - 1) / 3 * 3) 3 = ['C', 'C', 'A'] := by
    decide
  have hsub0 : substr ['A', 'A', 'C', 'C', 'C', 'A'] 0 3 = ['A', 'A', 'C'] := by decide
  have hsub3 : substr ['A', 'A', 'C', 'C', 'C', 'A'] 3 3 = ['C', 'C', 'A'] := by decide
  have hc0 : charAt ['A', 'A', 'A'] 0 = 'A' := by decide
  have hc1 : charAt ['A', 'A', 'A'] 1 = 'A' := by decide
  have hc2 : charAt ['A', 'A', 'A'] 2 = 'A' := by decide
  have hnt : nt4_table 'A' = 0 := by decide
  have hopen3 : nf.open03 realNum ['A', 'A', 'A']
      = -realNum.log nf.insertion - realNum.log (nf.nuc_freqs 0)
          - realNum.log (nf.nuc_freqs 0) - realNum.log (nf.nuc_freqs 0)
          - realNum.log (1 - nf.insertion_ext) - 2 * realNum.log nf.insertion_ext := by
    simp [nf.open03, hc0, hc1, hc2, hnt]
  have hopen0 : nf.open30 realNum
      = -realNum.log (1 - nf.insertion) - realNum.log nf.deletion
          - 2 * realNum.log nf.deletion_ext - realNum.log (1 - nf.deletion_ext) := rfl
  -- the matrices after the cells (1,1) and (2,2)
  obtain ⟨s2, hs2, D11, D22, Bd11, Bd22, Q11, Q22, Bd30, D30, P30, Bd32, Q03, Bd03, D03,
    P60, Bd60, Bd62, Bp52⟩ := nf_AACCCA_seeds realNum
  rw [← hs2] at hfw
  clear hs2
  -- cell (4,1) of the column band
  obtain ⟨s3, hs3⟩ : ∃ s, s = nf.colCell realNum nearTensor ['A', 'A', 'C', 'C', 'C', 'A']
      ['A', 'A', 'A'] 4 1 s2 := ⟨_, rfl⟩
  rw [← hs3] at hfw
  have fr3 := fun c hc => nf_colCell_frame realNum nearTensor ['A', 'A', 'C', 'C', 'C', 'A']
    ['A', 'A', 'A'] 4 1 s2 c hc
  have at3 := nf_colCell_at realNum nearTensor ['A', 'A', 'C', 'C', 'C', 'A']
    ['A', 'A', 'A'] 4 1 s2 (by decide)
  rw [← hs3] at fr3 at3
  clear hs3
  simp only [Mats.cellAt, Prod.mk.injEq] at fr3
  have q1_41 : nf.q1 realNum s2 4 1 = fltMax - 3 * realNum.log nf.deletion_ext := by
    simp only [nf.q1, Nat.reduceSub, Q11]
  have q2_41 : nf.q2 realNum s2 4 1
      = 0 - realNum.log (1 - nf.insertion) - realNum.log (1 - nf.deletion)
          - realNum.log 0.997 - realNum.log (1 - nf.insertion) - realNum.log nf.deletion
          - realNum.log (1 - nf.deletion_ext) - 2 * realNum.log nf.deletion_ext := by
    simp only [nf.q2, Nat.reduceSub, Bd11, D11, if_true]
  have d_41 : nf.d realNum nearTensor ['A', 'A', 'C', 'C', 'C', 'A'] ['A', 'A', 'A'] s2 4 1
      = nf.open30 realNum - realNum.log 0.001 := by
    simp [nf.d, Bd30, D30, hsubC4, hsub0, hsub3, hc0, T41]
  rw [q1_41, q2_41, d_41, hopen0] at at3
  have hmin41 : min (fltMax - 3 * realNum.log nf.deletion_ext)
      (0 - realNum.log (1 - nf.insertion) - realNum.log (1 - nf.deletion)
          - realNum.log 0.997 - realNum.log (1 - nf.insertion) - realNum.log nf.deletion
          - realNum.log (1 - nf.deletion_ext) - 2 * realNum.log nf.deletion_ext)
      = 0 - realNum.log (1 - nf.insertion) - realNum.log (1 - nf.deletion)
          - realNum.log 0.997 - realNum.log (1 - nf.insertion) - realNum.log nf.deletion
          - realNum.log (1 - nf.deletion_ext) - 2 * realNum.log nf.deletion_ext :=
    min_eq_right (by linarith only [hF, hDB, hbig, ni1, ni2, nd1, nd2, i1, i2, d1, d2, ie1, ie2, de1, de2,
      nie1, nie2, nde1, nde2, hf0.1, hf0.2, t1, t2, m1, m2, hmiss])
  rw [hmin41, if_pos (by linarith only [hF, hDB, hbig, ni1, ni2, nd1, nd2, i1, i2, d1, d2, ie1, ie2, de1, de2,
      nie1, nie2, nde1, nde2, hf0.1, hf0.2, t1, t2, m1, m2, hmiss]), if_pos (by linarith only [hF, hDB, hbig, ni1, ni2, nd1, nd2, i1, i2, d1, d2, ie1, ie2, de1, de2,
      nie1, nie2, nde1, nde2, hf0.1, hf0.2, t1, t2, m1, m2, hmiss])] at at3
  simp only [Mats.cellAt, Prod.mk.injEq] at at3
  obtain ⟨D41, -, -, Bd41, -, -⟩ := at3
  -- cell (5,2) of the column band
  obtain ⟨s4, hs4⟩ : ∃ s, s = nf.colCell realNum nearTensor ['A', 'A', 'C', 'C', 'C', 'A']
      ['A', 'A', 'A'] 5 2 s3 := ⟨_, rfl⟩
  rw [← hs4] at hfw
  have fr4 := fun c hc => nf_colCell_frame realNum nearTensor ['A', 'A', 'C', 'C', 'C', 'A']
    ['A', 'A', 'A'] 5 2 s3 c hc
  have at4 := nf_colCell_at realNum nearTensor ['A', 'A', 'C', 'C', 'C', 'A']
    ['A', 'A', 'A'] 5 2 s3 (by decide)
  rw [← hs4] at fr4 at4
  clear hs4
  simp only [Mats.cellAt, Prod.mk.injEq] at fr4
  have q1_52 : nf.q1 realNum s3 5 2 = fltMax - 3 * realNum.log nf.deletion_ext := by
    simp only [nf.q1, Nat.reduceSub, (fr3 (2, 2) (by decide)).2.2.1, Q22]
  have q2_52 : nf.q2 realNum s3 5 2
      = 0 - realNum.log (1 - nf.insertion) - realNum.log (1 - nf.deletion)
          - realNum.log 0.997 - realNum.log (1 - nf.insertion) - realNum.log (1 - nf.deletion)
          - realNum.log 0.997 - realNum.log (1 - nf.insertion) - realNum.log nf.deletion
          - realNum.log (1 - nf.deletion_ext) - 2 * realNum.log nf.deletion_ext := by
    simp only [nf.q2, Nat.reduceSub, (fr3 (2, 2) (by decide)).2.2.2.1,
      (fr3 (2, 2) (by decide)).1, Bd22, D22, if_true]
  have d_52 : nf.d realNum nearTensor ['A', 'A', 'C', 'C', 'C', 'A'] ['A', 'A', 'A'] s3 5 2
      = 0 - realNum.log (1 - nf.insertion) - realNum.log (1 - nf.deletion)
          - realNum.log 0.997 - realNum.log (1 - nf.insertion) - realNum.log nf.deletion
          - realNum.log (1 - nf.deletion_ext) - 2 * realNum.log nf.deletion_ext
          - realNum.log (1 - nf.deletion) - realNum.log 0.001 := by
    simp [nf.d, Bd41, D41, hsubC5, hsub0, hsub3, hc1, T52]
  rw [q1_52, q2_52, d_52] at at4
  have hmin52 : min (fltMax - 3 * realNum.log nf.deletion_ext)
      (0 - realNum.log (1 - nf.insertion) - realNum.log (1 - nf.deletion)
          - realNum.log 0.997 - realNum.log (1 - nf.insertion) - realNum.log (1 - nf.deletion)
          - realNum.log 0.997 - realNum.log (1 - nf.insertion) - realNum.log nf.deletion
          - realNum.log (1 - nf.deletion_ext) - 2 * realNum.log nf.deletion_ext)
      = 0 - realNum.log (1 - nf.insertion) - realNum.log (1 - nf.deletion)
          - realNum.log 0.997 - realNum.log (1 - nf.insertion) - realNum.log (1 - nf.deletion)
          - realNum.log 0.997 - realNum.log (1 - nf.insertion) - realNum.log nf.deletion
          - realNum.log (1 - nf.deletion_ext) - 2 * realNum.log nf.deletion_ext :=
    min_eq_right (by linarith only [hF, hDB, hbig, ni1, ni2, nd1, nd2, i1, i2, d1, d2, ie1, ie2, de1, de2,
      nie1, nie2, nde1, nde2, hf0.1, hf0.2, t1, t2, m1, m2, hmiss])
  rw [hmin52, if_pos (by linarith only [hF, hDB, hbig, ni1, ni2, nd1, nd2, i1, i2, d1, d2, ie1, ie2, de1, de2,
      nie1, nie2, nde1, nde2, hf0.1, hf0.2, t1, t2, m1, m2, hmiss]), if_pos (by linarith only [hF, hDB, hbig, ni1, ni2, nd1, nd2, i1, i2, d1, d2, ie1, ie2, de1, de2,
      nie1, nie2, nde1, nde2, hf0.1, hf0.2, t1, t2, m1, m2, hmiss])] at at4
  simp only [Mats.cellAt, Prod.mk.injEq] at at4
  obtain ⟨D52, -, -, Bd52, Bp52', -⟩ := at4
  -- cell (3,3)
  obtain ⟨s5, hs5⟩ : ∃ s, s = nf.cell realNum nearTensor ['A', 'A', 'C', 'C', 'C', 'A']
      ['A', 'A', 'A'] 3 3 s4 := ⟨_, rfl⟩
  rw [← hs5] at hfw
  have fr5 := fun c hc => nf_cell_frame realNum nearTensor ['A', 'A', 'C', 'C', 'C', 'A']
    ['A', 'A', 'A'] 3 3 s4 c hc
  have at5 := nf_cell_at realNum nearTensor ['A', 'A', 'C', 'C', 'C', 'A']
    ['A', 'A', 'A'] 3 3 s4 (le_refl 3)
  rw [← hs5] at fr5 at5
  clear hs5
  simp only [Mats.cellAt, Prod.mk.injEq] at fr5
  have d_33 : nf.d realNum nearTensor ['A', 'A', 'C', 'C', 'C', 'A'] ['A', 'A', 'A'] s4 3 3
      = 0 - realNum.log (1 - nf.insertion) - realNum.log (1 - nf.deletion)
          - realNum.log 0.997 - realNum.log (1 - nf.insertion) - realNum.log (1 - nf.deletion)
          - realNum.log 0.997 - realNum.log (1 - nf.insertion) - realNum.log (1 - nf.deletion)
          - realNum.log 0.001 := by
    simp [nf.d, (fr4 (2, 2) (by decide)).2.2.2.1, (fr3 (2, 2) (by decide)).2.2.2.1,
      (fr4 (2, 2) (by decide)).1, (fr3 (2, 2) (by decide)).1, Bd22, D22, hsubA, hsub0, hsub3, hc2, T33]
  have p1_33 : nf.p1 realNum ['A', 'A', 'A'] s4 3 3
      = fltMax - 3 * realNum.log nf.insertion_ext - realNum.log (nf.nuc_freqs 0)
          - realNum.log (nf.nuc_freqs 0) - realNum.log (nf.nuc_freqs 0) := by
    simp [nf.p1, (fr4 (3, 0) (by decide)).2.1, (fr3 (3, 0) (by decide)).2.1, P30, hc0, hc1,
      hc2, hnt]
  have p2_33 : nf.p2 realNum ['A', 'A', 'A'] s4 3 3 = dblMax := by
    simp [nf.p2, (fr4 (3, 0) (by decide)).2.2.2.1, (fr3 (3, 0) (by decide)).2.2.2.1, Bd30,
      (fr4 (3, 2) (by decide)).2.2.2.1, (fr3 (3, 2) (by decide)).2.2.2.1, Bd32]
  have q1_33 : nf.q1 realNum s4 3 3 = fltMax - 3 * realNum.log nf.deletion_ext := by
    simp [nf.q1, (fr4 (0, 3) (by decide)).2.2.1, (fr3 (0, 3) (by decide)).2.2.1, Q03]
  have q2_33 : nf.q2 realNum s4 3 3
      = nf.open03 realNum ['A', 'A', 'A'] - realNum.log (1 - nf.deletion_ext)
          - realNum.log nf.deletion - 2 * realNum.log nf.deletion_ext := by
    simp [nf.q2, (fr4 (0, 3) (by decide)).2.2.2.1, (fr3 (0, 3) (by decide)).2.2.2.1, Bd03,
      (fr4 (0, 3) (by decide)).1, (fr3 (0, 3) (by decide)).1, D03]
  rw [d_33, p1_33, p2_33, q1_33, q2_33, hopen3] at at5
  have hminq33 : min (fltMax - 3 * realNum.log nf.deletion_ext)
      (-realNum.log nf.insertion - realNum.log (nf.nuc_freqs 0)
          - realNum.log (nf.nuc_freqs 0) - realNum.log (nf.nuc_freqs 0)
          - realNum.log (1 - nf.insertion_ext) - 2 * realNum.log nf.insertion_ext
          - realNum.log (1 - nf.deletion_ext)
          - realNum.log nf.deletion - 2 * realNum.log nf.deletion_ext)
      = -realNum.log nf.insertion - realNum.log (nf.nuc_freqs 0)
          - realNum.log (nf.nuc_freqs 0) - realNum.log (nf.nuc_freqs 0)
          - realNum.log (1 - nf.insertion_ext) - 2 * realNum.log nf.insertion_ext
          - realNum.log (1 - nf.deletion_ext)
          - realNum.log nf.deletion - 2 * realNum.log nf.deletion_ext :=
    min_eq_right (by linarith only [hF, hDB, hbig, ni1, ni2, nd1, nd2, i1, i2, d1, d2, ie1, ie2, de1, de2,
      nie1, nie2, nde1, nde2, hf0.1, hf0.2, t1, t2, m1, m2, hmiss])
  have hltp33 : (0 : ℝ) - realNum.log (1 - nf.insertion) - realNum.log (1 - nf.deletion)
          - realNum.log 0.997 - realNum.log (1 - nf.insertion) - realNum.log (1 - nf.deletion)
          - realNum.log 0.997 - realNum.log (1 - nf.insertion) - realNum.log (1 - nf.deletion)
          - realNum.log 0.001
      < min (fltMax - 3 * realNum.log nf.insertion_ext - realNum.log (nf.nuc_freqs 0)
          - realNum.log (nf.nuc_freqs 0) - realNum.log (nf.nuc_freqs 0)) dblMax := by
    apply lt_min
    · linarith only [hF, hbig, ni1, nd1, t1, m1, ie2, hf0.2]
    · linarith only [hDB, hbig, ni1, nd1, t1, m1]
  rw [hminq33, if_pos hltp33, if_pos (by linarith only [hF, hDB, hbig, ni1, ni2, nd1, nd2, i1, i2, d1, d2, ie1, ie2, de1, de2,
      nie1, nie2, nde1, nde2, hf0.1, hf0.2, t1, t2, m1, m2, hmiss]), if_pos hltp33, if_pos (by linarith only [hF, hDB, hbig, ni1, ni2, nd1, nd2, i1, i2, d1, d2, ie1, ie2, de1, de2,
      nie1, nie2, nde1, nde2, hf0.1, hf0.2, t1, t2, m1, m2, hmiss])] at at5
  simp only [Mats.cellAt, Prod.mk.injEq] at at5
  obtain ⟨D33, -, Q33, Bd33, -, -⟩ := at5
  -- cell (6,3)
  have fr6 := fun c hc => nf_cell_frame realNum nearTensor ['A', 'A', 'C', 'C', 'C', 'A']
    ['A', 'A', 'A'] 6 3 s5 c hc
  have at6 := nf_cell_at realNum nearTensor ['A', 'A', 'C', 'C', 'C', 'A']
    ['A', 'A', 'A'] 6 3 s5 (by decide)
  rw [← hfw] at fr6 at6
  simp only [Mats.cellAt, Prod.mk.injEq] at fr6
  have d_63 : nf.d realNum nearTensor ['A', 'A', 'C', 'C', 'C', 'A'] ['A', 'A', 'A'] s5 6 3
      = 0 - realNum.log (1 - nf.insertion) - realNum.log (1 - nf.deletion)
          - realNum.log 0.997 - realNum.log (1 - nf.insertion) - realNum.log (1 - nf.deletion)
          - realNum.log 0.997 - realNum.log (1 - nf.insertion) - realNum.log nf.deletion
          - realNum.log (1 - nf.deletion_ext) - 2 * realNum.log nf.deletion_ext
          - realNum.log (1 - nf.deletion) - realNum.log 0.997 := by
    simp [nf.d, (fr5 (5, 2) (by decide)).2.2.2.1, (fr5 (5, 2) (by decide)).1, Bd52, D52,
      hsubC6, hsub0, hsub3, hc2, T63]
  have p1_63 : nf.p1 realNum ['A', 'A', 'A'] s5 6 3
      = fltMax - 3 * realNum.log nf.insertion_ext - realNum.log (nf.nuc_freqs 0)
          - realNum.log (nf.nuc_freqs 0) - realNum.log (nf.nuc_freqs 0) := by
    simp [nf.p1, (fr5 (6, 0) (by decide)).2.1, (fr4 (6, 0) (by decide)).2.1,
      (fr3 (6, 0) (by decide)).2.1, P60, hc0, hc1, hc2, hnt]
  have p2_63 : nf.p2 realNum ['A', 'A', 'A'] s5 6 3 = dblMax := by
    simp [nf.p2, (fr5 (6, 0) (by decide)).2.2.2.1, (fr4 (6, 0) (by decide)).2.2.2.1,
      (fr3 (6, 0) (by decide)).2.2.2.1, Bd60, (fr5 (6, 2) (by decide)).2.2.2.1,
      (fr4 (6, 2) (by decide)).2.2.2.1, (fr3 (6, 2) (by decide)).2.2.2.1, Bd62]
  have q1_63 : nf.q1 realNum s5 6 3
      = -realNum.log nf.insertion - realNum.log (nf.nuc_freqs 0)
          - realNum.log (nf.nuc_freqs 0) - realNum.log (nf.nuc_freqs 0)
          - realNum.log (1 - nf.insertion_ext) - 2 * realNum.log nf.insertion_ext
          - realNum.log (1 - nf.deletion_ext)
          - realNum.log nf.deletion - 2 * realNum.log nf.deletion_ext
          - 3 * realNum.log nf.deletion_ext := by
    simp only [nf.q1, Nat.reduceSub, Q33]
  have q2_63 : nf.q2 realNum s5 6 3
      = 0 - realNum.log (1 - nf.insertion) - realNum.log (1 - nf.deletion)
          - realNum.log 0.997 - realNum.log (1 - nf.insertion) - realNum.log (1 - nf.deletion)
          - realNum.log 0.997 - realNum.log (1 - nf.insertion) - realNum.log (1 - nf.deletion)
          - realNum.log 0.001
          - realNum.log (1 - nf.insertion) - realNum.log nf.deletion
          - realNum.log (1 - nf.deletion_ext) - 2 * realNum.log nf.deletion_ext := by
    simp only [nf.q2, Nat.reduceSub, Bd33, D33, if_true]
  rw [d_63, p1_63, p2_63, q1_63, q2_63] at at6
  have hltp63 : (0 : ℝ) - realNum.log (1 - nf.insertion) - realNum.log (1 - nf.deletion)
          - realNum.log 0.997 - realNum.log (1 - nf.insertion) - realNum.log (1 - nf.deletion)
          - realNum.log 0.997 - realNum.log (1 - nf.insertion) - realNum.log nf.deletion
          - realNum.log (1 - nf.deletion_ext) - 2 * realNum.log nf.deletion_ext
          - realNum.log (1 - nf.deletion) - realNum.log 0.997
      < min (fltMax - 3 * realNum.log nf.insertion_ext - realNum.log (nf.nuc_freqs 0)
          - realNum.log (nf.nuc_freqs 0) - realNum.log (nf.nuc_freqs 0)) dblMax := by
    apply lt_min
    · linarith only [hF, hbig, ni1, nd1, t1, d1, nde1, de1, ie2, hf0.2]
    · linarith only [hDB, hbig, ni1, nd1, t1, d1, nde1, de1]
  have hltq63 : (0 : ℝ) - realNum.log (1 - nf.insertion) - realNum.log (1 - nf.deletion)
          - realNum.log 0.997 - realNum.log (1 - nf.insertion) - realNum.log (1 - nf.deletion)
          - realNum.log 0.997 - realNum.log (1 - nf.insertion) - realNum.log nf.deletion
          - realNum.log (1 - nf.deletion_ext) - 2 * realNum.log nf.deletion_ext
          - realNum.log (1 - nf.deletion) - realNum.log 0.997
      < min (-realNum.log nf.insertion - realNum.log (nf.nuc_freqs 0)
          - realNum.log (nf.nuc_freqs 0) - realNum.log (nf.nuc_freqs 0)
          - realNum.log (1 - nf.insertion_ext) - 2 * realNum.log nf.insertion_ext
          - realNum.log (1 - nf.deletion_ext)
          - realNum.log nf.deletion - 2 * realNum.log nf.deletion_ext
          - 3 * realNum.log nf.deletion_ext)
        (0 - realNum.log (1 - nf.insertion) - realNum.log (1 - nf.deletion)
          - realNum.log 0.997 - realNum.log (1 - nf.insertion) - realNum.log (1 - nf.deletion)
          - realNum.log 0.997 - realNum.log (1 - nf.insertion) - realNum.log (1 - nf.deletion)
          - realNum.log 0.001
          - realNum.log (1 - nf.insertion) - realNum.log nf.deletion
          - realNum.log (1 - nf.deletion_ext) - 2 * realNum.log nf.deletion_ext) := by
    apply lt_min <;> linarith only [hF, hDB, hbig, ni1, ni2, nd1, nd2, i1, i2, d1, d2, ie1, ie2, de1, de2,
      nie1, nie2, nde1, nde2, hf0.1, hf0.2, t1, t2, m1, m2, hmiss]
  rw [if_pos hltp63, if_pos hltq63, if_pos hltp63, if_pos hltq63] at at6
  simp only [Mats.cellAt, Prod.mk.injEq] at at6
  -- the tags on the path
  have hT63 : (nf.forward realNum nearTensor ['A', 'A', 'C', 'C', 'C', 'A']
      ['A', 'A', 'A']).Bd 6 3 = 0 := at6.2.2.2.1
  have hT52 : (nf.forward realNum nearTensor ['A', 'A', 'C', 'C', 'C', 'A']
      ['A', 'A', 'A']).Bd 5 2 = 1 := by
    rw [(fr6 (5, 2) (by decide)).2.2.2.1, (fr5 (5, 2) (by decide)).2.2.2.1, Bd52]
  have hP52 : (nf.forward realNum nearTensor ['A', 'A', 'C', 'C', 'C', 'A']
      ['A', 'A', 'A']).Bp 5 2 = -1 := by
    rw [(fr6 (5, 2) (by decide)).2.2.2.2.1, (fr5 (5, 2) (by decide)).2.2.2.2.1, Bp52',
      (fr3 (5, 2) (by decide)).2.2.2.2.1, Bp52]
  -- the traceback
  simp [gotoh_noframeshifts, backtracking_noframeshifts, btLoop, insRun, insSteps_eq,
    hT63, hT52, hP52, emit_pair]

/-! ## Claim C2: the profile engine charges an insertion differently -/

/-- The logarithm of each nucleotide frequency is at most -0.692. -/
theorem Num.Sound.freq_upper {N : Num α} (hN : N.Sound) (k : Nat) :
    nuc_freqs N k ≤ -(692 / 1000) := by
  unfold nuc_freqs
  split <;> exact le_trans (hN.log_upper _ (by norm_num)) (by norm_num)

/-- With a tensor of probabilities, `transition` returns a probability. -/
theorem transition_unit (p : Nat → Nat → Nat → α)
    (hp : ∀ c pos x, 0 < p c pos x ∧ p c pos x ≤ 1) (codon : Str) (position : Nat)
    (nuc : Char) :
    0 < transition codon position nuc p ∧ transition codon position nuc p ≤ 1 := by
  unfold transition
  simp only []
  generalize (if position = 0 then 2 else position - 1) = q
  by_cases h : nuc ≠ 'N'
  · rw [if_pos h]
    exact hp _ _ _
  · rw [if_neg h]
    obtain ⟨a1, a2⟩ := hp (cod_int codon) q 0
    obtain ⟨b1, b2⟩ := hp (cod_int codon) q 1
    obtain ⟨c1, c2⟩ := hp (cod_int codon) q 2
    obtain ⟨d1, d2⟩ := hp (cod_int codon) q 3
    constructor
    · apply div_pos _ (by norm_num)
      linarith
    · rw [div_le_iff₀ (by norm_num)]
      linarith

/-- The match candidate of `mg94_marginal` costs at least as much as the diagonal
neighbour, for a sound logarithm and a tensor of probabilities. -/
theorem mg94_d_ge (N : Num α) (hN : N.Sound) (p : Nat → Nat → Nat → α)
    (hp : ∀ c pos x, 0 < p c pos x ∧ p c pos x ≤ 1) (seq_a seq_b : Str) (s : Mats α)
    (i j : Nat) :
    s.D (i - 1) (j - 1) ≤ mg94_d N p seq_a seq_b s i j := by
  obtain ⟨-, -, -, -, ⟨ni1, ni2⟩, ⟨nd1, nd2⟩, -, -, -⟩ := hN.gap_bounds
  have ht := transition_unit p hp (substr seq_a (((i - 1) / 3) * 3) 3) (i % 3)
    (charAt seq_b (j - 1))
  have hl := hN.log_nonpos _ ht.1 ht.2
  unfold mg94_d
  simp only []
  split_ifs <;> linarith

/-- Lower bounds on the costs of `mg94_marginal`, for a sound logarithm and a tensor of
probabilities: no cost is negative, every `P(i,j)` holds at least the cost of opening an
insertion, a cell tagged as insertion holds `P(i,j)`, and right of the diagonal (`i < j`)
`D(i,j)` and `Q(i,j)` hold at least the cost of opening an insertion. -/
theorem mg94_insertion_floor (N : Num α) (hN : N.Sound) (p : Nat → Nat → Nat → α)
    (hp : ∀ c pos x, 0 < p c pos x ∧ p c pos x ≤ 1) (seq_a seq_b : Str) (i : Nat) :
    ∀ j, i ≤ seq_a.length → j ≤ seq_b.length →
      0 ≤ (mg94_forward N p seq_a seq_b).D i j ∧
      -insertion N - no_insertion_ext N + 692 / 1000 ≤ (mg94_forward N p seq_a seq_b).P i j ∧
      0 ≤ (mg94_forward N p seq_a seq_b).Q i j ∧
      ((mg94_forward N p seq_a seq_b).Bd i j = 1 →
        (mg94_forward N p seq_a seq_b).D i j = (mg94_forward N p seq_a seq_b).P i j) ∧
      (i < j →
        -insertion N - no_insertion_ext N + 692 / 1000 ≤ (mg94_forward N p seq_a seq_b).D i j ∧
        -insertion N - no_insertion_ext N + 692 / 1000
          ≤ (mg94_forward N p seq_a seq_b).Q i j) := by
  have hB := mg94_forward_border_spec N p seq_a seq_b
  obtain ⟨⟨i1, i2⟩, ⟨d1, d2⟩, ⟨ie1, ie2⟩, ⟨de1, de2⟩, ⟨ni1, ni2⟩, ⟨nd1, nd2⟩, ⟨nie1, nie2⟩,
    ⟨nde1, nde2⟩, hnf⟩ := hN.gap_bounds
  have hF : (2 : α) ^ 127 ≤ fltMax := fltMax_large
  have hDB : (2 : α) ^ 127 ≤ dblMax := dblMax_large
  have hbig : (2000 : α) < 2 ^ 127 := by norm_num
  have hfr := hN.freq_upper
  -- row 0
  have hrow : ∀ j, j ≤ seq_b.length → 1 ≤ j →
      (mg94_forward N p seq_a seq_b).D 0 j = (mg94_forward N p seq_a seq_b).P 0 j ∧
      -insertion N - no_insertion_ext N + 692 / 1000
        ≤ (mg94_forward N p seq_a seq_b).P 0 j := by
    intro j
    induction j with
    | zero => intro _ h; omega
    | succ j ih =>
      intro hj _
      by_cases h1 : j = 0
      · subst h1
        rw [hB.d01, hB.p01]
        exact ⟨rfl, by linarith only [hfr (nt4_table (charAt seq_b 0))]⟩
      · obtain ⟨e, b⟩ := ih (by omega) (by omega)
        have hd := hB.drow (j + 1) (by omega) hj
        have hq := hB.prow (j + 1) (by omega) hj
        simp only [Nat.add_sub_cancel] at hd hq
        rw [hd, hq, e]
        exact ⟨rfl, by linarith only [b, ie2, hfr (nt4_table (charAt seq_b j))]⟩
  -- column 0
  have hcol : ∀ i, 1 ≤ i → i ≤ seq_a.length →
      0 ≤ (mg94_forward N p seq_a seq_b).D i 0 ∧ 0 ≤ (mg94_forward N p seq_a seq_b).Q i 0 := by
    intro i
    induction i with
    | zero => intro h; omega
    | succ i ih =>
      intro _ hi
      by_cases h1 : i = 0
      · subst h1
        rw [hB.d10, hB.q10]
        constructor <;> linarith only [ni2, d2, nde2]
      · obtain ⟨a, b⟩ := ih (by omega) (by omega)
        have hd := hB.dcol (i + 1) (by omega) hi
        have hq := hB.qcol (i + 1) (by omega) hi
        simp only [Nat.add_sub_cancel] at hd hq
        rw [hd, hq]
        constructor <;> linarith only [a, b, de2]
  induction i with
  | zero =>
    intro j _ hj
    by_cases hj0 : j = 0
    · subst hj0
      rw [hB.d00, hB.pcol 0, hB.qrow 0, hB.bd00]
      refine ⟨le_refl _, by linarith only [hF, hbig, i1, nie1], by linarith only [hF, hbig],
        fun h => absurd h (by decide), fun h => absurd h (lt_irrefl _)⟩
    · obtain ⟨e, b⟩ := hrow j hj (by omega)
      rw [hB.qrow j, e]
      refine ⟨by linarith only [b, i2, nie2], b, by linarith only [hF, hbig], fun _ => rfl,
        fun _ => ⟨b, by linarith only [hF, hbig, i1, nie1]⟩⟩
  | succ i ih =>
    intro j
    induction j with
    | zero =>
      intro hi _
      obtain ⟨a, b⟩ := hcol (i + 1) (by omega) hi
      rw [hB.pcol (i + 1), hB.bdcol (i + 1) (by omega) hi]
      exact ⟨a, by linarith only [hF, hbig, i1, nie1], b, fun h => absurd h (by decide),
        fun h => absurd h (Nat.not_lt_zero _)⟩
    | succ j ihj =>
      intro hi hj
      obtain ⟨A1, -, -, -, A5⟩ := ih j (by omega) (by omega)
      obtain ⟨B1, -, B3, -, B5⟩ := ih (j + 1) (by omega) hj
      obtain ⟨C1, C2, -, C4, -⟩ := ihj hi (by omega)
      obtain ⟨eP, eQ, -, -, eBd, eD⟩ := mg94_forward_eqs N p seq_a seq_b (i + 1) (j + 1)
        (by omega) hi (by omega) hj
      have hp1 : -insertion N - no_insertion_ext N + 692 / 1000
          ≤ mg94_p1 N seq_b (mg94_forward N p seq_a seq_b) (i + 1) (j + 1) := by
        unfold mg94_p1
        simp only [Nat.add_sub_cancel]
        linarith only [C2, ie2, hfr (nt4_table (charAt seq_b j))]
      have hp2 : -insertion N - no_insertion_ext N + 692 / 1000
          ≤ mg94_p2 N seq_b (mg94_forward N p seq_a seq_b) (i + 1) (j + 1) := by
        unfold mg94_p2
        simp only [Nat.add_sub_cancel]
        by_cases h0 : (mg94_forward N p seq_a seq_b).Bd (i + 1) j = 0
        · rw [if_pos h0]
          linarith only [C1, hfr (nt4_table (charAt seq_b j))]
        · rw [if_neg h0]
          by_cases h1 : (mg94_forward N p seq_a seq_b).Bd (i + 1) j = 1
          · rw [if_pos h1, C4 h1]
            linarith only [C2, ie2, hfr (nt4_table (charAt seq_b j))]
          · rw [if_neg h1]
            linarith only [hDB, hbig, i1, nie1]
      have hP : -insertion N - no_insertion_ext N + 692 / 1000
          ≤ (mg94_forward N p seq_a seq_b).P (i + 1) (j + 1) := by
        rw [eP]
        exact le_min hp1 hp2
      have hq1 : mg94_q1 N (mg94_forward N p seq_a seq_b) (i + 1) (j + 1)
          = (mg94_forward N p seq_a seq_b).Q i (j + 1) - deletion_ext N := by
        unfold mg94_q1
        simp only [Nat.add_sub_cancel]
      have hq2 : (mg94_forward N p seq_a seq_b).D i (j + 1)
          ≤ mg94_q2 N (mg94_forward N p seq_a seq_b) (i + 1) (j + 1) := by
        unfold mg94_q2
        simp only [Nat.add_sub_cancel]
        split_ifs <;> linarith only [ni2, d2, nde2, de2]
      have hQ0 : 0 ≤ (mg94_forward N p seq_a seq_b).Q (i + 1) (j + 1) := by
        rw [eQ, hq1]
        exact le_min (by linarith only [B3, de2]) (le_trans B1 hq2)
      have hQK : i + 1 < j + 1 → -insertion N - no_insertion_ext N + 692 / 1000
          ≤ (mg94_forward N p seq_a seq_b).Q (i + 1) (j + 1) := by
        intro hlt
        obtain ⟨b1, b2⟩ := B5 (by omega)
        rw [eQ, hq1]
        exact le_min (by linarith only [b2, de2]) (le_trans b1 hq2)
      have hd := mg94_d_ge N hN p hp seq_a seq_b (mg94_forward N p seq_a seq_b) (i + 1) (j + 1)
      simp only [Nat.add_sub_cancel] at hd
      have hd0 : 0 ≤ mg94_d N p seq_a seq_b (mg94_forward N p seq_a seq_b) (i + 1) (j + 1) :=
        le_trans A1 hd
      have hdK : i + 1 < j + 1 → -insertion N - no_insertion_ext N + 692 / 1000
          ≤ mg94_d N p seq_a seq_b (mg94_forward N p seq_a seq_b) (i + 1) (j + 1) :=
        fun hlt => le_trans (A5 (by omega)).1 hd
      have hK0 : (0 : α) ≤ -insertion N - no_insertion_ext N + 692 / 1000 := by
        linarith only [i2, nie2]
      refine ⟨?_, hP, hQ0, ?_, fun hlt => ⟨?_, hQK hlt⟩⟩
      · rw [eD]
        split_ifs
        · exact hd0
        · exact hQ0
        · exact le_trans hK0 hP
        · exact hQ0
      · intro h
        rw [eBd] at h
        rw [eD]
        by_cases h1 : mg94_d N p seq_a seq_b (mg94_forward N p seq_a seq_b) (i + 1) (j + 1)
            < (mg94_forward N p seq_a seq_b).P (i + 1) (j + 1)
        · rw [if_pos h1] at h
          by_cases h2 : mg94_d N p seq_a seq_b (mg94_forward N p seq_a seq_b) (i + 1) (j + 1)
              < (mg94_forward N p seq_a seq_b).Q (i + 1) (j + 1)
          · rw [if_pos h2] at h
            exact absurd h (by decide)
          · rw [if_neg h2] at h
            exact absurd h (by decide)
        · rw [if_neg h1] at h ⊢
          by_cases h3 : (mg94_forward N p seq_a seq_b).P (i + 1) (j + 1)
              < (mg94_forward N p seq_a seq_b).Q (i + 1) (j + 1)
          · rw [if_pos h3]
          · rw [if_neg h3] at h
            exact absurd h (by decide)
      · rw [eD]
        split_ifs
        · exact hdK hlt
        · exact hQK hlt
        · exact hP
        · exact hQK hlt

/-- The forward pass of `gotoh_profile_marginal` leaves the cells of row 0 and of column 0
as the initialisation wrote them. -/
theorem prof_forward_border (N : Num α) (p : Nat → Nat → Nat → α) (pro1 pro2 : Profile α)
    (c : Nat × Nat) (hc : c.1 = 0 ∨ c.2 = 0) :
    (prof.forward N p pro1 pro2).cellAt c
      = (prof.init N pro2 pro1.cols pro2.cols).cellAt c := by
  unfold prof.forward
  simp only []
  apply grid_frame Mats.cellAt (fun i j s => prof.cell N p pro1 pro2 i j s)
    (fun i j s c hc => prof_cell_frame N p pro1 pro2 i j s c hc)
  omega

/-- The match candidate of `gotoh_profile_marginal` costs at most the diagonal neighbour
plus the cost of a match after a match. -/
theorem prof_d_le (N : Num α) (hN : N.Sound) (p : Nat → Nat → Nat → α)
    (pro1 pro2 : Profile α) (s : Mats α) (i j : Nat) :
    prof.d N p pro1 pro2 s i j
      ≤ s.D (i - 1) (j - 1) - no_insertion N - no_deletion N
          - N.log (profile_aln.transition (pro1.block (((i - 1) / 3) * 3)) (i % 3)
              (pro2.col (j - 1)) p) := by
  obtain ⟨-, -, -, -, ⟨ni1, ni2⟩, ⟨nd1, nd2⟩, -, -, -⟩ := hN.gap_bounds
  unfold prof.d
  simp only []
  split_ifs <;> linarith only [ni2, nd2]

/-- After the forward pass of `gotoh_profile_marginal`, the cost `D(i,j)` of an interior
cell is at most its match candidate. -/
theorem prof_D_le_d (N : Num α) (p : Nat → Nat → Nat → α) (pro1 pro2 : Profile α)
    (i j : Nat) (hi : 1 ≤ i) (him : i ≤ pro1.cols) (hj : 1 ≤ j) (hjn : j ≤ pro2.cols) :
    (prof.forward N p pro1 pro2).D i j
      ≤ prof.d N p pro1 pro2 (prof.forward N p pro1 pro2) i j := by
  have h := prof_forward_cell N p pro1 pro2 i j hi him hj hjn
  rw [prof_cell_at N p pro1 pro2 i j _ hi] at h
  simp only [Mats.cellAt, Prod.mk.injEq] at h
  rw [h.1]
  by_cases h1 : prof.d N p pro1 pro2 (prof.forward N p pro1 pro2) i j
      < min (prof.p1 N pro2 (prof.forward N p pro1 pro2) i j)
          (prof.p2 N pro2 (prof.forward N p pro1 pro2) i j)
  · rw [if_pos h1]
    split_ifs with h2
    · exact le_refl _
    · exact not_lt.mp h2
  · rw [if_neg h1]
    split_ifs with h3
    · exact not_lt.mp h1
    · exact le_trans (not_lt.mp h3) (not_lt.mp h1)

/-- The function `backtracking_profile` leaves the weight of the alignment as it was. -/
theorem backtracking_profile_weight (Bd Bp Bq : Nat → Nat → Int) (seqs1 seqs2 : List Str)
    (aln : alignment_t α) (r : Int × alignment_t α)
    (h : backtracking_profile Bd Bp Bq seqs1 seqs2 aln = .ok r) : r.2.weight = aln.weight := by
  unfold backtracking_profile at h
  split at h
  · simp only [] at h
    split at h
    · exact absurd h (by simp)
    · simp only [Except.ok.injEq] at h
      rw [← h]
  · exact absurd h (by simp)

/-- The profile of the single row AAA: three columns that hold 1 in the row of `A`. -/
theorem create_profile_AAA :
    ∃ pro : Profile α, create_profile [['A', 'A', 'A']] = .ok pro ∧ pro.cols = 3 ∧
      ∀ r k, k < 3 → pro.val r k = if r = 0 then 1 else 0 := by
  refine ⟨_, by simp [create_profile]; rfl, rfl, ?_⟩
  intro r k hk
  interval_cases k <;>
    simp [forLoop, List.range', profileCount, charAt, addAt, setAt]

/-- The profile of the single row AAAA: four columns that hold 1 in the row of `A`. -/
theorem create_profile_AAAA :
    ∃ pro : Profile α, create_profile [['A', 'A', 'A', 'A']] = .ok pro ∧ pro.cols = 4 ∧
      ∀ r k, k < 4 → pro.val r k = if r = 0 then 1 else 0 := by
  refine ⟨_, by simp [create_profile]; rfl, rfl, ?_⟩
  intro r k hk
  interval_cases k <;>
    simp [forLoop, List.range', profileCount, charAt, addAt, setAt]

/-- A codon block and a column that both hold 1 in the row of `A` only: the profile
`transition` is the entry of `nearTensor` for the codon AAA emitting `A`. -/
theorem prof_transition_AAA (pro1 pro2 : Profile α)
    (h1 : ∀ r k, k < 3 → pro1.val r k = if r = 0 then 1 else 0)
    (j : Nat) (h2 : ∀ r, pro2.val r j = if r = 0 then 1 else 0) (pos : Nat) :
    profile_aln.transition (pro1.block 0) pos (pro2.col j) nearTensor = 0.997 := by
  have b0 : ∀ r, pro1.block 0 r 0 = if r = 0 then 1 else 0 := fun r => by
    simp [Profile.block, h1]
  have b1 : ∀ r, pro1.block 0 r 1 = if r = 0 then 1 else 0 := fun r => by
    simp [Profile.block, h1]
  have b2 : ∀ r, pro1.block 0 r 2 = if r = 0 then 1 else 0 := fun r => by
    simp [Profile.block, h1]
  have c : ∀ r, pro2.col j r = if r = 0 then 1 else 0 := fun r => by
    simp [Profile.col, h2]
  generalize pro1.block 0 = cod at b0 b1 b2
  generalize pro2.col j = nuc at c
  unfold profile_aln.transition
  have h10 : ¬ ((1 : α) < 0) := by norm_num
  norm_num [maxCoeff, addWeighted, setAt, b0, b1, b2, c, nearTensor, codonDigit, h10]

/-- The failing input for C2: over the real numbers and under `nearTensor`,
`gotoh_profile_marginal` on the single rows AAA and AAAA and `mg94_marginal` on the pair
AAA, AAAA, both started from an empty alignment, do not return the same result.
`mg94_marginal` returns a weight of at least `-log(0.001) - log(1/6) + 0.692` (the fourth
symbol is an insertion, charged with the logarithm of a nucleotide frequency), while the
weight of the profile engine, if it returns, is below that: it charges the value of `nuc_pi`,
a frequency, where `mg94_marginal` charges the logarithm of the frequency. -/
theorem profile_differs_AAA_AAAA :
    gotoh_profile_marginal realNum nearTensor [['A', 'A', 'A']] [['A', 'A', 'A', 'A']]
        ⟨⟨[], []⟩, 0⟩
      ≠ mg94_marginal realNum nearTensor [['A', 'A', 'A'], ['A', 'A', 'A', 'A']]
          ⟨⟨[], []⟩, 0⟩ := by
  intro heq
  have hN := realNum_sound
  have hp : ∀ c pos x, 0 < (nearTensor : Nat → Nat → Nat → ℝ) c pos x
      ∧ (nearTensor : Nat → Nat → Nat → ℝ) c pos x ≤ 1 := by
    intro c pos x
    unfold nearTensor
    split_ifs <;> norm_num
  -- the result of `mg94_marginal`
  have hsize : 1009 * (((['A', 'A', 'A'] : Str).length : ℝ)
      + ((['A', 'A', 'A', 'A'] : Str).length : ℝ)) < fltMax := by
    have h3 : (2 : ℝ) ^ 127 ≤ fltMax := fltMax_large
    have h4 : (1009 : ℝ) * (3 + 4) < 2 ^ 127 := by norm_num
    simp only [List.length_cons, List.length_nil]
    push_cast
    linarith only [h3, h4]
  obtain ⟨s0, s1, hrun, -, -, -⟩ := mg94_marginal_ok realNum hN nearTensor ['A', 'A', 'A']
    ['A', 'A', 'A', 'A'] ⟨⟨[], []⟩, 0⟩ (by decide) (by decide) (by decide) hsize rfl
  rw [hrun] at heq
  obtain ⟨-, -, -, -, hfl⟩ := mg94_insertion_floor realNum hN nearTensor hp ['A', 'A', 'A']
    ['A', 'A', 'A', 'A'] 3 4 (by decide) (by decide)
  obtain ⟨hW1, -⟩ := hfl (by decide)
  simp only [List.length_cons, List.length_nil, Nat.zero_add, Nat.reduceAdd] at heq
  -- the weight of `gotoh_profile_marginal`
  obtain ⟨pro1, e1, c1, v1⟩ := create_profile_AAA (α := ℝ)
  obtain ⟨pro2, e2, c2, v2⟩ := create_profile_AAAA (α := ℝ)
  unfold gotoh_profile_marginal at heq
  simp only [e1, e2, c1, c2, Nat.reduceMod, ne_eq, not_true_eq_false, if_false] at heq
  have hw := backtracking_profile_weight _ _ _ _ _ _ _ heq
  simp only [zero_add] at hw
  -- an upper bound on that weight: the path (0,1), (1,2), (2,3), (3,4)
  obtain ⟨-, -, -, -, ⟨ni1, ni2⟩, ⟨nd1, nd2⟩, -, -, -⟩ := hN.gap_bounds
  have hni : -(1 / 999) ≤ no_insertion realNum := by
    have := hN.log_lower (1 - 0.001) (by norm_num)
    unfold no_insertion
    norm_num at this ⊢
    linarith only [this]
  have hnd : -(1 / 999) ≤ no_deletion realNum := hni
  have hhit : -(3 / 997) ≤ realNum.log 0.997 := by
    have := hN.log_lower 0.997 (by norm_num)
    norm_num at this ⊢
    linarith only [this]
  have hpi : 0 ≤ nuc_pi realNum (pro2.col 0) (nuc_freqs realNum) := by
    simp only [nuc_pi, Profile.col, v2 _ 0 (by decide)]
    norm_num
    exact (Real.exp_pos _).le
  have hD01 : (prof.forward realNum nearTensor pro1 pro2).D 0 1
      = -insertion realNum - nuc_pi realNum (pro2.col 0) (nuc_freqs realNum)
          - no_insertion_ext realNum := by
    have h := prof_forward_border realNum nearTensor pro1 pro2 (0, 1) (Or.inl rfl)
    simp only [Mats.cellAt, Prod.mk.injEq] at h
    rw [h.1, c1, c2]
    simp [prof.init, forLoop, List.range', prof.row0, mg94_col0, setAt]
  have step : ∀ i j, 1 ≤ i → i ≤ 3 → 1 ≤ j → j ≤ 4 →
      (prof.forward realNum nearTensor pro1 pro2).D i j
        ≤ (prof.forward realNum nearTensor pro1 pro2).D (i - 1) (j - 1)
            - no_insertion realNum - no_deletion realNum - realNum.log 0.997 := by
    intro i j hi hi3 hj hj4
    have h1 := prof_D_le_d realNum nearTensor pro1 pro2 i j hi (by rw [c1]; exact hi3) hj
      (by rw [c2]; exact hj4)
    have h2 := prof_d_le realNum hN nearTensor pro1 pro2
      (prof.forward realNum nearTensor pro1 pro2) i j
    have h3 : (i - 1) / 3 * 3 = 0 := by omega
    rw [h3, prof_transition_AAA pro1 pro2 v1 (j - 1) (fun r => v2 r (j - 1) (by omega))] at h2
    exact le_trans h1 h2
  have h12 := step 1 2 (by decide) (by decide) (by decide) (by decide)
  have h23 := step 2 3 (by decide) (by decide) (by decide) (by decide)
  have h34 := step 3 4 (by decide) (by decide) (by decide) (by decide)
  simp only [Nat.reduceSub] at h12 h23 h34
  rw [hD01] at h12
  linarith only [hw, hW1, h12, h23, h34, hni, hnd, hhit, hpi]

/-! ## Claims C19 and C20: lookups by name -/

/-- C20: `find_node` returns true and sets `index` to the smallest position whose label is
`name` when there is such a node; otherwise it returns false and sets `index` to -1. -/
theorem find_node_first (tree : tree_t α) (name : Str) :
    (∃ k : Nat, find_node tree name = (true, (k : Int)) ∧
        (∃ nd, tree.get? k = some nd ∧ nd.label = name) ∧
        ∀ j, j < k → ∀ nd, tree.get? j = some nd → nd.label ≠ name) ∨
    ((∀ nd ∈ tree, nd.label ≠ name) ∧ find_node tree name = (false, -1)) := by
  by_cases h : ∃ x ∈ tree, decide (x.label = name) = true
  · left
    have hlt := List.findIdx_lt_length_of_exists h
    refine ⟨tree.findIdx (fun node => decide (node.label = name)), ?_, ?_, ?_⟩
    · unfold find_node
      simp only [Nat.ne_of_lt hlt, if_false]
      have : ((tree.findIdx (fun node => decide (node.label = name)) : Nat) : Int) ≠ -1 := by
        omega
      simp [this]
    · refine ⟨tree.get ⟨_, hlt⟩, List.get?_eq_get hlt, ?_⟩
      have := @List.findIdx_getElem (node_t α)
        (fun node : node_t α => decide (node.label = name)) tree hlt
      simpa using this
    · intro j hj nd hnd hlab
      have hjl : j < tree.length := lt_trans hj hlt
      have := List.not_of_lt_findIdx hj
      rw [List.get?_eq_get hjl] at hnd
      simp only [Option.some.injEq] at hnd
      simp only [List.get_eq_getElem] at hnd
      rw [hnd] at this
      simp [hlab] at this
  · right
    have hall : ∀ nd ∈ tree, nd.label ≠ name := by
      intro nd hnd hlab
      exact h ⟨nd, hnd, by simp [hlab]⟩
    refine ⟨hall, ?_⟩
    have : tree.findIdx (fun node => decide (node.label = name)) = tree.length :=
      List.findIdx_eq_length_of_false (fun x hx => by simp [hall x hx])
    unfold find_node
    simp [this]

/-- The loop of `find_seq` over the first `n` names, when every name has its sequence:
`seq` ends as the data of the last of these names that equals `name`, or empty. -/
theorem find_seq_loop (name : Str) (f : fasta_t)
    (hlen : f.seq_names.length ≤ f.seq_data.length) (n : Nat) (hn : n ≤ f.seq_names.length) :
    ∃ seq, (List.range n).foldlM (find_seq.step name f) [] = .ok seq ∧
      (((∀ i, i < n → f.seq_names.getD i [] ≠ name) ∧ seq = []) ∨
       ∃ k, k < n ∧ f.seq_names.getD k [] = name ∧
         (∀ j, k < j → j < n → f.seq_names.getD j [] ≠ name) ∧
         f.seq_data.get? k = some seq) := by
  induction n with
  | zero =>
    refine ⟨[], rfl, Or.inl ⟨fun i hi => absurd hi (Nat.not_lt_zero _), rfl⟩⟩
  | succ n ih =>
    obtain ⟨seq, hrun, hseq⟩ := ih (by omega)
    rw [List.range_succ, List.foldlM_append, hrun]
    simp only [bind, Except.bind, List.foldlM, pure, Except.pure]
    by_cases hm : f.seq_names.getD n [] = name
    · have hd : n < f.seq_data.length := by omega
      refine ⟨f.seq_data.get ⟨n, hd⟩, ?_, Or.inr ⟨n, Nat.lt_succ_self n, hm, ?_, ?_⟩⟩
      · have hs : find_seq.step name f seq n = .ok (f.seq_data.get ⟨n, hd⟩) := by
          unfold find_seq.step
          rw [if_pos hm, List.get?_eq_get hd]
        rw [hs]
      · intro j h1 h2
        omega
      · exact List.get?_eq_get hd
    · refine ⟨seq, ?_, ?_⟩
      · have hs : find_seq.step name f seq n = .ok seq := by
          unfold find_seq.step
          rw [if_neg hm]
        rw [hs]
      · rcases hseq with ⟨hno, he⟩ | ⟨k, hk, hkn, hlast, hdat⟩
        · left
          refine ⟨fun i hi => ?_, he⟩
          by_cases hin : i = n
          · rw [hin]; exact hm
          · exact hno i (by omega)
        · right
          refine ⟨k, by omega, hkn, fun j h1 h2 => ?_, hdat⟩
          by_cases hjn : j = n
          · rw [hjn]; exact hm
          · exact hlast j h1 (by omega)

/-- Counterexample to C19 as stated: an entry of `seq_names` equals the name, its data is
the empty string, and `find_seq` returns false. -/
theorem find_seq_empty_data :
    (['A'] : Str) ∈ (⟨[['A']], [[]]⟩ : fasta_t).seq_names ∧
    find_seq ['A'] ⟨[['A']], [[]]⟩ = .ok (false, []) :=
  ⟨by decide, rfl⟩

/-- C19, amended: when every name has its sequence, `find_seq` leaves in `seq` the data of
the last entry of `seq_names` that equals `name`, and the empty string when no entry does;
it returns true exactly when `seq` is then not empty. -/
theorem find_seq_last (name : Str) (f : fasta_t)
    (hlen : f.seq_names.length ≤ f.seq_data.length) :
    ((∀ i, i < f.seq_names.length → f.seq_names.getD i [] ≠ name) ∧
      find_seq name f = .ok (false, [])) ∨
    ∃ k s, k < f.seq_names.length ∧ f.seq_names.getD k [] = name ∧
      (∀ j, k < j → j < f.seq_names.length → f.seq_names.getD j [] ≠ name) ∧
      f.seq_data.get? k = some s ∧ find_seq name f = .ok (!s.isEmpty, s) := by
  obtain ⟨seq, hrun, hseq⟩ := find_seq_loop name f hlen f.seq_names.length (le_refl _)
  rcases hseq with ⟨hno, he⟩ | ⟨k, hk, hkn, hlast, hdat⟩
  · left
    refine ⟨hno, ?_⟩
    unfold find_seq
    rw [hrun, he]
    rfl
  · right
    refine ⟨k, seq, hk, hkn, hlast, hdat, ?_⟩
    unfold find_seq
    rw [hrun]

/-- C19, amended, on the sequences of the test: the name `B` is found with its data, and
with a second entry `B` it is the data of the last one that is left in `seq`. -/
theorem find_seq_last_witness :
    (((∀ i, i < 4 → ([['A'], ['B'], ['C'], ['B']] : List Str).getD i [] ≠ ['B']) ∧
      find_seq ['B'] ⟨[['A'], ['B'], ['C'], ['B']],
        [['A', 'C', 'G', 'T'], ['C', 'G', 'T', 'A'], ['G', 'T', 'A', 'C'], ['T', 'T']]⟩
        = .ok (false, [])) ∨
    ∃ k s, k < 4 ∧ ([['A'], ['B'], ['C'], ['B']] : List Str).getD k [] = ['B'] ∧
      (∀ j, k < j → j < 4 → ([['A'], ['B'], ['C'], ['B']] : List Str).getD j [] ≠ ['B']) ∧
      ([['A', 'C', 'G', 'T'], ['C', 'G', 'T', 'A'], ['G', 'T', 'A', 'C'], ['T', 'T']]
        : List Str).get? k = some s ∧
      find_seq ['B'] ⟨[['A'], ['B'], ['C'], ['B']],
        [['A', 'C', 'G', 'T'], ['C', 'G', 'T', 'A'], ['G', 'T', 'A', 'C'], ['T', 'T']]⟩
        = .ok (!s.isEmpty, s)) ∧
    find_seq ['B'] ⟨[['A'], ['B'], ['C'], ['B']],
        [['A', 'C', 'G', 'T'], ['C', 'G', 'T', 'A'], ['G', 'T', 'A', 'C'], ['T', 'T']]⟩
      = .ok (true, ['T', 'T']) :=
  ⟨find_seq_last ['B'] ⟨[['A'], ['B'], ['C'], ['B']],
    [['A', 'C', 'G', 'T'], ['C', 'G', 'T', 'A'], ['G', 'T', 'A', 'C'], ['T', 'T']]⟩
    (by decide), rfl⟩

/-! ## Claim C18: the distance from the reference leaf -/

/-- The sum of the branch lengths of a list that starts with an existing node. -/
theorem branchSum_cons (tree : tree_t α) (x : Nat) (nd : node_t α) (l : List Nat)
    (h : tree.get? x = some nd) : branchSum tree (x :: l) = nd.length + branchSum tree l := by
  simp only [branchSum, List.map_cons, List.sum_cons, h]

/-- The loop of `distance_ref` adds the lengths of the branches on the way to the root. -/
theorem climb_eq_branchSum (tree : tree_t α) (fuel : Nat) :
    ∀ (node : Nat) (acc : α) (c : List Nat) (root : Nat),
      chainUp tree fuel node = some (c, root) →
      distance_ref.climb tree fuel node acc = .ok (acc + branchSum tree c) := by
  induction fuel with
  | zero => intro node acc c root h; simp [chainUp] at h
  | succ fuel ih =>
    intro node acc c root h
    unfold chainUp at h
    unfold distance_ref.climb
    cases hn : tree.get? node with
    | none => rw [hn] at h; simp at h
    | some nd =>
      rw [hn] at h
      simp only [] at h ⊢
      by_cases hp : nd.parent ≠ node
      · rw [if_pos hp] at h ⊢
        cases hc : chainUp tree fuel nd.parent with
        | none => rw [hc] at h; simp at h
        | some cr =>
          obtain ⟨c2, r2⟩ := cr
          rw [hc] at h
          simp only [Option.some.injEq, Prod.mk.injEq] at h
          rw [ih nd.parent (acc + nd.length) c2 r2 hc, ← h.1, branchSum_cons tree node nd c2 hn,
            add_assoc]
      · rw [if_neg hp] at h ⊢
        simp only [Option.some.injEq, Prod.mk.injEq] at h
        rw [← h.1]
        simp [branchSum]

/-- Every node on the way up from `node`, other than `node` itself, is the parent of
another node. -/
theorem chainUp_mem (tree : tree_t α) (fuel : Nat) :
    ∀ (node : Nat) (c : List Nat) (root : Nat), chainUp tree fuel node = some (c, root) →
      ∀ y ∈ c, y = node ∨ ∃ x nd, tree.get? x = some nd ∧ x ≠ y ∧ nd.parent = y := by
  induction fuel with
  | zero => intro node c root h; simp [chainUp] at h
  | succ fuel ih =>
    intro node c root h y hy
    unfold chainUp at h
    cases hn : tree.get? node with
    | none => rw [hn] at h; simp at h
    | some nd =>
      rw [hn] at h
      simp only [] at h
      by_cases hp : nd.parent ≠ node
      · rw [if_pos hp] at h
        cases hc : chainUp tree fuel nd.parent with
        | none => rw [hc] at h; simp at h
        | some cr =>
          obtain ⟨c2, r2⟩ := cr
          rw [hc] at h
          simp only [Option.some.injEq, Prod.mk.injEq] at h
          rw [← h.1] at hy
          rcases List.mem_cons.mp hy with h1 | h1
          · exact Or.inl h1
          · right
            rcases ih nd.parent c2 r2 hc y h1 with h2 | h2
            · exact ⟨node, nd, hn, by rw [h2]; exact fun e => hp e.symm, h2.symm⟩
            · exact h2
      · rw [if_neg hp] at h
        simp only [Option.some.injEq, Prod.mk.injEq] at h
        rw [← h.1] at hy
        exact absurd hy (List.not_mem_nil _)

/-- C18: in a tree in which the way up from `node` reaches the root, for a reference `ref`
that is a child of the root and a leaf (no other node has it as parent) and differs from
`node`, `distance_ref` returns the sum of the branch lengths on the way from `node` up to
the root plus the length of `ref`, and this is the distance between `ref` and `node`: the
sum of the branch lengths on the tree path between them. -/
theorem distance_ref_is_distance (tree : tree_t α) (ref node root : Nat) (r rt : node_t α)
    (c : List Nat)
    (hroot : tree.get? root = some rt) (hrt : rt.parent = root)
    (href : tree.get? ref = some r) (hrp : r.parent = root) (hne : ref ≠ root)
    (hleaf : ∀ x nd, tree.get? x = some nd → x ≠ ref → nd.parent ≠ ref)
    (hnode : node ≠ ref)
    (hc : chainUp tree (tree.length + 1) node = some (c, root)) :
    distance_ref tree ref node = .ok (branchSum tree c + r.length) ∧
    treeDistance tree ref node = some (branchSum tree c + r.length) := by
  constructor
  · unfold distance_ref
    rw [climb_eq_branchSum tree _ node 0 c root hc, href]
    simp
  · have hmem : ref ∉ c := by
      intro hin
      rcases chainUp_mem tree _ node c root hc ref hin with h1 | ⟨x, nd, h1, h2, h3⟩
      · exact hnode h1.symm
      · exact hleaf x nd h1 h2 h3
    have hlen : 1 ≤ tree.length := by
      rcases Nat.eq_zero_or_pos tree.length with h0 | h0
      · rw [List.length_eq_zero] at h0
        rw [h0] at href
        simp at href
      · exact h0
    obtain ⟨k, hk⟩ : ∃ k, tree.length + 1 = k + 2 := ⟨tree.length - 1, by omega⟩
    have hcr : chainUp tree (tree.length + 1) ref = some ([ref], root) := by
      rw [hk]
      unfold chainUp
      rw [href]
      simp only []
      rw [if_pos (by rw [hrp]; exact fun e => hne e.symm), hrp]
      unfold chainUp
      rw [hroot]
      simp only []
      rw [if_neg (by rw [hrt]; exact fun h => h rfl)]
    unfold treeDistance
    rw [hcr, hc]
    simp only [if_true]
    have f1 : ([ref] : List Nat).filter (fun x => decide (x ∉ c)) = [ref] := by
      simp [List.filter, hmem]
    have f2 : c.filter (fun x => decide (x ∉ [ref])) = c := by
      rw [List.filter_eq_self]
      intro a ha
      simp only [List.mem_singleton, decide_not, Bool.not_eq_true', decide_eq_false_iff_not]
      intro e
      exact hmem (e ▸ ha)
    rw [f1, f2, branchSum_cons tree ref r [] href, add_comm]
    simp [branchSum]

/-- C18 on the tree of the test, for the reference `dog` (13) and the node `racoon` (2):
the distance is 19.2 + 0.8 + 25.5 = 45.5. -/
theorem distance_ref_is_distance_witness :
    (distance_ref (carnivoresTree : tree_t ℚ) 13 2
        = .ok (branchSum (carnivoresTree : tree_t ℚ) [2, 1] + 25.5) ∧
      treeDistance (carnivoresTree : tree_t ℚ) 13 2
        = some (branchSum (carnivoresTree : tree_t ℚ) [2, 1] + 25.5)) ∧
    branchSum (carnivoresTree : tree_t ℚ) [2, 1] + 25.5 = 45.5 :=
  ⟨distance_ref_is_distance (carnivoresTree : tree_t ℚ) 13 2 0
      ⟨"dog".toList, 25.5, true, 0, []⟩ ⟨[], 0, false, 0, []⟩ [2, 1] rfl rfl rfl rfl
      (by decide)
      (fun x nd h hx => by
        have hx14 : x < 14 := by
          by_contra hge
          have : (carnivoresTree : tree_t ℚ).get? x = none :=
            List.get?_eq_none.mpr (by simp [carnivoresTree]; omega)
          rw [this] at h
          exact absurd h (by simp)
        interval_cases x <;> simp [carnivoresTree] at h <;> subst h <;> simp at hx ⊢)
      (by decide) rfl,
    by simp [branchSum, carnivoresTree]; norm_num⟩

/-- The four distances of the test `distance_ref`, in exact arithmetic. -/
theorem distance_ref_test_values :
    distance_ref (carnivoresTree : tree_t ℚ) 13 2 = .ok 45.5 ∧
    distance_ref (carnivoresTree : tree_t ℚ) 13 6 = .ok 48.9 ∧
    distance_ref (carnivoresTree : tree_t ℚ) 13 12 = .ok 50.4 ∧
    distance_ref (carnivoresTree : tree_t ℚ) 13 11 = .ok 99.2 := by
  refine ⟨?_, ?_, ?_, ?_⟩ <;>
    simp [distance_ref, distance_ref.climb, carnivoresTree] <;> norm_num

/-! ## Claim C17: re-rooting -/

/-- One step of the way up: the first node and the rest of the way. -/
theorem chainUp_succ (tree : tree_t α) (fuel node : Nat) (c : List Nat) (root : Nat)
    (h : chainUp tree (fuel + 1) node = some (c, root)) :
    ∃ nd, tree.get? node = some nd ∧
      ((nd.parent = node ∧ c = [] ∧ root = node) ∨
       (nd.parent ≠ node ∧ ∃ c2, c = node :: c2 ∧
          chainUp tree fuel nd.parent = some (c2, root))) := by
  unfold chainUp at h
  cases hn : tree.get? node with
  | none => rw [hn] at h; simp at h
  | some nd =>
    rw [hn] at h
    simp only [] at h
    refine ⟨nd, rfl, ?_⟩
    by_cases hp : nd.parent ≠ node
    · rw [if_pos hp] at h
      cases hc : chainUp tree fuel nd.parent with
      | none => rw [hc] at h; simp at h
      | some cr =>
        obtain ⟨c2, r2⟩ := cr
        rw [hc] at h
        simp only [Option.some.injEq, Prod.mk.injEq] at h
        exact Or.inr ⟨hp, c2, h.1.symm, by rw [h.2]⟩
    · rw [if_neg hp] at h
      simp only [Option.some.injEq, Prod.mk.injEq] at h
      exact Or.inl ⟨not_not.mp hp, h.1.symm, h.2.symm⟩

/-- The way up from a node does not depend on the number of steps allowed. -/
theorem chainUp_det (tree : tree_t α) (f1 : Nat) :
    ∀ (f2 node : Nat) (c1 c2 : List Nat) (r1 r2 : Nat),
      chainUp tree f1 node = some (c1, r1) → chainUp tree f2 node = some (c2, r2) →
      c1 = c2 ∧ r1 = r2 := by
  induction f1 with
  | zero => intro f2 node c1 c2 r1 r2 h; simp [chainUp] at h
  | succ f1 ih =>
    intro f2 node c1 c2 r1 r2 h1 h2
    cases f2 with
    | zero => simp [chainUp] at h2
    | succ f2 =>
      obtain ⟨nd, hn, hcase⟩ := chainUp_succ tree f1 node c1 r1 h1
      obtain ⟨nd2, hn2, hcase2⟩ := chainUp_succ tree f2 node c2 r2 h2
      rw [hn] at hn2
      simp only [Option.some.injEq] at hn2
      subst hn2
      rcases hcase with ⟨a1, a2, a3⟩ | ⟨a1, d1, a2, a3⟩
      · rcases hcase2 with ⟨b1, b2, b3⟩ | ⟨b1, d2, b2, b3⟩
        · exact ⟨by rw [a2, b2], by rw [a3, b3]⟩
        · exact absurd a1 b1
      · rcases hcase2 with ⟨b1, b2, b3⟩ | ⟨b1, d2, b2, b3⟩
        · exact absurd b1 a1
        · obtain ⟨e1, e2⟩ := ih f2 nd.parent d1 d2 r1 r2 a3 b3
          exact ⟨by rw [a2, b2, e1], e2⟩

/-- The way up from a node of a way up is the end of that way. -/
theorem chainUp_suffix (tree : tree_t α) (fuel : Nat) :
    ∀ (node : Nat) (c : List Nat) (root : Nat), chainUp tree fuel node = some (c, root) →
      ∀ z ∈ c, ∃ f2 cz, chainUp tree f2 z = some (cz, root) ∧ cz <:+ c := by
  induction fuel with
  | zero => intro node c root h; simp [chainUp] at h
  | succ fuel ih =>
    intro node c root h z hz
    obtain ⟨nd, hn, hcase⟩ := chainUp_succ tree fuel node c root h
    rcases hcase with ⟨a1, a2, a3⟩ | ⟨a1, d1, a2, a3⟩
    · rw [a2] at hz
      exact absurd hz (List.not_mem_nil _)
    · rw [a2] at hz
      rcases List.mem_cons.mp hz with h1 | h1
      · exact ⟨fuel + 1, c, by rw [h1]; exact h, List.suffix_refl c⟩
      · obtain ⟨f2, cz, e1, e2⟩ := ih nd.parent d1 root a3 z h1
        exact ⟨f2, cz, e1, by rw [a2]; exact e2.trans (List.suffix_cons node d1)⟩

/-- The nodes on the way up, the root included: each is in the tree, each but the last has
the next one as its parent, the last is its own parent, and no node occurs twice. -/
theorem chainUp_path (tree : tree_t α) (fuel : Nat) :
    ∀ (node : Nat) (c : List Nat) (root : Nat), chainUp tree fuel node = some (c, root) →
      (c ++ [root]).head? = some node ∧
      (∀ y ∈ c, ∃ nd, tree.get? y = some nd ∧ nd.parent ≠ y) ∧
      (∃ rt, tree.get? root = some rt ∧ rt.parent = root) ∧
      (∀ i, i + 1 < (c ++ [root]).length → ∃ nd,
        tree.get? ((c ++ [root]).getD i 0) = some nd ∧
        nd.parent = (c ++ [root]).getD (i + 1) 0) ∧
      (c ++ [root]).Nodup := by
  induction fuel with
  | zero => intro node c root h; simp [chainUp] at h
  | succ fuel ih =>
    intro node c root h
    obtain ⟨nd, hn, hcase⟩ := chainUp_succ tree fuel node c root h
    rcases hcase with ⟨a1, a2, a3⟩ | ⟨a1, d1, a2, a3⟩
    · subst a2
      subst a3
      refine ⟨rfl, fun y hy => absurd hy (List.not_mem_nil _), ⟨nd, hn, a1⟩, ?_, by simp⟩
      intro i hi
      simp at hi
    · obtain ⟨h1, h2, h3, h4, h5⟩ := ih nd.parent d1 root a3
      subst a2
      refine ⟨rfl, ?_, h3, ?_, ?_⟩
      · intro y hy
        rcases List.mem_cons.mp hy with e | e
        · rw [e]; exact ⟨nd, hn, a1⟩
        · exact h2 y e
      · intro i hi
        cases i with
        | zero =>
          refine ⟨nd, hn, ?_⟩
          cases hd : d1 ++ [root] with
          | nil => simp at hd
          | cons x rest =>
            rw [hd] at h1
            simp only [List.head?_cons, Option.some.injEq] at h1
            simp [hd, h1]
        | succ i =>
          have := h4 i (by simpa using hi)
          simpa using this
      · rw [List.cons_append, List.nodup_cons]
        refine ⟨?_, h5⟩
        intro hin
        rcases List.mem_append.mp hin with e | e
        · obtain ⟨f2, cz, e1, e2⟩ := chainUp_suffix tree fuel nd.parent d1 root a3 node e
          obtain ⟨e3, -⟩ := chainUp_det tree (fuel + 1) f2 node (node :: d1) cz root root h e1
          have := e2.length_le
          rw [← e3] at this
          simp at this
        · simp only [List.mem_singleton] at e
          obtain ⟨rt, hr1, hr2⟩ := h3
          rw [← e, hn] at hr1
          simp only [Option.some.injEq] at hr1
          rw [← hr1] at hr2
          exact a1 (by rw [hr2, e])

/-- The loop of `reroot` that collects the ancestors returns the way up followed by the
root. -/
theorem collect_eq_chain (tree : tree_t α) (fuel : Nat) :
    ∀ (node : Nat) (acc c : List Nat) (root : Nat),
      chainUp tree fuel node = some (c, root) →
      reroot.collect tree fuel node acc = .ok (acc ++ (c ++ [root])) := by
  induction fuel with
  | zero => intro node acc c root h; simp [chainUp] at h
  | succ fuel ih =>
    intro node acc c root h
    obtain ⟨nd, hn, hcase⟩ := chainUp_succ tree fuel node c root h
    unfold reroot.collect
    rw [hn]
    simp only []
    rcases hcase with ⟨a1, a2, a3⟩ | ⟨a1, d1, a2, a3⟩
    · rw [if_neg (not_not.mpr a1), a2, a3]
      rfl
    · rw [if_pos a1, ih nd.parent (acc ++ [node]) d1 root a3, a2]
      simp

/-- The element read back at the position that was set. -/
theorem get?_set_same {β : Type} (l : List β) (a : Nat) (v : β) (h : a < l.length) :
    (l.set a v).get? a = some v := by
  simp [List.getElem?_set, h]

/-- The elements at the other positions are as before. -/
theorem get?_set_other {β : Type} (l : List β) (a b : Nat) (v : β) (h : a ≠ b) :
    (l.set a v).get? b = l.get? b := by
  simp [List.getElem?_set_ne h]

/-- The entry `i` of a list of numbers, for `i` within the list. -/
theorem get?_getD (l : List Nat) (i : Nat) (h : i < l.length) :
    l.get? i = some (l.getD i 0) := by
  rw [List.get?_eq_get h, List.getD_eq_getElem l 0 h, List.get_eq_getElem]

/-- Two positions of a list without repetitions hold different entries. -/
theorem getD_ne_of_nodup (l : List Nat) (hl : l.Nodup) (i j : Nat) (hi : i < l.length)
    (hj : j < l.length) (hij : i ≠ j) : l.getD i 0 ≠ l.getD j 0 := by
  rw [List.getD_eq_getElem l 0 hi, List.getD_eq_getElem l 0 hj]
  intro e
  exact hij ((List.Nodup.getElem_inj_iff hl).mp e)

/-- One round of the loop of `reroot`: node `ancestors[i]` gets `ancestors[i - 1]` as
parent and the length of that node; nothing else changes. -/
theorem flip_eq (anc : List Nat) (i : Nat) (S : tree_t α) (na nb : node_t α)
    (hi : i < anc.length) (h1 : 1 ≤ i)
    (hab : anc.getD i 0 ≠ anc.getD (i - 1) 0)
    (ha : S.get? (anc.getD i 0) = some na) (hb : S.get? (anc.getD (i - 1) 0) = some nb) :
    reroot.flip anc i S
      = .ok (S.set (anc.getD i 0)
          { na with parent := anc.getD (i - 1) 0, length := nb.length }) := by
  have hlt : anc.getD i 0 < S.length := by
    by_contra hge
    rw [List.get?_eq_none.mpr (by omega)] at ha
    exact absurd ha (by simp)
  unfold reroot.flip
  rw [get?_getD anc i hi, get?_getD anc (i - 1) (by omega)]
  simp only []
  rw [ha]
  simp only []
  rw [get?_set_same _ _ _ hlt, get?_set_other _ _ _ _ hab, hb]
  simp only [List.set_set]

/-- The loop of `reroot` over the positions `n, ..., 1` of `ancestors`, started on a tree
`S` that agrees with the tree `T` on the first `n + 1` ancestors. -/
theorem flips_run (T : tree_t α) (anc : List Nat) (hnd : anc.Nodup)
    (hin : ∀ i, i < anc.length → ∃ nd, T.get? (anc.getD i 0) = some nd) (n : Nat) :
    n + 1 ≤ anc.length → ∀ S : tree_t α, S.length = T.length →
      (∀ i, i ≤ n → S.get? (anc.getD i 0) = T.get? (anc.getD i 0)) →
      ∃ S2, (List.range' 1 n).reverse.foldlM (fun t i => reroot.flip anc i t) S = .ok S2 ∧
        S2.length = T.length ∧
        (∀ x, (∀ i, 1 ≤ i → i ≤ n → x ≠ anc.getD i 0) → S2.get? x = S.get? x) ∧
        (∀ i, 1 ≤ i → i ≤ n → ∃ na nb, T.get? (anc.getD i 0) = some na ∧
          T.get? (anc.getD (i - 1) 0) = some nb ∧
          S2.get? (anc.getD i 0)
            = some { na with parent := anc.getD (i - 1) 0, length := nb.length }) := by
  induction n with
  | zero =>
    intro _ S hS _
    exact ⟨S, rfl, hS, fun x _ => rfl, fun i h1 h2 => by omega⟩
  | succ n ih =>
    intro hn S hS hagree
    obtain ⟨na, hna⟩ := hin (n + 1) (by omega)
    obtain ⟨nb, hnb⟩ := hin n (by omega)
    have hab : anc.getD (n + 1) 0 ≠ anc.getD (n + 1 - 1) 0 :=
      getD_ne_of_nodup anc hnd (n + 1) (n + 1 - 1) (by omega) (by omega) (by omega)
    have hstep := flip_eq anc (n + 1) S na nb (by omega) (by omega) hab
      (by rw [hagree (n + 1) (le_refl _)]; exact hna)
      (by rw [Nat.add_sub_cancel, hagree n (by omega)]; exact hnb)
    have hlt : anc.getD (n + 1) 0 < S.length := by
      by_contra hge
      have := hagree (n + 1) (le_refl _)
      rw [List.get?_eq_none.mpr (by omega), hna] at this
      exact absurd this (by simp)
    obtain ⟨S2, hrun, hlen, hoff, hon⟩ := ih (by omega)
      (S.set (anc.getD (n + 1) 0)
        { na with parent := anc.getD (n + 1 - 1) 0, length := nb.length })
      (by rw [List.length_set]; exact hS)
      (fun i hi => by
        rw [get?_set_other _ _ _ _ (getD_ne_of_nodup anc hnd (n + 1) i (by omega) (by omega)
          (by omega))]
        exact hagree i (by omega))
    refine ⟨S2, ?_, hlen, ?_, ?_⟩
    · rw [List.range'_1_concat, List.reverse_append]
      simp only [List.reverse_cons, List.reverse_nil, List.nil_append, List.singleton_append,
        List.foldlM_cons, bind, Except.bind]
      rw [Nat.add_comm 1 n, hstep]
      exact hrun
    · intro x hx
      rw [hoff x (fun i h1 h2 => hx i h1 (by omega)),
        get?_set_other _ _ _ _ (fun e => hx (n + 1) (by omega) (le_refl _) e.symm)]
    · intro i h1 h2
      by_cases hi : i = n + 1
      · subst hi
        refine ⟨na, nb, hna, by rw [Nat.add_sub_cancel]; exact hnb, ?_⟩
        rw [hoff _ (fun i h1 h2 => getD_ne_of_nodup anc hnd (n + 1) i (by omega) (by omega)
          (by omega)), get?_set_same _ _ _ hlt]
      · exact hon i h1 (by omega)

/-- The result of `find_node` when position `k` is the first with the label. -/
theorem find_node_of_first (tree : tree_t α) (name : Str) (k : Nat) (r : node_t α)
    (hk : tree.get? k = some r) (hl : r.label = name)
    (hmin : ∀ j nd, j < k → tree.get? j = some nd → nd.label ≠ name) :
    find_node tree name = (true, (k : Int)) := by
  have hlt : k < tree.length := by
    by_contra hge
    rw [List.get?_eq_none.mpr (by omega)] at hk
    exact absurd hk (by simp)
  have hidx : tree.findIdx (fun node => decide (node.label = name)) = k := by
    rw [List.findIdx_eq hlt]
    rw [List.get?_eq_get hlt] at hk
    simp only [Option.some.injEq, List.get_eq_getElem] at hk
    refine ⟨by rw [hk]; simp [hl], ?_⟩
    intro j hj
    have := hmin j (tree.get ⟨j, lt_trans hj hlt⟩) hj (List.get?_eq_get (lt_trans hj hlt))
    simpa using this
  unfold find_node
  simp only [hidx, Nat.ne_of_lt hlt, if_false]
  have : ((k : Nat) : Int) ≠ -1 := by omega
  simp [this]

/-- The result of `find_node` when no node has the label. -/
theorem find_node_of_none (tree : tree_t α) (name : Str)
    (h : ∀ nd ∈ tree, nd.label ≠ name) : find_node tree name = (false, -1) := by
  have : tree.findIdx (fun node => decide (node.label = name)) = tree.length :=
    List.findIdx_eq_length_of_false (fun x hx => by simp [h x hx])
  unfold find_node
  simp [this]

/-- C17: when no node has the label, `reroot` returns false and leaves the tree as it was.
When `k` is the first node with the label, `r` that node, and the way up from its parent
`r.parent` reaches the root through the nodes `c`, `reroot` returns true and leaves a tree
of the same size in which `r.parent` is the root (its own parent, length 0), every other
node of the old path `c ++ [root]` from `r.parent` to the old root has as parent the node
before it on that path and as length the former length of that node, and every node off
the path is as it was. -/
theorem reroot_spec (tree : tree_t α) (outgroup : Str) :
    ((∀ nd ∈ tree, nd.label ≠ outgroup) → reroot tree outgroup = .ok (false, tree)) ∧
    (∀ (k : Nat) (r : node_t α) (c : List Nat) (root : Nat),
      tree.get? k = some r → r.label = outgroup →
      (∀ j nd, j < k → tree.get? j = some nd → nd.label ≠ outgroup) →
      chainUp tree (tree.length + 1) r.parent = some (c, root) →
      ∃ tree2 nr, reroot tree outgroup = .ok (true, tree2) ∧ tree2.length = tree.length ∧
        tree.get? r.parent = some nr ∧
        tree2.get? r.parent = some { nr with parent := r.parent, length := 0 } ∧
        (∀ i, i + 1 < (c ++ [root]).length → ∃ na nb,
          tree.get? ((c ++ [root]).getD (i + 1) 0) = some na ∧
          tree.get? ((c ++ [root]).getD i 0) = some nb ∧
          tree2.get? ((c ++ [root]).getD (i + 1) 0)
            = some { na with parent := (c ++ [root]).getD i 0, length := nb.length }) ∧
        (∀ x, x ∉ c ++ [root] → tree2.get? x = tree.get? x)) := by
  constructor
  · intro h
    unfold reroot
    simp only [find_node_of_none tree outgroup h, if_true]
  · intro k r c root hk hl hmin hc
    obtain ⟨phead, pin, ⟨rt, hrt, -⟩, -, pnd⟩ := chainUp_path tree _ r.parent c root hc
    have hmem : ∀ i, i < (c ++ [root]).length → (c ++ [root]).getD i 0 ∈ c ++ [root] := by
      intro i hi
      rw [List.getD_eq_getElem _ 0 hi]
      exact List.getElem_mem hi
    have hin : ∀ i, i < (c ++ [root]).length →
        ∃ nd, tree.get? ((c ++ [root]).getD i 0) = some nd := by
      intro i hi
      rcases List.mem_append.mp (hmem i hi) with e | e
      · obtain ⟨nd, h1, -⟩ := pin _ e
        exact ⟨nd, h1⟩
      · rw [List.mem_singleton.mp e]
        exact ⟨rt, hrt⟩
    have hpos : 0 < (c ++ [root]).length := by simp
    have h0 : (c ++ [root]).getD 0 0 = r.parent := by
      cases hd : c ++ [root] with
      | nil => simp at hd
      | cons x rest =>
        rw [hd] at phead
        simp only [List.head?_cons, Option.some.injEq] at phead
        simp [phead]
    obtain ⟨nr, hnr⟩ := hin 0 hpos
    rw [h0] at hnr
    obtain ⟨S2, hrun, hlen, hoff, hon⟩ := flips_run tree (c ++ [root]) pnd hin c.length
      (by simp) tree rfl (fun i _ => rfl)
    have hS0 : S2.get? r.parent = some nr := by
      rw [hoff r.parent (fun i h1 h2 => by
        rw [← h0]
        exact getD_ne_of_nodup _ pnd 0 i hpos (by simp; omega) (by omega)), hnr]
    have hlt : r.parent < S2.length := by
      by_contra hge
      rw [List.get?_eq_none.mpr (by omega)] at hS0
      exact absurd hS0 (by simp)
    refine ⟨S2.set r.parent { nr with parent := r.parent, length := 0 }, nr, ?_, ?_, hnr,
      get?_set_same _ _ _ hlt, ?_, ?_⟩
    · unfold reroot
      simp only [find_node_of_first tree outgroup k r hk hl hmin, Int.toNat_ofNat, hk,
        Bool.true_eq_false, if_false]
      rw [collect_eq_chain tree _ r.parent [] c root hc]
      simp only [List.nil_append]
      have hl1 : (c ++ [root]).length - 1 = c.length := by simp
      rw [hl1, hrun]
      simp only [hS0]
    · rw [List.length_set, hlen]
    · intro i hi
      obtain ⟨na, nb, e1, e2, e3⟩ := hon (i + 1) (by omega) (by simp at hi; omega)
      rw [Nat.add_sub_cancel] at e2 e3
      refine ⟨na, nb, e1, e2, ?_⟩
      rw [get?_set_other _ _ _ _ (by
        rw [← h0]
        exact getD_ne_of_nodup _ pnd 0 (i + 1) hpos hi (by omega)), e3]
    · intro x hx
      have hx0 : r.parent ≠ x := by
        intro e
        rw [← e, ← h0] at hx
        exact hx (hmem 0 hpos)
      rw [get?_set_other _ _ _ _ hx0, hoff x (fun i h1 h2 e => by
        rw [e] at hx
        exact hx (hmem i (by simp; omega)))]

/-- C17 on the tree of the test: the label `Z` does not occur; for the label `A-a` (node 3,
child of node 2) node 2 becomes the root and the old root 0 gets parent 2 and length 5. -/
theorem reroot_spec_witness :
    reroot (ancestorTree : tree_t ℚ) "Z".toList = .ok (false, ancestorTree) ∧
    ∃ tree2 nr, reroot (ancestorTree : tree_t ℚ) "A-a".toList = .ok (true, tree2) ∧
      tree2.length = (ancestorTree : tree_t ℚ).length ∧
      (ancestorTree : tree_t ℚ).get? 2 = some nr ∧
      tree2.get? 2 = some { nr with parent := 2, length := 0 } ∧
      (∀ i, i + 1 < ([2] ++ [0]).length → ∃ na nb,
        (ancestorTree : tree_t ℚ).get? (([2] ++ [0]).getD (i + 1) 0) = some na ∧
        (ancestorTree : tree_t ℚ).get? (([2] ++ [0]).getD i 0) = some nb ∧
        tree2.get? (([2] ++ [0]).getD (i + 1) 0)
          = some { na with parent := ([2] ++ [0]).getD i 0, length := nb.length }) ∧
      (∀ x, x ∉ [2] ++ [0] → tree2.get? x = (ancestorTree : tree_t ℚ).get? x) :=
  ⟨(reroot_spec (ancestorTree : tree_t ℚ) "Z".toList).1 (by decide),
   (reroot_spec (ancestorTree : tree_t ℚ) "A-a".toList).2 3 ⟨"A-a".toList, 5, true, 2, []⟩
      [2] 0 rfl rfl
      (fun j nd hj h => by
        interval_cases j <;> simp [ancestorTree] at h <;> subst h <;> decide)
      rfl⟩

/-- The test `reroot`, first case: the tree that `reroot` leaves for the label `A-a`. -/
theorem reroot_test_tree :
    reroot (ancestorTree : tree_t ℚ) "A-a".toList
      = .ok (true,
          [⟨[], 5, false, 2, []⟩, ⟨"B_b".toList, 6, true, 0, []⟩,
           ⟨"Ancestor".toList, 0, false, 2, []⟩, ⟨"A-a".toList, 5, true, 2, []⟩,
           ⟨"C/c".toList, 3, true, 2, []⟩, ⟨"E.e".toList, 4, true, 2, []⟩,
           ⟨"D%".toList, 11, true, 0, []⟩]) := by
  rfl

/-! ## Claim C14: the codon index -/

/-- The codes of `nt4_table` for the four nucleotides. -/
theorem nt4_table_nucOfCode (k : Fin 4) : nt4_table (nucOfCode k) = k.val := by
  fin_cases k <;> rfl

/-- A loop whose iteration `j` writes column `j` only, and reads nothing but that column:
after the loop each column below `n` is as its iteration would write it on the initial
matrix. -/
theorem forLoop_columns (body : Nat → (Nat → Nat → α) → (Nat → Nat → α))
    (frame : ∀ j M r c, c ≠ j → body j M r c = M r c)
    (loc : ∀ j M M2, (∀ r, M r j = M2 r j) → ∀ r, body j M r j = body j M2 r j)
    (init : Nat → Nat → α) (n : Nat) :
    ∀ j r, forLoop 0 n body init r j = if j < n then body j init r j else init r j := by
  induction n with
  | zero => intro j r; simp [forLoop]
  | succ n ih =>
    intro j r
    have hsplit : forLoop 0 (n + 1) body init = body n (forLoop 0 n body init) := by
      unfold forLoop
      simp only [Nat.sub_zero]
      rw [List.range'_1_concat, List.foldl_append]
      simp
    rw [hsplit]
    by_cases hj : j = n
    · subst hj
      rw [if_pos (Nat.lt_succ_self j)]
      apply loc
      intro r2
      rw [ih j r2, if_neg (lt_irrefl j)]
    · rw [frame n _ r j hj, ih j r]
      by_cases hlt : j < n
      · rw [if_pos hlt, if_pos (by omega)]
      · rw [if_neg hlt, if_neg (by omega)]

/-- The profile of a single row: column `j` is what the `switch` of `create_profile` writes
for the symbol `j` of the row on an empty matrix. -/
theorem create_profile_single (s : Str) :
    ∃ pro : Profile α, create_profile [s] = .ok pro ∧ pro.cols = s.length ∧
      ∀ j, j < s.length → ∀ r, pro.val r j = profileCount [s] 1 j 0 (fun _ _ => 0) r j := by
  refine ⟨_, by simp [create_profile]; rfl, rfl, ?_⟩
  intro j hj r
  have hinner : ∀ (j : Nat) (M : Nat → Nat → α),
      forLoop 0 1 (fun i profile => profileCount [s] 1 j i profile) M
        = profileCount [s] 1 j 0 M := by
    intro j M
    simp [forLoop, List.range']
  simp only [hinner]
  rw [forLoop_columns (fun j M => profileCount [s] 1 j 0 M) ?_ ?_ _ s.length j r, if_pos hj]
  · intro j M r c hc
    have hne : ∀ x : Nat, ¬ (x = r ∧ j = c) := fun x h => hc h.2.symm
    unfold profileCount
    simp only []
    split_ifs <;> simp [addAt, setAt, hc, Ne.symm hc]
  · intro j M M2 h r
    unfold profileCount
    simp only []
    split_ifs <;> simp [addAt, setAt, h]

/-- The profile of a single codon holds, in each of its three columns, 1 in the row of the
nucleotide and 0 in the other rows. -/
theorem create_profile_codon (a b c : Fin 4) :
    ∃ pro : Profile α, create_profile [[nucOfCode a, nucOfCode b, nucOfCode c]] = .ok pro ∧
      pro.cols = 3 ∧
      (∀ r, pro.val r 0 = if r = a.val then 1 else 0) ∧
      (∀ r, pro.val r 1 = if r = b.val then 1 else 0) ∧
      (∀ r, pro.val r 2 = if r = c.val then 1 else 0) := by
  obtain ⟨pro, h1, h2, h3⟩ :=
    create_profile_single (α := α) [nucOfCode a, nucOfCode b, nucOfCode c]
  refine ⟨pro, h1, h2, ?_, ?_, ?_⟩
  · intro r
    rw [h3 0 (by simp) r]
    fin_cases a <;> simp [profileCount, charAt, addAt, setAt, nucOfCode]
  · intro r
    rw [h3 1 (by simp) r]
    fin_cases b <;> simp [profileCount, charAt, addAt, setAt, nucOfCode]
  · intro r
    rw [h3 2 (by simp) r]
    fin_cases c <;> simp [profileCount, charAt, addAt, setAt, nucOfCode]

/-- The maximum of a column that holds 1 in row `k < 4` and 0 elsewhere, and its row. -/
theorem maxCoeff_unit (v : Nat → α) (k : Fin 4) (h : ∀ r, v r = if r = k.val then 1 else 0) :
    maxCoeff v = (1, k.val) := by
  have h10 : ¬ ((1 : α) < 0) := by norm_num
  fin_cases k <;> simp at h <;> simp [maxCoeff, h, h10]

/-- The codon index in base 4. -/
theorem cod_int_formula (a b c : Fin 4) :
    cod_int [nucOfCode a, nucOfCode b, nucOfCode c] = 16 * a.val + 4 * b.val + c.val := by
  fin_cases a <;> fin_cases b <;> fin_cases c <;> rfl

/-- C14: with A = 0, C = 1, G = 2, T = 3, `cod_int` maps the codon `x1 x2 x3` to
`16 * x1 + 4 * x2 + x3`; it is one-to-one on the 64 codons and reaches every number below
64 (AAA gives 0 and TTT gives 63); and it is the index that the profile `transition`
builds from the rows of the per-position maxima of the profile of the codon,
`(max0 << 4) + (max1 << 2) + max2`. -/
theorem cod_int_base4 :
    (∀ a b c : Fin 4,
      cod_int [nucOfCode a, nucOfCode b, nucOfCode c] = 16 * a.val + 4 * b.val + c.val) ∧
    Function.Injective (fun x : Fin 4 × Fin 4 × Fin 4 =>
      cod_int [nucOfCode x.1, nucOfCode x.2.1, nucOfCode x.2.2]) ∧
    (∀ k : Fin 64, ∃ a b c : Fin 4,
      cod_int [nucOfCode a, nucOfCode b, nucOfCode c] = k.val) ∧
    cod_int ['A', 'A', 'A'] = 0 ∧ cod_int ['T', 'T', 'T'] = 63 ∧
    (∀ a b c : Fin 4, ∃ pro : Profile α,
      create_profile [[nucOfCode a, nucOfCode b, nucOfCode c]] = .ok pro ∧
      ((maxCoeff (fun r => pro.block 0 r 0)).2 <<< 4)
        + ((maxCoeff (fun r => pro.block 0 r 1)).2 <<< 2)
        + (maxCoeff (fun r => pro.block 0 r 2)).2
        = cod_int [nucOfCode a, nucOfCode b, nucOfCode c]) := by
  refine ⟨cod_int_formula, ?_, ?_, rfl, rfl, ?_⟩
  · rintro ⟨a, b, c⟩ ⟨a2, b2, c2⟩ h
    simp only [cod_int_formula] at h
    have ha := a.isLt
    have hb := b.isLt
    have hc := c.isLt
    have ha2 := a2.isLt
    have hb2 := b2.isLt
    have hc2 := c2.isLt
    have e1 : a.val = a2.val := by omega
    have e2 : b.val = b2.val := by omega
    have e3 : c.val = c2.val := by omega
    rw [Fin.ext e1, Fin.ext e2, Fin.ext e3]
  · intro k
    have hk := k.isLt
    refine ⟨⟨k.val / 16, by omega⟩, ⟨k.val / 4 % 4, by omega⟩, ⟨k.val % 4, by omega⟩, ?_⟩
    rw [cod_int_formula]
    simp only []
    omega
  · intro a b c
    obtain ⟨pro, h1, -, v0, v1, v2⟩ := create_profile_codon (α := α) a b c
    refine ⟨pro, h1, ?_⟩
    have m0 := maxCoeff_unit (fun r => pro.block 0 r 0) a (fun r => by
      simp only [Profile.block]; exact v0 r)
    have m1 := maxCoeff_unit (fun r => pro.block 0 r 1) b (fun r => by
      simp only [Profile.block]; exact v1 r)
    have m2 := maxCoeff_unit (fun r => pro.block 0 r 2) c (fun r => by
      simp only [Profile.block]; exact v2 r)
    rw [m0, m1, m2, cod_int_formula]
    simp only [Nat.shiftLeft_eq]
    omega

/-! ## Claim C16: the order of the leaves -/

/-- Counting with a predicate that holds less often, and fails at an element where the
other holds, gives less. -/
theorem countP_lt_of (l : List Nat) (p q : Nat → Bool)
    (h : ∀ x ∈ l, p x = true → q x = true) (x0 : Nat) (hx0 : x0 ∈ l) (hq : q x0 = true)
    (hp : p x0 = false) : l.countP p < l.countP q := by
  induction l with
  | nil => exact absurd hx0 (List.not_mem_nil _)
  | cons a rest ih =>
    have hle : rest.countP p ≤ rest.countP q :=
      List.countP_mono_left (fun x hx => h x (List.mem_cons_of_mem _ hx))
    rcases List.mem_cons.mp hx0 with e | e
    · subst e
      rw [List.countP_cons_of_pos _ _ hq, List.countP_cons_of_neg _ _ (by simp [hp])]
      omega
    · have := ih (fun x hx => h x (List.mem_cons_of_mem _ hx)) e
      by_cases hpa : p a = true
      · rw [List.countP_cons_of_pos _ _ hpa,
          List.countP_cons_of_pos _ _ (h a (List.mem_cons_self _ _) hpa)]
        omega
      · rw [List.countP_cons_of_neg _ _ hpa]
        by_cases hqa : q a = true
        · rw [List.countP_cons_of_pos _ _ hqa]
          omega
        · rw [List.countP_cons_of_neg _ _ hqa]
          exact this

/-- Marking a node never raises the number of unvisited nodes. -/
theorem unvisited_mark_le (n : Nat) (v : Nat → Bool) (x : Nat) :
    unvisited n (markVisited v x) ≤ unvisited n v := by
  unfold unvisited
  apply List.countP_mono_left
  intro y _ hy
  unfold markVisited at hy
  by_cases e : y = x
  · simp [e] at hy
  · simpa [e] using hy

/-- Marking an unvisited node lowers the number of unvisited nodes. -/
theorem unvisited_mark_lt (n : Nat) (v : Nat → Bool) (x : Nat) (hx : x < n)
    (hv : v x = false) : unvisited n (markVisited v x) < unvisited n v := by
  unfold unvisited
  apply countP_lt_of _ _ _ _ x (List.mem_range.mpr hx) (by simp [hv]) (by simp [markVisited])
  intro y _ hy
  unfold markVisited at hy
  by_cases e : y = x
  · simp [e] at hy
  · simpa [e] using hy

/-- The test of the `while` loop: some node is not visited. -/
theorem any_unvisited_iff (n : Nat) (v : Nat → Bool) :
    (List.range n).any (fun x => !v x) = true ↔ ∃ x, x < n ∧ v x = false := by
  simp [List.any_eq_true]

/-- A node on the spine of `a` is `a` or is on the spine of the parent of `a`. -/
theorem onSpine_inv (T : tree_t α) (x a : Nat) (h : OnSpine T x a) :
    x = a ∨ ∃ nd, T.get? a = some nd ∧ OnSpine T x nd.parent := by
  cases h with
  | self => exact Or.inl rfl
  | up _ nd h1 h2 => exact Or.inr ⟨nd, h1, h2⟩

/-- The spine of the root is the root. -/
theorem onSpine_root (T : tree_t α) (hT : WalkTree T) (x a : Nat) (h : OnSpine T x a) :
    a = 0 → x = 0 := by
  induction h with
  | self => exact fun e => e
  | up a nd h1 _ ih =>
    intro e
    obtain ⟨rt, hr1, hr2⟩ := hT.root
    rw [e, hr1] at h1
    simp only [Option.some.injEq] at h1
    rw [← h1] at ih
    exact ih hr2

/-- An element of a list of nodes is below the length of the list. -/
theorem get?_lt {β : Type} (l : List β) (x : Nat) (b : β) (h : l.get? x = some b) :
    x < l.length := by
  by_contra hge
  rw [List.get?_eq_none.mpr (by omega)] at h
  exact absurd h (by simp)

/-- Marking keeps the marks. -/
theorem markVisited_mono (v : Nat → Bool) (x y : Nat) (h : v y = true) :
    markVisited v x y = true := by
  unfold markVisited
  split_ifs
  · rfl
  · exact h

/-- One step of the loop that visits the leaves below `ancestor` keeps the invariant. -/
theorem visitLeaf_step (T : tree_t α) (hT : WalkTree T) (w : Walk α) (hw : WalkInv T w)
    (na : node_t α) (ha : T.get? w.ancestor = some na) (c : Nat) (hc : c ∈ na.children) :
    ∃ w2, aln_order.visitLeaf T c w = .ok w2 ∧ WalkInv T w2 ∧ w2.ancestor = w.ancestor ∧
      (∀ x, w.visited x = true → w2.visited x = true) ∧
      (w2.visited = w.visited ∨
        unvisited T.length w2.visited < unvisited T.length w.visited) ∧
      (∀ nc, T.get? c = some nc → nc.is_leaf = true → w2.visited c = true) := by
  obtain ⟨hc1, nc, hnc, hpc⟩ := (hT.kids w.ancestor na ha c).mp hc
  have hcN : c < T.length := get?_lt T c nc hnc
  unfold aln_order.visitLeaf
  rw [hnc]
  simp only []
  by_cases hcase : w.visited c = false ∧ nc.is_leaf = true
  · rw [if_pos hcase]
    refine ⟨_, rfl, ?_, rfl, fun x hx => markVisited_mono _ _ _ hx,
      Or.inr (unvisited_mark_lt _ _ _ hcN hcase.1), fun _ _ _ => by simp [markVisited]⟩
    have hnot : c ∉ w.order_list.map Prod.fst := by
      intro hin
      have := ((hw.listed c).mp hin).1
      rw [hcase.1] at this
      exact absurd this (by decide)
    constructor
    · exact hw.anc
    · exact hw.inode
    · simp only [List.map_append, List.map_cons, List.map_nil]
      rw [List.nodup_append]
      refine ⟨hw.nodup, List.nodup_singleton c, ?_⟩
      intro x hx hx2
      rw [List.mem_singleton] at hx2
      exact hnot (hx2 ▸ hx)
    · intro x
      simp only [List.map_append, List.map_cons, List.map_nil, List.mem_append,
        List.mem_singleton]
      by_cases e : x = c
      · subst e
        simp only [or_true, true_iff]
        exact ⟨by simp [markVisited], nc, hnc, hcase.2⟩
      · simp only [e, or_false, markVisited, if_false]
        exact hw.listed x
    · intro x nd hx hv hsp c2 hc2
      by_cases e : x = c
      · subst e
        rw [hnc] at hx
        simp only [Option.some.injEq] at hx
        rw [← hx, hT.leaf x nc hnc hcase.2] at hc2
        exact absurd hc2 (List.not_mem_nil _)
      · have hv2 : w.visited x = true := by simpa [markVisited, e] using hv
        exact markVisited_mono _ _ _ (hw.closed x nd hx hv2 hsp c2 hc2)
  · rw [if_neg hcase]
    refine ⟨w, rfl, hw, rfl, fun x hx => hx, Or.inl rfl, ?_⟩
    intro nc2 h2 hl
    simp only [Option.some.injEq] at h2
    rw [← h2] at hl
    by_contra hv
    exact hcase ⟨by simpa using hv, hl⟩

/-- The loop that visits the leaves below `ancestor` keeps the invariant; afterwards every
leaf among the children it ran over is visited, and either nothing was visited or fewer
nodes remain. -/
theorem visitLeaves_run (T : tree_t α) (hT : WalkTree T) (na : node_t α) (cs : List Nat) :
    ∀ (w : Walk α), WalkInv T w → T.get? w.ancestor = some na → (∀ c ∈ cs, c ∈ na.children) →
    ∃ w2, cs.foldlM (fun w c => aln_order.visitLeaf T c w) w = .ok w2 ∧ WalkInv T w2 ∧
      w2.ancestor = w.ancestor ∧
      (∀ x, w.visited x = true → w2.visited x = true) ∧
      (w2.visited = w.visited ∨
        unvisited T.length w2.visited < unvisited T.length w.visited) ∧
      (∀ c ∈ cs, ∀ nc, T.get? c = some nc → nc.is_leaf = true → w2.visited c = true) := by
  induction cs with
  | nil =>
    intro w hw _ _
    exact ⟨w, rfl, hw, rfl, fun x hx => hx, Or.inl rfl,
      fun c hc => absurd hc (List.not_mem_nil _)⟩
  | cons c rest ih =>
    intro w hw ha hcs
    obtain ⟨w1, e1, i1, a1, m1, u1, l1⟩ :=
      visitLeaf_step T hT w hw na ha c (hcs c (List.mem_cons_self _ _))
    obtain ⟨w2, e2, i2, a2, m2, u2, l2⟩ := ih w1 i1 (by rw [a1]; exact ha)
      (fun x hx => hcs x (List.mem_cons_of_mem _ hx))
    refine ⟨w2, ?_, i2, by rw [a2, a1], fun x hx => m2 x (m1 x hx), ?_, ?_⟩
    · simp only [List.foldlM_cons, bind, Except.bind, e1]
      exact e2
    · rcases u2 with h2 | h2
      · rw [h2]
        exact u1
      · right
        rcases u1 with h1 | h1
        · rw [← h1]
          exact h2
        · exact lt_trans h2 h1
    · intro x hx nc hnc hl
      rcases List.mem_cons.mp hx with e | e
      · rw [e]
        exact m2 c (l1 nc (e ▸ hnc) hl)
      · exact l2 x e nc hnc hl

/-- The call `find_if` of the second part: it finds a child that is neither visited nor a
leaf, or there is none. -/
theorem findInode_spec (T : tree_t α) (v : Nat → Bool) (cs : List Nat)
    (hin : ∀ c ∈ cs, ∃ nc, T.get? c = some nc) :
    (aln_order.findInode T v cs = .ok none ∧
      ∀ c ∈ cs, ∀ nc, T.get? c = some nc → ¬ (v c = false ∧ nc.is_leaf = false)) ∨
    (∃ node nn, aln_order.findInode T v cs = .ok (some node) ∧ node ∈ cs ∧ v node = false ∧
      T.get? node = some nn ∧ nn.is_leaf = false) := by
  induction cs with
  | nil => exact Or.inl ⟨rfl, fun c hc => absurd hc (List.not_mem_nil _)⟩
  | cons c rest ih =>
    obtain ⟨nc, hnc⟩ := hin c (List.mem_cons_self _ _)
    unfold aln_order.findInode
    rw [hnc]
    simp only []
    by_cases hcase : v c = false ∧ nc.is_leaf = false
    · rw [if_pos hcase]
      exact Or.inr ⟨c, nc, rfl, List.mem_cons_self _ _, hcase.1, hnc, hcase.2⟩
    · rw [if_neg hcase]
      rcases ih (fun x hx => hin x (List.mem_cons_of_mem _ hx)) with ⟨h1, h2⟩ | ⟨node, nn, h⟩
      · left
        refine ⟨h1, ?_⟩
        intro x hx nx hnx
        rcases List.mem_cons.mp hx with e | e
        · subst e
          rw [hnc] at hnx
          simp only [Option.some.injEq] at hnx
          rw [← hnx]
          exact hcase
        · exact h2 x e nx hnx
      · right
        exact ⟨node, nn, h.1, List.mem_cons_of_mem _ h.2.1, h.2.2⟩

/-- When the root is visited together with all its children, and the visited nodes off the
spine of the root have their children visited, every node is visited. -/
theorem all_visited_of_root (T : tree_t α) (hT : WalkTree T) (v : Nat → Bool)
    (h0 : v 0 = true)
    (hkids : ∀ nd, T.get? 0 = some nd → ∀ c ∈ nd.children, v c = true)
    (hclosed : ∀ x nd, T.get? x = some nd → v x = true → ¬ OnSpine T x 0 →
      ∀ c ∈ nd.children, v c = true) :
    ∀ y, y < T.length → v y = true := by
  intro y
  induction y using Nat.strong_induction_on with
  | _ y ih =>
    intro hy
    by_cases hy0 : y = 0
    · rw [hy0]; exact h0
    · obtain ⟨ny, hny⟩ : ∃ ny, T.get? y = some ny := ⟨T.get ⟨y, hy⟩, List.get?_eq_get hy⟩
      have hq := hT.below y ny (by omega) hny
      have hqN : ny.parent < T.length := by omega
      obtain ⟨nq, hnq⟩ : ∃ nq, T.get? ny.parent = some nq :=
        ⟨T.get ⟨ny.parent, hqN⟩, List.get?_eq_get hqN⟩
      have hmem : y ∈ nq.children :=
        (hT.kids ny.parent nq hnq y).mpr ⟨by omega, ny, hny, rfl⟩
      by_cases hq0 : ny.parent = 0
      · rw [hq0] at hnq
        exact hkids nq hnq y hmem
      · exact hclosed ny.parent nq hnq (ih ny.parent hq hqN)
          (fun hsp => hq0 (onSpine_root T hT _ _ hsp rfl)) y hmem

/-- One round of the second part of `aln_order`, while a node is not visited: the invariant
is kept and the measure `unvisited * size + ancestor` goes down. -/
theorem round_step (T : tree_t α) (hT : WalkTree T) (w : Walk α) (hw : WalkInv T w)
    (hsome : ∃ x, x < T.length ∧ w.visited x = false) :
    ∃ w2, aln_order.round T w = .ok w2 ∧ WalkInv T w2 ∧
      unvisited T.length w2.visited * T.length + w2.ancestor
        < unvisited T.length w.visited * T.length + w.ancestor := by
  obtain ⟨na, hna⟩ : ∃ na, T.get? w.ancestor = some na :=
    ⟨T.get ⟨w.ancestor, hw.anc⟩, List.get?_eq_get hw.anc⟩
  obtain ⟨w1, e1, i1, a1, m1, u1, l1⟩ :=
    visitLeaves_run T hT na na.children w hw hna (fun c hc => hc)
  have hna1 : T.get? w1.ancestor = some na := by rw [a1]; exact hna
  have hU1 : unvisited T.length w1.visited ≤ unvisited T.length w.visited := by
    rcases u1 with h | h
    · rw [h]
    · exact h.le
  have hkid : ∀ c ∈ na.children, 1 ≤ c ∧ ∃ nc, T.get? c = some nc ∧ nc.parent = w.ancestor :=
    fun c hc => (hT.kids w.ancestor na hna c).mp hc
  unfold aln_order.round
  rw [hna]
  simp only []
  rw [e1]
  simp only []
  by_cases hany : na.children.any (fun c => !w1.visited c) = true
  · rw [if_pos hany]
    obtain ⟨c, hc, hvc⟩ := List.any_eq_true.mp hany
    have hvc2 : w1.visited c = false := by simpa using hvc
    obtain ⟨-, nc, hnc, -⟩ := hkid c hc
    have hnl : nc.is_leaf = false := by
      by_contra hl
      have := l1 c hc nc hnc (by simpa using hl)
      rw [hvc2] at this
      exact absurd this (by decide)
    rcases findInode_spec T w1.visited na.children
      (fun x hx => by obtain ⟨-, nx, h, -⟩ := hkid x hx; exact ⟨nx, h⟩) with
      ⟨-, h2⟩ | ⟨node, nn, hf, hmem, hv, hnn, hleaf⟩
    · exact absurd ⟨hvc2, hnl⟩ (h2 c hc nc hnc)
    · obtain ⟨hn1, nn2, hnn2, hpar⟩ := hkid node hmem
      rw [hnn] at hnn2
      simp only [Option.some.injEq] at hnn2
      subst hnn2
      have hnodeN : node < T.length := get?_lt T node nn hnn
      rw [hf]
      simp only []
      rw [hnn]
      simp only []
      refine ⟨_, rfl, ?_, ?_⟩
      · constructor
        · exact hnodeN
        · intro nd hnd
          simp only [] at hnd
          rw [hnn] at hnd
          simp only [Option.some.injEq] at hnd
          rw [← hnd]
          exact hleaf
        · exact i1.nodup
        · intro x
          simp only []
          by_cases e : x = node
          · subst e
            constructor
            · intro hx
              have := ((i1.listed x).mp hx).1
              rw [hv] at this
              exact absurd this (by decide)
            · rintro ⟨-, nd, hnd, hl⟩
              rw [hnn] at hnd
              simp only [Option.some.injEq] at hnd
              rw [← hnd, hleaf] at hl
              exact absurd hl (by decide)
          · simp only [markVisited, e, if_false]
            exact i1.listed x
        · intro x nd hx hvx hsp c2 hc2
          simp only [] at hvx hsp ⊢
          by_cases e : x = node
          · subst e
            exact absurd (OnSpine.self x) hsp
          · have hv2 : w1.visited x = true := by simpa [markVisited, e] using hvx
            have hsp2 : ¬ OnSpine T x w1.ancestor := by
              intro h
              apply hsp
              exact OnSpine.up x node nn hnn (by rw [hpar, ← a1]; exact h)
            exact markVisited_mono _ _ _ (i1.closed x nd hx hv2 hsp2 c2 hc2)
      · simp only []
        have hlt := unvisited_mark_lt T.length w1.visited node hnodeN hv
        have h3 : (unvisited T.length (markVisited w1.visited node) + 1) * T.length
            ≤ unvisited T.length w.visited * T.length :=
          Nat.mul_le_mul_right _ (by omega)
        rw [Nat.add_mul, Nat.one_mul] at h3
        omega
  · rw [if_neg hany]
    have hall : ∀ c ∈ na.children, w1.visited c = true := by
      intro c hc
      by_contra hv
      exact hany (List.any_eq_true.mpr ⟨c, hc, by simpa using hv⟩)
    have hpN : na.parent < T.length ∧ (1 ≤ w.ancestor → na.parent < w.ancestor) ∧
        (w.ancestor = 0 → na.parent = 0) := by
      by_cases h0 : w.ancestor = 0
      · obtain ⟨rt, hr1, hr2⟩ := hT.root
        rw [h0, hr1] at hna
        simp only [Option.some.injEq] at hna
        rw [← hna, hr2]
        have := hw.anc
        exact ⟨by omega, fun h => by omega, fun _ => rfl⟩
      · have := hT.below w.ancestor na (by omega) hna
        have := hw.anc
        exact ⟨by omega, fun _ => by omega, fun h => absurd h h0⟩
    refine ⟨_, rfl, ?_, ?_⟩
    · constructor
      · exact hpN.1
      · intro nd hnd
        simp only [] at hnd
        by_cases h0 : w.ancestor = 0
        · rw [hpN.2.2 h0, ← h0, hna] at hnd
          simp only [Option.some.injEq] at hnd
          rw [← hnd]
          exact hw.inode na hna
        · have hmem : w.ancestor ∈ nd.children :=
            (hT.kids na.parent nd hnd w.ancestor).mpr ⟨by omega, na, hna, rfl⟩
          by_contra hl
          rw [hT.leaf na.parent nd hnd (by simpa using hl)] at hmem
          exact absurd hmem (List.not_mem_nil _)
      · exact i1.nodup
      · intro x
        simp only []
        by_cases e : x = w1.ancestor
        · subst e
          constructor
          · intro hx
            obtain ⟨-, nd, hnd, hl⟩ := (i1.listed _).mp hx
            rw [i1.inode nd hnd] at hl
            exact absurd hl (by decide)
          · rintro ⟨-, nd, hnd, hl⟩
            rw [i1.inode nd hnd] at hl
            exact absurd hl (by decide)
        · simp only [markVisited, e, if_false]
          exact i1.listed x
      · intro x nd hx hvx hsp c2 hc2
        simp only [] at hvx hsp ⊢
        by_cases e : x = w1.ancestor
        · subst e
          rw [hna1] at hx
          simp only [Option.some.injEq] at hx
          rw [← hx] at hc2
          exact markVisited_mono _ _ _ (hall c2 hc2)
        · have hv2 : w1.visited x = true := by simpa [markVisited, e] using hvx
          have hsp2 : ¬ OnSpine T x w1.ancestor := by
            intro h
            rcases onSpine_inv T x w1.ancestor h with h1 | ⟨nd2, h1, h2⟩
            · exact e h1
            · rw [hna1] at h1
              simp only [Option.some.injEq] at h1
              rw [← h1] at h2
              exact hsp h2
          exact markVisited_mono _ _ _ (i1.closed x nd hx hv2 hsp2 c2 hc2)
    · simp only []
      have hle := unvisited_mark_le T.length w1.visited w1.ancestor
      by_cases h0 : w.ancestor = 0
      · rw [hpN.2.2 h0, h0]
        have hlt : unvisited T.length (markVisited w1.visited w1.ancestor)
            < unvisited T.length w.visited := by
          rcases u1 with hsame | hless
          · by_cases hv0 : w1.visited w1.ancestor = false
            · have := unvisited_mark_lt T.length w1.visited w1.ancestor
                (by rw [a1]; exact hw.anc) hv0
              rw [hsame] at this ⊢
              exact this
            · exfalso
              obtain ⟨x, hx, hvx⟩ := hsome
              have hv0t : w1.visited 0 = true := by
                rw [a1, h0] at hv0
                simpa using hv0
              have := all_visited_of_root T hT w1.visited hv0t
                (fun nd hnd c hc => by
                  rw [h0] at hna
                  rw [hna] at hnd
                  simp only [Option.some.injEq] at hnd
                  rw [← hnd] at hc
                  exact hall c hc)
                (fun x nd hx hv hsp c hc => i1.closed x nd hx hv
                  (by rw [a1, h0]; exact hsp) c hc) x hx
              rw [hsame, hvx] at this
              exact absurd this (by decide)
          · omega
        have hNpos : 0 < T.length := by have := hw.anc; omega
        have := Nat.mul_lt_mul_of_pos_right hlt hNpos
        omega
      · have hp := hpN.2.1 (by omega)
        have h3 : unvisited T.length (markVisited w1.visited w1.ancestor) * T.length
            ≤ unvisited T.length w.visited * T.length :=
          Nat.mul_le_mul_right _ (by omega)
        omega

/-- The second part of `aln_order` ends, with every node visited, when it is given at
least `unvisited * size + ancestor` rounds. -/
theorem walk_run (T : tree_t α) (hT : WalkTree T) (fuel : Nat) :
    ∀ w : Walk α, WalkInv T w →
      unvisited T.length w.visited * T.length + w.ancestor ≤ fuel →
      ∃ w2, aln_order.walk T fuel w = .ok w2 ∧ WalkInv T w2 ∧
        ∀ x, x < T.length → w2.visited x = true := by
  induction fuel with
  | zero =>
    intro w hw hm
    have hU : unvisited T.length w.visited * T.length = 0 := by omega
    have hN : 0 < T.length := by have := hw.anc; omega
    have hU0 : unvisited T.length w.visited = 0 := by
      rcases Nat.mul_eq_zero.mp hU with h | h
      · exact h
      · omega
    have hall : ∀ x, x < T.length → w.visited x = true := by
      intro x hx
      by_contra hv
      have : 0 < unvisited T.length w.visited := by
        unfold unvisited
        rw [List.countP_pos_iff]
        exact ⟨x, List.mem_range.mpr hx, by simpa using hv⟩
      omega
    refine ⟨w, ?_, hw, hall⟩
    unfold aln_order.walk
    rw [if_neg]
    intro hany
    obtain ⟨x, hx, hv⟩ := (any_unvisited_iff _ _).mp hany
    rw [hall x hx] at hv
    exact absurd hv (by decide)
  | succ fuel ih =>
    intro w hw hm
    unfold aln_order.walk
    by_cases hany : (List.range T.length).any (fun x => !w.visited x) = true
    · rw [if_pos hany]
      obtain ⟨w1, e1, i1, hlt⟩ := round_step T hT w hw ((any_unvisited_iff _ _).mp hany)
      rw [e1]
      simp only []
      exact ih w1 i1 (by omega)
    · rw [if_neg hany]
      refine ⟨w, rfl, hw, ?_⟩
      intro x hx
      by_contra hv
      exact hany ((any_unvisited_iff _ _).mpr ⟨x, hx, by simpa using hv⟩)

/-- A step of the loop over the leaves only adds to `order_list`. -/
theorem visitLeaf_extends (T : tree_t α) (c : Nat) (w w2 : Walk α)
    (h : aln_order.visitLeaf T c w = .ok w2) : ∃ rest, w2.order_list = w.order_list ++ rest := by
  unfold aln_order.visitLeaf at h
  cases hc : T.get? c with
  | none => rw [hc] at h; simp at h
  | some nc =>
    rw [hc] at h
    simp only [] at h
    split_ifs at h
    · simp only [Except.ok.injEq] at h
      rw [← h]
      exact ⟨_, rfl⟩
    · simp only [Except.ok.injEq] at h
      rw [← h]
      exact ⟨[], by simp⟩

/-- The loop over the leaves only adds to `order_list`. -/
theorem visitLeaves_extends (T : tree_t α) (cs : List Nat) :
    ∀ w w2 : Walk α, cs.foldlM (fun w c => aln_order.visitLeaf T c w) w = .ok w2 →
      ∃ rest, w2.order_list = w.order_list ++ rest := by
  induction cs with
  | nil =>
    intro w w2 h
    simp only [List.foldlM_nil, pure, Except.pure, Except.ok.injEq] at h
    rw [← h]
    exact ⟨[], by simp⟩
  | cons c rest ih =>
    intro w w2 h
    simp only [List.foldlM_cons, bind, Except.bind] at h
    cases h1 : aln_order.visitLeaf T c w with
    | error e => rw [h1] at h; simp at h
    | ok w1 =>
      rw [h1] at h
      simp only [] at h
      obtain ⟨r1, e1⟩ := visitLeaf_extends T c w w1 h1
      obtain ⟨r2, e2⟩ := ih w1 w2 h
      exact ⟨r1 ++ r2, by rw [e2, e1, List.append_assoc]⟩

/-- A round of the second part only adds to `order_list`. -/
theorem round_extends (T : tree_t α) (w w2 : Walk α) (h : aln_order.round T w = .ok w2) :
    ∃ rest, w2.order_list = w.order_list ++ rest := by
  unfold aln_order.round at h
  cases ha : T.get? w.ancestor with
  | none => rw [ha] at h; simp at h
  | some na =>
    rw [ha] at h
    simp only [] at h
    cases h1 : na.children.foldlM (fun w c => aln_order.visitLeaf T c w) w with
    | error e => rw [h1] at h; simp at h
    | ok w1 =>
      rw [h1] at h
      simp only [] at h
      obtain ⟨r1, e1⟩ := visitLeaves_extends T na.children w w1 h1
      split_ifs at h
      · cases hf : aln_order.findInode T w1.visited na.children with
        | error e => rw [hf] at h; simp at h
        | ok o =>
          rw [hf] at h
          cases o with
          | none =>
            simp only [Except.ok.injEq] at h
            rw [← h]
            exact ⟨r1, e1⟩
          | some node =>
            simp only [] at h
            cases hn : T.get? node with
            | none => rw [hn] at h; simp at h
            | some nn =>
              rw [hn] at h
              simp only [Except.ok.injEq] at h
              rw [← h]
              exact ⟨r1, e1⟩
      · simp only [Except.ok.injEq] at h
        rw [← h]
        exact ⟨r1, e1⟩

/-- The second part of `aln_order` only adds to `order_list`. -/
theorem walk_extends (T : tree_t α) (fuel : Nat) :
    ∀ w w2 : Walk α, aln_order.walk T fuel w = .ok w2 →
      ∃ rest, w2.order_list = w.order_list ++ rest := by
  induction fuel with
  | zero =>
    intro w w2 h
    unfold aln_order.walk at h
    split_ifs at h
    simp only [Except.ok.injEq] at h
    rw [← h]
    exact ⟨[], by simp⟩
  | succ fuel ih =>
    intro w w2 h
    unfold aln_order.walk at h
    split_ifs at h
    · cases h1 : aln_order.round T w with
      | error e => rw [h1] at h; simp at h
      | ok w1 =>
        rw [h1] at h
        simp only [] at h
        obtain ⟨r1, e1⟩ := round_extends T w w1 h1
        obtain ⟨r2, e2⟩ := ih w1 w2 h
        exact ⟨r1 ++ r2, by rw [e2, e1, List.append_assoc]⟩
    · simp only [Except.ok.injEq] at h
      rw [← h]
      exact ⟨[], by simp⟩

/-- The first loop of `aln_order` over the nodes `1, ..., n`: every node has, after its own
list, its children among these nodes. -/
theorem fill_run (tree : tree_t α)
    (hbelow : ∀ i nd, 1 ≤ i → tree.get? i = some nd → nd.parent < i) (n : Nat) :
    n + 1 ≤ tree.length →
    ∃ T : tree_t α, (List.range' 1 n).foldlM (fun t i => aln_order.fill i t) tree = .ok T ∧
      T.length = tree.length ∧
      ∀ x nd, tree.get? x = some nd →
        T.get? x = some { nd with
          children := nd.children ++ (List.range' 1 n).filter (isChildOf tree x) } := by
  induction n with
  | zero =>
    intro _
    refine ⟨tree, rfl, rfl, ?_⟩
    intro x nd h
    simp only [List.range'_zero, List.filter_nil, List.append_nil]
    exact h
  | succ n ih =>
    intro hn
    obtain ⟨T, hrun, hlen, hT⟩ := ih (by omega)
    have hi : 1 + n < tree.length := by omega
    obtain ⟨nd, hnd⟩ : ∃ nd, tree.get? (1 + n) = some nd :=
      ⟨tree.get ⟨1 + n, hi⟩, List.get?_eq_get hi⟩
    have hp := hbelow (1 + n) nd (by omega) hnd
    have hpN : nd.parent < tree.length := by omega
    obtain ⟨pn, hpn⟩ : ∃ pn, tree.get? nd.parent = some pn :=
      ⟨tree.get ⟨nd.parent, hpN⟩, List.get?_eq_get hpN⟩
    have hstep : aln_order.fill (1 + n) T
        = .ok (T.set nd.parent { pn with
            children := pn.children ++ (List.range' 1 n).filter (isChildOf tree nd.parent)
              ++ [1 + n] }) := by
      unfold aln_order.fill
      rw [hT (1 + n) nd hnd]
      simp only []
      rw [hT nd.parent pn hpn]
    refine ⟨T.set nd.parent { pn with
        children := pn.children ++ (List.range' 1 n).filter (isChildOf tree nd.parent)
          ++ [1 + n] }, ?_, ?_, ?_⟩
    · rw [List.range'_1_concat, List.foldlM_append, hrun]
      simp only [bind, Except.bind, List.foldlM_cons, List.foldlM_nil, pure, Except.pure]
      rw [hstep]
    · rw [List.length_set, hlen]
    · intro x nx hx
      have hchild : isChildOf tree nd.parent (1 + n) = true := by
        unfold isChildOf
        rw [hnd]
        simp
      rw [List.range'_1_concat, List.filter_append]
      by_cases e : x = nd.parent
      · subst e
        rw [hpn] at hx
        simp only [Option.some.injEq] at hx
        subst hx
        rw [get?_set_same _ _ _ (by rw [hlen]; exact hpN)]
        simp [List.filter, hchild]
      · have hno : isChildOf tree x (1 + n) = false := by
          unfold isChildOf
          rw [hnd]
          simp [Ne.symm e]
        rw [get?_set_other _ _ _ _ (Ne.symm e), hT x nx hx]
        simp [List.filter, hno]

/-- The tree after the first loop of `aln_order`. -/
theorem fill_filled (tree : tree_t α) (hG : GuideTree tree) :
    ∃ T : tree_t α,
      (List.range' 1 (tree.length - 1)).foldlM (fun t i => aln_order.fill i t) tree = .ok T ∧
      Filled tree T := by
  obtain ⟨T, h1, h2, h3⟩ := fill_run tree hG.below (tree.length - 1)
    (by have := hG.size; omega)
  exact ⟨T, h1, h2, h3⟩

/-- The nodes of a filled guide tree: the fields of the node of `tree`, with the children
of the node as its list. -/
theorem filled_get (tree T : tree_t α) (hG : GuideTree tree) (hF : Filled tree T) (x : Nat)
    (nd : node_t α) (h : tree.get? x = some nd) :
    T.get? x = some { nd with children := childrenOf tree x } := by
  rw [hF.2 x nd h, hG.fresh nd (List.mem_iff_get?.mpr ⟨x, h⟩)]
  rfl

/-- A node of the filled tree comes from a node of `tree`. -/
theorem filled_get_inv (tree T : tree_t α) (hG : GuideTree tree) (hF : Filled tree T) (x : Nat)
    (nt : node_t α) (h : T.get? x = some nt) :
    ∃ nd, tree.get? x = some nd ∧ nt = { nd with children := childrenOf tree x } := by
  have hx : x < tree.length := by rw [← hF.1]; exact get?_lt T x nt h
  refine ⟨tree.get ⟨x, hx⟩, List.get?_eq_get hx, ?_⟩
  have := filled_get tree T hG hF x _ (List.get?_eq_get hx)
  rw [h] at this
  simpa using this

/-- The children of a node: the nodes from 1 on that have it as parent. -/
theorem mem_childrenOf (tree : tree_t α) (x c : Nat) :
    c ∈ childrenOf tree x ↔ 1 ≤ c ∧ ∃ nc, tree.get? c = some nc ∧ nc.parent = x := by
  unfold childrenOf
  rw [List.mem_filter, List.mem_range'_1]
  constructor
  · rintro ⟨⟨h1, h2⟩, h3⟩
    unfold isChildOf at h3
    cases hc : tree.get? c with
    | none => rw [hc] at h3; simp at h3
    | some nc =>
      rw [hc] at h3
      exact ⟨h1, nc, rfl, by simpa using h3⟩
  · rintro ⟨h1, nc, h2, h3⟩
    have := get?_lt tree c nc h2
    refine ⟨⟨h1, by omega⟩, ?_⟩
    unfold isChildOf
    rw [h2]
    simp [h3]

/-- The children of a node are listed in increasing order. -/
theorem childrenOf_sorted (tree : tree_t α) (x : Nat) :
    (childrenOf tree x).Pairwise (fun a b => a < b) := by
  unfold childrenOf
  exact (List.pairwise_lt_range' 1 _).filter _

/-- The filled tree of a guide tree has the properties that the second part of `aln_order`
relies on. -/
theorem filled_walkTree (tree T : tree_t α) (hG : GuideTree tree) (hF : Filled tree T) :
    WalkTree T := by
  have h0 : 0 < tree.length := by have := hG.size; omega
  constructor
  · have hr := filled_get tree T hG hF 0 _ (List.get?_eq_get h0)
    exact ⟨_, hr, hG.root (tree.get ⟨0, h0⟩) (List.get?_eq_get h0)⟩
  · intro i nt hi h
    obtain ⟨nd, h1, h2⟩ := filled_get_inv tree T hG hF i nt h
    rw [h2]
    exact hG.below i nd hi h1
  · intro x nt h c
    obtain ⟨nd, h1, h2⟩ := filled_get_inv tree T hG hF x nt h
    rw [h2]
    simp only []
    rw [mem_childrenOf]
    constructor
    · rintro ⟨hc1, nc, hc2, hc3⟩
      exact ⟨hc1, _, filled_get tree T hG hF c nc hc2, hc3⟩
    · rintro ⟨hc1, nc, hc2, hc3⟩
      obtain ⟨nc2, e1, e2⟩ := filled_get_inv tree T hG hF c nc hc2
      rw [e2] at hc3
      exact ⟨hc1, nc2, e1, hc3⟩
  · intro x nt h hl
    obtain ⟨nd, h1, h2⟩ := filled_get_inv tree T hG hF x nt h
    rw [h2] at hl ⊢
    exact (hG.leaf x nd h1).mp hl

/-- Nested loops as one loop over the concatenated lists. -/
theorem foldlM_flatMap {A B σ : Type} (l : List A) (f : A → List B)
    (g : σ → B → Except Failure σ) :
    ∀ s : σ, (l.flatMap f).foldlM g s = l.foldlM (fun s a => (f a).foldlM g s) s := by
  induction l with
  | nil => intro s; rfl
  | cons a rest ih =>
    intro s
    rw [List.flatMap_cons, List.foldlM_append, List.foldlM_cons]
    congr 1
    funext s2
    exact ih s2

/-- Loops with bodies that agree on the elements of the list are equal. -/
theorem foldlM_congr {A σ : Type} (l : List A) (f g : σ → A → Except Failure σ)
    (h : ∀ a ∈ l, ∀ s, f s a = g s a) : ∀ s : σ, l.foldlM f s = l.foldlM g s := by
  induction l with
  | nil => intro s; rfl
  | cons a rest ih =>
    intro s
    rw [List.foldlM_cons, List.foldlM_cons, h a (List.mem_cons_self _ _) s]
    congr 1
    funext s2
    exact ih (fun b hb => h b (List.mem_cons_of_mem _ hb)) s2

/-- The loops over `j` and `k` run over the pairs of `pairsOf`. -/
theorem scanNode_eq (tree : tree_t α) (ch : List Nat) (s : α × Nat × Nat) :
    aln_order.scanNode tree ch s
      = (pairsOf ch).foldlM (fun s pr => aln_order.pairStep tree pr.1 pr.2 s) s := by
  unfold aln_order.scanNode pairsOf
  rw [foldlM_flatMap]
  congr 1
  funext s2 j
  rw [List.foldlM_map]

/-- The search for the closest pair runs over the pairs of `siblingPairs`. -/
theorem scan_eq (tree : tree_t α) (s : α × Nat × Nat) :
    aln_order.scan tree s
      = (siblingPairs tree).foldlM (fun s pr => aln_order.pairStep tree pr.1 pr.2 s) s := by
  unfold aln_order.scan siblingPairs
  rw [foldlM_flatMap]
  apply foldlM_congr
  intro i hi s2
  have hlt : i < tree.length := List.mem_range.mp hi
  rw [List.get?_eq_get hlt]
  simp only []
  by_cases he : (tree.get ⟨i, hlt⟩).children.isEmpty = true
  · rw [if_pos he]
    rw [List.isEmpty_iff] at he
    rw [he]
    rfl
  · rw [if_neg he, scanNode_eq]

/-- One step of the search keeps the state the closest pair of the pairs seen. -/
theorem pairStep_closest (tree : tree_t α) (S : List (Nat × Nat)) (s : α × Nat × Nat)
    (hs : Closest tree S s) (u v : Nat) (nu nv : node_t α) (hu : tree.get? u = some nu)
    (hv : tree.get? v = some nv) :
    ∃ s2, aln_order.pairStep tree u v s = .ok s2 ∧ Closest tree (S ++ [(u, v)]) s2 := by
  obtain ⟨h1, h2, h3⟩ := hs
  unfold aln_order.pairStep
  rw [hu, hv]
  simp only []
  have hold : ∀ (t : α × Nat × Nat), t = s →
      (nu.is_leaf = true → nv.is_leaf = true → s.1 ≤ nu.length + nv.length) →
      Closest tree (S ++ [(u, v)]) t := by
    intro t ht hnew
    rw [ht]
    refine ⟨?_, ?_, h3⟩
    · intro a b na nb hab ha hb la lb
      rcases List.mem_append.mp hab with e | e
      · exact h1 a b na nb e ha hb la lb
      · simp only [List.mem_singleton, Prod.mk.injEq] at e
        rw [e.1, hu] at ha
        rw [e.2, hv] at hb
        simp only [Option.some.injEq] at ha hb
        rw [← ha] at la ⊢
        rw [← hb] at lb ⊢
        exact hnew la lb
    · intro hlt
      obtain ⟨na, nb, e1, e2⟩ := h2 hlt
      exact ⟨na, nb, List.mem_append_left _ e1, e2⟩
  by_cases hl : nu.is_leaf = true ∧ nv.is_leaf = true
  · rw [if_neg (not_not.mpr hl)]
    by_cases hlt : nu.length + nv.length < s.1
    · rw [if_pos hlt]
      refine ⟨_, rfl, ?_, ?_, ?_⟩
      · intro a b na nb hab ha hb la lb
        simp only []
        rcases List.mem_append.mp hab with e | e
        · exact le_trans hlt.le (h1 a b na nb e ha hb la lb)
        · simp only [List.mem_singleton, Prod.mk.injEq] at e
          rw [e.1, hu] at ha
          rw [e.2, hv] at hb
          simp only [Option.some.injEq] at ha hb
          rw [← ha, ← hb]
      · intro _
        exact ⟨nu, nv, List.mem_append_right _ (List.mem_singleton.mpr rfl), hu, hv, hl.1,
          hl.2, rfl⟩
      · exact le_trans hlt.le h3
    · rw [if_neg hlt]
      exact ⟨s, rfl, hold s rfl (fun _ _ => not_lt.mp hlt)⟩
  · rw [if_pos hl]
    exact ⟨s, rfl, hold s rfl (fun a b => absurd ⟨a, b⟩ hl)⟩

/-- The search over a list of pairs of nodes keeps the state the closest pair of the pairs
seen. -/
theorem closest_run (tree : tree_t α) (ps : List (Nat × Nat)) :
    ∀ (S : List (Nat × Nat)) (s : α × Nat × Nat), Closest tree S s →
      (∀ pr ∈ ps, (∃ nu, tree.get? pr.1 = some nu) ∧ ∃ nv, tree.get? pr.2 = some nv) →
      ∃ s2, ps.foldlM (fun s pr => aln_order.pairStep tree pr.1 pr.2 s) s = .ok s2 ∧
        Closest tree (S ++ ps) s2 := by
  induction ps with
  | nil =>
    intro S s hs _
    exact ⟨s, rfl, by rw [List.append_nil]; exact hs⟩
  | cons pr rest ih =>
    intro S s hs hin
    obtain ⟨⟨nu, hu⟩, nv, hv⟩ := hin pr (List.mem_cons_self _ _)
    obtain ⟨s1, e1, c1⟩ := pairStep_closest tree S s hs pr.1 pr.2 nu nv hu hv
    obtain ⟨s2, e2, c2⟩ := ih (S ++ [(pr.1, pr.2)]) s1 c1
      (fun x hx => hin x (List.mem_cons_of_mem _ hx))
    refine ⟨s2, ?_, ?_⟩
    · rw [List.foldlM_cons, e1]
      exact e2
    · rw [List.append_assoc] at c2
      exact c2

/-- The pairs of the loops over `j` and `k`, for a list in increasing order: the pairs of
elements of the list with the smaller one first. -/
theorem mem_pairsOf_sorted (ch : List Nat) (hs : ch.Pairwise (fun a b => a < b)) (u v : Nat) :
    (u, v) ∈ pairsOf ch ↔ u ∈ ch ∧ v ∈ ch ∧ u < v := by
  rw [List.pairwise_iff_getElem] at hs
  unfold pairsOf
  simp only [List.mem_flatMap, List.mem_map, List.mem_range, List.mem_range'_1, Prod.mk.injEq]
  constructor
  · rintro ⟨j, hj, k, ⟨hk1, hk2⟩, e1, e2⟩
    have hkl : k < ch.length := by omega
    have hjl : j < ch.length := by omega
    rw [List.getD_eq_getElem ch 0 hjl] at e1
    rw [List.getD_eq_getElem ch 0 hkl] at e2
    rw [← e1, ← e2]
    exact ⟨List.getElem_mem hjl, List.getElem_mem hkl, hs j k hjl hkl (by omega)⟩
  · rintro ⟨hu, hv, huv⟩
    obtain ⟨j, hj, ej⟩ := List.getElem_of_mem hu
    obtain ⟨k, hk, ek⟩ := List.getElem_of_mem hv
    have hjk : j < k := by
      by_contra hge
      rcases Nat.lt_or_ge k j with h | h
      · have := hs k j hk hj h
        rw [ej, ek] at this
        omega
      · have e : j = k := by omega
        subst e
        rw [ej] at ek
        omega
    refine ⟨j, by omega, k, ⟨by omega, by omega⟩, ?_, ?_⟩
    · rw [List.getD_eq_getElem ch 0 hj, ej]
    · rw [List.getD_eq_getElem ch 0 hk, ek]

/-- The pairs that the search runs over in the filled tree of a guide tree: the pairs of
children of one node, the smaller one first. -/
theorem mem_siblingPairs (tree T : tree_t α) (hG : GuideTree tree) (hF : Filled tree T)
    (u v : Nat) :
    (u, v) ∈ siblingPairs T ↔
      ∃ x, x < tree.length ∧ u ∈ childrenOf tree x ∧ v ∈ childrenOf tree x ∧ u < v := by
  unfold siblingPairs
  simp only [List.mem_flatMap, List.mem_range]
  constructor
  · rintro ⟨x, hx, h⟩
    rw [hF.1] at hx
    rw [filled_get tree T hG hF x _ (List.get?_eq_get hx)] at h
    simp only [] at h
    exact ⟨x, hx, (mem_pairsOf_sorted _ (childrenOf_sorted tree x) u v).mp h⟩
  · rintro ⟨x, hx, h⟩
    refine ⟨x, by rw [hF.1]; exact hx, ?_⟩
    rw [filled_get tree T hG hF x _ (List.get?_eq_get hx)]
    simp only []
    exact (mem_pairsOf_sorted _ (childrenOf_sorted tree x) u v).mpr h

/-- Below every node that is not a leaf there are two leaves with the same parent. -/
theorem exists_cherry (tree : tree_t α) (hG : GuideTree tree) (m : Nat) :
    ∀ x nd, tree.get? x = some nd → nd.is_leaf = false → tree.length - x ≤ m →
      ∃ q y z ny nz, q < tree.length ∧ y ∈ childrenOf tree q ∧ z ∈ childrenOf tree q ∧ y < z ∧
        tree.get? y = some ny ∧ tree.get? z = some nz ∧ ny.is_leaf = true ∧
        nz.is_leaf = true := by
  induction m with
  | zero =>
    intro x nd hx _ hm
    have := get?_lt tree x nd hx
    omega
  | succ m ih =>
    intro x nd hx hl hm
    have hxN := get?_lt tree x nd hx
    by_cases hex : ∃ c nc, c ∈ childrenOf tree x ∧ tree.get? c = some nc ∧ nc.is_leaf = false
    · obtain ⟨c, nc, hc, hnc, hcl⟩ := hex
      obtain ⟨hc1, nc2, h2, h3⟩ := (mem_childrenOf tree x c).mp hc
      have := hG.below c nc2 hc1 h2
      exact ih c nc hnc hcl (by omega)
    · have hlen := hG.inner x nd hx hl
      have hsort := childrenOf_sorted tree x
      cases hch : childrenOf tree x with
      | nil => rw [hch] at hlen; simp at hlen
      | cons a rest =>
        cases rest with
        | nil => rw [hch] at hlen; simp at hlen
        | cons b rest2 =>
          rw [hch] at hsort
          have hab : a < b := (List.pairwise_cons.mp hsort).1 b (List.mem_cons_self _ _)
          have ha : a ∈ childrenOf tree x := by rw [hch]; exact List.mem_cons_self _ _
          have hb : b ∈ childrenOf tree x := by
            rw [hch]; exact List.mem_cons_of_mem _ (List.mem_cons_self _ _)
          obtain ⟨-, na, hna, -⟩ := (mem_childrenOf tree x a).mp ha
          obtain ⟨-, nb, hnb, -⟩ := (mem_childrenOf tree x b).mp hb
          have la : na.is_leaf = true := by
            by_contra h
            exact hex ⟨a, na, ha, hna, by simpa using h⟩
          have lb : nb.is_leaf = true := by
            by_contra h
            exact hex ⟨b, nb, hb, hnb, by simpa using h⟩
          exact ⟨x, a, b, na, nb, hxN, ha, hb, hab, hna, hnb, la, lb⟩

/-- The root of a guide tree is not a leaf. -/
theorem guide_root_inner (tree : tree_t α) (hG : GuideTree tree) :
    ∃ rt, tree.get? 0 = some rt ∧ rt.is_leaf = false := by
  have h0 : 0 < tree.length := by have := hG.size; omega
  have h1 : 1 < tree.length := by have := hG.size; omega
  refine ⟨tree.get ⟨0, h0⟩, List.get?_eq_get h0, ?_⟩
  by_contra hl
  have hnil := (hG.leaf 0 _ (List.get?_eq_get h0)).mp (by simpa using hl)
  have hp := hG.below 1 _ (le_refl 1) (List.get?_eq_get h1)
  have : 1 ∈ childrenOf tree 0 :=
    (mem_childrenOf tree 0 1).mpr ⟨le_refl 1, _, List.get?_eq_get h1, by omega⟩
  rw [hnil] at this
  exact absurd this (List.not_mem_nil _)

/-- The search for the closest pair in the filled tree of a guide tree returns two leaves
with the same parent, the smaller index first, whose lengths have the smallest sum among
such pairs. -/
theorem scan_closest (tree T : tree_t α) (hG : GuideTree tree) (hF : Filled tree T) :
    ∃ (d : α) (f s q : Nat) (nf ns : node_t α),
      aln_order.scan T (fltMax, 0, 0) = .ok (d, f, s) ∧
      q < tree.length ∧ f ∈ childrenOf tree q ∧ s ∈ childrenOf tree q ∧ f < s ∧
      tree.get? f = some nf ∧ tree.get? s = some ns ∧ nf.is_leaf = true ∧
      ns.is_leaf = true ∧
      ∀ u v nu nv x, u ∈ childrenOf tree x → v ∈ childrenOf tree x → u < v →
        tree.get? u = some nu → tree.get? v = some nv → nu.is_leaf = true →
        nv.is_leaf = true → nf.length + ns.length ≤ nu.length + nv.length := by
  have hin : ∀ pr ∈ siblingPairs T,
      (∃ nu, T.get? pr.1 = some nu) ∧ ∃ nv, T.get? pr.2 = some nv := by
    rintro ⟨u, v⟩ hpr
    obtain ⟨x, hx, hu, hv, -⟩ := (mem_siblingPairs tree T hG hF u v).mp hpr
    obtain ⟨-, nu, hnu, -⟩ := (mem_childrenOf tree x u).mp hu
    obtain ⟨-, nv, hnv, -⟩ := (mem_childrenOf tree x v).mp hv
    exact ⟨⟨_, filled_get tree T hG hF u nu hnu⟩, ⟨_, filled_get tree T hG hF v nv hnv⟩⟩
  have hinit : Closest T [] ((fltMax, 0, 0) : α × Nat × Nat) :=
    ⟨fun u v nu nv h => absurd h (List.not_mem_nil _), fun h => absurd h (lt_irrefl _),
      le_refl _⟩
  obtain ⟨s2, hrun, h1, h2, h3⟩ := closest_run T (siblingPairs T) [] (fltMax, 0, 0) hinit hin
  rw [List.nil_append] at h1 h2
  obtain ⟨rt, hrt, hrl⟩ := guide_root_inner tree hG
  obtain ⟨q, y, z, ny, nz, hq, hy, hz, hyz, hny, hnz, ly, lz⟩ :=
    exists_cherry tree hG tree.length 0 rt hrt hrl (by omega)
  have hd : s2.1 < fltMax := by
    have := h1 y z _ _ ((mem_siblingPairs tree T hG hF y z).mpr ⟨q, hq, hy, hz, hyz⟩)
      (filled_get tree T hG hF y ny hny) (filled_get tree T hG hF z nz hnz) ly lz
    exact lt_of_le_of_lt this (hG.finite y z ny nz hny hnz ly lz)
  obtain ⟨nf, ns, hmem, hnf, hns, lf, ls, hsum⟩ := h2 hd
  obtain ⟨x, hx, hfx, hsx, hfs⟩ := (mem_siblingPairs tree T hG hF _ _).mp hmem
  obtain ⟨nf0, e1, e2⟩ := filled_get_inv tree T hG hF _ nf hnf
  obtain ⟨ns0, e3, e4⟩ := filled_get_inv tree T hG hF _ ns hns
  refine ⟨s2.1, s2.2.1, s2.2.2, x, nf0, ns0, ?_, hx, hfx, hsx, hfs, e1, e3, ?_, ?_, ?_⟩
  · rw [scan_eq, hrun]
  · rw [e2] at lf; exact lf
  · rw [e4] at ls; exact ls
  · intro u v nu nv x2 hu hv huv hnu hnv lu lv
    have hx2 : x2 < tree.length := by
      obtain ⟨-, nu2, h, hp⟩ := (mem_childrenOf tree x2 u).mp hu
      have hu1 : 1 ≤ u := ((mem_childrenOf tree x2 u).mp hu).1
      have := hG.below u nu2 hu1 h
      have := get?_lt tree u nu2 h
      omega
    have := h1 u v _ _ ((mem_siblingPairs tree T hG hF u v).mpr ⟨x2, hx2, hu, hv, huv⟩)
      (filled_get tree T hG hF u nu hnu) (filled_get tree T hG hF v nv hnv) lu lv
    rw [hsum, e2, e4] at this
    exact this

/-- Counterexample to C16 as stated: for the tree of a single leaf, in which no internal
node has fewer than two children, `aln_order` returns a list that holds the leaf twice. -/
theorem aln_order_single_leaf :
    ∃ T L, aln_order ([⟨['A'], 1, true, 0, []⟩] : tree_t ℚ) [] = .ok (0, T, L) ∧
      L.map Prod.fst = [0, 0] ∧ ¬ (L.map Prod.fst).Nodup :=
  ⟨_, _, rfl, rfl, by decide⟩

/-- C16, amended: for a guide tree with more than one node (root at index 0, every other
node after its parent, leaves exactly the nodes without children, at least two children
below every other node, sums of two leaf lengths below the largest `float`), `aln_order`,
called with an empty list, ends and returns 0; the list holds every leaf exactly once and no
other node; its first two entries are two leaves with the same parent whose lengths have the
smallest sum among such pairs, the first with distance 0 and the second with that sum. -/
theorem aln_order_leaves (tree : tree_t α) (hG : GuideTree tree) :
    ∃ (T : tree_t α) (f s : Nat) (nf ns : node_t α) (rest : List (Nat × α)),
      aln_order tree [] = .ok (0, T, (f, 0) :: (s, nf.length + ns.length) :: rest) ∧
      (f :: s :: rest.map Prod.fst).Nodup ∧
      (∀ x, x ∈ f :: s :: rest.map Prod.fst ↔
        ∃ nd, tree.get? x = some nd ∧ nd.is_leaf = true) ∧
      tree.get? f = some nf ∧ tree.get? s = some ns ∧ nf.is_leaf = true ∧
      ns.is_leaf = true ∧ f ≠ s ∧ 1 ≤ f ∧ 1 ≤ s ∧ nf.parent = ns.parent ∧
      ∀ u v nu nv, tree.get? u = some nu → tree.get? v = some nv → 1 ≤ u → 1 ≤ v → u ≠ v →
        nu.parent = nv.parent → nu.is_leaf = true → nv.is_leaf = true →
        nf.length + ns.length ≤ nu.length + nv.length := by
  obtain ⟨T, hfill, hF⟩ := fill_filled tree hG
  have hT := filled_walkTree tree T hG hF
  obtain ⟨d, f, s, q, nf, ns, hscan, hq, hfq, hsq, hfs, hnf, hns, lf, ls, hmin⟩ :=
    scan_closest tree T hG hF
  obtain ⟨hf1, nf2, hnf2, hpf⟩ := (mem_childrenOf tree q f).mp hfq
  obtain ⟨hs1, ns2, hns2, hps⟩ := (mem_childrenOf tree q s).mp hsq
  rw [hnf] at hnf2
  rw [hns] at hns2
  simp only [Option.some.injEq] at hnf2 hns2
  subst hnf2
  subst hns2
  have hTf := filled_get tree T hG hF f nf hnf
  have hTs := filled_get tree T hG hF s ns hns
  have hN : T.length = tree.length := hF.1
  -- the state at the start of the second part
  have hinv : WalkInv T (⟨markVisited (markVisited (fun _ => false) s) f, ns.parent, 0,
      [(f, 0), (s, nf.length + ns.length)]⟩ : Walk α) := by
    constructor
    · simp only []
      rw [hps, hN]
      exact hq
    · intro nd hnd
      simp only [] at hnd
      by_contra hl
      have hmem : s ∈ nd.children :=
        (hT.kids ns.parent nd hnd s).mpr ⟨hs1, _, hTs, rfl⟩
      rw [hT.leaf ns.parent nd hnd (by simpa using hl)] at hmem
      exact absurd hmem (List.not_mem_nil _)
    · simp only [List.map_cons, List.map_nil]
      simp only [List.nodup_cons, List.mem_singleton, List.not_mem_nil, not_false_eq_true,
        List.nodup_nil, and_true]
      omega
    · intro x
      simp only [List.map_cons, List.map_nil, List.mem_cons, List.mem_singleton,
        List.not_mem_nil, or_false, markVisited]
      constructor
      · rintro (e | e)
        · subst e
          exact ⟨by simp, _, hTf, lf⟩
        · subst e
          exact ⟨by simp, _, hTs, ls⟩
      · rintro ⟨hv, -⟩
        by_cases e1 : x = f
        · exact Or.inl e1
        · by_cases e2 : x = s
          · exact Or.inr e2
          · simp [e1, e2] at hv
    · intro x nd hx hv _ c hc
      simp only [markVisited] at hv
      have hxl : nd.children = [] := by
        by_cases e1 : x = f
        · subst e1
          rw [hTf] at hx
          simp only [Option.some.injEq] at hx
          exact hT.leaf x nd (by rw [hTf, hx]) (by rw [← hx]; exact lf)
        · by_cases e2 : x = s
          · subst e2
            rw [hTs] at hx
            simp only [Option.some.injEq] at hx
            exact hT.leaf x nd (by rw [hTs, hx]) (by rw [← hx]; exact ls)
          · simp [e1, e2] at hv
      rw [hxl] at hc
      exact absurd hc (List.not_mem_nil _)
  have hfuel : unvisited T.length (markVisited (markVisited (fun _ => false) s) f) * T.length
      + ns.parent ≤ T.length * T.length + T.length := by
    have h1 : unvisited T.length (markVisited (markVisited (fun _ => false) s) f)
        ≤ T.length := by
      unfold unvisited
      have := List.countP_le_length
        (fun x => !markVisited (markVisited (fun _ => false) s) f x) (l := List.range T.length)
      simpa using this
    have h2 := Nat.mul_le_mul_right T.length h1
    have h3 : ns.parent < T.length := hinv.anc
    omega
  obtain ⟨w2, hwalk, hinv2, hall⟩ := walk_run T hT _ _ hinv hfuel
  obtain ⟨rest, hrest⟩ := walk_extends T _ _ w2 hwalk
  simp only [] at hrest
  refine ⟨T, f, s, nf, ns, rest, ?_, ?_, ?_, hnf, hns, lf, ls, by omega, hf1, hs1,
    by rw [hpf, hps], ?_⟩
  · unfold aln_order
    rw [hfill]
    simp only []
    rw [hscan]
    simp only []
    rw [hTf, hTs]
    simp only [List.nil_append, List.singleton_append, List.get?_cons_zero,
      List.get?_cons_succ, List.getLast?_cons_cons, List.getLast?_singleton]
    rw [hTs]
    simp only []
    rw [hwalk]
    simp only []
    rw [hrest]
    rfl
  · have := hinv2.nodup
    rw [hrest] at this
    simpa using this
  · intro x
    have := hinv2.listed x
    rw [hrest] at this
    simp only [List.cons_append, List.nil_append, List.map_cons] at this
    rw [this]
    constructor
    · rintro ⟨-, nt, hnt, hl⟩
      obtain ⟨nd, e1, e2⟩ := filled_get_inv tree T hG hF x nt hnt
      rw [e2] at hl
      exact ⟨nd, e1, hl⟩
    · rintro ⟨nd, hnd, hl⟩
      have hx := get?_lt tree x nd hnd
      exact ⟨hall x (by rw [hN]; exact hx), _, filled_get tree T hG hF x nd hnd, hl⟩
  · intro u v nu nv hu hv hu1 hv1 huv hpar lu lv
    have hcu : u ∈ childrenOf tree nu.parent := (mem_childrenOf tree _ u).mpr ⟨hu1, nu, hu, rfl⟩
    have hcv : v ∈ childrenOf tree nu.parent :=
      (mem_childrenOf tree _ v).mpr ⟨hv1, nv, hv, hpar.symm⟩
    rcases Nat.lt_or_ge u v with h | h
    · exact hmin u v nu nv _ hcu hcv h hu hv lu lv
    · have := hmin v u nv nu _ hcv hcu (by omega) hv hu lv lu
      rw [add_comm nv.length] at this
      exact this

/-- The tree of the test `aln_order` is a guide tree. -/
theorem ancestorTree_guide : GuideTree (ancestorTree : tree_t ℚ) := by
  have hcases : ∀ x (nd : node_t ℚ), (ancestorTree : tree_t ℚ).get? x = some nd → x < 7 :=
    fun x nd h => get?_lt _ x nd h
  constructor
  · decide
  · intro nd h
    simp [ancestorTree] at h
    subst h
    rfl
  · intro i nd hi h
    have := hcases i nd h
    interval_cases i <;> simp [ancestorTree] at h <;> subst h <;> decide
  · intro nd h
    simp [ancestorTree] at h
    rcases h with h | h | h | h | h | h | h <;> subst h <;> rfl
  · intro x nd h
    have := hcases x nd h
    interval_cases x <;> simp [ancestorTree] at h <;> subst h <;> decide
  · intro x nd h hl
    have := hcases x nd h
    interval_cases x <;> simp [ancestorTree] at h <;> subst h <;> revert hl <;> decide
  · intro x y nx ny hx hy _ _
    have bound : ∀ z (nz : node_t ℚ), (ancestorTree : tree_t ℚ).get? z = some nz →
        nz.length ≤ 11 := by
      intro z nz hz
      have := hcases z nz hz
      interval_cases z <;> simp [ancestorTree] at hz <;> subst hz <;> norm_num
    have h1 := bound x nx hx
    have h2 := bound y ny hy
    have h3 : (22 : ℚ) < fltMax := by
      unfold fltMax
      norm_num
    linarith

/-- C16, amended, on the tree of the test `aln_order`. -/
theorem aln_order_leaves_witness :
    ∃ (T : tree_t ℚ) (f s : Nat) (nf ns : node_t ℚ) (rest : List (Nat × ℚ)),
      aln_order (ancestorTree : tree_t ℚ) []
        = .ok (0, T, (f, 0) :: (s, nf.length + ns.length) :: rest) ∧
      (f :: s :: rest.map Prod.fst).Nodup ∧
      (∀ x, x ∈ f :: s :: rest.map Prod.fst ↔
        ∃ nd, (ancestorTree : tree_t ℚ).get? x = some nd ∧ nd.is_leaf = true) ∧
      (ancestorTree : tree_t ℚ).get? f = some nf ∧
      (ancestorTree : tree_t ℚ).get? s = some ns ∧ nf.is_leaf = true ∧
      ns.is_leaf = true ∧ f ≠ s ∧ 1 ≤ f ∧ 1 ≤ s ∧ nf.parent = ns.parent ∧
      ∀ u v nu nv, (ancestorTree : tree_t ℚ).get? u = some nu →
        (ancestorTree : tree_t ℚ).get? v = some nv → 1 ≤ u → 1 ≤ v → u ≠ v →
        nu.parent = nv.parent → nu.is_leaf = true → nv.is_leaf = true →
        nf.length + ns.length ≤ nu.length + nv.length :=
  aln_order_leaves (ancestorTree : tree_t ℚ) ancestorTree_guide
/-- One subtree appended by `make_inode`: the nodes of `val` stay, the nodes of `w` follow
with their parents shifted, the first of them below node 0. -/
theorem attach_spec (val w : tree_t α) (w0 : node_t α) (hw : w.get? 0 = some w0) :
    ∃ T, newick.make_inode.attach val w = .ok T ∧ T.length = val.length + w.length ∧
      ∀ i, T.get? i = if i < val.length then val.get? i else
        (w.get? (i - val.length)).map (fun x =>
          { x with parent := if i = val.length then 0 else x.parent + val.length }) := by
  have hwl := get?_lt w 0 w0 hw
  have h1 : (val ++ w.map (fun (x : node_t α) =>
      { x with parent := x.parent + val.length })).get? val.length
      = some ({ w0 with parent := w0.parent + val.length } : node_t α) := by
    rw [List.get?_eq_getElem?, List.getElem?_append_right (le_refl _), Nat.sub_self,
      List.getElem?_map, ← List.get?_eq_getElem?, hw]
    rfl
  unfold newick.make_inode.attach
  simp only []
  rw [h1]
  refine ⟨_, rfl, by simp, ?_⟩
  intro i
  by_cases hi : i < val.length
  · rw [if_pos hi, get?_set_other _ _ _ _ (by omega), List.get?_eq_getElem?,
      List.getElem?_append_left hi, ← List.get?_eq_getElem?]
  · rw [if_neg hi]
    by_cases he : i = val.length
    · subst he
      rw [get?_set_same _ _ _ (by simp; omega), Nat.sub_self, hw]
      simp
    · rw [get?_set_other _ _ _ _ (Ne.symm he), List.get?_eq_getElem?,
        List.getElem?_append_right (by omega), List.getElem?_map, ← List.get?_eq_getElem?]
      cases w.get? (i - val.length) with
      | none => rfl
      | some x => simp [he]

/-- Appending a subtree in pre-order keeps the shape of `_val(ctx)`. -/
theorem attach_inv (val w : tree_t α) (hv : Attached val) (hw : PreOrder w) :
    ∃ T, newick.make_inode.attach val w = .ok T ∧ Attached T ∧ 2 ≤ T.length := by
  obtain ⟨w0, hw0, hw0p⟩ := hw.root
  obtain ⟨r, hr, hrp, hrl⟩ := hv.root
  have hn : 1 ≤ val.length := by have := get?_lt val 0 r hr; omega
  have hwl := get?_lt w 0 w0 hw0
  obtain ⟨T, hT, hlen, hget⟩ := attach_spec val w w0 hw0
  refine ⟨T, hT, ⟨?_, ?_, ?_, ?_⟩, by omega⟩
  · refine ⟨r, ?_, hrp, hrl⟩
    rw [hget 0, if_pos (by omega)]
    exact hr
  · intro i nd hi h
    rw [hget i] at h
    by_cases hlt : i < val.length
    · rw [if_pos hlt] at h
      exact hv.below i nd hi h
    · rw [if_neg hlt] at h
      cases hx : w.get? (i - val.length) with
      | none => rw [hx] at h; exact absurd h (by simp)
      | some x =>
        rw [hx] at h
        simp only [Option.map_some', Option.some.injEq] at h
        subst h
        by_cases he : i = val.length
        · simp only [he, if_true]; omega
        · simp only [he, if_false]
          have := hw.below (i - val.length) x (by omega) hx
          omega
  · intro i nd hi h
    rw [hget i] at h
    by_cases hlt : i < val.length
    · rw [if_pos hlt] at h
      rw [hv.leaf i nd hi h]
      constructor
      · intro hall j nj hj hjn
        rw [hget j] at hjn
        by_cases hjl : j < val.length
        · rw [if_pos hjl] at hjn
          exact hall j nj hj hjn
        · rw [if_neg hjl] at hjn
          cases hx : w.get? (j - val.length) with
          | none => rw [hx] at hjn; exact absurd hjn (by simp)
          | some x =>
            rw [hx] at hjn
            simp only [Option.map_some', Option.some.injEq] at hjn
            subst hjn
            by_cases he : j = val.length
            · simp only [he, if_true]; omega
            · simp only [he, if_false]; omega
      · intro hall j nj hj hjn
        have hjl := get?_lt val j nj hjn
        exact hall j nj hj (by rw [hget j, if_pos hjl]; exact hjn)
    · rw [if_neg hlt] at h
      cases hx : w.get? (i - val.length) with
      | none => rw [hx] at h; exact absurd h (by simp)
      | some x =>
        rw [hx] at h
        simp only [Option.map_some', Option.some.injEq] at h
        subst h
        show x.is_leaf = true ↔ _
        rw [hw.leaf (i - val.length) x hx]
        constructor
        · intro hall j nj hj hjn
          rw [hget j] at hjn
          by_cases hjl : j < val.length
          · rw [if_pos hjl] at hjn
            have := hv.below j nj hj hjn
            omega
          · rw [if_neg hjl] at hjn
            cases hy : w.get? (j - val.length) with
            | none => rw [hy] at hjn; exact absurd hjn (by simp)
            | some y =>
              rw [hy] at hjn
              simp only [Option.map_some', Option.some.injEq] at hjn
              subst hjn
              by_cases he : j = val.length
              · simp only [he, if_true]; omega
              · simp only [he, if_false]
                have := hall (j - val.length) y (by omega) hy
                omega
        · intro hall j nj hj hjn
          have hjl := get?_lt w j nj hjn
          have := hall (j + val.length) { nj with parent := nj.parent + val.length }
            (by omega) (by
              rw [hget, if_neg (by omega), Nat.add_sub_cancel, hjn]
              simp only [Option.map_some', Option.some.injEq]
              rw [if_neg (by omega)])
          simp only at this
          omega
  · intro _
    refine ⟨val.length, { w0 with parent := 0 }, hn, ?_, rfl⟩
    rw [hget, if_neg (by omega), Nat.sub_self, hw0]
    simp

/-- The loop of `make_inode` over subtrees in pre-order. -/
theorem make_inode_loop (v : List (tree_t α)) (hv : ∀ w ∈ v, PreOrder w) (val : tree_t α)
    (hval : Attached val) (hne : v ≠ [] ∨ 2 ≤ val.length) :
    ∃ T, v.foldlM newick.make_inode.attach val = .ok T ∧ Attached T ∧ 2 ≤ T.length := by
  induction v generalizing val with
  | nil =>
    rcases hne with h | h
    · exact absurd rfl h
    · exact ⟨val, rfl, hval, h⟩
  | cons w v ih =>
    obtain ⟨T, hT, hA, hl⟩ := attach_inv val w hval (hv w (List.mem_cons_self _ _))
    obtain ⟨T2, hT2, hA2, hl2⟩ := ih (fun x hx => hv x (List.mem_cons_of_mem _ hx)) T hA
      (Or.inr hl)
    refine ⟨T2, ?_, hA2, hl2⟩
    rw [List.foldlM_cons, hT]
    exact hT2

/-- The tree built by `make_inode` from subtrees in pre-order is in pre-order. -/
theorem make_inode_preorder (w : tree_t α) (ws : List (tree_t α)) (lab : Str) (len : α)
    (hw : PreOrder w) (hws : ∀ x ∈ ws, PreOrder x) :
    ∃ T, newick.make_inode (w :: ws) lab len = .ok T ∧ PreOrder T := by
  have h0 : Attached ([⟨lab, len, false, 0, []⟩] : tree_t α) := by
    refine ⟨⟨_, rfl, rfl, rfl⟩, ?_, ?_, ?_⟩
    · intro i nd hi h
      have := get?_lt _ i nd h
      simp at this
      omega
    · intro i nd hi h
      have := get?_lt _ i nd h
      simp at this
      omega
    · intro h
      simp at h
  obtain ⟨T, hT, hA, hl⟩ := make_inode_loop (w :: ws)
    (fun x hx => by
      rcases List.mem_cons.mp hx with h | h
      · rw [h]; exact hw
      · exact hws x h) _ h0 (Or.inl (List.cons_ne_nil _ _))
  refine ⟨T, hT, ?_, hA.below, ?_⟩
  · obtain ⟨r, hr, hrp, _⟩ := hA.root
    exact ⟨r, hr, hrp⟩
  · intro i nd h
    by_cases hi : 1 ≤ i
    · exact hA.leaf i nd hi h
    · have hi0 : i = 0 := by omega
      subst hi0
      obtain ⟨r, hr, hrp, hrl⟩ := hA.root
      rw [hr] at h
      cases h
      obtain ⟨j, nj, hj, hjn, hjp⟩ := hA.child hl
      constructor
      · intro hc
        rw [hrl] at hc
        exact absurd hc (by decide)
      · intro hall
        exact absurd hjp (hall j nj hj hjn)

/-- The tree built by `make_leaf` is in pre-order. -/
theorem make_leaf_preorder (lab : Str) (len : α) : PreOrder (newick.make_leaf lab len) := by
  refine ⟨⟨_, rfl, rfl⟩, ?_, ?_⟩
  · intro i nd hi h
    have := get?_lt _ i nd h
    simp [newick.make_leaf] at this
    omega
  · intro i nd h
    have hi := get?_lt _ i nd h
    simp only [newick.make_leaf, List.length_singleton] at hi
    have hi0 : i = 0 := by omega
    subst hi0
    cases h
    constructor
    · intro _ j nj hj hjn
      have := get?_lt _ j nj hjn
      simp [newick.make_leaf] at this
      omega
    · intro _
      rfl

/-- The elements collected by the tail of a list have what every result of the element
parser has. -/
theorem listTail_all {β : Type} (P : β → Prop) (p : Str → Except Failure (Option (β × Str)))
    (hp : ∀ s w r, p s = .ok (some (w, r)) → P w) :
    ∀ k s ws r, newick.listTail p k s = .ok (ws, r) → ∀ w ∈ ws, P w := by
  intro k
  induction k with
  | zero =>
    intro s ws r h
    simp [newick.listTail] at h
  | succ k ih =>
    intro s ws r h
    unfold newick.listTail at h
    split at h
    · rename_i s1
      cases hp1 : p s1 with
      | error e => rw [hp1] at h; simp at h
      | ok res =>
        rw [hp1] at h
        cases res with
        | none =>
          simp only [Except.ok.injEq, Prod.mk.injEq] at h
          intro w hw
          rw [← h.1] at hw
          exact absurd hw (List.not_mem_nil _)
        | some wr =>
          obtain ⟨w1, s2⟩ := wr
          simp only at h
          cases hl : newick.listTail p k s2 with
          | error e => rw [hl] at h; simp at h
          | ok res2 =>
            obtain ⟨ws2, s3⟩ := res2
            rw [hl] at h
            simp only [Except.ok.injEq, Prod.mk.injEq] at h
            intro w hw
            rw [← h.1] at hw
            rcases List.mem_cons.mp hw with e | e
            · rw [e]; exact hp s1 w1 s2 hp1
            · exact ih s2 ws2 s3 hl w e
    · simp only [Except.ok.injEq, Prod.mk.injEq] at h
      intro w hw
      rw [← h.1] at hw
      exact absurd hw (List.not_mem_nil _)

/-- Every tree that the rule `inode` returns is in pre-order when those of the parser of
the subtrees are. -/
theorem inode_def_preorder (float_ : Str → Option (α × Str))
    (node : Str → Except Failure (Option (tree_t α × Str)))
    (ih : ∀ s t r, node s = .ok (some (t, r)) → PreOrder t) (s : Str) (t : tree_t α) (r : Str)
    (h : newick.inode_def float_ node s = .ok (some (t, r))) : PreOrder t := by
  unfold newick.inode_def at h
  split at h
  · rename_i s1
    cases h1 : node s1 with
    | error e => rw [h1] at h; simp at h
    | ok res =>
      rw [h1] at h
      cases res with
      | none => simp at h
      | some wr =>
        obtain ⟨w, s2⟩ := wr
        simp only at h
        cases h2 : newick.listTail node (s2.length + 1) s2 with
        | error e => rw [h2] at h; simp at h
        | ok res2 =>
          obtain ⟨ws, s3⟩ := res2
          rw [h2] at h
          simp only at h
          split at h
          · obtain ⟨T, hT, hP⟩ := make_inode_preorder w ws
              (newick.ilabel _).1 (newick.length float_ (newick.ilabel _).2).1
              (ih s1 w s2 h1)
              (listTail_all PreOrder _ ih _ _ _ _ h2)
            rw [hT] at h
            simp only [Except.ok.injEq, Option.some.injEq, Prod.mk.injEq] at h
            rw [← h.1]
            exact hP
          · simp at h
  · simp at h

/-- Every tree that the rule `node` returns is in pre-order. -/
theorem node_preorder (float_ : Str → Option (α × Str)) :
    ∀ fuel s t r, newick.node float_ fuel s = .ok (some (t, r)) → PreOrder t := by
  intro fuel
  induction fuel with
  | zero =>
    intro s t r h
    simp [newick.node] at h
  | succ fuel ih =>
    intro s t r h
    simp only [newick.node, newick.node_def] at h
    cases hl : newick.leaf_def float_ s with
    | some res =>
      rw [hl] at h
      simp only [Except.ok.injEq, Option.some.injEq] at h
      unfold newick.leaf_def at hl
      split at hl
      · simp only [Option.some.injEq] at hl
        rw [← hl] at h
        simp only [Prod.mk.injEq] at h
        rw [← h.1]
        exact make_leaf_preorder _ _
      · simp at hl
    | none =>
      rw [hl] at h
      exact inode_def_preorder float_ _ ih s t r h

/-- The rule `label` takes at least one symbol. -/
theorem label_rest (s lab r : Str) (h : newick.label s = some (lab, r)) :
    r.length < s.length := by
  unfold newick.label at h
  split at h
  · simp at h
  · rename_i hne
    simp only [Option.some.injEq, Prod.mk.injEq] at h
    have h1 := congrArg List.length (List.takeWhile_append_dropWhile isLabelChar s)
    rw [List.length_append] at h1
    have h2 : 0 < (s.takeWhile isLabelChar).length := List.length_pos.mpr hne
    rw [← h.2]
    omega

/-- The rule `ilabel` returns a rest of the input. -/
theorem ilabel_rest (s : Str) : (newick.ilabel s).2.length ≤ s.length := by
  unfold newick.ilabel
  cases h : newick.label s with
  | none => exact le_refl _
  | some r =>
    obtain ⟨lab, r⟩ := r
    exact le_of_lt (label_rest s lab r h)

/-- The rule `length` returns a rest of the input when `float_` does. -/
theorem length_rest (float_ : Str → Option (α × Str))
    (hfl : ∀ s v r, float_ s = some (v, r) → r.length ≤ s.length) (s : Str) :
    (newick.length float_ s).2.length ≤ s.length := by
  unfold newick.length
  split
  · rename_i s1
    cases h : float_ s1 with
    | none => exact le_refl _
    | some r =>
      obtain ⟨v, r⟩ := r
      have := hfl s1 v r h
      simp only [List.length_cons]
      omega
  · exact le_refl _

/-- The tail of a list returns when the element parser returns on shorter inputs and
takes a symbol. -/
theorem listTail_total {β : Type} (p : Str → Except Failure (Option (β × Str))) :
    ∀ k s, s.length < k →
      (∀ s1, s1.length < s.length → ∃ res, p s1 = .ok res ∧
        ∀ w r, res = some (w, r) → r.length < s1.length) →
      ∃ ws r, newick.listTail p k s = .ok (ws, r) ∧ r.length ≤ s.length := by
  intro k
  induction k with
  | zero =>
    intro s h
    omega
  | succ k ih =>
    intro s hk hp
    unfold newick.listTail
    split
    · rename_i s1
      simp only [List.length_cons] at hk hp
      obtain ⟨res, h1, hr⟩ := hp s1 (by omega)
      rw [h1]
      cases res with
      | none => exact ⟨_, _, rfl, le_refl _⟩
      | some wr =>
        obtain ⟨w, s2⟩ := wr
        have hs2 := hr w s2 rfl
        obtain ⟨ws, s3, h2, hl⟩ := ih s2 (by omega)
          (fun s4 h4 => hp s4 (by omega))
        simp only
        rw [h2]
        exact ⟨_, _, rfl, by simp only [List.length_cons]; omega⟩
    · exact ⟨_, _, rfl, le_refl _⟩

/-- The rule `inode` returns when the parser of the subtrees returns on shorter inputs,
takes a symbol and gives trees in pre-order. -/
theorem inode_def_total (float_ : Str → Option (α × Str))
    (hfl : ∀ s v r, float_ s = some (v, r) → r.length ≤ s.length)
    (node : Str → Except Failure (Option (tree_t α × Str)))
    (hpre : ∀ s t r, node s = .ok (some (t, r)) → PreOrder t) (s : Str)
    (ih : ∀ s1, s1.length < s.length → ∃ res, node s1 = .ok res ∧
      ∀ t r, res = some (t, r) → r.length < s1.length) :
    ∃ res, newick.inode_def float_ node s = .ok res ∧
      ∀ t r, res = some (t, r) → r.length < s.length := by
  unfold newick.inode_def
  split
  · rename_i s1
    simp only [List.length_cons] at ih
    obtain ⟨res, h1, hr⟩ := ih s1 (by omega)
    rw [h1]
    cases res with
    | none => exact ⟨_, rfl, fun t r h => absurd h (by simp)⟩
    | some wr =>
      obtain ⟨w, s2⟩ := wr
      have hs2 := hr w s2 rfl
      obtain ⟨ws, s3, h2, hl⟩ := listTail_total node (s2.length + 1) s2
        (by omega) (fun s4 h4 => ih s4 (by omega))
      simp only
      rw [h2]
      simp only
      split
      · rename_i s4
        obtain ⟨T, hT, _⟩ := make_inode_preorder w ws
          (newick.ilabel s4).1 (newick.length float_ (newick.ilabel s4).2).1
          (hpre s1 w s2 h1)
          (listTail_all PreOrder _ hpre _ _ _ _ h2)
        rw [hT]
        refine ⟨_, rfl, ?_⟩
        intro t r h
        simp only [Option.some.injEq, Prod.mk.injEq] at h
        have h3 := ilabel_rest s4
        have h4 := length_rest float_ hfl (newick.ilabel s4).2
        rw [← h.2]
        simp only [List.length_cons] at hl ⊢
        omega
      · exact ⟨_, rfl, fun t r h => absurd h (by simp)⟩
  · exact ⟨_, rfl, fun t r h => absurd h (by simp)⟩

/-- The rule `node` returns on every input shorter than the fuel, and a tree that it
returns takes at least one symbol. -/
theorem node_total (float_ : Str → Option (α × Str))
    (hfl : ∀ s v r, float_ s = some (v, r) → r.length ≤ s.length) :
    ∀ fuel s, s.length < fuel → ∃ res, newick.node float_ fuel s = .ok res ∧
      ∀ t r, res = some (t, r) → r.length < s.length := by
  intro fuel
  induction fuel with
  | zero =>
    intro s h
    omega
  | succ fuel ih =>
    intro s hs
    simp only [newick.node, newick.node_def]
    cases hl : newick.leaf_def float_ s with
    | some res =>
      refine ⟨_, rfl, ?_⟩
      intro t r h
      simp only [Option.some.injEq] at h
      rw [h] at hl
      unfold newick.leaf_def at hl
      split at hl
      · rename_i lab s1 hlab
        simp only [Option.some.injEq, Prod.mk.injEq] at hl
        have h1 := label_rest s lab s1 hlab
        have h2 := length_rest float_ hfl s1
        rw [← hl.2]
        omega
      · simp at hl
    | none =>
      exact inode_def_total float_ hfl _ (node_preorder float_ fuel) s
        (fun s1 h1 => ih s1 (by omega))

/-- The rule `tree` returns when the rule `node` does. -/
theorem tree_total (float_ : Str → Option (α × Str)) (fuel : Nat) (s : Str)
    (res : Option (tree_t α × Str)) (h : newick.node float_ fuel s = .ok res) :
    ∃ res2, newick.tree float_ fuel s = .ok res2 := by
  unfold newick.tree
  rw [h]
  cases res with
  | none => exact ⟨_, rfl⟩
  | some tr =>
    obtain ⟨t, r⟩ := tr
    simp only
    split <;> exact ⟨_, rfl⟩

/-- The model of `parse_newick` never runs out of fuel and never leaves the node list:
for every input it returns `EXIT_SUCCESS` or `EXIT_FAILURE`. -/
theorem parse_newick_total (float_ : Str → Option (α × Str))
    (hfl : ∀ s v r, float_ s = some (v, r) → r.length ≤ s.length) (content : Str) :
    ∃ res, parse_newick float_ content = .ok res := by
  unfold parse_newick
  simp only
  obtain ⟨res, h, _⟩ := node_total float_ hfl _ _ (Nat.lt_succ_self
    (((content.filter (fun c => decide (c ≠ '\t'))).filter
      (fun c => decide (c ≠ '\n'))).filter (fun c => decide (c ≠ ' '))).length)
  obtain ⟨res2, h2⟩ := tree_total float_ _ _ res h
  rw [h2]
  cases res2 with
  | none => exact ⟨_, rfl⟩
  | some tr =>
    obtain ⟨t, r⟩ := tr
    simp only
    split <;> exact ⟨_, rfl⟩

/-- The test of `parse_newick`: seven nodes, the root first, `Ancestor` at index 2 with
its three leaves after it. -/
theorem parse_newick_test_tree :
    ∃ t : tree_t ℚ, parse_newick decimalFloat newickTest = .ok (0, some t) ∧
      t.map (fun nd => nd.parent) = [0, 0, 0, 2, 2, 2, 0] ∧
      t.map (fun nd => nd.is_leaf) = [false, true, false, true, true, true, true] ∧
      t.map (fun nd => nd.label) = ["".toList, "B_b".toList, "Ancestor".toList, "A-a".toList,
        "C/c".toList, "E.e".toList, "D%".toList] :=
  ⟨_, rfl, rfl, rfl, rfl⟩

/-- Every tree that the rule `tree` returns is in pre-order. -/
theorem tree_preorder (float_ : Str → Option (α × Str)) (fuel : Nat) (s : Str) (t : tree_t α)
    (r : Str) (h : newick.tree float_ fuel s = .ok (some (t, r))) : PreOrder t := by
  unfold newick.tree at h
  cases hn : newick.node float_ fuel s with
  | error e => rw [hn] at h; simp at h
  | ok res =>
    rw [hn] at h
    cases res with
    | none => simp at h
    | some tr =>
      obtain ⟨t1, r1⟩ := tr
      have hp := node_preorder float_ _ _ t1 r1 hn
      simp only at h
      split at h <;>
        (simp only [Except.ok.injEq, Option.some.injEq, Prod.mk.injEq] at h
         rw [← h.1]
         exact hp)

/-- A label followed by a symbol that is not of a label: what `+char_` takes. -/
theorem takeWhile_label (lab s : Str) (c : Char) (hall : ∀ x ∈ lab, isLabelChar x = true)
    (hc : isLabelChar c = false) : (lab ++ c :: s).takeWhile isLabelChar = lab := by
  induction lab with
  | nil => simp [List.takeWhile_cons, hc]
  | cons a l ih =>
    have ha := hall a (List.mem_cons_self _ _)
    rw [List.cons_append, List.takeWhile_cons, ha]
    simp only [if_true]
    rw [ih (fun x hx => hall x (List.mem_cons_of_mem _ hx))]

/-- A label followed by a symbol that is not of a label: what `+char_` leaves. -/
theorem dropWhile_label (lab s : Str) (c : Char) (hall : ∀ x ∈ lab, isLabelChar x = true)
    (hc : isLabelChar c = false) : (lab ++ c :: s).dropWhile isLabelChar = c :: s := by
  induction lab with
  | nil => simp [List.dropWhile_cons, hc]
  | cons a l ih =>
    have ha := hall a (List.mem_cons_self _ _)
    rw [List.cons_append, List.dropWhile_cons, ha]
    simp only [if_true]
    exact ih (fun x hx => hall x (List.mem_cons_of_mem _ hx))

/-- Claim C15: the node list of every string that `parse_newick` accepts is in pre-order:
node 0 is the root and its own parent, the parent of every other node has a smaller index,
and a node is a leaf exactly when no node of the list has it as parent, that is, when it
was written without a list of children (a list in parentheses holds at least one node);
the rule `length` gives 0 when the rest of the input does not start with a colon; and the
string of the test gives seven nodes with the parents 0, 0, 0, 2, 2, 2, 0. -/
theorem parse_newick_preorder (float_ : Str → Option (α × Str)) (content : Str)
    (t : tree_t α) (h : parse_newick float_ content = .ok (0, some t)) :
    PreOrder t ∧
    (∀ s : Str, s.head? ≠ some ':' → newick.length float_ s = (0, s)) ∧
    (∀ (lab s : Str) (c : Char), lab ≠ [] → (∀ x ∈ lab, isLabelChar x = true) →
      isLabelChar c = false → c ≠ ':' →
      newick.leaf_def float_ (lab ++ c :: s) = some ([⟨lab, 0, true, 0, []⟩], c :: s)) ∧
    ∃ t7 : tree_t ℚ, parse_newick decimalFloat newickTest = .ok (0, some t7) ∧
      t7.length = 7 ∧ t7.map (fun nd => nd.parent) = [0, 0, 0, 2, 2, 2, 0] := by
  refine ⟨?_, ?_, ?_, ⟨_, rfl, rfl, rfl⟩⟩
  · unfold parse_newick at h
    simp only at h
    cases hn : newick.tree float_ _ _ with
    | error e => rw [hn] at h; simp at h
    | ok res =>
      rw [hn] at h
      cases res with
      | none => simp at h
      | some tr =>
        obtain ⟨t1, r⟩ := tr
        have hp := tree_preorder float_ _ _ t1 r hn
        simp only at h
        split at h
        · simp only [Except.ok.injEq, Prod.mk.injEq, Option.some.injEq, true_and] at h
          rw [← h]; exact hp
        · simp at h
  · intro s hs
    unfold newick.length
    split
    · simp at hs
    · rfl
  · intro lab s c hne hall hc hcolon
    have h1 := takeWhile_label lab s c hall hc
    have h2 := dropWhile_label lab s c hall hc
    unfold newick.leaf_def newick.label
    rw [h1, h2, if_neg hne]
    simp only
    have h3 : newick.length float_ (c :: s) = (0, c :: s) := by
      unfold newick.length
      split
      · rename_i heq
        simp only [List.cons.injEq] at heq
        exact absurd heq.1 hcolon
      · rfl
    rw [h3]
    rfl

/-- The string `(A,B:2)` is accepted: three nodes in pre-order, the root and the leaf `A`,
written without a length, with length 0. -/
theorem parse_newick_preorder_witness :
    parse_newick decimalFloat ("(A,B:2)".toList) =
      .ok (0, some [⟨[], 0, false, 0, []⟩, ⟨['A'], 0, true, 0, []⟩, ⟨['B'], 2, true, 0, []⟩]) ∧
    PreOrder ([⟨[], 0, false, 0, []⟩, ⟨['A'], 0, true, 0, []⟩, ⟨['B'], 2, true, 0, []⟩] :
      tree_t ℚ) :=
  ⟨rfl, (parse_newick_preorder decimalFloat ("(A,B:2)".toList) _ rfl).1⟩

/-! ## Claim C13: the weight is the score of the returned alignment -/

/-- What an interior cell of `mg94_marginal` holds, by its tag: the tag is 0, 1 or 2 and
`D(i,j)` is the candidate `d`, `P(i,j)` or `Q(i,j)`. -/
theorem mg94_D_by_tag (N : Num α) (p : Nat → Nat → Nat → α) (seq_a seq_b : Str)
    (i j : Nat) (hi : 1 ≤ i) (him : i ≤ seq_a.length) (hj : 1 ≤ j) (hjn : j ≤ seq_b.length) :
    ((mg94_forward N p seq_a seq_b).Bd i j = 0 →
      (mg94_forward N p seq_a seq_b).D i j
        = mg94_d N p seq_a seq_b (mg94_forward N p seq_a seq_b) i j) ∧
    ((mg94_forward N p seq_a seq_b).Bd i j = 1 →
      (mg94_forward N p seq_a seq_b).D i j = (mg94_forward N p seq_a seq_b).P i j) ∧
    ((mg94_forward N p seq_a seq_b).Bd i j ≠ 0 → (mg94_forward N p seq_a seq_b).Bd i j ≠ 1 →
      (mg94_forward N p seq_a seq_b).Bd i j = 2 ∧
      (mg94_forward N p seq_a seq_b).D i j = (mg94_forward N p seq_a seq_b).Q i j) := by
  obtain ⟨-, -, -, -, hBd, hD⟩ := mg94_forward_eqs N p seq_a seq_b i j hi him hj hjn
  rw [hBd, hD]
  split_ifs <;> simp

/-- Row 0 of `mg94_marginal`: `D(0,j)` is `P(0,j)`. -/
theorem mg94_row0_D_eq_P (N : Num α) (p : Nat → Nat → Nat → α) (seq_a seq_b : Str) (j : Nat) :
    1 ≤ j → j ≤ seq_b.length →
    (mg94_forward N p seq_a seq_b).D 0 j = (mg94_forward N p seq_a seq_b).P 0 j := by
  have hB := mg94_forward_border_spec N p seq_a seq_b
  induction j with
  | zero => intro h; omega
  | succ j ih =>
    intro _ hjn
    by_cases h0 : j = 0
    · subst h0
      rw [hB.d01, hB.p01]
    · rw [hB.drow (j + 1) (by omega) hjn, hB.prow (j + 1) (by omega) hjn]
      simp only [Nat.add_sub_cancel]
      rw [ih (by omega) (by omega)]

/-- Column 0 of `mg94_marginal`: `D(i,0)` is `Q(i,0)`. -/
theorem mg94_col0_D_eq_Q (N : Num α) (p : Nat → Nat → Nat → α) (seq_a seq_b : Str) (i : Nat) :
    1 ≤ i → i ≤ seq_a.length →
    (mg94_forward N p seq_a seq_b).D i 0 = (mg94_forward N p seq_a seq_b).Q i 0 := by
  have hB := mg94_forward_border_spec N p seq_a seq_b
  induction i with
  | zero => intro h; omega
  | succ i ih =>
    intro _ him
    by_cases h0 : i = 0
    · subst h0
      rw [hB.d10, hB.q10]
    · rw [hB.dcol (i + 1) (by omega) him, hB.qcol (i + 1) (by omega) him]
      simp only [Nat.add_sub_cancel]
      rw [ih (by omega) (by omega)]

/-- The cost `P(i,j)` of `mg94_marginal` on the whole grid, by the tag `Bp(i,j)`: the
extension of `P(i,j-1)` under the tag 1, the candidate formed from `D(i,j-1)` and its tag
otherwise. -/
theorem mg94_P_step (N : Num α) (p : Nat → Nat → Nat → α) (seq_a seq_b : Str)
    (i j : Nat) (him : i ≤ seq_a.length) (hj : 1 ≤ j) (hjn : j ≤ seq_b.length) :
    ((mg94_forward N p seq_a seq_b).Bp i j = 1 →
      (mg94_forward N p seq_a seq_b).P i j
        = (mg94_forward N p seq_a seq_b).P i (j - 1) - insertion_ext N
            - nuc_freqs N (nt4_table (charAt seq_b (j - 1)))) ∧
    ((mg94_forward N p seq_a seq_b).Bp i j ≠ 1 →
      (mg94_forward N p seq_a seq_b).P i j
        = mg94_p2 N seq_b (mg94_forward N p seq_a seq_b) i j) := by
  have hB := mg94_forward_border_spec N p seq_a seq_b
  by_cases hi : i = 0
  · subst hi
    by_cases h1 : j = 1
    · subst h1
      constructor
      · intro h
        rw [hB.bp01] at h
        exact absurd h (by decide)
      · intro _
        rw [hB.p01]
        unfold mg94_p2
        simp only [Nat.sub_self, hB.bd00, if_true, hB.d00]
        ring
    · constructor
      · intro _
        exact hB.prow j (by omega) hjn
      · intro h
        exact absurd (hB.bprow j (by omega) hjn) h
  · obtain ⟨hP, -, hBp, -, -, -⟩ := mg94_forward_eqs N p seq_a seq_b i j (by omega) him hj hjn
    constructor
    · intro h
      rw [hBp] at h
      by_cases hlt : mg94_p1 N seq_b (mg94_forward N p seq_a seq_b) i j
          < mg94_p2 N seq_b (mg94_forward N p seq_a seq_b) i j
      · rw [hP, min_eq_left hlt.le]
        rfl
      · rw [if_neg hlt] at h
        exact absurd h (by decide)
    · intro h
      rw [hBp] at h
      by_cases hlt : mg94_p1 N seq_b (mg94_forward N p seq_a seq_b) i j
          < mg94_p2 N seq_b (mg94_forward N p seq_a seq_b) i j
      · rw [if_pos hlt] at h
        exact absurd rfl h
      · rw [hP, min_eq_right (not_lt.mp hlt)]

/-- The cost `Q(i,j)` of `mg94_marginal` on the whole grid, by the tag `Bq(i,j)`. -/
theorem mg94_Q_step (N : Num α) (p : Nat → Nat → Nat → α) (seq_a seq_b : Str)
    (i j : Nat) (hi : 1 ≤ i) (him : i ≤ seq_a.length) (hjn : j ≤ seq_b.length) :
    ((mg94_forward N p seq_a seq_b).Bq i j = 1 →
      (mg94_forward N p seq_a seq_b).Q i j
        = (mg94_forward N p seq_a seq_b).Q (i - 1) j - deletion_ext N) ∧
    ((mg94_forward N p seq_a seq_b).Bq i j ≠ 1 →
      (mg94_forward N p seq_a seq_b).Q i j
        = mg94_q2 N (mg94_forward N p seq_a seq_b) i j) := by
  have hB := mg94_forward_border_spec N p seq_a seq_b
  by_cases hj : j = 0
  · subst hj
    by_cases h1 : i = 1
    · subst h1
      constructor
      · intro h
        rw [hB.bq10] at h
        exact absurd h (by decide)
      · intro _
        rw [hB.q10]
        unfold mg94_q2
        simp only [Nat.sub_self, hB.bd00, if_true, hB.d00]
        ring
    · constructor
      · intro _
        exact hB.qcol i (by omega) him
      · intro h
        exact absurd (hB.bqcol i (by omega) him) h
  · obtain ⟨-, hQ, -, hBq, -, -⟩ := mg94_forward_eqs N p seq_a seq_b i j hi him (by omega) hjn
    constructor
    · intro h
      rw [hBq] at h
      by_cases hlt : mg94_q1 N (mg94_forward N p seq_a seq_b) i j
          < mg94_q2 N (mg94_forward N p seq_a seq_b) i j
      · rw [hQ, min_eq_left hlt.le]
        rfl
      · rw [if_neg hlt] at h
        exact absurd h (by decide)
    · intro h
      rw [hBq] at h
      by_cases hlt : mg94_q1 N (mg94_forward N p seq_a seq_b) i j
          < mg94_q2 N (mg94_forward N p seq_a seq_b) i j
      · rw [if_pos hlt] at h
        exact absurd rfl h
      · rw [hQ, min_eq_right (not_lt.mp hlt)]

/-- The Score Evaluator over a run of insertion columns that extend an insertion. -/
theorem score_ins_run (N : Num α) (p : Nat → Nat → Nat → α) (seq_a seq_b : Str)
    (Pr : Nat → α) (i js : Nat) (k : Nat) :
    (∀ j2, js < j2 → j2 ≤ js + k →
      Pr j2 = Pr (j2 - 1) - insertion_ext N - nuc_freqs N (nt4_table (charAt seq_b (j2 - 1)))) →
    ((List.replicate k '-').zip (slice seq_b js (js + k))).foldl
      (alignment_score.column N p seq_a) (Pr js, 1, i) = (Pr (js + k), 1, i) := by
  induction k with
  | zero =>
    intro _
    simp [slice_empty]
  | succ k ih =>
    intro h
    have e2 : slice seq_b js (js + (k + 1))
        = slice seq_b js (js + k) ++ [charAt seq_b (js + k)] := by
      have := slice_succ seq_b js (js + k) (by omega)
      rw [← this]
      rfl
    rw [e2, List.replicate_succ', List.zip_append (by simp [slice]), List.foldl_append,
      ih (fun j2 h1 h2 => h j2 h1 (by omega))]
    simp only [List.zip_cons_cons, List.zip_nil_right, List.foldl_cons, List.foldl_nil]
    unfold alignment_score.column
    simp only [if_true]
    have := h (js + (k + 1)) (by omega) (le_refl _)
    have e : js + (k + 1) - 1 = js + k := by omega
    rw [e] at this
    rw [this]
    simp

/-- The Score Evaluator over a run of deletion columns that extend a deletion. -/
theorem score_del_run (N : Num α) (p : Nat → Nat → Nat → α) (seq_a : Str) (ha : '-' ∉ seq_a)
    (Qc : Nat → α) (i0 is : Nat) (k : Nat) :
    (∀ i2, is < i2 → i2 ≤ is + k → Qc i2 = Qc (i2 - 1) - deletion_ext N) →
    ((slice seq_a is (is + k)).zip (List.replicate k '-')).foldl
      (alignment_score.column N p seq_a) (Qc is, 2, i0) = (Qc (is + k), 2, i0 + k) := by
  induction k with
  | zero =>
    intro _
    simp [slice_empty]
  | succ k ih =>
    intro h
    have e2 : slice seq_a is (is + (k + 1))
        = slice seq_a is (is + k) ++ [charAt seq_a (is + k)] := by
      have := slice_succ seq_a is (is + k) (by omega)
      rw [← this]
      rfl
    rw [e2, List.replicate_succ', List.zip_append (by simp [slice]), List.foldl_append,
      ih (fun i2 h1 h2 => h i2 h1 (by omega))]
    simp only [List.zip_cons_cons, List.zip_nil_right, List.foldl_cons, List.foldl_nil]
    unfold alignment_score.column
    have hne : charAt seq_a (is + k) ≠ '-' := charAt_ne_gap seq_a (is + k) ha
    simp only [hne, if_false, if_true]
    have := h (is + (k + 1)) (by omega) (le_refl _)
    have e : is + (k + 1) - 1 = is + k := by omega
    rw [e] at this
    rw [this]
    simp
    omega

/-- What every cell of the grid of `mg94_marginal` other than (0,0) holds, by its tag. -/
theorem mg94_D_grid (N : Num α) (p : Nat → Nat → Nat → α) (seq_a seq_b : Str)
    (i j : Nat) (him : i ≤ seq_a.length) (hjn : j ≤ seq_b.length) (h00 : ¬ (i = 0 ∧ j = 0)) :
    ((mg94_forward N p seq_a seq_b).Bd i j = 0 →
      (mg94_forward N p seq_a seq_b).D i j
        = mg94_d N p seq_a seq_b (mg94_forward N p seq_a seq_b) i j) ∧
    ((mg94_forward N p seq_a seq_b).Bd i j = 1 →
      (mg94_forward N p seq_a seq_b).D i j = (mg94_forward N p seq_a seq_b).P i j) ∧
    ((mg94_forward N p seq_a seq_b).Bd i j ≠ 0 → (mg94_forward N p seq_a seq_b).Bd i j ≠ 1 →
      (mg94_forward N p seq_a seq_b).Bd i j = 2 ∧
      (mg94_forward N p seq_a seq_b).D i j = (mg94_forward N p seq_a seq_b).Q i j) := by
  have hB := mg94_forward_border_spec N p seq_a seq_b
  by_cases hi : i = 0
  · subst hi
    have hbd := hB.bdrow j (by omega) hjn
    refine ⟨fun h => ?_, fun _ => mg94_row0_D_eq_P N p seq_a seq_b j (by omega) hjn,
      fun _ h => absurd hbd h⟩
    rw [hbd] at h
    exact absurd h (by decide)
  by_cases hj : j = 0
  · subst hj
    have hbd := hB.bdcol i (by omega) him
    refine ⟨fun h => ?_, fun h => ?_,
      fun _ _ => ⟨hbd, mg94_col0_D_eq_Q N p seq_a seq_b i (by omega) him⟩⟩
    · rw [hbd] at h
      exact absurd h (by decide)
    · rw [hbd] at h
      exact absurd h (by decide)
  exact mg94_D_by_tag N p seq_a seq_b i j (by omega) him (by omega) hjn

/-- On the matrices of `mg94_marginal` the walk of `backtracking` from cell (i,j) writes
two rows of equal length that spell the first `i` and `j` symbols of the sequences, and the
Score Evaluator, run over these columns from left to right, arrives at the cost `D(i,j)`,
the type `Bd(i,j)` of the last column and `i` symbols of the reference. -/
theorem mg94_btLoop_scored (N : Num α) (hN : N.Sound) (p : Nat → Nat → Nat → α)
    (seq_a seq_b : Str) (ha : '-' ∉ seq_a) (hb : '-' ∉ seq_b)
    (hsize : 1009 * ((seq_a.length : α) + (seq_b.length : α)) < fltMax)
    (F : Mats α) (hF : F = mg94_forward N p seq_a seq_b) (s : Nat) :
    ∀ (i j fuel : Nat) (x0 x1 : Str), i + j ≤ s → i ≤ seq_a.length → j ≤ seq_b.length →
      i + j ≤ fuel →
    ∃ y0 y1 : Str, btLoop F.Bd F.Bp F.Bq seq_a seq_b 1 fuel i j [x0, x1]
        = .ok [y0 ++ x0, y1 ++ x1] ∧
      y0.length = y1.length ∧ degap y0 = slice seq_a 0 i ∧ degap y1 = slice seq_b 0 j ∧
      (y0.zip y1).foldl (alignment_score.column N p seq_a) (0, 0, 0)
        = (F.D i j, F.Bd i j, i) := by
  have hT : TagsOK F.Bd F.Bp F.Bq seq_a.length seq_b.length := by
    rw [hF]; exact mg94_tags_ok N hN p seq_a seq_b hsize
  have hB : Mg94Border N seq_b seq_a.length seq_b.length F := by
    rw [hF]; exact mg94_forward_border_spec N p seq_a seq_b
  have hD : ∀ i j, i ≤ seq_a.length → j ≤ seq_b.length → ¬ (i = 0 ∧ j = 0) →
      (F.Bd i j = 0 → F.D i j = mg94_d N p seq_a seq_b F i j) ∧
      (F.Bd i j = 1 → F.D i j = F.P i j) ∧
      (F.Bd i j ≠ 0 → F.Bd i j ≠ 1 → F.Bd i j = 2 ∧ F.D i j = F.Q i j) := by
    rw [hF]; exact mg94_D_grid N p seq_a seq_b
  have hP : ∀ i j, i ≤ seq_a.length → 1 ≤ j → j ≤ seq_b.length →
      (F.Bp i j = 1 → F.P i j = F.P i (j - 1) - insertion_ext N
            - nuc_freqs N (nt4_table (charAt seq_b (j - 1)))) ∧
      (F.Bp i j ≠ 1 → F.P i j = mg94_p2 N seq_b F i j) := by
    rw [hF]; exact mg94_P_step N p seq_a seq_b
  have hQ : ∀ i j, 1 ≤ i → i ≤ seq_a.length → j ≤ seq_b.length →
      (F.Bq i j = 1 → F.Q i j = F.Q (i - 1) j - deletion_ext N) ∧
      (F.Bq i j ≠ 1 → F.Q i j = mg94_q2 N F i j) := by
    rw [hF]; exact mg94_Q_step N p seq_a seq_b
  clear hF
  induction s with
  | zero =>
    intro i j fuel x0 x1 hs _ _ _
    have hi : i = 0 := by omega
    have hj : j = 0 := by omega
    subst hi hj
    refine ⟨[], [], ?_, rfl, by simp [degap, slice_empty], by simp [degap, slice_empty], ?_⟩
    · cases fuel <;> simp [btLoop]
    · simp [hB.d00, hB.bd00]
  | succ s ih =>
    intro i j fuel x0 x1 hs him hjn hf
    by_cases h00 : i = 0 ∧ j = 0
    · obtain ⟨hi, hj⟩ := h00
      subst hi hj
      refine ⟨[], [], ?_, rfl, by simp [degap, slice_empty], by simp [degap, slice_empty], ?_⟩
      · cases fuel <;> simp [btLoop]
      · simp [hB.d00, hB.bd00]
    · obtain ⟨f, rfl⟩ : ∃ f, fuel = f + 1 := ⟨fuel - 1, by omega⟩
      unfold btLoop
      rw [if_neg h00]
      obtain ⟨hD0, hD1, hD2⟩ := hD i j him hjn h00
      rcases hT i j him hjn h00 with ⟨hd, hi1, hj1⟩ | ⟨hd, js, hjs1, hjs2, hjs3, hrun⟩ |
        ⟨hd0, hd1, is, his1, his2, his3, hrun⟩
      · -- match
        rw [if_pos hd, if_neg (by omega), emit_pair]
        simp only []
        obtain ⟨y0, y1, hrec, hlen, h0, h1, hsc⟩ := ih (i - 1) (j - 1) f
          (charAt seq_a (i - 1) :: x0) (charAt seq_b (j - 1) :: x1) (by omega) (by omega)
          (by omega) (by omega)
        refine ⟨y0 ++ [charAt seq_a (i - 1)], y1 ++ [charAt seq_b (j - 1)], ?_, ?_, ?_, ?_, ?_⟩
        · rw [hrec]; simp
        · simp [hlen]
        · rw [degap_append, h0, degap_of_no_gap [charAt seq_a (i - 1)]
            (by simpa using (charAt_ne_gap seq_a (i - 1) ha).symm)]
          have := slice_succ seq_a 0 (i - 1) (by omega)
          have e : i - 1 + 1 = i := by omega
          rw [e] at this
          exact this.symm
        · rw [degap_append, h1, degap_of_no_gap [charAt seq_b (j - 1)]
            (by simpa using (charAt_ne_gap seq_b (j - 1) hb).symm)]
          have := slice_succ seq_b 0 (j - 1) (by omega)
          have e : j - 1 + 1 = j := by omega
          rw [e] at this
          exact this.symm
        · rw [List.zip_append hlen, List.foldl_append, hsc]
          simp only [List.zip_cons_cons, List.zip_nil_right, List.foldl_cons, List.foldl_nil]
          unfold alignment_score.column
          have hna : charAt seq_a (i - 1) ≠ '-' := charAt_ne_gap seq_a (i - 1) ha
          have hnb : charAt seq_b (j - 1) ≠ '-' := charAt_ne_gap seq_b (j - 1) hb
          simp only [hna, hnb, if_false]
          have e : i - 1 + 1 = i := by omega
          rw [hD0 hd, hd, e]
          unfold mg94_d
          simp only []
      · -- insertion
        have hd0 : F.Bd i j ≠ 0 := by rw [hd]; decide
        rw [if_neg hd0, if_pos hd]
        have hchain := insRun_chain F.Bp seq_b i js hjs3 (j - js) (j + 1) x0 x1
          (fun j2 h1 h2 => hrun j2 h1 (by omega)) (by omega)
        have e : js + (j - js) = j := by omega
        rw [e] at hchain
        rw [hchain]
        simp only []
        rw [insSteps_eq, if_pos hjs1]
        simp only []
        obtain ⟨y0, y1, hrec, hlen, h0, h1, hsc⟩ := ih i (js - 1) f
          (List.replicate 1 '-' ++ (List.replicate (j - js) '-' ++ x0))
          (slice seq_b (js - 1) js ++ (slice seq_b js j ++ x1)) (by omega) him (by omega)
          (by omega)
        refine ⟨y0 ++ (List.replicate 1 '-' ++ List.replicate (j - js) '-'),
          y1 ++ (slice seq_b (js - 1) js ++ slice seq_b js j), ?_, ?_, ?_, ?_, ?_⟩
        · rw [hrec]; simp
        · simp only [List.length_append, List.length_replicate, hlen, slice, List.length_map,
            List.length_range']
          omega
        · rw [degap_append, degap_append, degap_gaps, degap_gaps, h0]; simp
        · rw [degap_append, h1, slice_append seq_b (js - 1) js j (by omega) hjs2,
            degap_of_no_gap _ (slice_no_gap seq_b _ _ hb),
            slice_append seq_b 0 (js - 1) j (by omega) (by omega)]
        · have e1 : slice seq_b (js - 1) js = [charAt seq_b (js - 1)] := by
            have := slice_succ seq_b (js - 1) (js - 1) (le_refl _)
            have e3 : js - 1 + 1 = js := by omega
            rw [e3, slice_empty] at this
            exact this
          rw [List.zip_append hlen, List.foldl_append, hsc, e1,
            List.zip_append (by simp), List.foldl_append]
          have hfirst : List.foldl (alignment_score.column N p seq_a)
              (F.D i (js - 1), F.Bd i (js - 1), i)
              ((List.replicate 1 '-').zip [charAt seq_b (js - 1)]) = (F.P i js, 1, i) := by
            simp only [List.replicate_one, List.zip_cons_cons, List.zip_nil_right,
              List.foldl_cons, List.foldl_nil]
            unfold alignment_score.column
            simp only [if_true]
            rw [(hP i js him hjs1 (by omega)).2 hjs3]
            unfold mg94_p2
            rfl
          rw [hfirst]
          have hrunP := score_ins_run N p seq_a seq_b (fun j2 => F.P i j2) i js (j - js)
            (fun j2 h1 h2 => (hP i j2 him (by omega) (by omega)).1 (hrun j2 h1 (by omega)))
          rw [e] at hrunP
          rw [hrunP, hD1 hd, hd]
      · -- deletion
        rw [if_neg hd0, if_neg hd1]
        have hchain := delRun_chain F.Bq seq_a j is his3 (i - is) (i + 1) x0 x1
          (fun i2 h1 h2 => hrun i2 h1 (by omega)) (by omega)
        have e : is + (i - is) = i := by omega
        rw [e] at hchain
        rw [hchain]
        simp only []
        rw [delSteps_eq, if_pos his1]
        simp only []
        obtain ⟨y0, y1, hrec, hlen, h0, h1, hsc⟩ := ih (is - 1) j f
          (slice seq_a (is - 1) is ++ (slice seq_a is i ++ x0))
          (List.replicate 1 '-' ++ (List.replicate (i - is) '-' ++ x1)) (by omega) (by omega)
          hjn (by omega)
        refine ⟨y0 ++ (slice seq_a (is - 1) is ++ slice seq_a is i),
          y1 ++ (List.replicate 1 '-' ++ List.replicate (i - is) '-'), ?_, ?_, ?_, ?_, ?_⟩
        · rw [hrec]; simp
        · simp only [List.length_append, List.length_replicate, hlen, slice, List.length_map,
            List.length_range']
          omega
        · rw [degap_append, h0, slice_append seq_a (is - 1) is i (by omega) his2,
            degap_of_no_gap _ (slice_no_gap seq_a _ _ ha),
            slice_append seq_a 0 (is - 1) i (by omega) (by omega)]
        · rw [degap_append, degap_append, degap_gaps, degap_gaps, h1]; simp
        · have e1 : slice seq_a (is - 1) is = [charAt seq_a (is - 1)] := by
            have := slice_succ seq_a (is - 1) (is - 1) (le_refl _)
            have e3 : is - 1 + 1 = is := by omega
            rw [e3, slice_empty] at this
            exact this
          rw [List.zip_append hlen, List.foldl_append, hsc, e1,
            List.zip_append (by simp), List.foldl_append]
          have hfirst : List.foldl (alignment_score.column N p seq_a)
              (F.D (is - 1) j, F.Bd (is - 1) j, is - 1)
              ([charAt seq_a (is - 1)].zip (List.replicate 1 '-')) = (F.Q is j, 2, is) := by
            simp only [List.replicate_one, List.zip_cons_cons, List.zip_nil_right,
              List.foldl_cons, List.foldl_nil]
            unfold alignment_score.column
            have hna : charAt seq_a (is - 1) ≠ '-' := charAt_ne_gap seq_a (is - 1) ha
            simp only [hna, if_false, if_true]
            rw [(hQ is j his1 (by omega) hjn).2 his3]
            unfold mg94_q2
            have e3 : is - 1 + 1 = is := by omega
            rw [e3]
          rw [hfirst]
          have hrunQ := score_del_run N p seq_a ha (fun i2 => F.Q i2 j) is is (i - is)
            (fun i2 h1 h2 => (hQ i2 j (by omega) (by omega) hjn).1 (hrun i2 h1 (by omega)))
          rw [e] at hrunQ
          rw [hrunQ, (hD2 hd0 hd1).2, (hD2 hd0 hd1).1]

/-- For a sound logarithm and sequences short enough for the sentinel, the weight that
`mg94_marginal` reports is the weight that the Score Evaluator gives to the alignment it
returns. -/
theorem mg94_marginal_scored (N : Num α) (hN : N.Sound) (p : Nat → Nat → Nat → α)
    (seq_a seq_b : Str) (aln : alignment_t α)
    (hm3 : seq_a.length % 3 = 0) (ha : '-' ∉ seq_a) (hb : '-' ∉ seq_b)
    (hsize : 1009 * ((seq_a.length : α) + (seq_b.length : α)) < fltMax)
    (h0 : aln.f.seq_data = []) :
    ∃ s0 s1 : Str,
      mg94_marginal N p [seq_a, seq_b] aln
        = .ok (0, { f := { seq_names := aln.f.seq_names, seq_data := [s0, s1] },
                    weight := (mg94_forward N p seq_a seq_b).D seq_a.length seq_b.length }) ∧
      s0.length = s1.length ∧ degap s0 = seq_a ∧ degap s1 = seq_b ∧
      alignment_score N p [s0, s1]
        = .ok ((mg94_forward N p seq_a seq_b).D seq_a.length seq_b.length) := by
  obtain ⟨y0, y1, hrun, hlen, h1, h2, hsc⟩ := mg94_btLoop_scored N hN p seq_a seq_b ha hb hsize
    (mg94_forward N p seq_a seq_b) rfl
    (seq_a.length + seq_b.length) seq_a.length seq_b.length (seq_a.length + seq_b.length)
    [] [] (le_refl _) (le_refl _) (le_refl _) (le_refl _)
  rw [slice_all] at h1 h2
  refine ⟨y0, y1, ?_, hlen, h1, h2, ?_⟩
  · unfold mg94_marginal
    simp only [hm3, ne_eq, not_true_eq_false, if_false]
    unfold backtracking
    simp only [h0, List.nil_append, List.singleton_append, hrun, List.append_nil]
  · unfold alignment_score
    simp only [h1, hsc]

/-- Claim C13: over the real numbers, for every non-empty reference `A` over {A,C,G,T} whose
length is divisible by 3 and every non-empty sequence `B` over {A,C,G,T,N} (lengths within
the range of `int`) and every tensor, the weight that `mg94_marginal` reports is the weight
that the Score Evaluator obtains from the returned alignment: every column is classified
as match/mismatch, insertion or deletion and is charged, from left to right, the
substitution, gap-opening or gap-extension cost of the model after a column of the
preceding type. -/
theorem mg94_marginal_rescored (p : Nat → Nat → Nat → ℝ) (A B : Str) (aln : alignment_t ℝ)
    (hA : A ≠ []) (hA3 : A.length % 3 = 0) (hAc : ∀ c ∈ A, c ∈ ['A', 'C', 'G', 'T'])
    (hB : B ≠ []) (hBc : ∀ c ∈ B, c ∈ ['A', 'C', 'G', 'T', 'N'])
    (hAlen : A.length < 2 ^ 31) (hBlen : B.length < 2 ^ 31) (h0 : aln.f.seq_data = []) :
    ∃ (s0 s1 : Str) (w : ℝ),
      mg94_marginal realNum p [A, B] aln
        = .ok (0, { f := { seq_names := aln.f.seq_names, seq_data := [s0, s1] },
                    weight := w }) ∧
      alignment_score realNum p [s0, s1] = .ok w := by
  have ha : '-' ∉ A := by
    intro h
    have := hAc _ h
    revert this
    decide
  have hb : '-' ∉ B := by
    intro h
    have := hBc _ h
    revert this
    decide
  have hsize : 1009 * ((A.length : ℝ) + (B.length : ℝ)) < fltMax := by
    have h1 : (A.length : ℝ) < 2 ^ 31 := by exact_mod_cast hAlen
    have h2 : (B.length : ℝ) < 2 ^ 31 := by exact_mod_cast hBlen
    have h3 : (2 : ℝ) ^ 127 ≤ fltMax := fltMax_large
    have h4 : (1009 : ℝ) * (2 ^ 31 + 2 ^ 31) < 2 ^ 127 := by norm_num
    linarith
  obtain ⟨s0, s1, hrun, -, -, -, hsc⟩ :=
    mg94_marginal_scored realNum realNum_sound p A B aln hA3 ha hb hsize h0
  exact ⟨s0, s1, _, hrun, hsc⟩

/-- Claim C13 at the pair CTCTGG, CCTGG of the test, with the uniform tensor. -/
theorem mg94_marginal_rescored_witness :
    ∃ (s0 s1 : Str) (w : ℝ),
      mg94_marginal realNum (fun _ _ _ => 1 / 4)
          [['C', 'T', 'C', 'T', 'G', 'G'], ['C', 'C', 'T', 'G', 'G']] ⟨⟨[], []⟩, 0⟩
        = .ok (0, { f := { seq_names := [], seq_data := [s0, s1] }, weight := w }) ∧
      alignment_score realNum (fun _ _ _ => 1 / 4) [s0, s1] = .ok w :=
  mg94_marginal_rescored (fun _ _ _ => 1 / 4) ['C', 'T', 'C', 'T', 'G', 'G']
    ['C', 'C', 'T', 'G', 'G'] ⟨⟨[], []⟩, 0⟩ (by decide) (by decide) (by decide) (by decide)
    (by decide) (by norm_num) (by norm_num) rfl

/-! ## Claim C12: the weight is attained, and need not be minimal -/

/-- Upper bounds on the gap parameters of `mg94_marginal` for a sound logarithm, and the
lower bound on the logarithm of 0.999. -/
theorem Num.Sound.gap_floor {N : Num α} (hN : N.Sound) :
    insertion N ≤ -(999 / 1000) ∧ deletion N ≤ -(999 / 1000) ∧
    insertion_ext N ≤ -(1 / 6) ∧ deletion_ext N ≤ -(1 / 6) ∧
    no_insertion_ext N ≤ -(5 / 6) ∧ no_deletion_ext N ≤ -(5 / 6) ∧
    -(1 / 999) ≤ no_insertion N ∧ -(1 / 999) ≤ no_deletion N := by
  refine ⟨?_, ?_, ?_, ?_, ?_, ?_, ?_, ?_⟩
  · exact le_trans (hN.log_upper _ (by norm_num)) (by norm_num)
  · exact le_trans (hN.log_upper _ (by norm_num)) (by norm_num)
  · exact le_trans (hN.log_upper _ (by norm_num)) (by norm_num)
  · exact le_trans (hN.log_upper _ (by norm_num)) (by norm_num)
  · exact le_trans (hN.log_upper _ (by norm_num)) (by norm_num)
  · exact le_trans (hN.log_upper _ (by norm_num)) (by norm_num)
  · exact le_trans (by norm_num) (hN.log_lower _ (by norm_num))
  · exact le_trans (by norm_num) (hN.log_lower _ (by norm_num))

/-- The tensor `nearTieTensor` holds probabilities. -/
theorem nearTieTensor_unit (c pos x : Nat) :
    0 < (nearTieTensor c pos x : α) ∧ (nearTieTensor c pos x : α) ≤ 1 := by
  unfold nearTieTensor vec4
  split_ifs <;> first | (split <;> norm_num) | norm_num

/-- The pair AAA, CG under `nearTieTensor`, over the real numbers: the cells (1,1) and (2,1)
of `mg94_marginal` hold match candidates, and the match into (2,1), after the deletion of
the first symbol, is cheaper than the deletion after the match of (1,1) by less than the
two logarithms of 0.999 that a match after a match is charged. -/
theorem mg94_nearTie_cells :
    (mg94_forward realNum nearTieTensor ['A', 'A', 'A'] ['C', 'G']).Bd 1 1 = 0 ∧
    (mg94_forward realNum nearTieTensor ['A', 'A', 'A'] ['C', 'G']).D 1 1
      = 0 - no_insertion realNum - no_deletion realNum - Real.log (1 / 2) ∧
    (mg94_forward realNum nearTieTensor ['A', 'A', 'A'] ['C', 'G']).Bd 2 1 = 0 ∧
    (mg94_forward realNum nearTieTensor ['A', 'A', 'A'] ['C', 'G']).D 2 1
      = -no_insertion realNum - deletion realNum - no_deletion_ext realNum
          - Real.log (999 / 2000) := by
  set F := mg94_forward realNum nearTieTensor ['A', 'A', 'A'] ['C', 'G'] with hFdef
  have hB : Mg94Border realNum ['C', 'G'] 3 2 F :=
    mg94_forward_border_spec realNum nearTieTensor ['A', 'A', 'A'] ['C', 'G']
  obtain ⟨⟨i1, i2⟩, ⟨d1, d2⟩, ⟨ie1, ie2⟩, ⟨de1, de2⟩, ⟨ni1, ni2⟩, ⟨nd1, nd2⟩, ⟨nie1, nie2⟩,
    ⟨nde1, nde2⟩, hnf⟩ := (realNum_sound).gap_bounds
  obtain ⟨gi, gd, gie, gde, gnie, gnde, gni, gnd⟩ := (realNum_sound).gap_floor
  have hfC := (realNum_sound).freq_upper 1
  have hFm : (2 : ℝ) ^ 127 ≤ fltMax := fltMax_large
  have hDm : (2 : ℝ) ^ 127 ≤ dblMax := dblMax_large
  have hbig : (2000 : ℝ) < 2 ^ 127 := by norm_num
  have hL2 : -Real.log (1 / 2) ≤ 7 / 10 := by
    have h := Real.log_two_lt_d9
    have e : Real.log (1 / 2) = -Real.log 2 := by
      rw [one_div, Real.log_inv]
    rw [e]
    linarith
  have hL2' : 0 ≤ -Real.log (1 / 2) := by
    have := Real.log_nonpos (by norm_num : (0 : ℝ) ≤ 1 / 2) (by norm_num)
    linarith
  -- the near tie
  have hkey : Real.log (1 / 2) + no_insertion realNum + no_deletion realNum
      < Real.log (999 / 2000) := by
    have e : Real.log (1 / 2) + no_insertion realNum + no_deletion realNum
        = Real.log (1 / 2 * (999 / 1000) * (999 / 1000)) := by
      rw [Real.log_mul (by norm_num) (by norm_num), Real.log_mul (by norm_num) (by norm_num)]
      unfold no_insertion no_deletion realNum
      norm_num
    rw [e]
    exact Real.log_lt_log (by norm_num) (by norm_num)
  have hkey2 : Real.log (999 / 2000) < Real.log (1 / 2) :=
    Real.log_lt_log (by norm_num) (by norm_num)
  have hn1 : nt4_table (charAt ['C', 'G'] 0) = 1 := by decide
  have hn2 : nt4_table (charAt ['C', 'G'] 1) = 2 := by decide
  -- cell (1,1)
  obtain ⟨hP11, hQ11, -, -, hBd11, hD11⟩ := mg94_forward_eqs realNum nearTieTensor
    ['A', 'A', 'A'] ['C', 'G'] 1 1 (le_refl 1) (by decide) (le_refl 1) (by decide)
  rw [← hFdef] at hP11 hQ11 hBd11 hD11
  have hd11 : mg94_d realNum nearTieTensor ['A', 'A', 'A'] ['C', 'G'] F 1 1
      = 0 - no_insertion realNum - no_deletion realNum - Real.log (1 / 2) := by
    simp only [mg94_d, Nat.sub_self, hB.bd00, hB.d00, if_true]
    have hT : transition (substr ['A', 'A', 'A'] (0 / 3 * 3) 3) (1 % 3) (charAt ['C', 'G'] 0)
        (nearTieTensor : Nat → Nat → Nat → ℝ) = 1 / 2 := by
      simp [transition, substr, cod_int, nt4_table, charAt, nearTieTensor, vec4]
    rw [hT]
    rfl
  have hp11 : (2 : ℝ) ^ 127 ≤ F.P 1 1 := by
    rw [hP11]
    apply le_min
    · simp only [mg94_p1, Nat.sub_self, hB.pcol 1, hn1]
      linarith only [hFm, ie2, hfC]
    · simp only [mg94_p2, Nat.sub_self, hB.bdcol 1 (le_refl 1) (by decide)]
      rw [if_neg (by decide), if_neg (by decide)]
      exact hDm
  have hq11 : -insertion realNum - nuc_freqs realNum 1 - no_insertion_ext realNum
      - no_deletion_ext realNum - deletion realNum ≤ F.Q 1 1 := by
    rw [hQ11]
    apply le_min
    · simp only [mg94_q1, Nat.sub_self, hB.qrow 1]
      have := hnf 1
      linarith only [hFm, de2, i1, d1, nie1, nde1, this.1, hbig]
    · simp only [mg94_q2, Nat.sub_self, hB.bdrow 1 (le_refl 1) (by decide), hB.d01, hn1]
      norm_num
  have hlt1 : mg94_d realNum nearTieTensor ['A', 'A', 'A'] ['C', 'G'] F 1 1 < F.P 1 1 := by
    rw [hd11]
    linarith only [hp11, hL2, gni, gnd, hbig]
  have hlt2 : mg94_d realNum nearTieTensor ['A', 'A', 'A'] ['C', 'G'] F 1 1 < F.Q 1 1 := by
    rw [hd11]
    linarith only [hq11, hL2, gni, gnd, gi, gd, gnie, gnde, hfC]
  have hBd11' : F.Bd 1 1 = 0 := by rw [hBd11, if_pos hlt1, if_pos hlt2]
  have hD11' : F.D 1 1 = 0 - no_insertion realNum - no_deletion realNum - Real.log (1 / 2) := by
    rw [hD11, if_pos hlt1, if_pos hlt2, hd11]
  -- cell (2,1)
  obtain ⟨hP21, hQ21, -, -, hBd21, hD21⟩ := mg94_forward_eqs realNum nearTieTensor
    ['A', 'A', 'A'] ['C', 'G'] 2 1 (by decide) (by decide) (le_refl 1) (by decide)
  rw [← hFdef] at hP21 hQ21 hBd21 hD21
  have hd21 : mg94_d realNum nearTieTensor ['A', 'A', 'A'] ['C', 'G'] F 2 1
      = -no_insertion realNum - deletion realNum - no_deletion_ext realNum
          - Real.log (999 / 2000) := by
    have hbd : F.Bd 1 0 = 2 := hB.bdcol 1 (le_refl 1) (by decide)
    simp only [mg94_d, Nat.sub_self, Nat.add_one_sub_one, hbd, hB.d10]
    have hT : transition (substr ['A', 'A', 'A'] (1 / 3 * 3) 3) (2 % 3) (charAt ['C', 'G'] 0)
        (nearTieTensor : Nat → Nat → Nat → ℝ) = 999 / 2000 := by
      simp [transition, substr, cod_int, nt4_table, charAt, nearTieTensor, vec4]
    rw [hT]
    norm_num
    rfl
  have hp21 : (2 : ℝ) ^ 127 ≤ F.P 2 1 := by
    rw [hP21]
    apply le_min
    · simp only [mg94_p1, Nat.sub_self, hB.pcol 2, hn1]
      linarith only [hFm, ie2, hfC]
    · simp only [mg94_p2, Nat.sub_self, hB.bdcol 2 (by decide) (by decide)]
      rw [if_neg (by decide), if_neg (by decide)]
      exact hDm
  have hlt3 : mg94_d realNum nearTieTensor ['A', 'A', 'A'] ['C', 'G'] F 2 1 < F.P 2 1 := by
    rw [hd21]
    linarith only [hp21, hkey, hL2, gni, gnd, ni2, d1, nde1, hbig]
  have hlt4 : mg94_d realNum nearTieTensor ['A', 'A', 'A'] ['C', 'G'] F 2 1 < F.Q 2 1 := by
    rw [hd21, hQ21]
    apply lt_min
    · simp only [mg94_q1, Nat.add_one_sub_one]
      linarith only [hq11, hkey, hL2, gni, gnd, gi, gd, gnie, gnde, gde, hfC, ni2, nd2]
    · simp only [mg94_q2, Nat.add_one_sub_one, hBd11', hD11', if_true]
      linarith only [hkey]
  refine ⟨hBd11', hD11', ?_, ?_⟩
  · rw [hBd21, if_pos hlt3, if_pos hlt4]
  · rw [hD21, if_pos hlt3, if_pos hlt4, hd21]

/-- The pair AAA, CG under `nearTieTensor`, over the real numbers: the cost that
`mg94_marginal` stores in the last cell exceeds the cost of the alignment AAA over C-G,
that is a match, a deletion and a match. -/
theorem mg94_nearTie_weight :
    0 - no_insertion realNum - no_deletion realNum - Real.log (1 / 2)
        - no_insertion realNum - deletion realNum - no_deletion_ext realNum
        - Real.log (9 / 10)
      < (mg94_forward realNum nearTieTensor ['A', 'A', 'A'] ['C', 'G']).D 3 2 := by
  obtain ⟨hBd11, hD11, hBd21, hD21⟩ := mg94_nearTie_cells
  set F := mg94_forward realNum nearTieTensor ['A', 'A', 'A'] ['C', 'G'] with hFdef
  have hB : Mg94Border realNum ['C', 'G'] 3 2 F :=
    mg94_forward_border_spec realNum nearTieTensor ['A', 'A', 'A'] ['C', 'G']
  obtain ⟨⟨i1, i2⟩, ⟨d1, d2⟩, ⟨ie1, ie2⟩, ⟨de1, de2⟩, ⟨ni1, ni2⟩, ⟨nd1, nd2⟩, ⟨nie1, nie2⟩,
    ⟨nde1, nde2⟩, hnf⟩ := (realNum_sound).gap_bounds
  obtain ⟨gi, gd, gie, gde, gnie, gnde, gni, gnd⟩ := (realNum_sound).gap_floor
  have hfC := (realNum_sound).freq_upper 1
  have hfG := (realNum_sound).freq_upper 2
  have hDm : (2 : ℝ) ^ 127 ≤ dblMax := dblMax_large
  have hbig : (2000 : ℝ) < 2 ^ 127 := by norm_num
  have hI : insertion realNum = deletion realNum := rfl
  have hX : no_insertion_ext realNum = no_deletion_ext realNum := rfl
  have hL2 : -Real.log (1 / 2) ≤ 6932 / 10000 := by
    have h := Real.log_two_lt_d9
    have e : Real.log (1 / 2) = -Real.log 2 := by
      rw [one_div, Real.log_inv]
    rw [e]
    linarith
  have hL9 : -(1 / 9) ≤ Real.log (9 / 10) :=
    le_trans (by norm_num) (realNum_sound.log_lower (9 / 10) (by norm_num))
  have hL10 : Real.log (1 / 10) ≤ -(9 / 10) :=
    le_trans (realNum_sound.log_upper (1 / 10) (by norm_num)) (by norm_num)
  have hL40 : Real.log (1 / 40) ≤ -(39 / 40) :=
    le_trans (realNum_sound.log_upper (1 / 40) (by norm_num)) (by norm_num)
  have hkey2 : Real.log (999 / 2000) < Real.log (1 / 2) :=
    Real.log_lt_log (by norm_num) (by norm_num)
  have hn1 : nt4_table (charAt ['C', 'G'] 0) = 1 := by decide
  have hn2 : nt4_table (charAt ['C', 'G'] 1) = 2 := by decide
  have hfl : ∀ i j, i ≤ 3 → j ≤ 2 →
      0 ≤ F.D i j ∧
      -insertion realNum - no_insertion_ext realNum + 692 / 1000 ≤ F.P i j ∧
      0 ≤ F.Q i j ∧ (F.Bd i j = 1 → F.D i j = F.P i j) ∧
      (i < j → -insertion realNum - no_insertion_ext realNum + 692 / 1000 ≤ F.D i j ∧
        -insertion realNum - no_insertion_ext realNum + 692 / 1000 ≤ F.Q i j) :=
    fun i j hi hj => mg94_insertion_floor realNum realNum_sound nearTieTensor
      nearTieTensor_unit ['A', 'A', 'A'] ['C', 'G'] i j hi hj
  have htag : ∀ i j, 1 ≤ i → i ≤ 3 → 1 ≤ j → j ≤ 2 →
      (F.Bd i j = 0 → F.D i j = mg94_d realNum nearTieTensor ['A', 'A', 'A'] ['C', 'G'] F i j) ∧
      (F.Bd i j = 1 → F.D i j = F.P i j) ∧
      (F.Bd i j ≠ 0 → F.Bd i j ≠ 1 → F.Bd i j = 2 ∧ F.D i j = F.Q i j) :=
    fun i j h1 h2 h3 h4 => mg94_D_by_tag realNum nearTieTensor ['A', 'A', 'A'] ['C', 'G'] i j
      h1 h2 h3 h4
  -- the candidates of cell (3,2)
  obtain ⟨hP32, hQ32, -, -, -, hD32⟩ := mg94_forward_eqs realNum nearTieTensor
    ['A', 'A', 'A'] ['C', 'G'] 3 2 (by decide) (by decide) (by decide) (by decide)
  rw [← hFdef] at hP32 hQ32 hD32
  have hd32 : mg94_d realNum nearTieTensor ['A', 'A', 'A'] ['C', 'G'] F 3 2
      = F.D 2 1 - no_insertion realNum - no_deletion realNum - Real.log (9 / 10) := by
    simp only [mg94_d, Nat.add_one_sub_one, hBd21, if_true]
    have hT : transition (substr ['A', 'A', 'A'] (2 / 3 * 3) 3) (3 % 3) (charAt ['C', 'G'] 1)
        (nearTieTensor : Nat → Nat → Nat → ℝ) = 9 / 10 := by
      simp [transition, substr, cod_int, nt4_table, charAt, nearTieTensor, vec4]
    rw [hT]
    rfl
  -- the insertion cost of cell (3,2)
  have hd31 : F.Bd 3 1 = 0 → F.D 3 1
      = F.D 1 0 - deletion_ext realNum - Real.log (1 / 40) := by
    intro h
    rw [(htag 3 1 (by decide) (le_refl 3) (le_refl 1) (by decide)).1 h]
    have hbd : F.Bd 2 0 = 2 := hB.bdcol 2 (by decide) (by decide)
    simp only [mg94_d, Nat.add_one_sub_one, Nat.sub_self, hbd, hB.dcol 2 (le_refl 2) (by decide)]
    have hT : transition (substr ['A', 'A', 'A'] (2 / 3 * 3) 3) (3 % 3) (charAt ['C', 'G'] 0)
        (nearTieTensor : Nat → Nat → Nat → ℝ) = 1 / 40 := by
      simp [transition, substr, cod_int, nt4_table, charAt, nearTieTensor, vec4]
    rw [hT]
    norm_num
    rfl
  have hP32lb : 0 - no_insertion realNum - no_deletion realNum - Real.log (1 / 2)
        - no_insertion realNum - deletion realNum - no_deletion_ext realNum
        - Real.log (9 / 10) < F.P 3 2 := by
    rw [hP32]
    apply lt_min
    · simp only [mg94_p1, Nat.add_one_sub_one, hn2]
      have := (hfl 3 1 (le_refl 3) (by decide)).2.1
      linarith only [this, hI, hX, gie, hfG, hL2, hL9, gni, gnd]
    · simp only [mg94_p2, Nat.add_one_sub_one, hn2]
      by_cases h0 : F.Bd 3 1 = 0
      · rw [if_pos h0, hd31 h0, hB.d10]
        linarith only [hI, hX, gie, gde, hfG, hL2, hL9, hL40, gni, gnd, gi, gnie]
      · rw [if_neg h0]
        by_cases h1 : F.Bd 3 1 = 1
        · rw [if_pos h1, (hfl 3 1 (le_refl 3) (by decide)).2.2.2.1 h1]
          have := (hfl 3 1 (le_refl 3) (by decide)).2.1
          linarith only [this, hI, hX, gie, hfG, hL2, hL9, gni, gnd]
        · rw [if_neg h1]
          linarith only [hDm, hbig, hL2, hL9, ni1, nd1, d1, nde1]
  -- the deletion cost of cell (2,2) and of cell (3,2)
  obtain ⟨-, hQ22, -, -, -, -⟩ := mg94_forward_eqs realNum nearTieTensor
    ['A', 'A', 'A'] ['C', 'G'] 2 2 (by decide) (by decide) (by decide) (by decide)
  rw [← hFdef] at hQ22
  have hQ22lb : -insertion realNum - no_insertion_ext realNum + 692 / 1000 + 1 / 6
      ≤ F.Q 2 2 := by
    have h12 := (hfl 1 2 (by decide) (le_refl 2)).2.2.2.2 (by decide)
    rw [hQ22]
    apply le_min
    · simp only [mg94_q1, Nat.add_one_sub_one]
      linarith only [h12.2, gde]
    · simp only [mg94_q2, Nat.add_one_sub_one]
      split_ifs <;> linarith only [h12.1, gde, gd, gnde, ni2]
  have hd22 : F.Bd 2 2 = 0 → F.D 2 2
      = F.D 1 1 - no_insertion realNum - no_deletion realNum - Real.log (1 / 10) := by
    intro h
    rw [(htag 2 2 (by decide) (by decide) (by decide) (le_refl 2)).1 h]
    simp only [mg94_d, Nat.add_one_sub_one, hBd11, if_true]
    have hT : transition (substr ['A', 'A', 'A'] (1 / 3 * 3) 3) (2 % 3) (charAt ['C', 'G'] 1)
        (nearTieTensor : Nat → Nat → Nat → ℝ) = 1 / 10 := by
      simp [transition, substr, cod_int, nt4_table, charAt, nearTieTensor, vec4]
    rw [hT]
    rfl
  have hQ32lb : 0 - no_insertion realNum - no_deletion realNum - Real.log (1 / 2)
        - no_insertion realNum - deletion realNum - no_deletion_ext realNum
        - Real.log (9 / 10) < F.Q 3 2 := by
    rw [hQ32]
    apply lt_min
    · simp only [mg94_q1, Nat.add_one_sub_one]
      linarith only [hQ22lb, hI, hX, gde, hL2, hL9, gni, gnd]
    · simp only [mg94_q2, Nat.add_one_sub_one]
      by_cases h0 : F.Bd 2 2 = 0
      · rw [if_pos h0, hd22 h0, hD11]
        linarith only [hL9, hL10, ni2, nd2]
      · rw [if_neg h0]
        by_cases h1 : F.Bd 2 2 = 1
        · rw [if_pos h1, (hfl 2 2 (by decide) (le_refl 2)).2.2.2.1 h1]
          have := (hfl 2 2 (by decide) (le_refl 2)).2.1
          linarith only [this, hI, hX, gd, gnde, hL2, hL9, gni, gnd]
        · rw [if_neg h1,
            ((htag 2 2 (by decide) (by decide) (by decide) (le_refl 2)).2.2 h0 h1).2]
          linarith only [hQ22lb, hI, hX, gde, hL2, hL9, gni, gnd]
  have hd32lb : 0 - no_insertion realNum - no_deletion realNum - Real.log (1 / 2)
        - no_insertion realNum - deletion realNum - no_deletion_ext realNum
        - Real.log (9 / 10)
      < mg94_d realNum nearTieTensor ['A', 'A', 'A'] ['C', 'G'] F 3 2 := by
    rw [hd32, hD21]
    linarith only [hkey2]
  rw [hD32]
  split_ifs
  · exact hd32lb
  · exact hQ32lb
  · exact hP32lb
  · exact hQ32lb

/-- Counterexample to C12 as stated: for the pair AAA, CG and the tensor `nearTieTensor`,
over the real numbers, `mg94_marginal` returns a weight that exceeds the cost, under the
cost model of the engine, of the global alignment AAA over C-G. -/
theorem mg94_marginal_not_minimal :
    ∃ (s0 s1 : Str) (w c : ℝ),
      mg94_marginal realNum nearTieTensor [['A', 'A', 'A'], ['C', 'G']] ⟨⟨[], []⟩, 0⟩
        = .ok (0, { f := { seq_names := [], seq_data := [s0, s1] }, weight := w }) ∧
      degap ['A', 'A', 'A'] = ['A', 'A', 'A'] ∧ degap ['C', '-', 'G'] = ['C', 'G'] ∧
      alignment_score realNum nearTieTensor [['A', 'A', 'A'], ['C', '-', 'G']] = .ok c ∧
      c < w := by
  have hsize : 1009 * (((['A', 'A', 'A'] : Str).length : ℝ) + ((['C', 'G'] : Str).length : ℝ))
      < fltMax := by
    have h3 : (2 : ℝ) ^ 127 ≤ fltMax := fltMax_large
    have h4 : (1009 : ℝ) * (3 + 2) < 2 ^ 127 := by norm_num
    simp only [List.length_cons, List.length_nil]
    push_cast
    linarith
  obtain ⟨s0, s1, hrun, -, -, -⟩ := mg94_marginal_ok realNum realNum_sound nearTieTensor
    ['A', 'A', 'A'] ['C', 'G'] ⟨⟨[], []⟩, 0⟩ (by decide) (by decide) (by decide) hsize rfl
  refine ⟨s0, s1, _, 0 - no_insertion realNum - no_deletion realNum - Real.log (1 / 2)
        - no_insertion realNum - deletion realNum - no_deletion_ext realNum
        - Real.log (9 / 10), hrun, by decide, by decide, ?_, ?_⟩
  · have hT1 : transition (substr ['A', 'A', 'A'] (0 / 3 * 3) 3) ((0 + 1) % 3) 'C'
        (nearTieTensor : Nat → Nat → Nat → ℝ) = 1 / 2 := by
      simp [transition, substr, cod_int, nt4_table, charAt, nearTieTensor, vec4]
    have hT3 : transition (substr ['A', 'A', 'A'] ((0 + 1 + 1) / 3 * 3) 3) ((0 + 1 + 1 + 1) % 3)
        'G' (nearTieTensor : Nat → Nat → Nat → ℝ) = 9 / 10 := by
      simp [transition, substr, cod_int, nt4_table, charAt, nearTieTensor, vec4]
    have hdg : degap ['A', 'A', 'A'] = ['A', 'A', 'A'] := by decide
    unfold alignment_score
    simp only [hdg, List.zip_cons_cons, List.zip_nil_right, List.foldl_cons, List.foldl_nil,
      alignment_score.column, Char.reduceEq, if_false, if_true, hT1, hT3,
      show ¬ ((2 : Int) = 0) by decide, show ¬ ((2 : Int) = 1) by decide]
    rfl
  · exact mg94_nearTie_weight

/-- Claim C12, amended: over the real numbers, for every non-empty reference `A` over
{A,C,G,T} whose length is divisible by 3, every non-empty sequence `B` over {A,C,G,T,N}
(lengths within the range of `int`) and every tensor, the alignment that `mg94_marginal`
returns is a global alignment of `A` and `B` (two rows of equal length that spell `A` and
`B`) whose cost under the cost model of the engine is the returned weight `D(m, n)`; and at
every cell off the first row and column the stored cost `D(i,j)` is the least of the match
candidate `d` and the gap costs `P(i,j)` and `Q(i,j)`, which are the lesser of the extension
and of the candidate formed from the stored cost of the neighbouring cell and its tag. -/
theorem mg94_weight_attained (p : Nat → Nat → Nat → ℝ) (A B : Str) (aln : alignment_t ℝ)
    (hA : A ≠ []) (hA3 : A.length % 3 = 0) (hAc : ∀ c ∈ A, c ∈ ['A', 'C', 'G', 'T'])
    (hB : B ≠ []) (hBc : ∀ c ∈ B, c ∈ ['A', 'C', 'G', 'T', 'N'])
    (hAlen : A.length < 2 ^ 31) (hBlen : B.length < 2 ^ 31) (h0 : aln.f.seq_data = []) :
    ∃ (s0 s1 : Str),
      mg94_marginal realNum p [A, B] aln
        = .ok (0, { f := { seq_names := aln.f.seq_names, seq_data := [s0, s1] },
                    weight := (mg94_forward realNum p A B).D A.length B.length }) ∧
      s0.length = s1.length ∧ degap s0 = A ∧ degap s1 = B ∧
      alignment_score realNum p [s0, s1]
        = .ok ((mg94_forward realNum p A B).D A.length B.length) ∧
      ∀ i j, 1 ≤ i → i ≤ A.length → 1 ≤ j → j ≤ B.length →
        (mg94_forward realNum p A B).D i j
          = min (mg94_d realNum p A B (mg94_forward realNum p A B) i j)
              (min ((mg94_forward realNum p A B).P i j) ((mg94_forward realNum p A B).Q i j)) ∧
        (mg94_forward realNum p A B).P i j
          = min (mg94_p1 realNum B (mg94_forward realNum p A B) i j)
              (mg94_p2 realNum B (mg94_forward realNum p A B) i j) ∧
        (mg94_forward realNum p A B).Q i j
          = min (mg94_q1 realNum (mg94_forward realNum p A B) i j)
              (mg94_q2 realNum (mg94_forward realNum p A B) i j) := by
  have ha : '-' ∉ A := by
    intro h
    have := hAc _ h
    revert this
    decide
  have hb : '-' ∉ B := by
    intro h
    have := hBc _ h
    revert this
    decide
  have hsize : 1009 * ((A.length : ℝ) + (B.length : ℝ)) < fltMax := by
    have h1 : (A.length : ℝ) < 2 ^ 31 := by exact_mod_cast hAlen
    have h2 : (B.length : ℝ) < 2 ^ 31 := by exact_mod_cast hBlen
    have h3 : (2 : ℝ) ^ 127 ≤ fltMax := fltMax_large
    have h4 : (1009 : ℝ) * (2 ^ 31 + 2 ^ 31) < 2 ^ 127 := by norm_num
    linarith
  obtain ⟨s0, s1, hrun, hlen, h1, h2, hsc⟩ :=
    mg94_marginal_scored realNum realNum_sound p A B aln hA3 ha hb hsize h0
  refine ⟨s0, s1, hrun, hlen, h1, h2, hsc, ?_⟩
  intro i j hi him hj hjn
  obtain ⟨hP, hQ, -, -, -, hD⟩ := mg94_forward_eqs realNum p A B i j hi him hj hjn
  refine ⟨?_, hP, hQ⟩
  rw [hD]
  split_ifs with c1 c2 c3
  · rw [min_eq_left (le_min c1.le c2.le)]
  · rw [min_eq_right (le_trans (min_le_right _ _) (not_lt.mp c2)), min_eq_right]
    exact le_trans (not_lt.mp c2) c1.le
  · rw [min_eq_right (le_trans (min_le_left _ _) (not_lt.mp c1)), min_eq_left c3.le]
  · rw [min_eq_right (le_trans (min_le_left _ _) (not_lt.mp c1)),
      min_eq_right (not_lt.mp c3)]

/-- Claim C12, amended, at the pair CTCTGG, CCTGG of the test, with the uniform tensor. -/
theorem mg94_weight_attained_witness :
    ∃ (s0 s1 : Str),
      mg94_marginal realNum (fun _ _ _ => 1 / 4)
          [['C', 'T', 'C', 'T', 'G', 'G'], ['C', 'C', 'T', 'G', 'G']] ⟨⟨[], []⟩, 0⟩
        = .ok (0, { f := { seq_names := [], seq_data := [s0, s1] },
                    weight := (mg94_forward realNum (fun _ _ _ => 1 / 4)
                      ['C', 'T', 'C', 'T', 'G', 'G'] ['C', 'C', 'T', 'G', 'G']).D 6 5 }) ∧
      alignment_score realNum (fun _ _ _ => 1 / 4) [s0, s1]
        = .ok ((mg94_forward realNum (fun _ _ _ => 1 / 4)
            ['C', 'T', 'C', 'T', 'G', 'G'] ['C', 'C', 'T', 'G', 'G']).D 6 5) := by
  obtain ⟨s0, s1, h1, -, -, -, h2, -⟩ :=
    mg94_weight_attained (fun _ _ _ => 1 / 4) ['C', 'T', 'C', 'T', 'G', 'G']
      ['C', 'C', 'T', 'G', 'G'] ⟨⟨[], []⟩, 0⟩ (by decide) (by decide) (by decide) (by decide)
      (by decide) (by norm_num) (by norm_num) rfl
  exact ⟨s0, s1, h1, h2⟩

/-! ## Claim C11: a sequence aligned with itself -/

/-- Over the real numbers every entry of `nuc_freqs` is at most -1.162. -/
theorem real_freq_upper (k : Nat) : nuc_freqs realNum k ≤ -(1162 / 1000) := by
  have h308 : Real.log (308 / 1000) ≤ -(1162 / 1000) := by
    have he := Real.exp_one_lt_d9
    have hlog : Real.log (308 / 1000 * Real.exp 1) ≤ 308 / 1000 * Real.exp 1 - 1 :=
      Real.log_le_sub_one_of_pos (by positivity)
    rw [Real.log_mul (by norm_num) (Real.exp_pos 1).ne', Real.log_exp] at hlog
    linarith only [he, hlog]
  have hle : ∀ x : ℝ, 0 < x → x ≤ 308 / 1000 → Real.log x ≤ -(1162 / 1000) :=
    fun x hx hx2 => le_trans (Real.log_le_log hx hx2) h308
  unfold nuc_freqs
  split <;> exact hle _ (by norm_num) (by norm_num)

/-- Over the real numbers the logarithm of a probability of at least 1/4 is at least
-1.3863. -/
theorem real_log_quarter (x : ℝ) (hx : 1 / 4 ≤ x) : -(13863 / 10000) ≤ Real.log x := by
  have h2 := Real.log_two_lt_d9
  have e : Real.log (1 / 4) = -(2 * Real.log 2) := by
    have : (1 / 4 : ℝ) = (2 ^ 2)⁻¹ := by norm_num
    rw [this, Real.log_inv, Real.log_pow]
    norm_num
  have := Real.log_le_log (by norm_num : (0 : ℝ) < 1 / 4) hx
  rw [e] at this
  linarith only [this, h2]

/-- The cost of the gap-free alignment grows by at most 1.3884 per column when every
symbol is emitted with a probability of at least 1/4. -/
theorem diagCost_step (p : Nat → Nat → Nat → ℝ) (A : Str)
    (hown : ∀ i, i < A.length →
      1 / 4 ≤ transition (substr A ((i / 3) * 3) 3) ((i + 1) % 3) (charAt A i) p)
    (i : Nat) (hi : i < A.length) :
    diagCost realNum p A A (i + 1) - diagCost realNum p A A i ≤ 13884 / 10000 := by
  obtain ⟨-, -, -, -, -, -, gni, gnd⟩ := (realNum_sound).gap_floor
  have h := real_log_quarter _ (hown i hi)
  have e : diagCost realNum p A A (i + 1) = diagCost realNum p A A i - no_insertion realNum
      - no_deletion realNum
      - Real.log (transition (substr A ((i / 3) * 3) 3) ((i + 1) % 3) (charAt A i) p) := rfl
  rw [e]
  linarith only [h, gni, gnd]

/-- The cost of the gap-free alignment of `i` columns is at most `1.4 i`. -/
theorem diagCost_le (p : Nat → Nat → Nat → ℝ) (A : Str)
    (hown : ∀ i, i < A.length →
      1 / 4 ≤ transition (substr A ((i / 3) * 3) 3) ((i + 1) % 3) (charAt A i) p)
    (i : Nat) : i ≤ A.length → diagCost realNum p A A i ≤ 14 / 10 * (i : ℝ) := by
  induction i with
  | zero =>
    intro _
    simp [diagCost]
  | succ i ih =>
    intro hi
    have h1 := diagCost_step p A hown i (by omega)
    have h2 := ih (by omega)
    push_cast
    linarith only [h1, h2]

/-- A sequence aligned with itself by `mg94_marginal`, over the real numbers, when every
symbol is emitted under its own codon with a probability of at least 1/4 and no other
symbol of the sequence with a larger one: every cell of the diagonal holds a match and the
cost of the gap-free alignment, and every other cost of the grid exceeds the potential
`diagCost i + 1.3 (j - i)` by the surplus of a gap opening. -/
theorem mg94_self_inv (p : Nat → Nat → Nat → ℝ) (A : Str) (hlen : A.length < 2 ^ 31)
    (hown : ∀ i, i < A.length →
      1 / 4 ≤ transition (substr A ((i / 3) * 3) 3) ((i + 1) % 3) (charAt A i) p)
    (hdom : ∀ i j, i < A.length → j < A.length →
      0 < transition (substr A ((i / 3) * 3) 3) ((i + 1) % 3) (charAt A j) p ∧
      transition (substr A ((i / 3) * 3) 3) ((i + 1) % 3) (charAt A j) p
        ≤ transition (substr A ((i / 3) * 3) 3) ((i + 1) % 3) (charAt A i) p)
    (i : Nat) :
    ∀ j, i ≤ A.length → j ≤ A.length →
      (i = j → (mg94_forward realNum p A A).Bd i j = 0 ∧
        (mg94_forward realNum p A A).D i j = diagCost realNum p A A i) ∧
      3 / 2 + diagCost realNum p A A i + 13 / 10 * ((j : ℝ) - (i : ℝ))
        ≤ (mg94_forward realNum p A A).P i j ∧
      3 / 2 + diagCost realNum p A A i + 13 / 10 * ((j : ℝ) - (i : ℝ))
        ≤ (mg94_forward realNum p A A).Q i j ∧
      (i ≠ j → 3 / 2 - 2 / 999 + diagCost realNum p A A i + 13 / 10 * ((j : ℝ) - (i : ℝ))
        ≤ (mg94_forward realNum p A A).D i j) ∧
      (i ≠ j → (mg94_forward realNum p A A).Bd i j ≠ 0 →
        3 / 2 + diagCost realNum p A A i + 13 / 10 * ((j : ℝ) - (i : ℝ))
          ≤ (mg94_forward realNum p A A).D i j) := by
  set F := mg94_forward realNum p A A with hFdef
  set S := diagCost realNum p A A with hSdef
  have hB : Mg94Border realNum A A.length A.length F := mg94_forward_border_spec realNum p A A
  obtain ⟨⟨i1, i2⟩, ⟨d1, d2⟩, ⟨ie1, ie2⟩, ⟨de1, de2⟩, ⟨ni1, ni2⟩, ⟨nd1, nd2⟩, ⟨nie1, nie2⟩,
    ⟨nde1, nde2⟩, hnf⟩ := (realNum_sound).gap_bounds
  obtain ⟨gi, gd, gie, gde, gnie, gnde, gni, gnd⟩ := (realNum_sound).gap_floor
  have hfr := real_freq_upper
  have hFm : (2 : ℝ) ^ 127 ≤ fltMax := fltMax_large
  have hDm : (2 : ℝ) ^ 127 ≤ dblMax := dblMax_large
  have hm : (A.length : ℝ) < 2 ^ 31 := by exact_mod_cast hlen
  have hbig : (2 : ℝ) + 3 * 2 ^ 31 < 2 ^ 127 := by norm_num
  have hS0 : S 0 = 0 := rfl
  have hSs : ∀ i, i < A.length → S (i + 1) - S i ≤ 13884 / 10000 :=
    fun i hi => diagCost_step p A hown i hi
  have hSle : ∀ i, i ≤ A.length → S i ≤ 14 / 10 * (i : ℝ) :=
    fun i hi => diagCost_le p A hown i hi
  have hSeq : ∀ i, S (i + 1) = S i - no_insertion realNum - no_deletion realNum
      - Real.log (transition (substr A ((i / 3) * 3) 3) ((i + 1) % 3) (charAt A i) p) :=
    fun i => rfl
  have hcast : ∀ k, k ≤ A.length → (0 : ℝ) ≤ (k : ℝ) ∧ (k : ℝ) < 2 ^ 31 := by
    intro k hk
    have : (k : ℝ) ≤ (A.length : ℝ) := by exact_mod_cast hk
    exact ⟨Nat.cast_nonneg k, lt_of_le_of_lt this hm⟩
  -- the potential stays far below the sentinels
  have hpot : ∀ i j, i ≤ A.length → j ≤ A.length →
      3 / 2 + S i + 13 / 10 * ((j : ℝ) - (i : ℝ)) ≤ 2 ^ 127 := by
    intro i j hi hj
    have h1 := hSle i hi
    obtain ⟨a1, a2⟩ := hcast i hi
    obtain ⟨b1, b2⟩ := hcast j hj
    linarith only [h1, a1, a2, b1, b2, hbig]
  -- row 0
  have hrow : ∀ j, j ≤ A.length → 1 ≤ j →
      F.D 0 j = F.P 0 j ∧ 3 / 2 + 13 / 10 * (j : ℝ) ≤ F.P 0 j := by
    intro j
    induction j with
    | zero => intro _ h; omega
    | succ j ih =>
      intro hj _
      by_cases h1 : j = 0
      · subst h1
        rw [hB.d01, hB.p01]
        refine ⟨rfl, ?_⟩
        push_cast
        linarith only [hfr (nt4_table (charAt A 0)), gi, gnie]
      · obtain ⟨e, b⟩ := ih (by omega) (by omega)
        have hd := hB.drow (j + 1) (by omega) hj
        have hq := hB.prow (j + 1) (by omega) hj
        simp only [Nat.add_sub_cancel] at hd hq
        rw [hd, hq, e]
        refine ⟨rfl, ?_⟩
        push_cast
        linarith only [b, gie, hfr (nt4_table (charAt A j))]
  -- column 0
  have hcol : ∀ i, 1 ≤ i → i ≤ A.length →
      F.D i 0 = F.Q i 0 ∧ 3 / 2 + S i - 13 / 10 * (i : ℝ) ≤ F.Q i 0 := by
    intro i
    induction i with
    | zero => intro h; omega
    | succ i ih =>
      intro _ hi
      by_cases h1 : i = 0
      · subst h1
        rw [hB.d10, hB.q10]
        refine ⟨rfl, ?_⟩
        have := hSs 0 (by omega)
        rw [hS0] at this
        push_cast
        linarith only [this, gd, gnde, ni2]
      · obtain ⟨e, b⟩ := ih (by omega) (by omega)
        have hd := hB.dcol (i + 1) (by omega) hi
        have hq := hB.qcol (i + 1) (by omega) hi
        simp only [Nat.add_sub_cancel] at hd hq
        rw [hd, hq, e]
        refine ⟨rfl, ?_⟩
        have := hSs i (by omega)
        push_cast
        linarith only [this, b, gde]
  induction i with
  | zero =>
    intro j _ hj
    by_cases hj0 : j = 0
    · subst hj0
      rw [hB.d00, hB.pcol 0, hB.qrow 0, hB.bd00, hS0]
      have := hpot 0 0 (Nat.zero_le _) (Nat.zero_le _)
      rw [hS0] at this
      refine ⟨fun _ => ⟨rfl, rfl⟩, le_trans this hFm, le_trans this hFm,
        fun h => absurd rfl h, fun h => absurd rfl h⟩
    · obtain ⟨e, b⟩ := hrow j hj (by omega)
      have hq := hpot 0 j (Nat.zero_le _) hj
      rw [hB.qrow j, e, hS0] at *
      refine ⟨fun h => absurd h.symm hj0, ?_, le_trans hq hFm, fun _ => ?_, fun _ _ => ?_⟩
      · push_cast
        linarith only [b]
      · push_cast
        linarith only [b]
      · push_cast
        linarith only [b]
  | succ i ih =>
    intro j
    induction j with
    | zero =>
      intro hi _
      obtain ⟨e, b⟩ := hcol (i + 1) (by omega) hi
      have hpP := hpot (i + 1) 0 hi (Nat.zero_le _)
      rw [hB.pcol (i + 1), e]
      refine ⟨fun h => absurd h (by omega), le_trans hpP hFm, ?_, fun _ => ?_, fun _ _ => ?_⟩
      · push_cast at b ⊢
        linarith only [b]
      · push_cast at b ⊢
        linarith only [b]
      · push_cast at b ⊢
        linarith only [b]
    | succ j ihj =>
      intro hi hj
      obtain ⟨A1, -, -, A4, A5⟩ := ih j (by omega) (by omega)
      obtain ⟨B1, -, B3, B4, B5⟩ := ih (j + 1) (by omega) hj
      obtain ⟨C1, C2, -, C4, C5⟩ := ihj hi (by omega)
      obtain ⟨eP, eQ, -, -, eBd, eD⟩ := mg94_forward_eqs realNum p A A (i + 1) (j + 1)
        (by omega) hi (by omega) hj
      rw [← hFdef] at eP eQ eBd eD
      have hss := hSs i (by omega)
      have hse := hSeq i
      have hfj := hfr (nt4_table (charAt A j))
      have hpotij := hpot (i + 1) (j + 1) hi hj
      push_cast at A4 A5 B3 B4 B5 C2 C4 C5 hpotij ⊢
      -- insertion
      have hp1 : 3 / 2 + S (i + 1) + 13 / 10 * ((j : ℝ) + 1 - ((i : ℝ) + 1))
          ≤ mg94_p1 realNum A F (i + 1) (j + 1) := by
        unfold mg94_p1
        simp only [Nat.add_sub_cancel]
        linarith only [C2, gie, hfj]
      have hp2 : 3 / 2 + S (i + 1) + 13 / 10 * ((j : ℝ) + 1 - ((i : ℝ) + 1))
          ≤ mg94_p2 realNum A F (i + 1) (j + 1) := by
        unfold mg94_p2
        simp only [Nat.add_sub_cancel]
        by_cases h0 : F.Bd (i + 1) j = 0
        · rw [if_pos h0]
          by_cases hij : i + 1 = j
          · have := (C1 hij).2
            rw [this]
            have hc : (j : ℝ) = (i : ℝ) + 1 := by exact_mod_cast hij.symm
            rw [hc]
            linarith only [gi, gnie, hfj]
          · have := C4 hij
            linarith only [this, gi, gnie, hfj]
        · rw [if_neg h0]
          have hij : i + 1 ≠ j := fun h => h0 (C1 h).1
          by_cases h1 : F.Bd (i + 1) j = 1
          · rw [if_pos h1]
            have := C5 hij h0
            linarith only [this, gie, hfj]
          · rw [if_neg h1]
            exact le_trans hpotij hDm
      have hP : 3 / 2 + S (i + 1) + 13 / 10 * ((j : ℝ) + 1 - ((i : ℝ) + 1))
          ≤ F.P (i + 1) (j + 1) := by
        rw [eP]
        exact le_min hp1 hp2
      -- deletion
      have hq1 : 3 / 2 + S (i + 1) + 13 / 10 * ((j : ℝ) + 1 - ((i : ℝ) + 1))
          ≤ mg94_q1 realNum F (i + 1) (j + 1) := by
        unfold mg94_q1
        simp only [Nat.add_sub_cancel]
        linarith only [B3, gde, hss]
      have hq2 : 3 / 2 + S (i + 1) + 13 / 10 * ((j : ℝ) + 1 - ((i : ℝ) + 1))
          ≤ mg94_q2 realNum F (i + 1) (j + 1) := by
        unfold mg94_q2
        simp only [Nat.add_sub_cancel]
        by_cases h0 : F.Bd i (j + 1) = 0
        · rw [if_pos h0]
          by_cases hij : i = j + 1
          · have := (B1 hij).2
            rw [this]
            have hc : (i : ℝ) = (j : ℝ) + 1 := by exact_mod_cast hij
            linarith only [gd, gnde, ni2, hss, hc]
          · have := B4 hij
            linarith only [this, gd, gnde, ni2, hss]
        · rw [if_neg h0]
          have hij : i ≠ j + 1 := fun h => h0 (B1 h).1
          have := B5 hij h0
          by_cases h1 : F.Bd i (j + 1) = 1
          · rw [if_pos h1]
            linarith only [this, gd, gnde, hss]
          · rw [if_neg h1]
            linarith only [this, gde, hss]
      have hQ : 3 / 2 + S (i + 1) + 13 / 10 * ((j : ℝ) + 1 - ((i : ℝ) + 1))
          ≤ F.Q (i + 1) (j + 1) := by
        rw [eQ]
        exact le_min hq1 hq2
      -- match
      have hdd : i = j → mg94_d realNum p A A F (i + 1) (j + 1) = S (i + 1) := by
        intro hij
        subst hij
        obtain ⟨b0, bD⟩ := A1 rfl
        unfold mg94_d
        simp only [Nat.add_sub_cancel]
        rw [if_pos b0, bD, hse]
        rfl
      have hdo : i ≠ j → 3 / 2 - 2 / 999 + S (i + 1) + 13 / 10 * ((j : ℝ) + 1 - ((i : ℝ) + 1))
          ≤ mg94_d realNum p A A F (i + 1) (j + 1) := by
        intro hij
        obtain ⟨t1, t2⟩ := hdom i j (by omega) (by omega)
        have hl : Real.log (transition (substr A ((i / 3) * 3) 3) ((i + 1) % 3) (charAt A j) p)
            ≤ Real.log (transition (substr A ((i / 3) * 3) 3) ((i + 1) % 3) (charAt A i) p) :=
          Real.log_le_log t1 t2
        have a4 := A4 hij
        unfold mg94_d
        simp only [Nat.add_sub_cancel]
        have hl' : realNum.log (transition (substr A ((i / 3) * 3) 3) ((i + 1) % 3)
            (charAt A j) p)
            ≤ Real.log (transition (substr A ((i / 3) * 3) 3) ((i + 1) % 3) (charAt A i) p) :=
          hl
        by_cases h0 : F.Bd i j = 0
        · rw [if_pos h0]
          linarith only [a4, hl', hse]
        · rw [if_neg h0]
          have a5 := A5 hij h0
          by_cases h1 : F.Bd i j = 1
          · rw [if_pos h1]
            linarith only [a5, hl', hse, gni, nd2]
          · rw [if_neg h1]
            linarith only [a5, hl', hse, gni, gnd]
      refine ⟨?_, hP, hQ, ?_, ?_⟩
      · intro hij
        have hij' : i = j := by omega
        have hd := hdd hij'
        have hc : (j : ℝ) = (i : ℝ) := by exact_mod_cast hij'.symm
        rw [hc] at hP hQ
        have c1 : mg94_d realNum p A A F (i + 1) (j + 1) < F.P (i + 1) (j + 1) := by
          rw [hd]; linarith only [hP]
        have c2 : mg94_d realNum p A A F (i + 1) (j + 1) < F.Q (i + 1) (j + 1) := by
          rw [hd]; linarith only [hQ]
        rw [eBd, eD, if_pos c1, if_pos c2, if_pos c1, if_pos c2]
        exact ⟨rfl, hd⟩
      · intro hij
        have hd := hdo (fun h => hij (by omega))
        rw [eD]
        split_ifs
        · exact hd
        · linarith only [hQ]
        · linarith only [hP]
        · linarith only [hQ]
      · intro hij h0
        rw [eBd] at h0
        rw [eD]
        by_cases c1 : mg94_d realNum p A A F (i + 1) (j + 1) < F.P (i + 1) (j + 1)
        · rw [if_pos c1] at h0 ⊢
          by_cases c2 : mg94_d realNum p A A F (i + 1) (j + 1) < F.Q (i + 1) (j + 1)
          · rw [if_pos c2] at h0
            exact absurd rfl h0
          · rw [if_neg c2]
            exact hQ
        · rw [if_neg c1]
          split_ifs
          · exact hP
          · exact hQ

/-- The walk of `backtracking` along a diagonal of match tags writes the two prefixes. -/
theorem btLoop_diag (Bd Bp Bq : Nat → Nat → Int) (seqa seqb : Str) (i : Nat) :
    ∀ (fuel : Nat) (x0 x1 : Str), i ≤ fuel → (∀ k, 1 ≤ k → k ≤ i → Bd k k = 0) →
      btLoop Bd Bp Bq seqa seqb 1 fuel i i [x0, x1]
        = .ok [slice seqa 0 i ++ x0, slice seqb 0 i ++ x1] := by
  induction i with
  | zero =>
    intro fuel x0 x1 _ _
    cases fuel <;> simp [btLoop, slice_empty]
  | succ i ih =>
    intro fuel x0 x1 hf hd
    obtain ⟨f, rfl⟩ : ∃ f, fuel = f + 1 := ⟨fuel - 1, by omega⟩
    unfold btLoop
    rw [if_neg (by omega), if_pos (hd (i + 1) (by omega) (le_refl _)), if_neg (by omega),
      emit_pair]
    simp only [Nat.add_sub_cancel]
    rw [ih f _ _ (by omega) (fun k h1 h2 => hd k h1 (by omega)),
      slice_succ seqa 0 i (Nat.zero_le _), slice_succ seqb 0 i (Nat.zero_le _)]
    simp

/-- The symbol `k` of `s.substr(pos, len)` is the symbol `pos + k` of `s`. -/
theorem charAt_substr (s : Str) (pos len k : Nat) (hk : k < len) :
    charAt (substr s pos len) k = charAt s (pos + k) := by
  unfold charAt substr
  rw [List.getD_eq_getElem?_getD, List.getD_eq_getElem?_getD, List.getElem?_take, if_pos hk,
    List.getElem?_drop]

/-- A symbol of a sequence over {A,C,G,T} has a code below 4 and is not `N`. -/
theorem nt4_table_lt (s : Str) (hs : ∀ c ∈ s, c ∈ ['A', 'C', 'G', 'T']) (k : Nat)
    (hk : k < s.length) : nt4_table (charAt s k) < 4 ∧ charAt s k ≠ 'N' := by
  have hmem : charAt s k ∈ s := by
    unfold charAt
    rw [List.getD_eq_getElem s _ hk]
    exact List.getElem_mem hk
  have := hs _ hmem
  simp only [List.mem_cons, List.mem_singleton, List.not_mem_nil, or_false] at this
  rcases this with h | h | h | h <;> rw [h] <;> decide

/-- The index of a codon of three nucleotides is below 64 and `codonDigit` returns its
nucleotides. -/
theorem codonDigit_index : ∀ a < 4, ∀ b < 4, ∀ c < 4,
    (a <<< 4) + (b <<< 2) + c < 64 ∧ codonDigit ((a <<< 4) + (b <<< 2) + c) 0 = a ∧
    codonDigit ((a <<< 4) + (b <<< 2) + c) 1 = b ∧
    codonDigit ((a <<< 4) + (b <<< 2) + c) 2 = c := by
  decide

/-- In a sequence over {A,C,G,T} of whole codons, under an identity-favouring tensor, the
symbol of row `i` is emitted with a probability of at least 1/4, and no symbol of the
sequence with a larger one; every such probability is positive. -/
theorem identity_rows (p : Nat → Nat → Nat → α) (hp : IdentityFavouring p) (A : Str)
    (hA3 : A.length % 3 = 0) (hAc : ∀ c ∈ A, c ∈ ['A', 'C', 'G', 'T']) (i j : Nat)
    (hi : i < A.length) (hj : j < A.length) :
    1 / 4 ≤ transition (substr A ((i / 3) * 3) 3) ((i + 1) % 3) (charAt A i) p ∧
    0 < transition (substr A ((i / 3) * 3) 3) ((i + 1) % 3) (charAt A j) p ∧
    transition (substr A ((i / 3) * 3) 3) ((i + 1) % 3) (charAt A j) p
      ≤ transition (substr A ((i / 3) * 3) 3) ((i + 1) % 3) (charAt A i) p := by
  obtain ⟨a0, -⟩ := nt4_table_lt A hAc (i / 3 * 3) (by omega)
  obtain ⟨a1, -⟩ := nt4_table_lt A hAc (i / 3 * 3 + 1) (by omega)
  obtain ⟨a2, -⟩ := nt4_table_lt A hAc (i / 3 * 3 + 2) (by omega)
  obtain ⟨ai, ni⟩ := nt4_table_lt A hAc i hi
  obtain ⟨aj, nj⟩ := nt4_table_lt A hAc j hj
  have hc : cod_int (substr A ((i / 3) * 3) 3)
      = (nt4_table (charAt A (i / 3 * 3)) <<< 4) + (nt4_table (charAt A (i / 3 * 3 + 1)) <<< 2)
        + nt4_table (charAt A (i / 3 * 3 + 2)) := by
    unfold cod_int
    rw [charAt_substr _ _ _ _ (by omega), charAt_substr _ _ _ _ (by omega),
      charAt_substr _ _ _ _ (by omega)]
    rfl
  obtain ⟨c64, g0, g1, g2⟩ := codonDigit_index _ a0 _ a1 _ a2
  rw [← hc] at c64 g0 g1 g2
  have hpos : (if (i + 1) % 3 = 0 then 2 else (i + 1) % 3 - 1) = i % 3 := by
    split_ifs <;> omega
  have hown : codonDigit (cod_int (substr A ((i / 3) * 3) 3)) (i % 3) = nt4_table (charAt A i) := by
    have h3 : i % 3 = 0 ∨ i % 3 = 1 ∨ i % 3 = 2 := by omega
    rcases h3 with h | h | h
    · rw [h, g0]
      congr 2
      omega
    · rw [h, g1]
      congr 2
      omega
    · rw [h, g2]
      congr 2
      omega
  have tr : ∀ k, k < A.length →
      transition (substr A ((i / 3) * 3) 3) ((i + 1) % 3) (charAt A k) p
        = p (cod_int (substr A ((i / 3) * 3) 3)) (i % 3) (nt4_table (charAt A k)) := by
    intro k hk
    unfold transition
    simp only [hpos]
    rw [if_pos (nt4_table_lt A hAc k hk).2]
  obtain ⟨hp1, hp2, hp3⟩ := hp (cod_int (substr A ((i / 3) * 3) 3)) (i % 3) c64
    (Nat.mod_lt _ (by decide))
  rw [tr i hi, tr j hj, ← hown]
  refine ⟨?_, hp1 _ aj, hp3 _ aj⟩
  have q0 := hp3 0 (by decide)
  have q1 := hp3 1 (by decide)
  have q2 := hp3 2 (by decide)
  have q3 := hp3 3 (by decide)
  linarith only [q0, q1, q2, q3, hp2]

/-- The tensor `nearTensor` favours identity. -/
theorem nearTensor_identity : IdentityFavouring (nearTensor : Nat → Nat → Nat → α) := by
  intro c pos _ _
  have hlt : codonDigit c pos < 4 := by
    unfold codonDigit
    exact Nat.mod_lt _ (by decide)
  refine ⟨?_, ?_, ?_⟩
  · intro x _
    unfold nearTensor
    split_ifs <;> norm_num
  · unfold nearTensor
    have h4 : codonDigit c pos = 0 ∨ codonDigit c pos = 1 ∨ codonDigit c pos = 2
        ∨ codonDigit c pos = 3 := by omega
    rcases h4 with h | h | h | h <;> rw [h] <;> norm_num
  · intro x _
    unfold nearTensor
    rw [if_pos rfl]
    split_ifs <;> norm_num

/-- Claim C11: over the real numbers, for every non-empty sequence `A` over {A,C,G,T} whose
length is divisible by 3 (and within the range of `int`) and every marginal tensor that
favours identity (rows of positive probabilities that sum to 1, none above that of the
codon's own nucleotide), `mg94_marginal` on the pair (A, A), called with an empty
alignment, returns the pair (A, A): no `-` occurs in either string, the weight is the cost
of the gap-free alignment, and every cell (i,i) of the traceback path holds the match
tag. -/
theorem mg94_self_alignment (p : Nat → Nat → Nat → ℝ) (A : Str) (aln : alignment_t ℝ)
    (hA : A ≠ []) (hA3 : A.length % 3 = 0) (hAc : ∀ c ∈ A, c ∈ ['A', 'C', 'G', 'T'])
    (hlen : A.length < 2 ^ 31) (hp : IdentityFavouring p) (h0 : aln.f.seq_data = []) :
    mg94_marginal realNum p [A, A] aln
      = .ok (0, { f := { seq_names := aln.f.seq_names, seq_data := [A, A] },
                  weight := diagCost realNum p A A A.length }) ∧
    '-' ∉ A ∧
    ∀ i, i ≤ A.length → (mg94_forward realNum p A A).Bd i i = 0 := by
  have ha : '-' ∉ A := by
    intro h
    have := hAc _ h
    revert this
    decide
  have hinv := fun i hi => (mg94_self_inv p A hlen
    (fun i hi => (identity_rows p hp A hA3 hAc i i hi hi).1)
    (fun i j hi hj => (identity_rows p hp A hA3 hAc i j hi hj).2) i i hi hi).1 rfl
  refine ⟨?_, ha, fun i hi => (hinv i hi).1⟩
  unfold mg94_marginal
  simp only [hA3, ne_eq, not_true_eq_false, if_false]
  unfold backtracking
  simp only [h0, List.nil_append, List.singleton_append]
  rw [btLoop_diag _ _ _ A A A.length (A.length + A.length) [] [] (by omega)
    (fun k _ hk => (hinv k hk).1), (hinv A.length (le_refl _)).2, slice_all]
  simp

/-- Claim C11 at the sequence CTCTGG of the test, with `nearTensor`. -/
theorem mg94_self_alignment_witness :
    mg94_marginal realNum nearTensor
        [['C', 'T', 'C', 'T', 'G', 'G'], ['C', 'T', 'C', 'T', 'G', 'G']] ⟨⟨[], []⟩, 0⟩
      = .ok (0, { f := { seq_names := [],
                         seq_data := [['C', 'T', 'C', 'T', 'G', 'G'],
                           ['C', 'T', 'C', 'T', 'G', 'G']] },
                  weight := diagCost realNum nearTensor ['C', 'T', 'C', 'T', 'G', 'G']
                    ['C', 'T', 'C', 'T', 'G', 'G'] 6 }) ∧
    '-' ∉ ['C', 'T', 'C', 'T', 'G', 'G'] ∧
    ∀ i, i ≤ 6 → (mg94_forward realNum nearTensor ['C', 'T', 'C', 'T', 'G', 'G']
      ['C', 'T', 'C', 'T', 'G', 'G']).Bd i i = 0 :=
  mg94_self_alignment nearTensor ['C', 'T', 'C', 'T', 'G', 'G'] ⟨⟨[], []⟩, 0⟩ (by decide)
    (by decide) (by decide) (by norm_num) nearTensor_identity rfl

/-! ## Claim C23: cell (0,0) after the initialisation -/

/-- A property that every iteration preserves holds after the loop in steps of 3. -/
theorem forLoop3_inv {σ : Type} (Pr : σ → Prop) (body : Nat → σ → σ) (lo hi : Nat) (s0 : σ)
    (h0 : Pr s0) (hstep : ∀ k s, lo ≤ k → Pr s → Pr (body k s)) :
    Pr (forLoop3 lo hi body s0) := by
  unfold forLoop3
  have : ∀ (L : List Nat) (s : σ), (∀ k ∈ L, lo ≤ k) → Pr s →
      Pr (L.foldl (fun s k => body k s) s) := by
    intro L
    induction L with
    | nil => intro s _ hs; exact hs
    | cons k rest ih =>
      intro s hL hs
      simp only [List.foldl_cons]
      apply ih
      · intro x hx
        exact hL x (List.mem_cons_of_mem _ hx)
      · exact hstep k s (hL k (List.mem_cons_self _ _)) hs
  apply this _ _ _ h0
  intro k hk
  rw [List.mem_range'] at hk
  obtain ⟨i, _, rfl⟩ := hk
  omega

/-- Counterexample to C23 as stated: after the initialisation of `mg94_marginal` for the
pair AAA, A the cells `P(0,0)` and `Q(0,0)` do not hold 0. -/
theorem init_origin_not_zero :
    (mg94_init realNum ['A'] 3 1).P 0 0 ≠ 0 ∧ (mg94_init realNum ['A'] 3 1).Q 0 0 ≠ 0 := by
  have hB := mg94_init_border realNum ['A'] 3 1
  have hF : (2 : ℝ) ^ 127 ≤ fltMax := fltMax_large
  have h0 : (0 : ℝ) < 2 ^ 127 := by norm_num
  rw [hB.pcol 0, hB.qrow 0]
  constructor <;> linarith only [hF, h0]

/-- Claim C23, amended: after the initialisation of each engine (`mg94_marginal`,
`gotoh_noframeshifts`, `gotoh_profile_marginal`) cell (0,0) holds cost 0 in `D`, and the
sentinel `fltMax`, with which the matrices are allocated, in `P` and in `Q`. -/
theorem init_origin (N : Num α) (seq_b : Str) (pro2 : Profile α) (m n : Nat) :
    ((mg94_init N seq_b m n).D 0 0 = 0 ∧ (mg94_init N seq_b m n).P 0 0 = fltMax ∧
      (mg94_init N seq_b m n).Q 0 0 = fltMax) ∧
    ((nf.init N seq_b m n).D 0 0 = 0 ∧ (nf.init N seq_b m n).P 0 0 = fltMax ∧
      (nf.init N seq_b m n).Q 0 0 = fltMax) ∧
    ((prof.init N pro2 m n).D 0 0 = 0 ∧ (prof.init N pro2 m n).P 0 0 = fltMax ∧
      (prof.init N pro2 m n).Q 0 0 = fltMax) := by
  have hB := mg94_init_border N seq_b m n
  refine ⟨⟨hB.d00, hB.pcol 0, hB.qrow 0⟩, ?_, ?_⟩
  · unfold nf.init
    simp only []
    have hcol : ∀ (s : Mats α), (s.D 0 0 = 0 ∧ s.P 0 0 = fltMax ∧ s.Q 0 0 = fltMax) →
        ((if m + 1 ≥ 6 then forLoop3 6 (m + 1) (nf.col0 N) s else s).D 0 0 = 0 ∧
         (if m + 1 ≥ 6 then forLoop3 6 (m + 1) (nf.col0 N) s else s).P 0 0 = fltMax ∧
         (if m + 1 ≥ 6 then forLoop3 6 (m + 1) (nf.col0 N) s else s).Q 0 0 = fltMax) := by
      intro s hs
      split_ifs
      · apply forLoop3_inv (fun t : Mats α => t.D 0 0 = 0 ∧ t.P 0 0 = fltMax ∧ t.Q 0 0 = fltMax)
          _ _ _ _ hs
        intro k t hk ht
        have h : ¬ (0 = k ∧ 0 = 0) := by omega
        simp only [nf.col0, setAt_other _ _ _ _ _ _ h]
        exact ht
      · exact hs
    have hrow : ∀ (s : Mats α), (s.D 0 0 = 0 ∧ s.P 0 0 = fltMax ∧ s.Q 0 0 = fltMax) →
        ((if n + 1 ≥ 6 then forLoop3 6 (n + 1) (nf.row0 N seq_b) s else s).D 0 0 = 0 ∧
         (if n + 1 ≥ 6 then forLoop3 6 (n + 1) (nf.row0 N seq_b) s else s).P 0 0 = fltMax ∧
         (if n + 1 ≥ 6 then forLoop3 6 (n + 1) (nf.row0 N seq_b) s else s).Q 0 0 = fltMax) := by
      intro s hs
      split_ifs
      · apply forLoop3_inv (fun t : Mats α => t.D 0 0 = 0 ∧ t.P 0 0 = fltMax ∧ t.Q 0 0 = fltMax)
          _ _ _ _ hs
        intro k t hk ht
        have h : ¬ (0 = 0 ∧ 0 = k) := by omega
        simp only [nf.row0, setAt_other _ _ _ _ _ _ h]
        exact ht
      · exact hs
    apply hcol
    apply hrow
    simp [setAt, Mats.fresh]
  · unfold prof.init
    simp only []
    have hcol : ∀ (s : Mats α), (s.D 0 0 = 0 ∧ s.P 0 0 = fltMax ∧ s.Q 0 0 = fltMax) →
        ((if m + 1 ≥ 2 then forLoop 2 (m + 1) (mg94_col0 N) s else s).D 0 0 = 0 ∧
         (if m + 1 ≥ 2 then forLoop 2 (m + 1) (mg94_col0 N) s else s).P 0 0 = fltMax ∧
         (if m + 1 ≥ 2 then forLoop 2 (m + 1) (mg94_col0 N) s else s).Q 0 0 = fltMax) := by
      intro s hs
      split_ifs
      · apply forLoop_inv (fun t : Mats α => t.D 0 0 = 0 ∧ t.P 0 0 = fltMax ∧ t.Q 0 0 = fltMax)
          _ _ _ _ hs
        intro k t hk _ ht
        have h : ¬ (0 = k ∧ 0 = 0) := by omega
        simp only [mg94_col0, setAt_other _ _ _ _ _ _ h]
        exact ht
      · exact hs
    have hrow : ∀ (s : Mats α), (s.D 0 0 = 0 ∧ s.P 0 0 = fltMax ∧ s.Q 0 0 = fltMax) →
        ((if n + 1 ≥ 2 then forLoop 2 (n + 1) (prof.row0 N pro2) s else s).D 0 0 = 0 ∧
         (if n + 1 ≥ 2 then forLoop 2 (n + 1) (prof.row0 N pro2) s else s).P 0 0 = fltMax ∧
         (if n + 1 ≥ 2 then forLoop 2 (n + 1) (prof.row0 N pro2) s else s).Q 0 0 = fltMax) := by
      intro s hs
      split_ifs
      · apply forLoop_inv (fun t : Mats α => t.D 0 0 = 0 ∧ t.P 0 0 = fltMax ∧ t.Q 0 0 = fltMax)
          _ _ _ _ hs
        intro k t hk _ ht
        have h : ¬ (0 = 0 ∧ 0 = k) := by omega
        simp only [prof.row0, setAt_other _ _ _ _ _ _ h]
        exact ht
      · exact hs
    apply hcol
    apply hrow
    simp [setAt, Mats.fresh]

/-! ## Claim C29: the raw-sequence `transition` -/

/-- Claim C29: for every codon over {A,C,G,T} (nucleotides with the codes `a`, `b`, `c`) and
every position argument, the raw-sequence `transition` with the nucleotide `N` returns the
arithmetic mean of the four emission probabilities of the codon at the remapped position
(0 gives 2, any other `position` gives `position - 1`), and with a nucleotide `x` of
{A,C,G,T} it returns the entry of the tensor for the codon, that position and `x`; the
codon index is below 64. -/
theorem transition_mean (a b c : Fin 4) (position : Nat) (p : Nat → Nat → Nat → α) :
    16 * a.val + 4 * b.val + c.val < 64 ∧
    transition [nucOfCode a, nucOfCode b, nucOfCode c] position 'N' p
      = (p (16 * a.val + 4 * b.val + c.val) (if position = 0 then 2 else position - 1) 0
        + p (16 * a.val + 4 * b.val + c.val) (if position = 0 then 2 else position - 1) 1
        + p (16 * a.val + 4 * b.val + c.val) (if position = 0 then 2 else position - 1) 2
        + p (16 * a.val + 4 * b.val + c.val) (if position = 0 then 2 else position - 1) 3) / 4 ∧
    ∀ x : Fin 4, transition [nucOfCode a, nucOfCode b, nucOfCode c] position (nucOfCode x) p
      = p (16 * a.val + 4 * b.val + c.val) (if position = 0 then 2 else position - 1) x.val := by
  refine ⟨by omega, ?_, ?_⟩
  · unfold transition
    simp only [cod_int_formula, ne_eq, not_true_eq_false, if_false, zero_add]
  · intro x
    have hx : nucOfCode x ≠ 'N' := by fin_cases x <;> decide
    unfold transition
    simp only [cod_int_formula, if_pos hx, nt4_table_nucOfCode]

/-! ## Claim C27: the boundary of `mg94_marginal` is an affine gap run -/

/-- Counterexample to C28 as stated: for the pair AAA, A over the real numbers the second
deletion of the first column costs `-log(1 - 1/6)` and not that plus `-log(0.308)`, the
logarithm of the frequency of the deleted symbol `A`. -/
theorem mg94_deletion_no_frequency :
    (mg94_forward realNum (fun _ _ _ => 1 / 4) ['A', 'A', 'A'] ['A']).D 2 0
        - (mg94_forward realNum (fun _ _ _ => 1 / 4) ['A', 'A', 'A'] ['A']).D 1 0
      = -deletion_ext realNum ∧
    -deletion_ext realNum ≠ -deletion_ext realNum - nuc_freqs realNum (nt4_table 'A') := by
  have hB := mg94_forward_border_spec realNum (fun _ _ _ => (1 / 4 : ℝ)) ['A', 'A', 'A'] ['A']
  constructor
  · rw [hB.dcol 2 (le_refl 2) (by decide)]
    simp
  · have := (realNum_sound).freq_upper (nt4_table 'A')
    intro h
    linarith only [this, h]

/-- Claim C28, amended: in `mg94_marginal` every insertion step adds `-log` of the
background frequency of the symbol `B[j-1]` that it emits (`nuc_freqs` at the code of the
symbol), whether it extends `P(i,j-1)` or follows the stored cost `D(i,j-1)`; a deletion
step adds no frequency: `Q(i,j)` is `Q(i-1,j)` or `D(i-1,j)` less logarithms of the gap
parameters only, whatever the deleted symbol `A[i-1]` is. -/
theorem mg94_gap_steps (N : Num α) (p : Nat → Nat → Nat → α) (seq_a seq_b : Str) (i j : Nat)
    (him : i ≤ seq_a.length) (hjn : j ≤ seq_b.length) :
    (1 ≤ j →
      ((mg94_forward N p seq_a seq_b).Bp i j = 1 →
        (mg94_forward N p seq_a seq_b).P i j
          = (mg94_forward N p seq_a seq_b).P i (j - 1) - insertion_ext N
              - nuc_freqs N (nt4_table (charAt seq_b (j - 1)))) ∧
      ((mg94_forward N p seq_a seq_b).Bp i j ≠ 1 →
        (mg94_forward N p seq_a seq_b).Bd i (j - 1) = 0 →
        (mg94_forward N p seq_a seq_b).P i j
          = (mg94_forward N p seq_a seq_b).D i (j - 1) - insertion N
              - nuc_freqs N (nt4_table (charAt seq_b (j - 1))) - no_insertion_ext N) ∧
      ((mg94_forward N p seq_a seq_b).Bp i j ≠ 1 →
        (mg94_forward N p seq_a seq_b).Bd i (j - 1) = 1 →
        (mg94_forward N p seq_a seq_b).P i j
          = (mg94_forward N p seq_a seq_b).D i (j - 1) - insertion_ext N
              - nuc_freqs N (nt4_table (charAt seq_b (j - 1))))) ∧
    (1 ≤ i →
      ((mg94_forward N p seq_a seq_b).Bq i j = 1 →
        (mg94_forward N p seq_a seq_b).Q i j
          = (mg94_forward N p seq_a seq_b).Q (i - 1) j - deletion_ext N) ∧
      ((mg94_forward N p seq_a seq_b).Bq i j ≠ 1 →
        (mg94_forward N p seq_a seq_b).Q i j
          = (if (mg94_forward N p seq_a seq_b).Bd (i - 1) j = 0 then
              (mg94_forward N p seq_a seq_b).D (i - 1) j - no_insertion N - deletion N
                - no_deletion_ext N
             else if (mg94_forward N p seq_a seq_b).Bd (i - 1) j = 1 then
              (mg94_forward N p seq_a seq_b).D (i - 1) j - no_deletion_ext N - deletion N
             else (mg94_forward N p seq_a seq_b).D (i - 1) j - deletion_ext N))) ∧
    nuc_freqs N (nt4_table 'A') = N.log 0.308 ∧ nuc_freqs N (nt4_table 'C') = N.log 0.185 ∧
    nuc_freqs N (nt4_table 'G') = N.log 0.199 ∧ nuc_freqs N (nt4_table 'T') = N.log 0.308 := by
  refine ⟨?_, ?_, rfl, rfl, rfl, rfl⟩
  · intro hj
    obtain ⟨h1, h2⟩ := mg94_P_step N p seq_a seq_b i j him hj hjn
    refine ⟨h1, ?_, ?_⟩
    · intro hb h0
      rw [h2 hb]
      unfold mg94_p2
      rw [if_pos h0]
    · intro hb h0
      rw [h2 hb]
      unfold mg94_p2
      rw [if_neg (by rw [h0]; decide), if_pos h0]
  · intro hi
    obtain ⟨h1, h2⟩ := mg94_Q_step N p seq_a seq_b i j hi him hjn
    exact ⟨h1, fun hb => by rw [h2 hb]; rfl⟩

/-- Claim C28, amended, at the pair CTCTGG, CCTGG of the test: the cell (2,0) extends the
deletion of cell (1,0) at the cost `-log(1 - 1/6)`. -/
theorem mg94_gap_steps_witness :
    (mg94_forward realNum (fun _ _ _ => 1 / 4) ['C', 'T', 'C', 'T', 'G', 'G']
        ['C', 'C', 'T', 'G', 'G']).Q 2 0
      = (mg94_forward realNum (fun _ _ _ => 1 / 4) ['C', 'T', 'C', 'T', 'G', 'G']
        ['C', 'C', 'T', 'G', 'G']).Q (2 - 1) 0 - deletion_ext realNum :=
  ((mg94_gap_steps realNum (fun _ _ _ => 1 / 4) ['C', 'T', 'C', 'T', 'G', 'G']
    ['C', 'C', 'T', 'G', 'G'] 2 0 (by decide) (by decide)).2.1 (by decide)).1
    ((mg94_forward_border_spec realNum (fun _ _ _ => 1 / 4) ['C', 'T', 'C', 'T', 'G', 'G']
      ['C', 'C', 'T', 'G', 'G']).bqcol 2 (le_refl 2) (by decide))

/-! ## Claim C30: the codon and the position of a substitution -/

/-- The codon `seq_a.substr(3 q, 3)` of a sequence that holds it whole. -/
theorem substr_codon (s : Str) (q : Nat) (h : 3 * q + 3 ≤ s.length) :
    substr s (q * 3) 3 = [charAt s (3 * q), charAt s (3 * q + 1), charAt s (3 * q + 2)] := by
  apply List.ext_getElem?
  intro k
  unfold substr charAt
  rw [List.getElem?_take, List.getElem?_drop]
  rcases k with _ | _ | _ | k
  · simp only [Nat.lt_add_one, if_true, Nat.add_zero, List.getElem?_cons_zero]
    rw [List.getD_eq_getElem?_getD, Nat.mul_comm q 3,
      List.getElem?_eq_getElem (show 3 * q < s.length by omega)]
    rfl
  · simp only [Nat.zero_add, Nat.one_lt_ofNat, if_true, List.getElem?_cons_succ,
      List.getElem?_cons_zero]
    rw [List.getD_eq_getElem?_getD, Nat.mul_comm q 3,
      List.getElem?_eq_getElem (show 3 * q + 1 < s.length by omega)]
    rfl
  · simp only [Nat.zero_add, Nat.reduceAdd, Nat.lt_add_one, if_true, List.getElem?_cons_succ,
      List.getElem?_cons_zero]
    rw [List.getD_eq_getElem?_getD, Nat.mul_comm q 3,
      List.getElem?_eq_getElem (show 3 * q + 2 < s.length by omega)]
    rfl
  · simp

/-- Claim C30: for a reference of whole codons and every row `1 <= i <= m`, the match
candidate of `mg94_marginal` at (i,j) is `D(i-1,j-1)`, less the logarithms that follow the
tag, less the logarithm of `transition` for the codon
`A[3 q], A[3 q + 1], A[3 q + 2]` with `q = (i-1)/3`, which contains `A[i-1]`, the position
argument `i mod 3` and the symbol `B[j-1]`; `transition` with the argument `i mod 3` reads
the tensor at position `(i-1) mod 3`; and the profile `transition` with the argument
`i mod 3` reads the tensor at that position only. -/
theorem mg94_d_codon (N : Num α) (p : Nat → Nat → Nat → α) (seq_a seq_b : Str) (s : Mats α)
    (i j : Nat) (hA3 : seq_a.length % 3 = 0) (hi : 1 ≤ i) (him : i ≤ seq_a.length) :
    3 * ((i - 1) / 3) ≤ i - 1 ∧ i - 1 ≤ 3 * ((i - 1) / 3) + 2 ∧
    mg94_d N p seq_a seq_b s i j
      = (if s.Bd (i - 1) (j - 1) = 0 then s.D (i - 1) (j - 1) - no_insertion N - no_deletion N
         else if s.Bd (i - 1) (j - 1) = 1 then s.D (i - 1) (j - 1) - no_deletion N
         else s.D (i - 1) (j - 1))
        - N.log (transition [charAt seq_a (3 * ((i - 1) / 3)),
            charAt seq_a (3 * ((i - 1) / 3) + 1), charAt seq_a (3 * ((i - 1) / 3) + 2)]
            (i % 3) (charAt seq_b (j - 1)) p) ∧
    (∀ (codon : Str) (x : Char), x ≠ 'N' →
      transition codon (i % 3) x p = p (cod_int codon) ((i - 1) % 3) (nt4_table x)) ∧
    (∀ codon : Str, transition codon (i % 3) 'N' p
      = (p (cod_int codon) ((i - 1) % 3) 0 + p (cod_int codon) ((i - 1) % 3) 1
          + p (cod_int codon) ((i - 1) % 3) 2 + p (cod_int codon) ((i - 1) % 3) 3) / 4) ∧
    (∀ (cod : Nat → Nat → α) (nuc : Nat → α) (p2 : Nat → Nat → Nat → α),
      (∀ c x, p c ((i - 1) % 3) x = p2 c ((i - 1) % 3) x) →
      profile_aln.transition cod (i % 3) nuc p = profile_aln.transition cod (i % 3) nuc p2) := by
  have hpos : (if i % 3 = 0 then 2 else i % 3 - 1) = (i - 1) % 3 := by
    split_ifs <;> omega
  refine ⟨by omega, by omega, ?_, ?_, ?_, ?_⟩
  · unfold mg94_d
    simp only []
    rw [substr_codon seq_a ((i - 1) / 3) (by omega)]
    split_ifs <;> rfl
  · intro codon x hx
    unfold transition
    simp only [hpos]
    rw [if_pos hx]
  · intro codon
    unfold transition
    simp only [hpos, ne_eq, not_true_eq_false, if_false, zero_add]
  · intro cod nuc p2 h
    unfold profile_aln.transition
    simp only [hpos, addWeighted, h]

/-- Claim C30 at the pair CTCTGG, CCTGG of the test: row 5 reads the codon TGG at tensor
position 1. -/
theorem mg94_d_codon_witness :
    transition ['T', 'G', 'G'] (5 % 3) 'G' (fun _ _ _ => (1 / 4 : ℝ))
      = (fun _ _ _ => (1 / 4 : ℝ)) (cod_int ['T', 'G', 'G']) ((5 - 1) % 3) (nt4_table 'G') :=
  (mg94_d_codon realNum (fun _ _ _ => 1 / 4) ['C', 'T', 'C', 'T', 'G', 'G']
    ['C', 'C', 'T', 'G', 'G'] Mats.fresh 5 4 (by decide) (by decide) (by decide)).2.2.2.1
    ['T', 'G', 'G'] 'G' (by decide)

/-! ## Claims C21, C24, C25: tags, sentinels and monotone costs of `mg94_marginal` -/

/-- Sequences whose lengths are within the range of `int` keep every bound `1009 (i + j)` on
a stored cost below the sentinels. -/
theorem real_size_bound (m n : Nat) (hm : m < 2 ^ 31) (hn : n < 2 ^ 31) :
    1009 * ((m : ℝ) + (n : ℝ)) < 2 ^ 127 ∧ 1009 * ((m : ℝ) + (n : ℝ)) < fltMax ∧
    1009 * ((m : ℝ) + (n : ℝ)) < dblMax := by
  have h1 : (m : ℝ) < 2 ^ 31 := by exact_mod_cast hm
  have h2 : (n : ℝ) < 2 ^ 31 := by exact_mod_cast hn
  have h3 : (2 : ℝ) ^ 127 ≤ fltMax := fltMax_large
  have h4 : (2 : ℝ) ^ 127 ≤ dblMax := dblMax_large
  have h5 : (1009 : ℝ) * (2 ^ 31 + 2 ^ 31) < 2 ^ 127 := by norm_num
  refine ⟨?_, ?_, ?_⟩ <;> linarith

/-- The values of the tag matrices `Bp` and `Bq` of `mg94_marginal`: 1 (extend) or 2
(open) at every cell that the forward pass writes. -/
theorem mg94_gap_tags (N : Num α) (p : Nat → Nat → Nat → α) (seq_a seq_b : Str) (i j : Nat)
    (him : i ≤ seq_a.length) (hjn : j ≤ seq_b.length) :
    (1 ≤ j → (mg94_forward N p seq_a seq_b).Bp i j ≠ 1 →
      (mg94_forward N p seq_a seq_b).Bp i j = 2) ∧
    (1 ≤ i → (mg94_forward N p seq_a seq_b).Bq i j ≠ 1 →
      (mg94_forward N p seq_a seq_b).Bq i j = 2) := by
  have hB := mg94_forward_border_spec N p seq_a seq_b
  constructor
  · intro hj h1
    by_cases hi : i = 0
    · subst hi
      by_cases hj1 : j = 1
      · subst hj1
        exact hB.bp01
      · exact absurd (hB.bprow j (by omega) hjn) h1
    · obtain ⟨-, -, hbp, -⟩ := mg94_forward_eqs N p seq_a seq_b i j (by omega) him hj hjn
      rw [hbp] at h1 ⊢
      split_ifs at h1 ⊢ with h
      · exact absurd rfl h1
      · rfl
  · intro hi h1
    by_cases hj : j = 0
    · subst hj
      by_cases hi1 : i = 1
      · subst hi1
        exact hB.bq10
      · exact absurd (hB.bqcol i (by omega) him) h1
    · obtain ⟨-, -, -, hbq, -⟩ := mg94_forward_eqs N p seq_a seq_b i j hi him (by omega) hjn
      rw [hbq] at h1 ⊢
      split_ifs at h1 ⊢ with h
      · exact absurd rfl h1
      · rfl

/-- Claim C21: over the real numbers, for every non-empty reference `A` over {A,C,G,T} whose
length is divisible by 3 and every non-empty sequence `B` over {A,C,G,T,N} (lengths within
the range of `int`) and every tensor, after the forward pass of `mg94_marginal` every
`Bd(i,j)` is 0, 1 or 2; the match tag away from (0,0) stands at a cell with `i >= 1` and
`j >= 1`; `Bd(i,j) = 1` implies that following the `Bp` tags 1 (extend) leftwards from (i,j)
reaches a tag 2 (open) at a column `js >= 1`; `Bd(i,j) = 2` implies that following the `Bq`
tags 1 upwards reaches a tag 2 at a row `is >= 1`; and the traceback of `mg94_marginal`,
called with an empty alignment, ends at (0,0) with a result: it neither reads outside the
matrices or the sequences nor runs on. -/
theorem mg94_tags_wellformed (p : Nat → Nat → Nat → ℝ) (A B : Str) (aln : alignment_t ℝ)
    (hA : A ≠ []) (hA3 : A.length % 3 = 0) (hAc : ∀ c ∈ A, c ∈ ['A', 'C', 'G', 'T'])
    (hB : B ≠ []) (hBc : ∀ c ∈ B, c ∈ ['A', 'C', 'G', 'T', 'N'])
    (hAlen : A.length < 2 ^ 31) (hBlen : B.length < 2 ^ 31) (h0 : aln.f.seq_data = []) :
    (∀ i j, i ≤ A.length → j ≤ B.length →
      ((mg94_forward realNum p A B).Bd i j = 0 ∨ (mg94_forward realNum p A B).Bd i j = 1
        ∨ (mg94_forward realNum p A B).Bd i j = 2) ∧
      ((mg94_forward realNum p A B).Bd i j = 0 → ¬ (i = 0 ∧ j = 0) → 1 ≤ i ∧ 1 ≤ j) ∧
      ((mg94_forward realNum p A B).Bd i j = 1 →
        ∃ js, 1 ≤ js ∧ js ≤ j ∧ (mg94_forward realNum p A B).Bp i js = 2 ∧
          ∀ j2, js < j2 → j2 ≤ j → (mg94_forward realNum p A B).Bp i j2 = 1) ∧
      ((mg94_forward realNum p A B).Bd i j = 2 →
        ∃ is, 1 ≤ is ∧ is ≤ i ∧ (mg94_forward realNum p A B).Bq is j = 2 ∧
          ∀ i2, is < i2 → i2 ≤ i → (mg94_forward realNum p A B).Bq i2 j = 1)) ∧
    ∃ s0 s1 : Str,
      mg94_marginal realNum p [A, B] aln
        = .ok (0, { f := { seq_names := aln.f.seq_names, seq_data := [s0, s1] },
                    weight := (mg94_forward realNum p A B).D A.length B.length }) := by
  have ha : '-' ∉ A := by
    intro h
    have := hAc _ h
    revert this
    decide
  have hb : '-' ∉ B := by
    intro h
    have := hBc _ h
    revert this
    decide
  have hsize := (real_size_bound A.length B.length hAlen hBlen).2.1
  have hT := mg94_tags_ok realNum realNum_sound p A B hsize
  have hBo := mg94_forward_border_spec realNum p A B
  constructor
  · intro i j him hjn
    by_cases h00 : i = 0 ∧ j = 0
    · obtain ⟨rfl, rfl⟩ := h00
      rw [hBo.bd00]
      exact ⟨Or.inl rfl, fun _ h => absurd ⟨rfl, rfl⟩ h, fun h => absurd h (by decide),
        fun h => absurd h (by decide)⟩
    · rcases hT i j him hjn h00 with ⟨h0, hi, hj⟩ | ⟨h1, js, hjs, hjsj, hopen, hext⟩
          | ⟨hn0, hn1, is, his, hisi, hopen, hext⟩
      · rw [h0]
        exact ⟨Or.inl rfl, fun _ _ => ⟨hi, hj⟩, fun h => absurd h (by decide),
          fun h => absurd h (by decide)⟩
      · rw [h1]
        exact ⟨Or.inr (Or.inl rfl), fun h => absurd h (by decide),
          fun _ => ⟨js, hjs, hjsj,
            (mg94_gap_tags realNum p A B i js him (by omega)).1 hjs hopen, hext⟩,
          fun h => absurd h (by decide)⟩
      · have h2 := ((mg94_D_grid realNum p A B i j him hjn h00).2.2 hn0 hn1).1
        rw [h2]
        exact ⟨Or.inr (Or.inr rfl), fun h => absurd h (by decide),
          fun h => absurd h (by decide),
          fun _ => ⟨is, his, hisi,
            (mg94_gap_tags realNum p A B is j (by omega) hjn).2 his hopen, hext⟩⟩
  · obtain ⟨s0, s1, hrun, -⟩ :=
      mg94_marginal_ok realNum realNum_sound p A B aln hA3 ha hb hsize h0
    exact ⟨s0, s1, hrun⟩

/-- Claim C21 at the pair CTCTGG, CCTGG of the test, with the uniform tensor. -/
theorem mg94_tags_wellformed_witness :
    ∃ s0 s1 : Str,
      mg94_marginal realNum (fun _ _ _ => 1 / 4)
          [['C', 'T', 'C', 'T', 'G', 'G'], ['C', 'C', 'T', 'G', 'G']] ⟨⟨[], []⟩, 0⟩
        = .ok (0, { f := { seq_names := [], seq_data := [s0, s1] },
                    weight := (mg94_forward realNum (fun _ _ _ => 1 / 4)
                      ['C', 'T', 'C', 'T', 'G', 'G'] ['C', 'C', 'T', 'G', 'G']).D 6 5 }) :=
  (mg94_tags_wellformed (fun _ _ _ => 1 / 4) ['C', 'T', 'C', 'T', 'G', 'G']
    ['C', 'C', 'T', 'G', 'G'] ⟨⟨[], []⟩, 0⟩ (by decide) (by decide) (by decide) (by decide)
    (by decide) (by norm_num) (by norm_num) rfl).2

/-- Claim C24: over the real numbers, for sequences whose lengths are within the range of
`int` and every tensor, the value that `mg94_marginal` stores in `D(i,j)` is strictly below
the sentinels `numeric_limits<float>::max()` and `numeric_limits<double>::max()` at every
cell `0 <= i <= m`, `0 <= j <= n`; and a gap matrix entry that is selected (`Bd(i,j) = 1`
selects `P(i,j)`, `Bd(i,j) = 2` selects `Q(i,j)`) is not a sentinel. -/
theorem mg94_D_below_sentinel (p : Nat → Nat → Nat → ℝ) (A B : Str)
    (hAlen : A.length < 2 ^ 31) (hBlen : B.length < 2 ^ 31) (i j : Nat)
    (him : i ≤ A.length) (hjn : j ≤ B.length) :
    (mg94_forward realNum p A B).D i j < fltMax ∧ (mg94_forward realNum p A B).D i j < dblMax ∧
    ((mg94_forward realNum p A B).Bd i j = 1 →
      (mg94_forward realNum p A B).D i j = (mg94_forward realNum p A B).P i j ∧
      (mg94_forward realNum p A B).P i j < fltMax) ∧
    ((mg94_forward realNum p A B).Bd i j = 2 →
      (mg94_forward realNum p A B).D i j = (mg94_forward realNum p A B).Q i j ∧
      (mg94_forward realNum p A B).Q i j < fltMax) := by
  obtain ⟨-, hf, hd⟩ := real_size_bound A.length B.length hAlen hBlen
  have hD := mg94_D_bound realNum realNum_sound p A B i j him hjn
  have hi : (i : ℝ) ≤ A.length := by exact_mod_cast him
  have hj : (j : ℝ) ≤ B.length := by exact_mod_cast hjn
  have hDf : (mg94_forward realNum p A B).D i j < fltMax := by linarith only [hD, hi, hj, hf]
  have hBo := mg94_forward_border_spec realNum p A B
  refine ⟨hDf, by linarith only [hD, hi, hj, hd], ?_, ?_⟩
  · intro h1
    have h00 : ¬ (i = 0 ∧ j = 0) := by
      rintro ⟨rfl, rfl⟩
      rw [hBo.bd00] at h1
      exact absurd h1 (by decide)
    have h := (mg94_D_grid realNum p A B i j him hjn h00).2.1 h1
    exact ⟨h, by rw [← h]; exact hDf⟩
  · intro h2
    have h00 : ¬ (i = 0 ∧ j = 0) := by
      rintro ⟨rfl, rfl⟩
      rw [hBo.bd00] at h2
      exact absurd h2 (by decide)
    have h := ((mg94_D_grid realNum p A B i j him hjn h00).2.2 (by rw [h2]; decide)
      (by rw [h2]; decide)).2
    exact ⟨h, by rw [← h]; exact hDf⟩

/-- Claim C24 at the last cell of the pair CTCTGG, CCTGG of the test. -/
theorem mg94_D_below_sentinel_witness :
    (mg94_forward realNum (fun _ _ _ => 1 / 4) ['C', 'T', 'C', 'T', 'G', 'G']
        ['C', 'C', 'T', 'G', 'G']).D 6 5 < fltMax :=
  (mg94_D_below_sentinel (fun _ _ _ => 1 / 4) ['C', 'T', 'C', 'T', 'G', 'G']
    ['C', 'C', 'T', 'G', 'G'] (by norm_num) (by norm_num) 6 5 (by decide) (by decide)).1

/-- Claim C25: over the real numbers, with every emission probability in (0,1] and
sequences whose lengths are within the range of `int`, no step of `mg94_marginal` lowers the
cost: `D(0,j-1) <= D(0,j)`, `D(i-1,0) <= D(i,0)`, and at an interior cell `D(i,j)` is at
least the stored cost of the cell that its tag points to: (i-1,j-1) for a match, (i,j-1) for
an insertion, (i-1,j) for a deletion. -/
theorem mg94_costs_monotone (p : Nat → Nat → Nat → ℝ)
    (hp : ∀ c pos x, 0 < p c pos x ∧ p c pos x ≤ 1) (A B : Str)
    (hAlen : A.length < 2 ^ 31) (hBlen : B.length < 2 ^ 31) :
    (∀ j, 1 ≤ j → j ≤ B.length →
      (mg94_forward realNum p A B).D 0 (j - 1) ≤ (mg94_forward realNum p A B).D 0 j) ∧
    (∀ i, 1 ≤ i → i ≤ A.length →
      (mg94_forward realNum p A B).D (i - 1) 0 ≤ (mg94_forward realNum p A B).D i 0) ∧
    (∀ i j, 1 ≤ i → i ≤ A.length → 1 ≤ j → j ≤ B.length →
      ((mg94_forward realNum p A B).Bd i j = 0 →
        (mg94_forward realNum p A B).D (i - 1) (j - 1) ≤ (mg94_forward realNum p A B).D i j) ∧
      ((mg94_forward realNum p A B).Bd i j = 1 →
        (mg94_forward realNum p A B).D i (j - 1) ≤ (mg94_forward realNum p A B).D i j) ∧
      ((mg94_forward realNum p A B).Bd i j = 2 →
        (mg94_forward realNum p A B).D (i - 1) j ≤ (mg94_forward realNum p A B).D i j)) := by
  obtain ⟨-, hf, hd⟩ := real_size_bound A.length B.length hAlen hBlen
  have hBo := mg94_forward_border_spec realNum p A B
  obtain ⟨⟨-, hins⟩, ⟨-, hdel⟩, ⟨-, hie⟩, ⟨-, hde⟩, ⟨-, hni⟩, ⟨-, hnd⟩, ⟨-, hnie⟩, ⟨-, hnde⟩,
    hfr⟩ := (realNum_sound).gap_bounds
  -- a stored cost is below both sentinels
  have hlt : ∀ i j, i ≤ A.length → j ≤ B.length →
      (mg94_forward realNum p A B).D i j < fltMax ∧
      (mg94_forward realNum p A B).D i j < dblMax := by
    intro i j him hjn
    have hD := mg94_D_bound realNum realNum_sound p A B i j him hjn
    have hi : (i : ℝ) ≤ A.length := by exact_mod_cast him
    have hj : (j : ℝ) ≤ B.length := by exact_mod_cast hjn
    exact ⟨by linarith only [hD, hi, hj, hf], by linarith only [hD, hi, hj, hd]⟩
  -- a stored cost is at most the two gap costs of its cell
  have hDP : ∀ i j, i ≤ A.length → j ≤ B.length → ¬ (i = 0 ∧ j = 0) →
      (mg94_forward realNum p A B).D i j ≤ (mg94_forward realNum p A B).P i j := by
    intro i j him hjn h00
    by_cases hi : i = 0
    · subst hi
      exact le_of_eq (mg94_row0_D_eq_P realNum p A B j (by omega) hjn)
    · by_cases hj : j = 0
      · subst hj
        rw [hBo.pcol i]
        exact le_of_lt (hlt i 0 him hjn).1
      · obtain ⟨-, -, -, -, -, hDe⟩ :=
          mg94_forward_eqs realNum p A B i j (by omega) him (by omega) hjn
        rw [hDe]
        split_ifs with h1 h2 h3
        · exact le_of_lt h1
        · exact le_trans (not_lt.mp h2) (le_of_lt h1)
        · exact le_refl _
        · exact not_lt.mp h3
  have hDQ : ∀ i j, i ≤ A.length → j ≤ B.length → ¬ (i = 0 ∧ j = 0) →
      (mg94_forward realNum p A B).D i j ≤ (mg94_forward realNum p A B).Q i j := by
    intro i j him hjn h00
    by_cases hj : j = 0
    · subst hj
      exact le_of_eq (mg94_col0_D_eq_Q realNum p A B i (by omega) him)
    · by_cases hi : i = 0
      · subst hi
        rw [hBo.qrow j]
        exact le_of_lt (hlt 0 j him hjn).1
      · exact mg94_D_le_Q realNum p A B i j (by omega) him (by omega) hjn
  refine ⟨?_, ?_, ?_⟩
  · intro j hj hjn
    by_cases hj1 : j = 1
    · subst hj1
      rw [hBo.d01, hBo.d00]
      have := (hfr (nt4_table (charAt B 0))).2
      linarith only [hins, hnie, this]
    · rw [hBo.drow j (by omega) hjn]
      have := (hfr (nt4_table (charAt B (j - 1)))).2
      linarith only [hie, this]
  · intro i hi him
    by_cases hi1 : i = 1
    · subst hi1
      rw [hBo.d10, hBo.d00]
      linarith only [hni, hdel, hnde]
    · rw [hBo.dcol i (by omega) him]
      linarith only [hde]
  · intro i j hi him hj hjn
    obtain ⟨h0, h1, h2⟩ := mg94_D_by_tag realNum p A B i j hi him hj hjn
    refine ⟨?_, ?_, ?_⟩
    · intro hb
      rw [h0 hb]
      exact mg94_d_ge realNum realNum_sound p hp A B _ i j
    · intro hb
      rw [h1 hb]
      have hfq := (hfr (nt4_table (charAt B (j - 1)))).2
      rcases (mg94_P_step realNum p A B i j him hj hjn) with ⟨hp1, hp2⟩
      by_cases hbp : (mg94_forward realNum p A B).Bp i j = 1
      · rw [hp1 hbp]
        by_cases hj1 : j = 1
        · subst hj1
          rw [hBo.pcol i]
          have := (hlt i 0 him (by omega)).1
          simp only [Nat.sub_self]
          linarith only [hie, hfq, this]
        · have := hDP i (j - 1) him (by omega) (by omega)
          linarith only [hie, hfq, this]
      · rw [hp2 hbp]
        unfold mg94_p2
        split_ifs
        · linarith only [hins, hnie, hfq]
        · linarith only [hie, hfq]
        · exact le_of_lt (hlt i (j - 1) him (by omega)).2
    · intro hb
      rw [(h2 (by rw [hb]; decide) (by rw [hb]; decide)).2]
      rcases (mg94_Q_step realNum p A B i j hi him hjn) with ⟨hq1, hq2⟩
      by_cases hbq : (mg94_forward realNum p A B).Bq i j = 1
      · rw [hq1 hbq]
        by_cases hi1 : i = 1
        · subst hi1
          rw [hBo.qrow j]
          have := (hlt 0 j (by omega) hjn).1
          simp only [Nat.sub_self]
          linarith only [hde, this]
        · have := hDQ (i - 1) j (by omega) hjn (by omega)
          linarith only [hde, this]
      · rw [hq2 hbq]
        unfold mg94_q2
        split_ifs
        · linarith only [hni, hdel, hnde]
        · linarith only [hdel, hnde]
        · linarith only [hde]

/-- Claim C25 at the pair CTCTGG, CCTGG of the test: the first row at column 2. -/
theorem mg94_costs_monotone_witness :
    (mg94_forward realNum (fun _ _ _ => 1 / 4) ['C', 'T', 'C', 'T', 'G', 'G']
        ['C', 'C', 'T', 'G', 'G']).D 0 (2 - 1)
      ≤ (mg94_forward realNum (fun _ _ _ => 1 / 4) ['C', 'T', 'C', 'T', 'G', 'G']
        ['C', 'C', 'T', 'G', 'G']).D 0 2 :=
  (mg94_costs_monotone (fun _ _ _ => 1 / 4) (fun _ _ _ => by norm_num)
    ['C', 'T', 'C', 'T', 'G', 'G'] ['C', 'C', 'T', 'G', 'G'] (by norm_num) (by norm_num)).1 2
    (by decide) (by decide)

/-! ## Claim C26: the first row of `gotoh_profile_marginal` -/

theorem prof_row0_frame (N : Num α) (pro2 : Profile α) (j : Nat) (s : Mats α) (c : Nat × Nat)
    (hc : c ≠ (0, j)) : (prof.row0 N pro2 j s).rowPart c = s.rowPart c := by
  obtain ⟨a, b⟩ := c
  have h : ¬ (a = 0 ∧ b = j) := fun h => hc (by rw [h.1, h.2])
  simp [prof.row0, Mats.rowPart, setAt, h]

theorem prof_row0_at (N : Num α) (pro2 : Profile α) (j : Nat) (s : Mats α) (hj : 1 ≤ j) :
    (prof.row0 N pro2 j s).rowPart (0, j)
      = (s.D 0 (j - 1) - insertion_ext N - nuc_pi N (pro2.col (j - 1)) (nuc_freqs N),
         s.P 0 (j - 1) - insertion_ext N - nuc_pi N (pro2.col (j - 1)) (nuc_freqs N),
         1, 1) := by
  have h : ¬ (j - 1 = j) := by omega
  simp [prof.row0, Mats.rowPart, setAt, h]

/-- Cells of the first row after the first-row loop of `gotoh_profile_marginal`. -/
theorem prof_rowLoop_at (N : Num α) (pro2 : Profile α) (n : Nat) (s0 : Mats α) (j : Nat)
    (hj : 2 ≤ j) (hjn : j ≤ n) :
    (forLoop 2 (n + 1) (prof.row0 N pro2) s0).rowPart (0, j)
      = ((forLoop 2 (n + 1) (prof.row0 N pro2) s0).D 0 (j - 1) - insertion_ext N
            - nuc_pi N (pro2.col (j - 1)) (nuc_freqs N),
         (forLoop 2 (n + 1) (prof.row0 N pro2) s0).P 0 (j - 1) - insertion_ext N
            - nuc_pi N (pro2.col (j - 1)) (nuc_freqs N),
         1, 1) := by
  rw [← prof_row0_at N pro2 j _ (by omega)]
  refine (forLoop_stable Mats.rowPart (prof.row0 N pro2) (fun j => (0, j))
    (fun j => (0, j - 1)) (fun k s c hc => prof_row0_frame N pro2 k s c hc) ?_ 2 (n + 1) s0
    ?_ ?_ j hj (by omega)).symm
  · intro k s t h
    by_cases hk : 1 ≤ k
    · rw [prof_row0_at N pro2 k s hk, prof_row0_at N pro2 k t hk]
      simp only [Mats.rowPart, Prod.mk.injEq] at h
      rw [h.1, h.2.1]
    · have hk0 : k = 0 := by omega
      subst hk0
      simp [Mats.rowPart] at h
      simp [prof.row0, Mats.rowPart, setAt, h.1, h.2.1]
  · intro k hk _ h
    simp only [Prod.mk.injEq] at h
    omega
  · intro k k2 hk hlt _
    simp only [ne_eq, Prod.mk.injEq]
    omega

/-- The first row of `gotoh_profile_marginal` after the forward pass: every cell from
column 2 on is its left neighbour less `insertion_ext` and less `nuc_pi` of the column. -/
theorem prof_first_row (N : Num α) (p : Nat → Nat → Nat → α) (pro1 pro2 : Profile α) (j : Nat)
    (hj : 2 ≤ j) (hjn : j ≤ pro2.cols) :
    (prof.forward N p pro1 pro2).D 0 j
      = (prof.forward N p pro1 pro2).D 0 (j - 1) - insertion_ext N
          - nuc_pi N (pro2.col (j - 1)) (nuc_freqs N) := by
  have e1 := prof_forward_border N p pro1 pro2 (0, j) (Or.inl rfl)
  have e2 := prof_forward_border N p pro1 pro2 (0, j - 1) (Or.inl rfl)
  simp only [Mats.cellAt, Prod.mk.injEq] at e1 e2
  rw [e1.1, e2.1]
  unfold prof.init
  simp only []
  rw [if_pos (show pro2.cols + 1 ≥ 2 by omega)]
  have hoff : ∀ (s : Mats α) (b : Nat), 1 ≤ b →
      (if pro1.cols + 1 ≥ 2 then forLoop 2 (pro1.cols + 1) (mg94_col0 N) s else s).D 0 b
        = s.D 0 b := by
    intro s b hb
    split_ifs
    · have := mg94_colLoop_off N pro1.cols s (0, b) (Or.inl (by simp only; omega))
      simp only [Mats.colPart, Prod.mk.injEq] at this
      exact this.1
    · rfl
  rw [hoff _ j (by omega), hoff _ (j - 1) (by omega)]
  generalize hs : ({ D := _, P := _, Q := _, Bd := _, Bp := _, Bq := _ } : Mats α) = s0
  have := prof_rowLoop_at N pro2 pro2.cols s0 j hj hjn
  simp only [Mats.rowPart, Prod.mk.injEq] at this
  exact this.1

/-- Over the real numbers `-log(1 - 1/6)`, the cost of one extension, is below 0.185, the
least of the nucleotide frequencies. -/
theorem real_insertion_ext_small : -insertion_ext realNum < 185 / 1000 := by
  show -Real.log (1 - 1 / 6) < 185 / 1000
  have e : (1 - 1 / 6 : ℝ) = (6 / 5)⁻¹ := by norm_num
  rw [e, Real.log_inv, neg_neg, Real.log_lt_iff_lt_exp (by norm_num)]
  have := Real.quadratic_le_exp_of_nonneg (show (0 : ℝ) ≤ 185 / 1000 by norm_num)
  have h2 : (6 / 5 : ℝ) < 1 + 185 / 1000 + (185 / 1000) ^ 2 / 2 := by norm_num
  linarith only [this, h2]

/-- Over the real numbers `nuc_pi` of a frequency distribution and the vector `nuc_freqs`
is a frequency: the mean of 0.308, 0.185, 0.199, 0.308, which is at least 0.185. -/
theorem real_nuc_pi_lower (n : Nat → ℝ) (h0 : ∀ k, 0 ≤ n k) (h1 : n 0 + n 1 + n 2 + n 3 = 1) :
    nuc_pi realNum n (nuc_freqs realNum)
      = n 0 * (308 / 1000) + n 1 * (185 / 1000) + n 2 * (199 / 1000) + n 3 * (308 / 1000) ∧
    185 / 1000 ≤ nuc_pi realNum n (nuc_freqs realNum) := by
  have e : ∀ (k : Nat) (f : ℝ), 0 < f → nuc_freqs realNum k = Real.log f →
      (if n k = 0 then 0 else n k * realNum.exp (nuc_freqs realNum k)) = n k * f := by
    intro k f hf hk
    split_ifs with h
    · rw [h, zero_mul]
    · rw [hk]
      show n k * Real.exp (Real.log f) = n k * f
      rw [Real.exp_log hf]
  have hv : nuc_pi realNum n (nuc_freqs realNum)
      = n 0 * (308 / 1000) + n 1 * (185 / 1000) + n 2 * (199 / 1000) + n 3 * (308 / 1000) := by
    unfold nuc_pi
    simp only []
    rw [e 0 (308 / 1000) (by norm_num) (by show Real.log 0.308 = _; norm_num),
      e 1 (185 / 1000) (by norm_num) (by show Real.log 0.185 = _; norm_num),
      e 2 (199 / 1000) (by norm_num) (by show Real.log 0.199 = _; norm_num),
      e 3 (308 / 1000) (by norm_num) (by show Real.log 0.308 = _; norm_num)]
    ring
  refine ⟨hv, ?_⟩
  rw [hv]
  have a := h0 0
  have b := h0 1
  have c := h0 2
  have d := h0 3
  linarith only [a, b, c, d, h1]

/-- Claim C26 fails: over the real numbers, for every second operand whose columns are
nucleotide frequency distributions, the first row of `gotoh_profile_marginal` decreases
from column 1 on, `D(0,j) < D(0,j-1)` for every `2 <= j <= n`: the step subtracts
`log(1 - 1/6)` and the frequency that `nuc_pi` returns, where `mg94_marginal` subtracts the
logarithm of the frequency. -/
theorem prof_first_row_decreases (p : Nat → Nat → Nat → ℝ) (pro1 pro2 : Profile ℝ)
    (hdist : ∀ k, k < pro2.cols → (∀ r, 0 ≤ pro2.val r k) ∧
      pro2.val 0 k + pro2.val 1 k + pro2.val 2 k + pro2.val 3 k = 1)
    (j : Nat) (hj : 2 ≤ j) (hjn : j ≤ pro2.cols) :
    (prof.forward realNum p pro1 pro2).D 0 j < (prof.forward realNum p pro1 pro2).D 0 (j - 1) := by
  rw [prof_first_row realNum p pro1 pro2 j hj hjn]
  obtain ⟨h0, h1⟩ := hdist (j - 1) (by omega)
  have := (real_nuc_pi_lower (pro2.col (j - 1)) h0 h1).2
  linarith only [this, real_insertion_ext_small]

/-- Claim C26 fails at the profiles of AAA and AA: `D(0,2) < D(0,1)`. -/
theorem prof_first_row_decreases_witness :
    ∃ pro1 pro2 : Profile ℝ, create_profile [['A', 'A', 'A']] = .ok pro1 ∧
      create_profile [['A', 'A']] = .ok pro2 ∧
      (prof.forward realNum (fun _ _ _ => 1 / 4) pro1 pro2).D 0 2
        < (prof.forward realNum (fun _ _ _ => 1 / 4) pro1 pro2).D 0 (2 - 1) := by
  refine ⟨_, _, by simp [create_profile]; rfl, by simp [create_profile]; rfl, ?_⟩
  refine prof_first_row_decreases (fun _ _ _ => 1 / 4) _ _ ?_ 2 (le_refl 2) (le_refl 2)
  intro k hk
  have hk2 : k < 2 := hk
  interval_cases k <;>
    refine ⟨fun r => ?_, ?_⟩ <;>
    simp [forLoop, List.range', profileCount, charAt, addAt, setAt] <;>
    split_ifs <;> norm_num

/-! ## Claim C22: no insertion column right after a deletion column -/

/-- The sentinel of the gap matrices is at most the sentinel of the opening candidates. -/
theorem fltMax_le_dblMax : (fltMax : α) ≤ dblMax := by
  have h1 : (fltMax : α) ≤ 2 ^ 24 * 2 ^ 104 := by
    unfold fltMax
    apply mul_le_mul_of_nonneg_right _ (by positivity)
    norm_num
  have h2 : (2 : α) ^ 24 * 2 ^ 104 ≤ dblMax := by
    unfold dblMax
    apply mul_le_mul (by norm_num) _ (by positivity) (by norm_num)
    exact pow_le_pow_right₀ (by norm_num) (by norm_num)
  exact le_trans h1 h2

/-- A list in which no element stands in the first place of a forbidden pair is a chain. -/
theorem chain_of_left {β : Type} (R : β → β → Prop) (l : List β)
    (h : ∀ a ∈ l, ∀ b, R a b) : List.Chain' R l := by
  induction l with
  | nil => exact List.chain'_nil
  | cons a t ih =>
    cases t with
    | nil => exact List.chain'_singleton a
    | cons b t2 =>
      rw [List.chain'_cons]
      exact ⟨h a (List.mem_cons_self _ _) b, ih (fun x hx => h x (List.mem_cons_of_mem _ hx))⟩

/-- A list in which no element stands in the second place of a forbidden pair is a
chain. -/
theorem chain_of_right {β : Type} (R : β → β → Prop) (l : List β)
    (h : ∀ b ∈ l, ∀ a, R a b) : List.Chain' R l := by
  induction l with
  | nil => exact List.chain'_nil
  | cons a t ih =>
    cases t with
    | nil => exact List.chain'_singleton a
    | cons b t2 =>
      rw [List.chain'_cons]
      exact ⟨h b (List.mem_cons_of_mem _ (List.mem_cons_self _ _)) a,
        ih (fun x hx => h x (List.mem_cons_of_mem _ hx))⟩

/-- Neighbouring elements of a chain are related. -/
theorem chain_adjacent {β : Type} (R : β → β → Prop) (l : List β) (h : List.Chain' R l) :
    ∀ (k : Nat) (c1 c2 : β), l[k]? = some c1 → l[k + 1]? = some c2 → R c1 c2 := by
  induction l with
  | nil => intro k c1 c2 h1; simp at h1
  | cons a t ih =>
    intro k c1 c2 h1 h2
    cases k with
    | zero =>
      simp only [List.getElem?_cons_zero, Option.some.injEq] at h1
      simp only [Nat.zero_add, List.getElem?_cons_succ] at h2
      cases t with
      | nil => simp at h2
      | cons b t2 =>
        simp only [List.getElem?_cons_zero, Option.some.injEq] at h2
        rw [List.chain'_cons] at h
        rw [← h1, ← h2]
        exact h.1
    | succ k =>
      simp only [List.getElem?_cons_succ] at h1 h2
      exact ih h.tail k c1 c2 h1 h2

/-- The columns of an insertion run: a gap over a symbol of the second sequence. -/
theorem ins_columns (seq_b : Str) (hb : '-' ∉ seq_b) (k lo hi : Nat) :
    ∀ c ∈ (List.replicate k '-').zip (slice seq_b lo hi), c.1 = '-' ∧ c.2 ≠ '-' := by
  intro c hc
  obtain ⟨c1, c2⟩ := c
  have h1 := List.of_mem_zip hc
  refine ⟨List.eq_of_mem_replicate h1.1, ?_⟩
  intro h
  simp only at h
  rw [h] at h1
  exact slice_no_gap seq_b lo hi hb h1.2

/-- The columns of a deletion run: a symbol of the reference over a gap. -/
theorem del_columns (seq_a : Str) (ha : '-' ∉ seq_a) (k lo hi : Nat) :
    ∀ c ∈ (slice seq_a lo hi).zip (List.replicate k '-'), c.1 ≠ '-' ∧ c.2 = '-' := by
  intro c hc
  obtain ⟨c1, c2⟩ := c
  have h1 := List.of_mem_zip hc
  refine ⟨?_, List.eq_of_mem_replicate h1.2⟩
  intro h
  simp only at h
  rw [h] at h1
  exact slice_no_gap seq_a lo hi ha h1.1

/-- An insertion run of `mg94_marginal` that a cell with the insertion tag ends opens
after a cell whose tag is match or insertion: the opening candidate after a deletion is the
sentinel, which a stored cost never reaches. -/
theorem mg94_open_tag (N : Num α) (hN : N.Sound) (p : Nat → Nat → Nat → α) (seq_a seq_b : Str)
    (hsize : 1009 * ((seq_a.length : α) + (seq_b.length : α)) < fltMax)
    (i j js : Nat) (him : i ≤ seq_a.length) (hjn : j ≤ seq_b.length)
    (hjs1 : 1 ≤ js) (hjs2 : js ≤ j)
    (hd : (mg94_forward N p seq_a seq_b).Bd i j = 1)
    (hopen : (mg94_forward N p seq_a seq_b).Bp i js ≠ 1)
    (hrun : ∀ j2, js < j2 → j2 ≤ j → (mg94_forward N p seq_a seq_b).Bp i j2 = 1) :
    (mg94_forward N p seq_a seq_b).Bd i (js - 1) = 0
      ∨ (mg94_forward N p seq_a seq_b).Bd i (js - 1) = 1 := by
  obtain ⟨-, -, ⟨-, hie⟩, -, -, -, -, -, hfr⟩ := hN.gap_bounds
  have hmono : ∀ k, js + k ≤ j →
      (mg94_forward N p seq_a seq_b).P i js ≤ (mg94_forward N p seq_a seq_b).P i (js + k) := by
    intro k
    induction k with
    | zero => intro _; exact le_refl _
    | succ k ih =>
      intro hk
      have h1 := (mg94_P_step N p seq_a seq_b i (js + (k + 1)) him (by omega) (by omega)).1
        (hrun (js + (k + 1)) (by omega) hk)
      have e : js + (k + 1) - 1 = js + k := by omega
      rw [e] at h1
      have := ih (by omega)
      have hf := (hfr (nt4_table (charAt seq_b (js + k)))).2
      rw [h1]
      linarith only [this, hie, hf]
  have hPj := hmono (j - js) (by omega)
  have e : js + (j - js) = j := by omega
  rw [e] at hPj
  have hDP := (mg94_D_grid N p seq_a seq_b i j him hjn (by omega)).2.1 hd
  have hD := mg94_D_bound N hN p seq_a seq_b i j him hjn
  have hi : (i : α) ≤ seq_a.length := by exact_mod_cast him
  have hj : (j : α) ≤ seq_b.length := by exact_mod_cast hjn
  have hlt : (mg94_forward N p seq_a seq_b).P i js < dblMax := by
    have := @fltMax_le_dblMax α _
    rw [hDP] at hD
    linarith only [hPj, hD, hi, hj, hsize, this]
  by_contra hcon
  rw [not_or] at hcon
  have h2 := (mg94_P_step N p seq_a seq_b i js him hjs1 (by omega)).2 hopen
  unfold mg94_p2 at h2
  rw [if_neg hcon.1, if_neg hcon.2] at h2
  rw [h2] at hlt
  exact lt_irrefl _ hlt

/-- The walk of `backtracking` over the tags of `mg94_marginal` from cell (i,j): in the
columns that it writes no insertion column (gap in the first row) follows a deletion column
(gap in the second row), and the last column is no deletion when the tag of (i,j) is match
or insertion. -/
theorem mg94_btLoop_gap_order (N : Num α) (hN : N.Sound) (p : Nat → Nat → Nat → α)
    (seq_a seq_b : Str) (ha : '-' ∉ seq_a) (hb : '-' ∉ seq_b)
    (hsize : 1009 * ((seq_a.length : α) + (seq_b.length : α)) < fltMax)
    (F : Mats α) (hF : F = mg94_forward N p seq_a seq_b) (s : Nat) :
    ∀ (i j fuel : Nat) (x0 x1 : Str), i + j ≤ s → i ≤ seq_a.length → j ≤ seq_b.length →
      i + j ≤ fuel →
    ∃ y0 y1 : Str, btLoop F.Bd F.Bp F.Bq seq_a seq_b 1 fuel i j [x0, x1]
        = .ok [y0 ++ x0, y1 ++ x1] ∧
      y0.length = y1.length ∧
      List.Chain' (fun c1 c2 : Char × Char => ¬ (c1.2 = '-' ∧ c2.1 = '-')) (y0.zip y1) ∧
      ((F.Bd i j = 0 ∨ F.Bd i j = 1) → ∀ c ∈ (y0.zip y1).getLast?, c.2 ≠ '-') := by
  have hT : TagsOK F.Bd F.Bp F.Bq seq_a.length seq_b.length := by
    rw [hF]; exact mg94_tags_ok N hN p seq_a seq_b hsize
  have hO : ∀ i j js, i ≤ seq_a.length → j ≤ seq_b.length → 1 ≤ js → js ≤ j →
      F.Bd i j = 1 → F.Bp i js ≠ 1 → (∀ j2, js < j2 → j2 ≤ j → F.Bp i j2 = 1) →
      F.Bd i (js - 1) = 0 ∨ F.Bd i (js - 1) = 1 := by
    rw [hF]; exact fun i j js => mg94_open_tag N hN p seq_a seq_b hsize i j js
  clear hF
  induction s with
  | zero =>
    intro i j fuel x0 x1 hs _ _ _
    have hi : i = 0 := by omega
    have hj : j = 0 := by omega
    subst hi hj
    refine ⟨[], [], ?_, rfl, by simp, by simp⟩
    cases fuel <;> simp [btLoop]
  | succ s ih =>
    intro i j fuel x0 x1 hs him hjn hf
    by_cases h00 : i = 0 ∧ j = 0
    · obtain ⟨hi, hj⟩ := h00
      subst hi hj
      refine ⟨[], [], ?_, rfl, by simp, by simp⟩
      cases fuel <;> simp [btLoop]
    · obtain ⟨f, rfl⟩ : ∃ f, fuel = f + 1 := ⟨fuel - 1, by omega⟩
      unfold btLoop
      rw [if_neg h00]
      rcases hT i j him hjn h00 with ⟨hd, hi1, hj1⟩ | ⟨hd, js, hjs1, hjs2, hjs3, hrun⟩ |
        ⟨hd0, hd1, is, his1, his2, his3, hrun⟩
      · -- match
        rw [if_pos hd, if_neg (by omega), emit_pair]
        simp only []
        obtain ⟨y0, y1, hrec, hlen, hch, -⟩ := ih (i - 1) (j - 1) f
          (charAt seq_a (i - 1) :: x0) (charAt seq_b (j - 1) :: x1) (by omega) (by omega)
          (by omega) (by omega)
        refine ⟨y0 ++ [charAt seq_a (i - 1)], y1 ++ [charAt seq_b (j - 1)], ?_, ?_, ?_, ?_⟩
        · rw [hrec]; simp
        · simp [hlen]
        · rw [List.zip_append hlen, List.chain'_append]
          refine ⟨hch, List.chain'_singleton _, ?_⟩
          intro x _ y hy
          simp only [List.zip_cons_cons, List.zip_nil_right, List.head?_cons,
            Option.mem_def, Option.some.injEq] at hy
          rw [← hy]
          exact fun h => charAt_ne_gap seq_a (i - 1) ha h.2
        · intro _ c hc
          rw [List.zip_append hlen] at hc
          simp only [List.zip_cons_cons, List.zip_nil_right, List.getLast?_concat,
            Option.mem_def, Option.some.injEq] at hc
          rw [← hc]
          exact charAt_ne_gap seq_b (j - 1) hb
      · -- insertion
        have hd0 : F.Bd i j ≠ 0 := by rw [hd]; decide
        rw [if_neg hd0, if_pos hd]
        have hchain := insRun_chain F.Bp seq_b i js hjs3 (j - js) (j + 1) x0 x1
          (fun j2 h1 h2 => hrun j2 h1 (by omega)) (by omega)
        have e : js + (j - js) = j := by omega
        rw [e] at hchain
        rw [hchain]
        simp only []
        rw [insSteps_eq, if_pos hjs1]
        simp only []
        obtain ⟨y0, y1, hrec, hlen, hch, hlast⟩ := ih i (js - 1) f
          (List.replicate 1 '-' ++ (List.replicate (j - js) '-' ++ x0))
          (slice seq_b (js - 1) js ++ (slice seq_b js j ++ x1)) (by omega) him (by omega)
          (by omega)
        have hlen2 : (List.replicate (j - js + 1) '-').length
            = (slice seq_b (js - 1) j).length := by
          simp only [List.length_replicate, slice, List.length_map, List.length_range']
          omega
        have hcols := ins_columns seq_b hb (j - js + 1) (js - 1) j
        have hne : (List.replicate (j - js + 1) '-').zip (slice seq_b (js - 1) j) ≠ [] := by
          intro h
          have := congrArg List.length h
          rw [List.length_zip, hlen2, Nat.min_self] at this
          simp only [slice, List.length_map, List.length_range', List.length_nil] at this
          omega
        refine ⟨y0 ++ List.replicate (j - js + 1) '-', y1 ++ slice seq_b (js - 1) j,
          ?_, ?_, ?_, ?_⟩
        · rw [hrec, ← slice_append seq_b (js - 1) js j (by omega) hjs2,
            List.replicate_succ]
          simp
          rfl
        · rw [List.length_append, List.length_append, hlen, hlen2]
        · rw [List.zip_append hlen, List.chain'_append]
          refine ⟨hch, chain_of_left _ _ (fun a ha2 b h => (hcols a ha2).2 h.1), ?_⟩
          intro x hx y _ h
          exact hlast (hO i j js him hjn hjs1 hjs2 hd hjs3 hrun) x hx h.1
        · intro _ c hc
          rw [List.zip_append hlen, List.getLast?_append_of_ne_nil _ hne] at hc
          exact (hcols c (List.mem_of_mem_getLast? hc)).2
      · -- deletion
        rw [if_neg hd0, if_neg hd1]
        have hchain := delRun_chain F.Bq seq_a j is his3 (i - is) (i + 1) x0 x1
          (fun i2 h1 h2 => hrun i2 h1 (by omega)) (by omega)
        have e : is + (i - is) = i := by omega
        rw [e] at hchain
        rw [hchain]
        simp only []
        rw [delSteps_eq, if_pos his1]
        simp only []
        obtain ⟨y0, y1, hrec, hlen, hch, -⟩ := ih (is - 1) j f
          (slice seq_a (is - 1) is ++ (slice seq_a is i ++ x0))
          (List.replicate 1 '-' ++ (List.replicate (i - is) '-' ++ x1)) (by omega) (by omega)
          hjn (by omega)
        have hlen2 : (slice seq_a (is - 1) i).length
            = (List.replicate (i - is + 1) '-').length := by
          simp only [List.length_replicate, slice, List.length_map, List.length_range']
          omega
        have hcols := del_columns seq_a ha (i - is + 1) (is - 1) i
        refine ⟨y0 ++ slice seq_a (is - 1) i, y1 ++ List.replicate (i - is + 1) '-',
          ?_, ?_, ?_, ?_⟩
        · rw [hrec, ← slice_append seq_a (is - 1) is i (by omega) his2,
            List.replicate_succ]
          simp
          rfl
        · rw [List.length_append, List.length_append, hlen, hlen2]
        · rw [List.zip_append hlen, List.chain'_append]
          refine ⟨hch, chain_of_right _ _ (fun b hb2 a h => (hcols b hb2).1 h.2), ?_⟩
          intro x _ y hy h
          exact (hcols y (List.mem_of_mem_head? hy)).1 h.2
        · intro h
          rcases h with h | h
          · exact absurd h hd0
          · exact absurd h hd1

/-- Claim C22: over the real numbers, for every non-empty reference `A` over {A,C,G,T} whose
length is divisible by 3, every non-empty sequence `B` over {A,C,G,T,N} (lengths within the
range of `int`) and every tensor, `mg94_marginal`, called with an empty alignment, returns
two rows in which no insertion column (gap in the reference row) stands right after a
deletion column (gap in the second row): of two neighbouring columns `k` and `k + 1`, the
first does not hold `-` in the second row while the second holds `-` in the first row. -/
theorem mg94_no_insertion_after_deletion (p : Nat → Nat → Nat → ℝ) (A B : Str)
    (aln : alignment_t ℝ)
    (hA : A ≠ []) (hA3 : A.length % 3 = 0) (hAc : ∀ c ∈ A, c ∈ ['A', 'C', 'G', 'T'])
    (hB : B ≠ []) (hBc : ∀ c ∈ B, c ∈ ['A', 'C', 'G', 'T', 'N'])
    (hAlen : A.length < 2 ^ 31) (hBlen : B.length < 2 ^ 31) (h0 : aln.f.seq_data = []) :
    ∃ s0 s1 : Str,
      mg94_marginal realNum p [A, B] aln
        = .ok (0, { f := { seq_names := aln.f.seq_names, seq_data := [s0, s1] },
                    weight := (mg94_forward realNum p A B).D A.length B.length }) ∧
      s0.length = s1.length ∧
      ∀ (k : Nat) (c1 c2 : Char × Char), (s0.zip s1)[k]? = some c1 →
        (s0.zip s1)[k + 1]? = some c2 → ¬ (c1.2 = '-' ∧ c2.1 = '-') := by
  have ha : '-' ∉ A := by
    intro h
    have := hAc _ h
    revert this
    decide
  have hb : '-' ∉ B := by
    intro h
    have := hBc _ h
    revert this
    decide
  have hsize := (real_size_bound A.length B.length hAlen hBlen).2.1
  obtain ⟨y0, y1, hrun, hlen, hch, -⟩ := mg94_btLoop_gap_order realNum realNum_sound p A B ha hb
    hsize _ rfl (A.length + B.length) A.length B.length (A.length + B.length) [] []
    (le_refl _) (le_refl _) (le_refl _) (le_refl _)
  refine ⟨y0, y1, ?_, hlen, chain_adjacent _ _ hch⟩
  unfold mg94_marginal
  simp only [hA3, ne_eq, not_true_eq_false, if_false]
  unfold backtracking
  simp only [h0, List.nil_append, List.singleton_append, hrun, List.append_nil]

/-- Claim C22 at the pair CTCTGG, CCTGG of the test, with the uniform tensor. -/
theorem mg94_no_insertion_after_deletion_witness :
    ∃ s0 s1 : Str,
      mg94_marginal realNum (fun _ _ _ => 1 / 4)
          [['C', 'T', 'C', 'T', 'G', 'G'], ['C', 'C', 'T', 'G', 'G']] ⟨⟨[], []⟩, 0⟩
        = .ok (0, { f := { seq_names := [], seq_data := [s0, s1] },
                    weight := (mg94_forward realNum (fun _ _ _ => 1 / 4)
                      ['C', 'T', 'C', 'T', 'G', 'G'] ['C', 'C', 'T', 'G', 'G']).D 6 5 }) ∧
      s0.length = s1.length ∧
      ∀ (k : Nat) (c1 c2 : Char × Char), (s0.zip s1)[k]? = some c1 →
        (s0.zip s1)[k + 1]? = some c2 → ¬ (c1.2 = '-' ∧ c2.1 = '-') :=
  mg94_no_insertion_after_deletion (fun _ _ _ => 1 / 4) ['C', 'T', 'C', 'T', 'G', 'G']
    ['C', 'C', 'T', 'G', 'G'] ⟨⟨[], []⟩, 0⟩ (by decide) (by decide) (by decide) (by decide)
    (by decide) (by norm_num) (by norm_num) rfl

/-! ## Claim C34: the profile `transition` on one-hot operands -/

/-- The maximum of a column that holds -1 in row `k < 4` and 0 elsewhere. -/
theorem maxCoeff_masked (v : Nat → α) (k : Fin 4)
    (h : ∀ r, v r = if r = k.val then -1 else 0) : (maxCoeff v).1 = 0 := by
  have h10 : ¬ ((0 : α) < -1) := by norm_num
  have h11 : ((-1 : α) < 0) := by norm_num
  fin_cases k <;> simp at h <;> simp [maxCoeff, h, h10, h11]

/-- The raw-sequence `transition` for a codon and a nucleotide over {A,C,G,T}. -/
theorem transition_nuc (a b c x : Fin 4) (pos : Nat) (p : Nat → Nat → Nat → α) :
    transition [nucOfCode a, nucOfCode b, nucOfCode c] pos (nucOfCode x) p
      = p (16 * a.val + 4 * b.val + c.val) (if pos = 0 then 2 else pos - 1) x.val := by
  unfold transition
  simp only []
  rw [if_pos (by fin_cases x <;> decide), cod_int_formula, nt4_table_nucOfCode]

/-- Claim C34: for every codon `a b c` over {A,C,G,T}, every position argument and every
nucleotide `x` in {A,C,G,T}, the profile `transition` applied to the profile of the codon
(`create_profile` of the single row, which holds 1 in the row of the nucleotide of each
column and 0 elsewhere) and to the profile column of `x` returns what the raw-sequence
`transition` returns for the codon and `x`: the entry `p[16 a + 4 b + c][pos][x]` at the
remapped position; the three terms of the second-highest entries contribute 0. -/
theorem prof_transition_onehot (a b c x : Fin 4) (pos : Nat) (p : Nat → Nat → Nat → α) :
    ∃ pro1 pro2 : Profile α,
      create_profile [[nucOfCode a, nucOfCode b, nucOfCode c]] = .ok pro1 ∧
      create_profile [[nucOfCode x]] = .ok pro2 ∧
      (∀ r k, k < 3 → pro1.block 0 r k
        = if r = (if k = 0 then a.val else if k = 1 then b.val else c.val) then 1 else 0) ∧
      (∀ r, pro2.col 0 r = if r = x.val then 1 else 0) ∧
      profile_aln.transition (pro1.block 0) pos (pro2.col 0) p
        = transition [nucOfCode a, nucOfCode b, nucOfCode c] pos (nucOfCode x) p ∧
      profile_aln.transition (pro1.block 0) pos (pro2.col 0) p
        = p (16 * a.val + 4 * b.val + c.val) (if pos = 0 then 2 else pos - 1) x.val := by
  obtain ⟨pro1, e1, -, v0, v1, v2⟩ := @create_profile_codon α _ a b c
  obtain ⟨pro2, e2, -, w⟩ := @create_profile_single α _ [nucOfCode x]
  have hw : ∀ r, pro2.col 0 r = if r = x.val then 1 else 0 := by
    intro r
    show pro2.val r 0 = _
    rw [w 0 (by simp) r]
    fin_cases x <;> simp [profileCount, charAt, addAt, setAt, nucOfCode]
  have hraw := transition_nuc a b c x pos p
  have hval : profile_aln.transition (pro1.block 0) pos (pro2.col 0) p
      = p (16 * a.val + 4 * b.val + c.val) (if pos = 0 then 2 else pos - 1) x.val := by
    have b0 : ∀ r, pro1.block 0 r 0 = if r = a.val then 1 else 0 := fun r => by
      simp [Profile.block, v0]
    have b1 : ∀ r, pro1.block 0 r 1 = if r = b.val then 1 else 0 := fun r => by
      simp [Profile.block, v1]
    have b2 : ∀ r, pro1.block 0 r 2 = if r = c.val then 1 else 0 := fun r => by
      simp [Profile.block, v2]
    have m0 := maxCoeff_unit (fun r => pro1.block 0 r 0) a b0
    have m1 := maxCoeff_unit (fun r => pro1.block 0 r 1) b b1
    have m2 := maxCoeff_unit (fun r => pro1.block 0 r 2) c b2
    unfold profile_aln.transition
    simp only [m0, m1, m2]
    have s0 : (maxCoeff (fun r => setAt (setAt (setAt (pro1.block 0) a.val 0 (-1)) b.val 1 (-1))
        c.val 2 (-1) r 0)).1 = 0 := by
      apply maxCoeff_masked _ a
      intro r
      simp only [setAt]
      simp [b0]
      split_ifs <;> rfl
    have s1 : (maxCoeff (fun r => setAt (setAt (setAt (pro1.block 0) a.val 0 (-1)) b.val 1 (-1))
        c.val 2 (-1) r 1)).1 = 0 := by
      apply maxCoeff_masked _ b
      intro r
      simp only [setAt]
      simp [b1]
      split_ifs <;> rfl
    have s2 : (maxCoeff (fun r => setAt (setAt (setAt (pro1.block 0) a.val 0 (-1)) b.val 1 (-1))
        c.val 2 (-1) r 2)).1 = 0 := by
      apply maxCoeff_masked _ c
      intro r
      simp only [setAt]
      simp [b2]
      split_ifs <;> rfl
    simp only [s0, s1, s2, addWeighted, hw]
    have e : (a.val <<< 4) + (b.val <<< 2) + c.val = 16 * a.val + 4 * b.val + c.val := by
      simp only [Nat.shiftLeft_eq]
      omega
    rw [e]
    fin_cases x <;> simp
  refine ⟨pro1, pro2, e1, e2, ?_, hw, ?_, hval⟩
  · intro r k hk
    interval_cases k
    · simp [Profile.block, v0]
    · simp [Profile.block, v1]
    · simp [Profile.block, v2]
  · rw [hval, hraw]

/-! ## Claim C35: the profile `transition` uses the two highest entries per position -/

/-- The call `maxCoeff` returns the highest entry and the first row that holds it. -/
theorem maxCoeff_highest (v : Nat → α) : IsHighest v (maxCoeff v).1 (maxCoeff v).2 := by
  unfold maxCoeff IsHighest
  simp only [gt_iff_lt]
  split_ifs with h1 h2 h3 h3 h2 h3 h3 <;> simp only [] <;>
    refine ⟨by norm_num, by first | rfl | trivial, ?_, ?_⟩ <;>
    intro r hr <;> interval_cases r <;> simp only [not_lt] at * <;>
    first
    | exact le_refl _
    | linarith

/-- The highest entry and its first row are unique. -/
theorem isHighest_unique (v : Nat → α) (t t2 : α) (k k2 : Nat) (h : IsHighest v t k)
    (h2 : IsHighest v t2 k2) : t = t2 ∧ k = k2 := by
  obtain ⟨a1, a2, a3, a4⟩ := h
  obtain ⟨b1, b2, b3, b4⟩ := h2
  have hk : k = k2 := by
    rcases Nat.lt_trichotomy k k2 with hlt | heq | hgt
    · have := b4 k hlt
      have := a3 k2 b1
      rw [a2] at *
      rw [b2] at *
      linarith
    · exact heq
    · have := a4 k2 hgt
      have := b3 k a1
      rw [a2] at *
      rw [b2] at *
      linarith
  subst hk
  exact ⟨by rw [← a2, ← b2], rfl⟩

/-- After the highest entry of a column of entries above -1 is overwritten with -1,
`maxCoeff` returns the second-highest entry and its first row. -/
theorem maxCoeff_second (v : Nat → α) (hv : ∀ r, r < 4 → -1 < v r) (k : Nat) (s : α)
    (k2 : Nat) (h : IsSecondHighest v k s k2) (w : Nat → α)
    (hw : ∀ r, w r = if r = k then -1 else v r) : maxCoeff w = (s, k2) := by
  obtain ⟨c1, c2, c3, c4, c5⟩ := h
  have hs : -1 < s := by rw [← c3]; exact hv k2 c1
  have hT : IsHighest w s k2 := by
    refine ⟨c1, by rw [hw, if_neg c2, c3], ?_, ?_⟩
    · intro r hr
      rw [hw]
      split_ifs with hrk
      · exact le_of_lt hs
      · exact c4 r hr hrk
    · intro r hr
      rw [hw]
      split_ifs with hrk
      · exact hs
      · exact c5 r hr hrk
  have := isHighest_unique w _ _ _ _ (maxCoeff_highest w) hT
  exact Prod.ext this.1 this.2

/-- The highest and the second-highest entries of the columns of the test matrix: 0.4 in the
rows 0, 1, 0 and 0.3 in the rows 1, 2, 3. -/
theorem testCodon_top_two :
    (∀ r k, r < 4 → k < 3 → -1 < (testCodon : Nat → Nat → α) r k) ∧
    IsHighest (fun r => (testCodon : Nat → Nat → α) r 0) (4 / 10) 0 ∧
    IsHighest (fun r => (testCodon : Nat → Nat → α) r 1) (4 / 10) 1 ∧
    IsHighest (fun r => (testCodon : Nat → Nat → α) r 2) (4 / 10) 0 ∧
    IsSecondHighest (fun r => (testCodon : Nat → Nat → α) r 0) 0 (3 / 10) 1 ∧
    IsSecondHighest (fun r => (testCodon : Nat → Nat → α) r 1) 1 (3 / 10) 2 ∧
    IsSecondHighest (fun r => (testCodon : Nat → Nat → α) r 2) 0 (3 / 10) 3 := by
  refine ⟨?_, ?_, ?_, ?_, ?_, ?_, ?_⟩
  · intro r k hr hk
    interval_cases r <;> interval_cases k <;> simp only [testCodon] <;> norm_num
  · refine ⟨by norm_num, by simp only [testCodon]; norm_num, ?_, ?_⟩ <;>
      intro r hr <;> interval_cases r <;> simp only [testCodon] <;> norm_num
  · refine ⟨by norm_num, by simp only [testCodon]; norm_num, ?_, ?_⟩ <;>
      intro r hr <;> interval_cases r <;> simp only [testCodon] <;> norm_num
  · refine ⟨by norm_num, by simp only [testCodon]; norm_num, ?_, ?_⟩ <;>
      intro r hr <;> interval_cases r <;> simp only [testCodon] <;> norm_num
  · refine ⟨by norm_num, by norm_num, by simp only [testCodon]; norm_num, ?_, ?_⟩ <;>
      intro r hr hne <;> interval_cases r <;> simp only [testCodon] <;> norm_num at hne ⊢
  · refine ⟨by norm_num, by norm_num, by simp only [testCodon]; norm_num, ?_, ?_⟩ <;>
      intro r hr hne <;> interval_cases r <;> simp only [testCodon] <;> norm_num at hne ⊢
  · refine ⟨by norm_num, by norm_num, by simp only [testCodon]; norm_num, ?_, ?_⟩ <;>
      intro r hr hne <;> interval_cases r <;> simp only [testCodon] <;> norm_num at hne ⊢

/-- Claim C35: for every 4x3 codon profile `cod` with entries above -1 (frequencies are not
negative), with the highest entries `t0`, `t1`, `t2` of its three columns in the rows `a0`,
`a1`, `a2` and the second-highest entries `s0`, `s1`, `s2` in the rows `b0`, `b1`, `b2`
(the first row wins a tie), the profile `transition` is the sum over the four codons
(top,top,top), (second,top,top), (top,second,top), (top,top,second) of the product of the
chosen entries times `sum_i nuc[i] * p[codon][pos][i]` at the remapped position; when each
marginal `p[codon][pos][.]` sums to 1 and `nuc` is uniform this is
`0.25 * (t0 t1 t2 + s0 t1 t2 + t0 s1 t2 + t0 t1 s2)`; and for the columns of the test,
with the highest entries 0.4 and the second-highest entries 0.3, it is 0.052. -/
theorem prof_transition_top_two (cod : Nat → Nat → α) (pos : Nat) (nuc : Nat → α)
    (p : Nat → Nat → Nat → α) (t0 t1 t2 s0 s1 s2 : α) (a0 a1 a2 b0 b1 b2 : Nat)
    (hcod : ∀ r k, r < 4 → k < 3 → -1 < cod r k)
    (h0 : IsHighest (fun r => cod r 0) t0 a0) (h1 : IsHighest (fun r => cod r 1) t1 a1)
    (h2 : IsHighest (fun r => cod r 2) t2 a2)
    (g0 : IsSecondHighest (fun r => cod r 0) a0 s0 b0)
    (g1 : IsSecondHighest (fun r => cod r 1) a1 s1 b1)
    (g2 : IsSecondHighest (fun r => cod r 2) a2 s2 b2) :
    profile_aln.transition cod pos nuc p
      = t0 * t1 * t2 * emissionMean nuc p a0 a1 a2 (if pos = 0 then 2 else pos - 1)
        + s0 * t1 * t2 * emissionMean nuc p b0 a1 a2 (if pos = 0 then 2 else pos - 1)
        + t0 * s1 * t2 * emissionMean nuc p a0 b1 a2 (if pos = 0 then 2 else pos - 1)
        + t0 * t1 * s2 * emissionMean nuc p a0 a1 b2 (if pos = 0 then 2 else pos - 1) ∧
    ((∀ c q, p c q 0 + p c q 1 + p c q 2 + p c q 3 = 1) → (∀ i, nuc i = 1 / 4) →
      profile_aln.transition cod pos nuc p
        = 1 / 4 * (t0 * t1 * t2 + s0 * t1 * t2 + t0 * s1 * t2 + t0 * t1 * s2)) ∧
    ((∀ c q, p c q 0 + p c q 1 + p c q 2 + p c q 3 = 1) → (∀ i, nuc i = 1 / 4) →
      profile_aln.transition testCodon pos nuc p = 52 / 1000) := by
  -- the general formula, for any codon profile
  have key : ∀ (cod : Nat → Nat → α) (t0 t1 t2 s0 s1 s2 : α) (a0 a1 a2 b0 b1 b2 : Nat),
      (∀ r k, r < 4 → k < 3 → -1 < cod r k) →
      IsHighest (fun r => cod r 0) t0 a0 → IsHighest (fun r => cod r 1) t1 a1 →
      IsHighest (fun r => cod r 2) t2 a2 →
      IsSecondHighest (fun r => cod r 0) a0 s0 b0 →
      IsSecondHighest (fun r => cod r 1) a1 s1 b1 →
      IsSecondHighest (fun r => cod r 2) a2 s2 b2 →
      profile_aln.transition cod pos nuc p
        = t0 * t1 * t2 * emissionMean nuc p a0 a1 a2 (if pos = 0 then 2 else pos - 1)
          + s0 * t1 * t2 * emissionMean nuc p b0 a1 a2 (if pos = 0 then 2 else pos - 1)
          + t0 * s1 * t2 * emissionMean nuc p a0 b1 a2 (if pos = 0 then 2 else pos - 1)
          + t0 * t1 * s2 * emissionMean nuc p a0 a1 b2 (if pos = 0 then 2 else pos - 1) := by
    intro cod t0 t1 t2 s0 s1 s2 a0 a1 a2 b0 b1 b2 hcod h0 h1 h2 g0 g1 g2
    have m0 : maxCoeff (fun r => cod r 0) = (t0, a0) := by
      have := isHighest_unique _ _ _ _ _ (maxCoeff_highest (fun r => cod r 0)) h0
      exact Prod.ext this.1 this.2
    have m1 : maxCoeff (fun r => cod r 1) = (t1, a1) := by
      have := isHighest_unique _ _ _ _ _ (maxCoeff_highest (fun r => cod r 1)) h1
      exact Prod.ext this.1 this.2
    have m2 : maxCoeff (fun r => cod r 2) = (t2, a2) := by
      have := isHighest_unique _ _ _ _ _ (maxCoeff_highest (fun r => cod r 2)) h2
      exact Prod.ext this.1 this.2
    have n0 : maxCoeff (fun r => setAt (setAt (setAt cod a0 0 (-1)) a1 1 (-1)) a2 2 (-1) r 0)
        = (s0, b0) := by
      apply maxCoeff_second (fun r => cod r 0) (fun r hr => hcod r 0 hr (by norm_num)) a0 s0 b0 g0
      intro r
      simp [setAt]
    have n1 : maxCoeff (fun r => setAt (setAt (setAt cod a0 0 (-1)) a1 1 (-1)) a2 2 (-1) r 1)
        = (s1, b1) := by
      apply maxCoeff_second (fun r => cod r 1) (fun r hr => hcod r 1 hr (by norm_num)) a1 s1 b1 g1
      intro r
      simp [setAt]
    have n2 : maxCoeff (fun r => setAt (setAt (setAt cod a0 0 (-1)) a1 1 (-1)) a2 2 (-1) r 2)
        = (s2, b2) := by
      apply maxCoeff_second (fun r => cod r 2) (fun r hr => hcod r 2 hr (by norm_num)) a2 s2 b2 g2
      intro r
      simp [setAt]
    unfold profile_aln.transition
    simp only [m0, m1, m2, n0, n1, n2, addWeighted, emissionMean, Nat.shiftLeft_eq]
    norm_num
    ring_nf
  have unit : ∀ (a b c q : Nat), (∀ c q, p c q 0 + p c q 1 + p c q 2 + p c q 3 = 1) →
      (∀ i, nuc i = 1 / 4) → emissionMean nuc p a b c q = 1 / 4 := by
    intro a b c q hp hn
    unfold emissionMean
    rw [hn 0, hn 1, hn 2, hn 3]
    have := hp (16 * a + 4 * b + c) q
    linear_combination (1 / 4) * this
  refine ⟨key cod t0 t1 t2 s0 s1 s2 a0 a1 a2 b0 b1 b2 hcod h0 h1 h2 g0 g1 g2, ?_, ?_⟩
  · intro hp hn
    rw [key cod t0 t1 t2 s0 s1 s2 a0 a1 a2 b0 b1 b2 hcod h0 h1 h2 g0 g1 g2,
      unit _ _ _ _ hp hn, unit _ _ _ _ hp hn, unit _ _ _ _ hp hn, unit _ _ _ _ hp hn]
    ring
  · intro hp hn
    obtain ⟨c0, c1, c2, c3, c4, c5, c6⟩ := @testCodon_top_two α _
    rw [key testCodon (4 / 10) (4 / 10) (4 / 10) (3 / 10) (3 / 10) (3 / 10) 0 1 0 1 2 3
        c0 c1 c2 c3 c4 c5 c6,
      unit _ _ _ _ hp hn, unit _ _ _ _ hp hn, unit _ _ _ _ hp hn, unit _ _ _ _ hp hn]
    norm_num

/-- Claim C35 at the matrix of the test, with the uniform column and the uniform tensor:
the value is 0.052. -/
theorem prof_transition_top_two_witness :
    profile_aln.transition testCodon 1 (fun _ => (1 / 4 : ℚ)) (fun _ _ _ => 1 / 4)
      = 1 / 4 * (4 / 10 * (4 / 10) * (4 / 10) + 3 / 10 * (4 / 10) * (4 / 10)
          + 4 / 10 * (3 / 10) * (4 / 10) + 4 / 10 * (4 / 10) * (3 / 10)) :=
  (prof_transition_top_two testCodon 1 (fun _ => (1 / 4 : ℚ)) (fun _ _ _ => 1 / 4)
    (4 / 10) (4 / 10) (4 / 10) (3 / 10) (3 / 10) (3 / 10) 0 1 0 1 2 3
    testCodon_top_two.1 testCodon_top_two.2.1 testCodon_top_two.2.2.1
    testCodon_top_two.2.2.2.1 testCodon_top_two.2.2.2.2.1 testCodon_top_two.2.2.2.2.2.1
    testCodon_top_two.2.2.2.2.2.2).2.1 (fun _ _ => by norm_num) (fun _ => rfl)

/-! ## Claim C33: the entries of a profile -/

/-- A character is the nucleotide of at most one code. -/
theorem holdsNuc_excl (k r : Nat) (c : Char) (hk : holdsNuc k c = true)
    (hr : holdsNuc r c = true) : k = r := by
  rcases k with _ | _ | _ | _ | k <;> rcases r with _ | _ | _ | _ | r <;>
    simp only [holdsNuc, Bool.or_eq_true, decide_eq_true_eq] at hk hr <;>
    first
    | rfl
    | exact absurd hk (by decide)
    | exact absurd hr (by decide)
    | (rcases hk with rfl | rfl <;> revert hr <;> decide)

/-- The tests of the `switch` of `create_profile` in terms of `holdsNuc`. -/
theorem holdsNuc_tests (c : Char) :
    (holdsNuc 0 c = true ↔ (c = 'A' ∨ c = 'a')) ∧ (holdsNuc 1 c = true ↔ (c = 'C' ∨ c = 'c')) ∧
    (holdsNuc 2 c = true ↔ (c = 'G' ∨ c = 'g')) ∧ (holdsNuc 3 c = true ↔ (c = 'T' ∨ c = 't')) ∧
    (∀ k, 4 ≤ k → holdsNuc k c = false) := by
  refine ⟨?_, ?_, ?_, ?_, ?_⟩
  · simp [holdsNuc]
  · simp [holdsNuc]
  · simp [holdsNuc]
  · simp [holdsNuc]
  · intro k hk
    obtain ⟨k2, rfl⟩ : ∃ k2, k = k2 + 4 := ⟨k - 4, by omega⟩
    rfl

/-- One iteration of the inner loop of `create_profile`: the row `i` adds `1 / rows` to the
entry of its nucleotide in column `j`, and nothing else changes. -/
theorem profileCount_entry (aln : List Str) (rows j i : Nat) (M : Nat → Nat → α) (r c : Nat) :
    profileCount aln rows j i M r c
      = if c = j ∧ holdsNuc r (charAt (aln.getD i []) j) = true then M r c + 1 / (rows : α)
        else M r c := by
  unfold profileCount
  generalize charAt (aln.getD i []) j = ch
  obtain ⟨t0, t1, t2, t3, t4⟩ := holdsNuc_tests ch
  -- the entry written when the row holds the nucleotide `k`
  have hadd : ∀ k, holdsNuc k ch = true →
      addAt M k j (1 / (rows : α)) r c
        = if c = j ∧ holdsNuc r ch = true then M r c + 1 / (rows : α) else M r c := by
    intro k hk
    unfold addAt setAt
    by_cases hr : r = k
    · subst hr
      by_cases hc : c = j
      · subst hc
        rw [if_pos ⟨rfl, rfl⟩, if_pos ⟨rfl, hk⟩]
      · rw [if_neg (fun h => hc h.2), if_neg (fun h => hc h.1)]
    · have hno : ¬ (holdsNuc r ch = true) := fun h => hr (holdsNuc_excl r k ch h hk)
      rw [if_neg (fun h => hr h.1), if_neg (fun h => hno h.2)]
  by_cases h0 : ch = 'A' ∨ ch = 'a'
  · rw [if_pos h0]
    exact hadd 0 (t0.mpr h0)
  · rw [if_neg h0]
    by_cases h1 : ch = 'C' ∨ ch = 'c'
    · rw [if_pos h1]
      exact hadd 1 (t1.mpr h1)
    · rw [if_neg h1]
      by_cases h2 : ch = 'G' ∨ ch = 'g'
      · rw [if_pos h2]
        exact hadd 2 (t2.mpr h2)
      · rw [if_neg h2]
        by_cases h3 : ch = 'T' ∨ ch = 't'
        · rw [if_pos h3]
          exact hadd 3 (t3.mpr h3)
        · rw [if_neg h3]
          have hno : ¬ (holdsNuc r ch = true) := by
            intro h
            rcases r with _ | _ | _ | _ | r
            · exact h0 (t0.mp h)
            · exact h1 (t1.mp h)
            · exact h2 (t2.mp h)
            · exact h3 (t3.mp h)
            · rw [t4 (r + 4) (by omega)] at h
              exact absurd h (by decide)
          rw [if_neg (fun h => hno h.2)]

/-- The inner loop of `create_profile` over the first `n` rows. -/
theorem profile_rows (aln : List Str) (rows j : Nat) (M : Nat → Nat → α) (n : Nat)
    (hn : n ≤ aln.length) (r c : Nat) :
    forLoop 0 n (fun i profile => profileCount aln rows j i profile) M r c
      = if c = j then
          M r c + (((aln.take n).countP (fun s => holdsNuc r (charAt s j)) : Nat) : α)
            * (1 / (rows : α))
        else M r c := by
  induction n with
  | zero => simp [forLoop]
  | succ n ih =>
    have hsplit : forLoop 0 (n + 1) (fun i profile => profileCount aln rows j i profile) M
        = profileCount aln rows j n
            (forLoop 0 n (fun i profile => profileCount aln rows j i profile) M) := by
      unfold forLoop
      simp only [Nat.sub_zero]
      rw [List.range'_1_concat, List.foldl_append]
      simp
    rw [hsplit, profileCount_entry, ih (by omega)]
    have hget : aln.getD n [] = aln[n] := by
      rw [List.getD_eq_getElem _ _ (by omega)]
    have htake : aln.take (n + 1) = aln.take n ++ [aln[n]] := by
      rw [List.take_succ, List.getElem?_eq_getElem (by omega)]
      rfl
    rw [htake, List.countP_append, hget]
    by_cases hc : c = j
    · simp only [hc, true_and, if_true, List.countP_cons, List.countP_nil, Nat.zero_add]
      split_ifs with h
      · push_cast
        ring
      · push_cast
        ring
    · simp only [hc, false_and, if_false]

/-- Each row adds to the count of at most one nucleotide. -/
theorem nucCount_sum (aln : List Str) (j : Nat) :
    nucCount aln 0 j + nucCount aln 1 j + nucCount aln 2 j + nucCount aln 3 j
      = nucRows aln j := by
  unfold nucCount nucRows
  induction aln with
  | nil => rfl
  | cons s rest ih =>
    simp only [List.countP_cons]
    rw [← ih]
    generalize charAt s j = ch
    have e01 : ¬ (holdsNuc 0 ch = true ∧ holdsNuc 1 ch = true) := fun h => by
      have := holdsNuc_excl 0 1 ch h.1 h.2; omega
    have e02 : ¬ (holdsNuc 0 ch = true ∧ holdsNuc 2 ch = true) := fun h => by
      have := holdsNuc_excl 0 2 ch h.1 h.2; omega
    have e03 : ¬ (holdsNuc 0 ch = true ∧ holdsNuc 3 ch = true) := fun h => by
      have := holdsNuc_excl 0 3 ch h.1 h.2; omega
    have e12 : ¬ (holdsNuc 1 ch = true ∧ holdsNuc 2 ch = true) := fun h => by
      have := holdsNuc_excl 1 2 ch h.1 h.2; omega
    have e13 : ¬ (holdsNuc 1 ch = true ∧ holdsNuc 3 ch = true) := fun h => by
      have := holdsNuc_excl 1 3 ch h.1 h.2; omega
    have e23 : ¬ (holdsNuc 2 ch = true ∧ holdsNuc 3 ch = true) := fun h => by
      have := holdsNuc_excl 2 3 ch h.1 h.2; omega
    have h : (if holdsNuc 0 ch = true then 1 else 0) + (if holdsNuc 1 ch = true then 1 else 0)
        + (if holdsNuc 2 ch = true then 1 else 0) + (if holdsNuc 3 ch = true then 1 else 0)
        = (if (holdsNuc 0 ch || holdsNuc 1 ch || holdsNuc 2 ch || holdsNuc 3 ch) = true
            then 1 else 0) := by
      cases h0 : holdsNuc 0 ch <;> cases h1 : holdsNuc 1 ch <;> cases h2 : holdsNuc 2 ch <;>
        cases h3 : holdsNuc 3 ch <;> simp only [h0, h1, h2, h3] at e01 e02 e03 e12 e13 e23 <;>
        simp at e01 e02 e03 e12 e13 e23 ⊢
    omega

/-- A property that every iteration preserves holds after the loop in steps of 3; the loop
variable stays below the bound and congruent to its first value. -/
theorem forLoop3_inv_mod {σ : Type} (Pr : σ → Prop) (body : Nat → σ → σ) (lo hi : Nat)
    (s0 : σ) (h0 : Pr s0)
    (hstep : ∀ k s, lo ≤ k → k < hi → k % 3 = lo % 3 → Pr s → Pr (body k s)) :
    Pr (forLoop3 lo hi body s0) := by
  unfold forLoop3
  have : ∀ (L : List Nat) (s : σ), (∀ k ∈ L, lo ≤ k ∧ k < hi ∧ k % 3 = lo % 3) → Pr s →
      Pr (L.foldl (fun s k => body k s) s) := by
    intro L
    induction L with
    | nil => intro s _ hs; exact hs
    | cons k rest ih =>
      intro s hL hs
      simp only [List.foldl_cons]
      apply ih
      · intro x hx
        exact hL x (List.mem_cons_of_mem _ hx)
      · obtain ⟨a, b, c⟩ := hL k (List.mem_cons_self _ _)
        exact hstep k s a b c hs
  apply this _ _ _ h0
  intro k hk
  rw [List.mem_range'] at hk
  obtain ⟨i, hi2, rfl⟩ := hk
  refine ⟨by omega, by omega, by omega⟩

/-- The initialisation of `gotoh_noframeshifts` is the three explicit cells followed by the
two loops: a loop whose guard `n + 1 >= 6` fails has no iteration. -/
theorem nf_init_loops (N : Num α) (seq_b : Str) (m n : Nat) :
    nf.init N seq_b m n
      = forLoop3 6 (m + 1) (nf.col0 N) (forLoop3 6 (n + 1) (nf.row0 N seq_b)
          (nf.init0 N seq_b)) := by
  have hempty : ∀ {σ : Type} (k : Nat) (body : Nat → σ → σ) (s : σ), ¬ (k + 1 ≥ 6) →
      forLoop3 6 (k + 1) body s = s := by
    intro σ k body s hk
    have : (k + 1 - 6 + 2) / 3 = 0 := by omega
    unfold forLoop3
    rw [this]
    rfl
  unfold nf.init nf.init0
  simp only []
  by_cases hn : n + 1 ≥ 6 <;> by_cases hm : m + 1 ≥ 6
  · rw [if_pos hn, if_pos hm]
  · rw [if_pos hn, if_neg hm, hempty m _ _ hm]
  · rw [if_neg hn, if_pos hm, hempty n _ _ hn]
  · rw [if_neg hn, if_neg hm, hempty m _ _ hm, hempty n _ _ hn]

theorem nf_row0_frame (N : Num α) (seq_b : Str) (j : Nat) (s : Mats α) (c : Nat × Nat)
    (hc : c ≠ (0, j)) : (nf.row0 N seq_b j s).cellAt c = s.cellAt c := by
  obtain ⟨a, b⟩ := c
  have h : ¬ (a = 0 ∧ b = j) := fun h => hc (by rw [h.1, h.2])
  simp [nf.row0, Mats.cellAt, setAt, h]

theorem nf_col0_frame (N : Num α) (i : Nat) (s : Mats α) (c : Nat × Nat)
    (hc : c ≠ (i, 0)) : (nf.col0 N i s).cellAt c = s.cellAt c := by
  obtain ⟨a, b⟩ := c
  have h : ¬ (a = i ∧ b = 0) := fun h => hc (by rw [h.1, h.2])
  simp [nf.col0, Mats.cellAt, setAt, h]

/-- The cells (3,0) and (0,3) after the initialisation of `gotoh_noframeshifts`, whatever
the sizes `m` and `n` of the matrices are. -/
theorem nf_init_cells (N : Num α) (seq_b : Str) (m n : Nat) :
    (nf.init N seq_b m n).D 3 0 = nf.open30 N ∧
    (nf.init N seq_b m n).D 0 3 = nf.open03 N seq_b := by
  have key : ∀ c : Nat × Nat, c = (3, 0) ∨ c = (0, 3) →
      (nf.init N seq_b m n).cellAt c = (nf.init0 N seq_b).cellAt c := by
    intro c hc
    rw [nf_init_loops]
    apply forLoop3_inv_mod (fun s : Mats α => s.cellAt c = (nf.init0 N seq_b).cellAt c)
    · apply forLoop3_inv_mod (fun s : Mats α => s.cellAt c = (nf.init0 N seq_b).cellAt c)
        _ _ _ _ rfl
      intro j s hj _ _ hs
      rw [nf_row0_frame _ _ _ _ _ (by
        rcases hc with h | h <;> rw [h] <;> simp only [ne_eq, Prod.mk.injEq] <;> omega)]
      exact hs
    · intro i s hi _ _ hs
      rw [nf_col0_frame _ _ _ _ (by
        rcases hc with h | h <;> rw [h] <;> simp only [ne_eq, Prod.mk.injEq] <;> omega)]
      exact hs
  have h1 := key (3, 0) (Or.inl rfl)
  have h2 := key (0, 3) (Or.inr rfl)
  simp only [Mats.cellAt, Prod.mk.injEq] at h1 h2
  rw [h1.1, h2.1]
  constructor <;> simp [nf.init0, setAt]

/-- The failing inputs for C39: an empty reference or an empty second sequence passes the
frame check (0 is divisible by 3), and the initialisation then assigns cells outside the
matrices.  Over the real numbers: with `m = 0` the matrices of `mg94_marginal` have the
single row 0, yet cell (1,0) is assigned (it no longer holds the value of the allocation);
with `n = 0` they have the single column 0, yet cell (0,1) is assigned; and
`gotoh_noframeshifts` assigns cell (3,0) with `m = 0` and cell (0,3) with `n = 0`. -/
theorem init_writes_outside (seq_b : Str) (m n : Nat) :
    (¬ (1 ≤ 0) ∧
      (mg94_init realNum seq_b 0 n).D 1 0 ≠ (Mats.fresh : Mats ℝ).D 1 0) ∧
    (¬ (1 ≤ 0) ∧
      (mg94_init realNum seq_b m 0).D 0 1 ≠ (Mats.fresh : Mats ℝ).D 0 1) ∧
    (¬ (3 ≤ 0) ∧
      (nf.init realNum seq_b 0 n).D 3 0 ≠ (Mats.fresh : Mats ℝ).D 3 0) ∧
    (¬ (3 ≤ 0) ∧
      (nf.init realNum seq_b m 0).D 0 3 ≠ (Mats.fresh : Mats ℝ).D 0 3) ∧
    mg94_marginal realNum (fun _ _ _ => 1 / 4) [[], seq_b] ⟨⟨[], []⟩, 0⟩ ≠ .error .exitFailure ∧
    gotoh_noframeshifts realNum (fun _ _ _ => 1 / 4) [[], []] ⟨⟨[], []⟩, 0⟩
      ≠ .error .exitFailure := by
  have hF : (2 : ℝ) ^ 127 ≤ fltMax := fltMax_large
  have hbig : (10000 : ℝ) < 2 ^ 127 := by norm_num
  obtain ⟨⟨i1, -⟩, ⟨d1, -⟩, -, -, ⟨ni1, -⟩, -, ⟨nie1, -⟩, ⟨nde1, -⟩, hfr⟩ :=
    (realNum_sound).gap_bounds
  obtain ⟨⟨a1, -⟩, -, ⟨a3, -⟩, ⟨a4, -⟩, ⟨a5, -⟩, ⟨a6, -⟩, ⟨a7, -⟩, ⟨a8, -⟩, hfreq, -, -⟩ :=
    (realNum_sound).nf_bounds
  have hfresh : ∀ i j, (Mats.fresh : Mats ℝ).D i j = fltMax := fun _ _ => rfl
  refine ⟨⟨by decide, ?_⟩, ⟨by decide, ?_⟩, ⟨by decide, ?_⟩, ⟨by decide, ?_⟩, ?_, ?_⟩
  · rw [(mg94_init_border realNum seq_b 0 n).d10, hfresh]
    intro h
    linarith only [h, hF, hbig, ni1, d1, nde1]
  · rw [(mg94_init_border realNum seq_b m 0).d01, hfresh]
    intro h
    have := (hfr (nt4_table (charAt seq_b 0))).1
    linarith only [h, hF, hbig, i1, nie1, this]
  · rw [(nf_init_cells realNum seq_b 0 n).1, hfresh]
    unfold nf.open30
    intro h
    linarith only [h, hF, hbig, a1, a4, a6, a8]
  · rw [(nf_init_cells realNum seq_b m 0).2, hfresh]
    unfold nf.open03
    intro h
    have f0 := (hfreq (nt4_table (charAt seq_b 0))).1
    have f1 := (hfreq (nt4_table (charAt seq_b 1))).1
    have f2 := (hfreq (nt4_table (charAt seq_b 2))).1
    linarith only [h, hF, hbig, a3, a5, a7, f0, f1, f2]
  · unfold mg94_marginal
    simp only [List.length_nil, Nat.zero_mod, ne_eq, not_true_eq_false, if_false]
    exact backtracking_ne_exit _ _ _ _ _ _
  · unfold gotoh_noframeshifts
    simp only [List.length_nil, Nat.zero_mod, ne_eq, not_true_eq_false, or_self, if_false]
    exact backtracking_noframeshifts_ne_exit _ _ _ _ _ _

/-! ## Claim C36: the tag written by the column band of `gotoh_noframeshifts` -/

/-- The failing input for C36: on the pair AACCCA, AAA under `nearTensor`, over the real
numbers, cell (4,1) of the column band of `gotoh_noframeshifts` stores the deletion cost
`Q(4,1)`, which is below the match candidate, and records the tag 1 of an insertion, not the
tag 2 of a deletion: the band writes `Bd(j, i) = Q(j, i) < d ? 1 : 2`. -/
theorem nf_column_band_tag :
    (nf.forward realNum nearTensor ['A', 'A', 'C', 'C', 'C', 'A'] ['A', 'A', 'A']).D 4 1
      = (nf.forward realNum nearTensor ['A', 'A', 'C', 'C', 'C', 'A'] ['A', 'A', 'A']).Q 4 1 ∧
    (nf.forward realNum nearTensor ['A', 'A', 'C', 'C', 'C', 'A'] ['A', 'A', 'A']).Q 4 1
      < fltMax ∧
    (nf.forward realNum nearTensor ['A', 'A', 'C', 'C', 'C', 'A'] ['A', 'A', 'A']).Bd 4 1
      = 1 := by
  have hF : (2 : ℝ) ^ 127 ≤ fltMax := fltMax_large
  have hbig : (10000 : ℝ) < 2 ^ 127 := by norm_num
  obtain ⟨⟨ni1, ni2⟩, ⟨nd1, nd2⟩, ⟨i1, i2⟩, ⟨d1, d2⟩, ⟨ie1, ie2⟩, ⟨de1, de2⟩, ⟨nie1, nie2⟩,
    ⟨nde1, nde2⟩, hfreq, ⟨t1, t2⟩, ⟨m1, m2⟩⟩ := (realNum_sound).nf_bounds
  obtain ⟨-, -, -, T41, -, -⟩ := @transition_AACCCA ℝ _ 0
  obtain ⟨S, hS, D11, -, B11, -, Q11, -, B30, D30, -⟩ := @nf_AACCCA_seeds ℝ _ realNum
  have hfw := nf_forward_6_3 realNum nearTensor 'A' 'A' 'C' 'C' 'C' 'A' 'A' 'A' 'A'
  rw [← hS] at hfw
  have hsubC4 : substr ['A', 'A', 'C', 'C', 'C', 'A'] ((4 - 1) / 3 * 3) 3 = ['C', 'C', 'A'] := by
    decide
  have hc0 : charAt ['A', 'A', 'A'] (1 - 1) = 'A' := by decide
  -- the cell (4,1) is written by the column band and by no later step
  have hcell : (nf.forward realNum nearTensor ['A', 'A', 'C', 'C', 'C', 'A']
      ['A', 'A', 'A']).cellAt (4, 1)
      = (nf.colCell realNum nearTensor ['A', 'A', 'C', 'C', 'C', 'A'] ['A', 'A', 'A'] 4 1
          S).cellAt (4, 1) := by
    rw [hfw, nf_cell_frame _ _ _ _ _ _ _ _ (by decide),
      nf_cell_frame _ _ _ _ _ _ _ _ (by decide), nf_colCell_frame _ _ _ _ _ _ _ _ (by decide)]
  rw [nf_colCell_at _ _ _ _ _ _ _ (by decide)] at hcell
  simp only [Mats.cellAt, Prod.mk.injEq] at hcell
  obtain ⟨eD, -, eQ, eBd, -, -⟩ := hcell
  -- the candidates at cell (4,1)
  have hd : nf.d realNum nearTensor ['A', 'A', 'C', 'C', 'C', 'A'] ['A', 'A', 'A'] S 4 1
      = nf.open30 realNum - realNum.log 0.001 := by
    unfold nf.d
    simp only [hsubC4, hc0, Nat.reduceSub, Nat.reduceMod]
    rw [if_neg (by rw [B30]; decide), if_neg (by rw [B30]; decide), D30, T41]
  have hq2 : nf.q2 realNum S 4 1
      = 0 - realNum.log (1 - nf.insertion) - realNum.log (1 - nf.deletion) - realNum.log 0.997
        - realNum.log (1 - nf.insertion) - realNum.log nf.deletion
        - realNum.log (1 - nf.deletion_ext) - 2 * realNum.log nf.deletion_ext := by
    unfold nf.q2
    simp only [Nat.reduceSub]
    rw [if_pos B11, D11]
  have hlt : min (nf.q1 realNum S 4 1) (nf.q2 realNum S 4 1)
      < nf.d realNum nearTensor ['A', 'A', 'C', 'C', 'C', 'A'] ['A', 'A', 'A'] S 4 1 := by
    apply lt_of_le_of_lt (min_le_right _ _)
    rw [hq2, hd]
    unfold nf.open30
    have e : realNum.log 0.001 = realNum.log nf.deletion := rfl
    linarith only [ni1, nd1, t1, m2, e, d2]
  rw [if_pos hlt] at eD eBd
  refine ⟨by rw [eD, eQ], ?_, eBd⟩
  rw [eQ]
  apply lt_of_le_of_lt (min_le_right _ _)
  rw [hq2]
  linarith only [ni1, nd1, t1, d1, nde1, de1, hF, hbig]

/-! ## Claim C37: the band of `gotoh_noframeshifts` -/

/-- The initialisation of `gotoh_profile_marginal` is the three explicit cells followed by
the two loops: a loop whose guard `n + 1 >= 2` fails has no iteration. -/
theorem prof_init_loops (N : Num α) (pro2 : Profile α) (m n : Nat) :
    prof.init N pro2 m n
      = forLoop 2 (m + 1) (mg94_col0 N) (forLoop 2 (n + 1) (prof.row0 N pro2)
          (prof.init0 N pro2)) := by
  have hempty : ∀ {σ : Type} (k : Nat) (body : Nat → σ → σ) (s : σ), ¬ (k + 1 ≥ 2) →
      forLoop 2 (k + 1) body s = s := by
    intro σ k body s hk
    have : k + 1 - 2 = 0 := by omega
    simp [forLoop, this]
  unfold prof.init prof.init0
  simp only []
  by_cases hn : n + 1 ≥ 2 <;> by_cases hm : m + 1 ≥ 2
  · rw [if_pos hn, if_pos hm]
  · rw [if_pos hn, if_neg hm, hempty m _ _ hm]
  · rw [if_neg hn, if_pos hm, hempty n _ _ hn]
  · rw [if_neg hn, if_neg hm, hempty m _ _ hm, hempty n _ _ hn]

/-- The first-row loop of `gotoh_profile_marginal` writes neither `Q` nor `Bq`. -/
theorem prof_rowLoop_Q (N : Num α) (pro2 : Profile α) (n : Nat) (s0 : Mats α) :
    (forLoop 2 (n + 1) (prof.row0 N pro2) s0).Q = s0.Q ∧
    (forLoop 2 (n + 1) (prof.row0 N pro2) s0).Bq = s0.Bq :=
  forLoop_inv (fun s : Mats α => s.Q = s0.Q ∧ s.Bq = s0.Bq) _ _ _ _ ⟨rfl, rfl⟩ (fun _ _ _ _ h => h)

/-- Cells off the range of the first-row loop keep their entries. -/
theorem prof_rowLoop_off (N : Num α) (pro2 : Profile α) (n : Nat) (s0 : Mats α) (c : Nat × Nat)
    (hc : c.1 ≠ 0 ∨ c.2 < 2 ∨ n < c.2) :
    (forLoop 2 (n + 1) (prof.row0 N pro2) s0).rowPart c = s0.rowPart c := by
  apply forLoop_frame Mats.rowPart (prof.row0 N pro2) (fun j => (0, j))
    (fun k s c hc => prof_row0_frame N pro2 k s c hc)
  intro k hk hk2 h
  rw [h] at hc
  simp only at hc
  omega

/-- Row 0 and column 0 after the initialisation of `gotoh_profile_marginal`. -/
theorem prof_init_border (N : Num α) (pro2 : Profile α) (m n : Nat) :
    GapBorder N (fun k => nuc_pi N (pro2.col k) (nuc_freqs N)) m n (prof.init N pro2 m n) := by
  rw [prof_init_loops]
  have hP := (mg94_colLoop_P N m (forLoop 2 (n + 1) (prof.row0 N pro2) (prof.init0 N pro2)))
  have hQ := (prof_rowLoop_Q N pro2 n (prof.init0 N pro2))
  have hcolAt := fun i => mg94_colLoop_at N m
    (forLoop 2 (n + 1) (prof.row0 N pro2) (prof.init0 N pro2)) i
  have hcolOff := fun c => mg94_colLoop_off N m
    (forLoop 2 (n + 1) (prof.row0 N pro2) (prof.init0 N pro2)) c
  have hrowAt := fun j => prof_rowLoop_at N pro2 n (prof.init0 N pro2) j
  have hrowOff := fun c => prof_rowLoop_off N pro2 n (prof.init0 N pro2) c
  simp only [Mats.colPart, Mats.rowPart, Prod.mk.injEq] at hcolAt hcolOff hrowAt hrowOff
  have eD : ∀ a b, (b ≠ 0 ∨ a < 2 ∨ m < a) →
      (forLoop 2 (m + 1) (mg94_col0 N)
        (forLoop 2 (n + 1) (prof.row0 N pro2) (prof.init0 N pro2))).D a b
      = (forLoop 2 (n + 1) (prof.row0 N pro2) (prof.init0 N pro2)).D a b :=
    fun a b h => (hcolOff (a, b) h).1
  have eBd : ∀ a b, (b ≠ 0 ∨ a < 2 ∨ m < a) →
      (forLoop 2 (m + 1) (mg94_col0 N)
        (forLoop 2 (n + 1) (prof.row0 N pro2) (prof.init0 N pro2))).Bd a b
      = (forLoop 2 (n + 1) (prof.row0 N pro2) (prof.init0 N pro2)).Bd a b :=
    fun a b h => (hcolOff (a, b) h).2.2.1
  have eQ : ∀ a b, (b ≠ 0 ∨ a < 2 ∨ m < a) →
      (forLoop 2 (m + 1) (mg94_col0 N)
        (forLoop 2 (n + 1) (prof.row0 N pro2) (prof.init0 N pro2))).Q a b
      = (prof.init0 N pro2).Q a b :=
    fun a b h => by rw [(hcolOff (a, b) h).2.1, hQ.1]
  have eBq : ∀ a b, (b ≠ 0 ∨ a < 2 ∨ m < a) →
      (forLoop 2 (m + 1) (mg94_col0 N)
        (forLoop 2 (n + 1) (prof.row0 N pro2) (prof.init0 N pro2))).Bq a b
      = (prof.init0 N pro2).Bq a b :=
    fun a b h => by rw [(hcolOff (a, b) h).2.2.2, hQ.2]
  have rD : ∀ a b, (a ≠ 0 ∨ b < 2 ∨ n < b) →
      (forLoop 2 (n + 1) (prof.row0 N pro2) (prof.init0 N pro2)).D a b
      = (prof.init0 N pro2).D a b :=
    fun a b h => (hrowOff (a, b) h).1
  have rP : ∀ a b, (a ≠ 0 ∨ b < 2 ∨ n < b) →
      (forLoop 2 (n + 1) (prof.row0 N pro2) (prof.init0 N pro2)).P a b
      = (prof.init0 N pro2).P a b :=
    fun a b h => (hrowOff (a, b) h).2.1
  have rBd : ∀ a b, (a ≠ 0 ∨ b < 2 ∨ n < b) →
      (forLoop 2 (n + 1) (prof.row0 N pro2) (prof.init0 N pro2)).Bd a b
      = (prof.init0 N pro2).Bd a b :=
    fun a b h => (hrowOff (a, b) h).2.2.1
  have rBp : ∀ a b, (a ≠ 0 ∨ b < 2 ∨ n < b) →
      (forLoop 2 (n + 1) (prof.row0 N pro2) (prof.init0 N pro2)).Bp a b
      = (prof.init0 N pro2).Bp a b :=
    fun a b h => (hrowOff (a, b) h).2.2.2
  constructor
  · rw [eD 0 0 (by omega), rD 0 0 (by omega)]; simp [prof.init0, setAt]
  · rw [eBd 0 0 (by omega), rBd 0 0 (by omega)]; simp [prof.init0, setAt]
  · rw [eD 0 1 (by omega), rD 0 1 (by omega)]; simp [prof.init0, setAt]
  · rw [hP.1, rP 0 1 (by omega)]; simp [prof.init0, setAt]
  · rw [eD 1 0 (by omega), rD 1 0 (by omega)]; simp [prof.init0, setAt]
  · rw [eQ 1 0 (by omega)]; simp [prof.init0, setAt]
  · intro j hj hjn
    rw [eD 0 j (by omega), eD 0 (j - 1) (by omega)]
    exact (hrowAt j hj hjn).1
  · intro j hj hjn
    rw [hP.1]
    exact (hrowAt j hj hjn).2.1
  · intro i hi him
    exact (hcolAt i hi him).1
  · intro i hi him
    exact (hcolAt i hi him).2.1
  · intro j hj hjn
    rw [eBd 0 j (by omega)]
    by_cases h2 : 2 ≤ j
    · exact (hrowAt j h2 hjn).2.2.1
    · have : j = 1 := by omega
      subst this
      rw [rBd 0 1 (by omega)]; simp [prof.init0, setAt]
  · rw [hP.2, rBp 0 1 (by omega)]; simp [prof.init0, setAt]
  · intro j hj hjn
    rw [hP.2]
    exact (hrowAt j hj hjn).2.2.2
  · intro i hi him
    by_cases h2 : 2 ≤ i
    · exact (hcolAt i h2 him).2.2.1
    · have : i = 1 := by omega
      subst this
      rw [eBd 1 0 (by omega), rBd 1 0 (by omega)]; simp [prof.init0, setAt]
  · rw [eBq 1 0 (by omega)]; simp [prof.init0, setAt]
  · intro i hi him
    exact (hcolAt i hi him).2.2.2
  · intro i
    rw [hP.1, rP i 0 (by omega)]; simp [prof.init0, setAt, Mats.fresh]
  · intro j
    rw [eQ 0 j (by omega)]; simp [prof.init0, setAt, Mats.fresh]

/-- Row 0 and column 0 after the forward pass of `gotoh_profile_marginal`. -/
theorem prof_forward_border_spec (N : Num α) (p : Nat → Nat → Nat → α)
    (pro1 pro2 : Profile α) :
    GapBorder N (fun k => nuc_pi N (pro2.col k) (nuc_freqs N)) pro1.cols pro2.cols
      (prof.forward N p pro1 pro2) := by
  have hI := prof_init_border N pro2 pro1.cols pro2.cols
  have hb := fun c hc => prof_forward_border N p pro1 pro2 c hc
  simp only [Mats.cellAt, Prod.mk.injEq] at hb
  have eD : ∀ a b, (a = 0 ∨ b = 0) → (prof.forward N p pro1 pro2).D a b
      = (prof.init N pro2 pro1.cols pro2.cols).D a b := fun a b h => (hb (a, b) h).1
  have eP : ∀ a b, (a = 0 ∨ b = 0) → (prof.forward N p pro1 pro2).P a b
      = (prof.init N pro2 pro1.cols pro2.cols).P a b := fun a b h => (hb (a, b) h).2.1
  have eQ : ∀ a b, (a = 0 ∨ b = 0) → (prof.forward N p pro1 pro2).Q a b
      = (prof.init N pro2 pro1.cols pro2.cols).Q a b := fun a b h => (hb (a, b) h).2.2.1
  have eBd : ∀ a b, (a = 0 ∨ b = 0) → (prof.forward N p pro1 pro2).Bd a b
      = (prof.init N pro2 pro1.cols pro2.cols).Bd a b :=
    fun a b h => (hb (a, b) h).2.2.2.1
  have eBp : ∀ a b, (a = 0 ∨ b = 0) → (prof.forward N p pro1 pro2).Bp a b
      = (prof.init N pro2 pro1.cols pro2.cols).Bp a b :=
    fun a b h => (hb (a, b) h).2.2.2.2.1
  have eBq : ∀ a b, (a = 0 ∨ b = 0) → (prof.forward N p pro1 pro2).Bq a b
      = (prof.init N pro2 pro1.cols pro2.cols).Bq a b :=
    fun a b h => (hb (a, b) h).2.2.2.2.2
  constructor
  · rw [eD 0 0 (Or.inl rfl)]; exact hI.d00
  · rw [eBd 0 0 (Or.inl rfl)]; exact hI.bd00
  · rw [eD 0 1 (Or.inl rfl)]; exact hI.d01
  · rw [eP 0 1 (Or.inl rfl)]; exact hI.p01
  · rw [eD 1 0 (Or.inr rfl)]; exact hI.d10
  · rw [eQ 1 0 (Or.inr rfl)]; exact hI.q10
  · intro j hj hjn
    rw [eD 0 j (Or.inl rfl), eD 0 (j - 1) (Or.inl rfl)]; exact hI.drow j hj hjn
  · intro j hj hjn
    rw [eP 0 j (Or.inl rfl), eP 0 (j - 1) (Or.inl rfl)]; exact hI.prow j hj hjn
  · intro i hi him
    rw [eD i 0 (Or.inr rfl), eD (i - 1) 0 (Or.inr rfl)]; exact hI.dcol i hi him
  · intro i hi him
    rw [eQ i 0 (Or.inr rfl), eQ (i - 1) 0 (Or.inr rfl)]; exact hI.qcol i hi him
  · intro j hj hjn
    rw [eBd 0 j (Or.inl rfl)]; exact hI.bdrow j hj hjn
  · rw [eBp 0 1 (Or.inl rfl)]; exact hI.bp01
  · intro j hj hjn
    rw [eBp 0 j (Or.inl rfl)]; exact hI.bprow j hj hjn
  · intro i hi him
    rw [eBd i 0 (Or.inr rfl)]; exact hI.bdcol i hi him
  · rw [eBq 1 0 (Or.inr rfl)]; exact hI.bq10
  · intro i hi him
    rw [eBq i 0 (Or.inr rfl)]; exact hI.bqcol i hi him
  · intro i
    rw [eP i 0 (Or.inr rfl)]; exact hI.pcol i
  · intro j
    rw [eQ 0 j (Or.inl rfl)]; exact hI.qrow j

/-- Interior cells of `gotoh_profile_marginal`: the six entries in terms of the candidates
computed from the final matrices. -/
theorem prof_forward_eqs (N : Num α) (p : Nat → Nat → Nat → α) (pro1 pro2 : Profile α)
    (i j : Nat) (hi : 1 ≤ i) (him : i ≤ pro1.cols) (hj : 1 ≤ j) (hjn : j ≤ pro2.cols) :
    (prof.forward N p pro1 pro2).P i j
      = min (prof.p1 N pro2 (prof.forward N p pro1 pro2) i j)
          (prof.p2 N pro2 (prof.forward N p pro1 pro2) i j) ∧
    (prof.forward N p pro1 pro2).Q i j
      = min (mg94_q1 N (prof.forward N p pro1 pro2) i j)
          (mg94_q2 N (prof.forward N p pro1 pro2) i j) ∧
    (prof.forward N p pro1 pro2).Bp i j
      = (if prof.p1 N pro2 (prof.forward N p pro1 pro2) i j
          < prof.p2 N pro2 (prof.forward N p pro1 pro2) i j then 1 else 2) ∧
    (prof.forward N p pro1 pro2).Bq i j
      = (if mg94_q1 N (prof.forward N p pro1 pro2) i j
          < mg94_q2 N (prof.forward N p pro1 pro2) i j then 1 else 2) ∧
    (prof.forward N p pro1 pro2).Bd i j
      = (if prof.d N p pro1 pro2 (prof.forward N p pro1 pro2) i j
            < (prof.forward N p pro1 pro2).P i j
          then (if prof.d N p pro1 pro2 (prof.forward N p pro1 pro2) i j
            < (prof.forward N p pro1 pro2).Q i j then 0 else 2)
          else (if (prof.forward N p pro1 pro2).P i j < (prof.forward N p pro1 pro2).Q i j
            then 1 else 2)) ∧
    (prof.forward N p pro1 pro2).D i j
      = (if prof.d N p pro1 pro2 (prof.forward N p pro1 pro2) i j
            < (prof.forward N p pro1 pro2).P i j
          then (if prof.d N p pro1 pro2 (prof.forward N p pro1 pro2) i j
            < (prof.forward N p pro1 pro2).Q i j
            then prof.d N p pro1 pro2 (prof.forward N p pro1 pro2) i j
            else (prof.forward N p pro1 pro2).Q i j)
          else (if (prof.forward N p pro1 pro2).P i j < (prof.forward N p pro1 pro2).Q i j
            then (prof.forward N p pro1 pro2).P i j
            else (prof.forward N p pro1 pro2).Q i j)) := by
  have h := prof_forward_cell N p pro1 pro2 i j hi him hj hjn
  rw [prof_cell_at N p pro1 pro2 i j _ hi] at h
  simp only [Mats.cellAt, Prod.mk.injEq] at h
  obtain ⟨hD, hP, hQ, hBd, hBp, hBq⟩ := h
  refine ⟨hP, hQ, hBp, hBq, ?_, ?_⟩
  · rw [hP, hQ]; exact hBd
  · rw [hP, hQ]; exact hD

/-! ## The tags left by the forward pass of `gotoh_profile_marginal` are well formed -/

/-- The cost stored in `D(i,j)` by `gotoh_profile_marginal` is at most that of `Q(i,j)`. -/
theorem prof_D_le_Q (N : Num α) (p : Nat → Nat → Nat → α) (pro1 pro2 : Profile α)
    (i j : Nat) (hi : 1 ≤ i) (him : i ≤ pro1.cols) (hj : 1 ≤ j) (hjn : j ≤ pro2.cols) :
    (prof.forward N p pro1 pro2).D i j ≤ (prof.forward N p pro1 pro2).Q i j := by
  obtain ⟨-, -, -, -, -, hD⟩ := prof_forward_eqs N p pro1 pro2 i j hi him hj hjn
  rw [hD]
  split_ifs with h1 h2 h3
  · exact h2.le
  · exact le_refl _
  · exact h3.le
  · exact le_refl _

/-- Every cost `D(i,j)` of the grid of `gotoh_profile_marginal` is at most 1009 per row and
column passed, when the terms `nuc_pi` of the columns of the second profile are not
negative. -/
theorem prof_D_bound (N : Num α) (hN : N.Sound) (p : Nat → Nat → Nat → α)
    (pro1 pro2 : Profile α)
    (hg : ∀ k, k < pro2.cols → 0 ≤ nuc_pi N (pro2.col k) (nuc_freqs N))
    (i j : Nat) (him : i ≤ pro1.cols) (hjn : j ≤ pro2.cols) :
    (prof.forward N p pro1 pro2).D i j ≤ 1009 * ((i : α) + (j : α)) := by
  have hB := prof_forward_border_spec N p pro1 pro2
  obtain ⟨⟨i1, i2⟩, ⟨d1, d2⟩, ⟨ie1, ie2⟩, ⟨de1, de2⟩, ⟨ni1, ni2⟩, ⟨nd1, nd2⟩, ⟨nie1, nie2⟩,
    ⟨nde1, nde2⟩, hnf⟩ := hN.gap_bounds
  -- row 0
  have hrow : ∀ j, j ≤ pro2.cols →
      (prof.forward N p pro1 pro2).D 0 j ≤ 1009 * (((0 : Nat) : α) + (j : α)) := by
    intro j
    induction j with
    | zero => intro _; rw [hB.d00]; simp
    | succ j ih =>
      intro hj
      by_cases h1 : j = 0
      · subst h1
        rw [hB.d01]
        have := hg 0 (by omega)
        push_cast
        linarith
      · rw [hB.drow (j + 1) (by omega) hj]
        have h5 := hg j (by omega)
        have := ih (by omega)
        simp only [Nat.add_sub_cancel]
        push_cast at this ⊢
        linarith
  induction i with
  | zero => exact hrow j hjn
  | succ i ih =>
    have ih := ih (by omega)
    by_cases hj0 : j = 0
    · subst hj0
      by_cases h1 : i = 0
      · subst h1
        rw [hB.d10]
        push_cast
        linarith
      · rw [hB.dcol (i + 1) (by omega) him]
        simp only [Nat.add_sub_cancel]
        push_cast at ih ⊢
        linarith
    · have hle := prof_D_le_Q N p pro1 pro2 (i + 1) j (by omega) him (by omega) hjn
      obtain ⟨-, hQ, -, -, -, -⟩ := prof_forward_eqs N p pro1 pro2 (i + 1) j (by omega) him
        (by omega) hjn
      have hq2 : mg94_q2 N (prof.forward N p pro1 pro2) (i + 1) j
          ≤ (prof.forward N p pro1 pro2).D i j + 1005 := by
        unfold mg94_q2
        simp only [Nat.add_sub_cancel]
        split_ifs <;> linarith
      have : (prof.forward N p pro1 pro2).Q (i + 1) j
          ≤ mg94_q2 N (prof.forward N p pro1 pro2) (i + 1) j := by
        rw [hQ]; exact min_le_right _ _
      push_cast at ih ⊢
      linarith

/-- A cost `P(i,j)` of `gotoh_profile_marginal` that is below the sentinel by more than `j`
comes from an opening: the extend tags to the left of cell (i,j) end at a column
`js >= 1`.  An extension raises the cost by `-insertion_ext - nuc_pi`, which is above -1
when `nuc_pi` is at most 1. -/
theorem prof_P_chain (N : Num α) (hN : N.Sound) (p : Nat → Nat → Nat → α)
    (pro1 pro2 : Profile α)
    (hg : ∀ k, k < pro2.cols → nuc_pi N (pro2.col k) (nuc_freqs N) ≤ 1)
    (i : Nat) (hi : 1 ≤ i) (him : i ≤ pro1.cols) (j : Nat) :
    1 ≤ j → j ≤ pro2.cols → (prof.forward N p pro1 pro2).P i j + (j : α) < fltMax →
    ∃ js, 1 ≤ js ∧ js ≤ j ∧ (prof.forward N p pro1 pro2).Bp i js ≠ 1 ∧
      ∀ j2, js < j2 → j2 ≤ j → (prof.forward N p pro1 pro2).Bp i j2 = 1 := by
  have hB := prof_forward_border_spec N p pro1 pro2
  obtain ⟨-, -, ⟨ie1, ie2⟩, -, -, -, -, -, hnf⟩ := hN.gap_bounds
  induction j with
  | zero => intro h; omega
  | succ j ih =>
    intro hj hjn hlt
    by_cases hBp : (prof.forward N p pro1 pro2).Bp i (j + 1) = 1
    · obtain ⟨hP, -, hBp2, -, -, -⟩ := prof_forward_eqs N p pro1 pro2 i (j + 1) hi him
        (by omega) hjn
      have hp12 : prof.p1 N pro2 (prof.forward N p pro1 pro2) i (j + 1)
          < prof.p2 N pro2 (prof.forward N p pro1 pro2) i (j + 1) := by
        by_contra hcon
        rw [hBp2, if_neg hcon] at hBp
        exact absurd hBp (by decide)
      rw [hP, min_eq_left hp12.le] at hlt
      unfold prof.p1 at hlt
      simp only [Nat.add_sub_cancel] at hlt
      have hgj := hg j (by omega)
      push_cast at hlt
      have hprev : (prof.forward N p pro1 pro2).P i j + (j : α) < fltMax := by linarith
      by_cases hj0 : j = 0
      · subst hj0
        rw [hB.pcol i] at hprev
        simp at hprev
      · obtain ⟨js, h1, h2, h3, h4⟩ := ih (by omega) (by omega) hprev
        refine ⟨js, h1, by omega, h3, ?_⟩
        intro j2 hj2 hj2'
        by_cases he : j2 = j + 1
        · rw [he]; exact hBp
        · exact h4 j2 hj2 (by omega)
    · exact ⟨j + 1, hj, le_refl _, hBp, fun j2 h1 h2 => by omega⟩

/-- A cost `Q(i,j)` of `gotoh_profile_marginal` below the sentinel comes from an opening:
the extend tags above cell (i,j) end at a row `is >= 1`. -/
theorem prof_Q_chain (N : Num α) (hN : N.Sound) (p : Nat → Nat → Nat → α)
    (pro1 pro2 : Profile α)
    (j : Nat) (hj : 1 ≤ j) (hjn : j ≤ pro2.cols) (i : Nat) :
    1 ≤ i → i ≤ pro1.cols → (prof.forward N p pro1 pro2).Q i j < fltMax →
    ∃ is, 1 ≤ is ∧ is ≤ i ∧ (prof.forward N p pro1 pro2).Bq is j ≠ 1 ∧
      ∀ i2, is < i2 → i2 ≤ i → (prof.forward N p pro1 pro2).Bq i2 j = 1 := by
  have hB := prof_forward_border_spec N p pro1 pro2
  obtain ⟨-, -, -, ⟨de1, de2⟩, -, -, -, -, -⟩ := hN.gap_bounds
  induction i with
  | zero => intro h; omega
  | succ i ih =>
    intro hi him hlt
    by_cases hBq : (prof.forward N p pro1 pro2).Bq (i + 1) j = 1
    · obtain ⟨-, hQ, -, hBq2, -, -⟩ := prof_forward_eqs N p pro1 pro2 (i + 1) j (by omega)
        him hj hjn
      have hq12 : mg94_q1 N (prof.forward N p pro1 pro2) (i + 1) j
          < mg94_q2 N (prof.forward N p pro1 pro2) (i + 1) j := by
        by_contra hcon
        rw [hBq2, if_neg hcon] at hBq
        exact absurd hBq (by decide)
      rw [hQ, min_eq_left hq12.le] at hlt
      unfold mg94_q1 at hlt
      simp only [Nat.add_sub_cancel] at hlt
      have hprev : (prof.forward N p pro1 pro2).Q i j < fltMax := by linarith
      by_cases hi0 : i = 0
      · subst hi0
        rw [hB.qrow j] at hprev
        exact absurd hprev (lt_irrefl _)
      · obtain ⟨is, h1, h2, h3, h4⟩ := ih (by omega) (by omega) hprev
        refine ⟨is, h1, by omega, h3, ?_⟩
        intro i2 hi2 hi2'
        by_cases he : i2 = i + 1
        · rw [he]; exact hBq
        · exact h4 i2 hi2 (by omega)
    · exact ⟨i + 1, hi, le_refl _, hBq, fun i2 h1 h2 => by omega⟩

/-- The tag `Bd` of every cell of the grid of `gotoh_profile_marginal` is one of the three
cases of the `switch` of `backtracking_profile`. -/
theorem prof_Bd_range (N : Num α) (p : Nat → Nat → Nat → α) (pro1 pro2 : Profile α)
    (i j : Nat) (him : i ≤ pro1.cols) (hjn : j ≤ pro2.cols) :
    (prof.forward N p pro1 pro2).Bd i j = 0 ∨ (prof.forward N p pro1 pro2).Bd i j = 1 ∨
      (prof.forward N p pro1 pro2).Bd i j = 2 := by
  have hB := prof_forward_border_spec N p pro1 pro2
  by_cases hi0 : i = 0
  · subst hi0
    by_cases hj0 : j = 0
    · subst hj0
      exact Or.inl hB.bd00
    · exact Or.inr (Or.inl (hB.bdrow j (by omega) hjn))
  by_cases hj0 : j = 0
  · subst hj0
    exact Or.inr (Or.inr (hB.bdcol i (by omega) him))
  obtain ⟨-, -, -, -, hBd, -⟩ := prof_forward_eqs N p pro1 pro2 i j (by omega) him
    (by omega) hjn
  rw [hBd]
  split_ifs
  · exact Or.inl rfl
  · exact Or.inr (Or.inr rfl)
  · exact Or.inr (Or.inl rfl)
  · exact Or.inr (Or.inr rfl)

/-- The tags left by the forward pass of `gotoh_profile_marginal` are well formed, provided
the logarithm is sound, the terms `nuc_pi` of the second profile lie in [0, 1] and the cost
of a path of gaps stays below the sentinel. -/
theorem prof_tags_ok (N : Num α) (hN : N.Sound) (p : Nat → Nat → Nat → α)
    (pro1 pro2 : Profile α)
    (hg : ∀ k, k < pro2.cols → 0 ≤ nuc_pi N (pro2.col k) (nuc_freqs N) ∧
      nuc_pi N (pro2.col k) (nuc_freqs N) ≤ 1)
    (hsize : 1010 * ((pro1.cols : α) + (pro2.cols : α)) < fltMax) :
    TagsOK (prof.forward N p pro1 pro2).Bd (prof.forward N p pro1 pro2).Bp
      (prof.forward N p pro1 pro2).Bq pro1.cols pro2.cols := by
  have hB := prof_forward_border_spec N p pro1 pro2
  obtain ⟨⟨i1, i2⟩, ⟨d1, d2⟩, ⟨ie1, ie2⟩, ⟨de1, de2⟩, ⟨ni1, ni2⟩, ⟨nd1, nd2⟩, ⟨nie1, nie2⟩,
    ⟨nde1, nde2⟩, hnf⟩ := hN.gap_bounds
  intro i j him hjn h00
  by_cases hi0 : i = 0
  · -- row 0
    subst hi0
    have hj1 : 1 ≤ j := by omega
    right; left
    exact ⟨hB.bdrow j hj1 hjn, 1, le_refl _, hj1, by rw [hB.bp01]; decide,
      fun j2 h1 h2 => hB.bprow j2 (by omega) (by omega)⟩
  by_cases hj0 : j = 0
  · -- column 0
    subst hj0
    have hi1 : 1 ≤ i := by omega
    right; right
    have hbd := hB.bdcol i hi1 him
    exact ⟨by rw [hbd]; decide, by rw [hbd]; decide, 1, le_refl _, hi1,
      by rw [hB.bq10]; decide, fun i2 h1 h2 => hB.bqcol i2 (by omega) (by omega)⟩
  -- interior
  have hi1 : 1 ≤ i := by omega
  have hj1 : 1 ≤ j := by omega
  obtain ⟨-, hQ, -, -, hBd, -⟩ := prof_forward_eqs N p pro1 pro2 i j hi1 him hj1 hjn
  have hi' : (i : α) ≤ (pro1.cols : α) := by exact_mod_cast him
  have hj' : (j : α) ≤ (pro2.cols : α) := by exact_mod_cast hjn
  have hj0' : (0 : α) ≤ (j : α) := Nat.cast_nonneg j
  have hi0' : (0 : α) ≤ (i : α) := Nat.cast_nonneg i
  have hQb : (prof.forward N p pro1 pro2).Q i j + (j : α)
      < 1010 * ((pro1.cols : α) + (pro2.cols : α)) := by
    have hq2 : mg94_q2 N (prof.forward N p pro1 pro2) i j
        ≤ (prof.forward N p pro1 pro2).D (i - 1) j + 1005 := by
      unfold mg94_q2
      split_ifs <;> linarith
    have hle : (prof.forward N p pro1 pro2).Q i j
        ≤ mg94_q2 N (prof.forward N p pro1 pro2) i j := by
      rw [hQ]; exact min_le_right _ _
    have hD := prof_D_bound N hN p pro1 pro2 (fun k hk => (hg k hk).1) (i - 1) j (by omega) hjn
    have hc : ((i - 1 : Nat) : α) + 1 = (i : α) := by
      have : i - 1 + 1 = i := by omega
      exact_mod_cast this
    linarith
  have hQlt : (prof.forward N p pro1 pro2).Q i j < fltMax := by linarith
  by_cases hd0 : (prof.forward N p pro1 pro2).Bd i j = 0
  · left
    exact ⟨hd0, hi1, hj1⟩
  by_cases hd1 : (prof.forward N p pro1 pro2).Bd i j = 1
  · right; left
    refine ⟨hd1, ?_⟩
    have hPQ : (prof.forward N p pro1 pro2).P i j < (prof.forward N p pro1 pro2).Q i j := by
      rw [hBd] at hd1
      by_cases h1 : prof.d N p pro1 pro2 (prof.forward N p pro1 pro2) i j
          < (prof.forward N p pro1 pro2).P i j
      · rw [if_pos h1] at hd1
        by_cases h2 : prof.d N p pro1 pro2 (prof.forward N p pro1 pro2) i j
            < (prof.forward N p pro1 pro2).Q i j
        · rw [if_pos h2] at hd1
          exact absurd hd1 (by decide)
        · rw [if_neg h2] at hd1
          exact absurd hd1 (by decide)
      · rw [if_neg h1] at hd1
        by_contra h3
        rw [if_neg h3] at hd1
        exact absurd hd1 (by decide)
    exact prof_P_chain N hN p pro1 pro2 (fun k hk => (hg k hk).2) i hi1 him j hj1 hjn
      (by linarith)
  · right; right
    exact ⟨hd0, hd1, prof_Q_chain N hN p pro1 pro2 j hj1 hjn i hi1 him hQlt⟩

/-! ## Rows laid out along a mask of columns -/

/-- A mask of `false` only lays out gap symbols. -/
theorem spread_gaps (k : Nat) (K : List Bool) (s : Str) :
    spread (List.replicate k false ++ K) s = List.replicate k '-' ++ spread K s := by
  induction k with
  | zero => simp
  | succ k ih =>
    rw [List.replicate_succ, List.replicate_succ, List.cons_append, List.cons_append]
    cases s <;> simp only [spread, ih]

/-- The length of a row laid out along a mask is the length of the mask. -/
theorem spread_length (K : List Bool) : ∀ s : Str, (spread K s).length = K.length := by
  induction K with
  | nil => intro s; cases s <;> rfl
  | cons b ks ih =>
    intro s
    cases b <;> cases s <;> simp [spread, ih]

/-- A mask whose `true` positions are as many as the symbols of `xs` consumes exactly
`xs`. -/
theorem spread_append (K K2 : List Bool) (ys : Str) :
    ∀ xs : Str, K.count true = xs.length →
      spread (K ++ K2) (xs ++ ys) = spread K xs ++ spread K2 ys := by
  induction K with
  | nil =>
    intro xs h
    have : xs = [] := by
      cases xs with
      | nil => rfl
      | cons c cs => simp at h
    subst this
    cases K2 <;> cases ys <;> simp [spread]
  | cons b ks ih =>
    intro xs h
    cases b with
    | false =>
      have h2 : ks.count true = xs.length := by simpa using h
      have := ih xs h2
      cases hx : xs ++ ys with
      | nil =>
        rw [hx] at this
        cases xs <;> simp [spread, this]
      | cons c cs =>
        rw [hx] at this
        cases xs <;> simp [spread, this]
    | true =>
      cases xs with
      | nil => simp at h
      | cons c cs =>
        have h2 : ks.count true = cs.length := by simpa using h
        simp [spread, ih cs h2]

/-- Gap columns after a mask that has consumed the row. -/
theorem spread_gaps_right (K : List Bool) (k : Nat) (xs : Str) (h : K.count true = xs.length) :
    spread (K ++ List.replicate k false) xs = spread K xs ++ List.replicate k '-' := by
  have := spread_append K (List.replicate k false) [] xs h
  rw [List.append_nil] at this
  rw [this]
  have e := spread_gaps k [] []
  simp only [List.append_nil] at e
  rw [e]
  simp [spread]

/-- A mask of `true` only lays out the row itself. -/
theorem spread_trues : ∀ xs : Str, spread (List.replicate xs.length true) xs = xs := by
  intro xs
  induction xs with
  | nil => rfl
  | cons c cs ih => simp [List.replicate_succ, spread, ih]

/-- Symbol columns after a mask that has consumed the first `a` symbols of the row. -/
theorem spread_block (K : List Bool) (s : Str) (a b : Nat) (hab : a ≤ b)
    (h : K.count true = a) :
    spread (K ++ List.replicate (b - a) true) (slice s 0 b)
      = spread K (slice s 0 a) ++ slice s a b := by
  rw [← slice_append s 0 a b (Nat.zero_le _) hab, spread_append K _ _ _ (by simp [slice, h])]
  have hl : (slice s a b).length = b - a := by simp [slice]
  have := spread_trues (slice s a b)
  rw [hl] at this
  rw [this]

/-- Removing the columns that the mask marks as inserted restores the row. -/
theorem pick_spread (K : List Bool) : ∀ s : Str, K.count true = s.length →
    pick K (spread K s) = s := by
  induction K with
  | nil =>
    intro s h
    cases s with
    | nil => rfl
    | cons c cs => simp at h
  | cons b ks ih =>
    intro s h
    cases b with
    | false =>
      have h2 : ks.count true = s.length := by simpa using h
      have := ih s h2
      unfold pick at this ⊢
      cases s <;> simp [spread, this]
    | true =>
      cases s with
      | nil => simp at h
      | cons c cs =>
        have h2 : ks.count true = cs.length := by simpa using h
        have := ih cs h2
        unfold pick at this ⊢
        simp [spread, this]

/-- A row laid out along a mask holds the gap symbol wherever the mask is `false`. -/
theorem spread_gap_at (K : List Bool) : ∀ (s : Str) (x : Char × Bool),
    x ∈ (spread K s).zip K → x.2 = false → x.1 = '-' := by
  induction K with
  | nil =>
    intro s x hx
    simp at hx
  | cons b ks ih =>
    intro s x hx hf
    cases b with
    | false =>
      have e : spread (false :: ks) s = '-' :: spread ks s := by cases s <;> rfl
      rw [e, List.zip_cons_cons, List.mem_cons] at hx
      rcases hx with rfl | hx
      · rfl
      · exact ih s x hx hf
    | true =>
      cases s with
      | nil =>
        have e : spread (true :: ks) [] = '-' :: spread ks [] := rfl
        rw [e, List.zip_cons_cons, List.mem_cons] at hx
        rcases hx with rfl | hx
        · rfl
        · exact ih [] x hx hf
      | cons c cs =>
        have e : spread (true :: ks) (c :: cs) = c :: spread ks cs := rfl
        rw [e, List.zip_cons_cons, List.mem_cons] at hx
        rcases hx with rfl | hx
        · simp at hf
        · exact ih cs x hx hf

/-! ## The traceback of `backtracking_profile` on well-formed tags -/

/-- One column written in front of the rows of two operands. -/
theorem pushColumn_maps (seqs1 seqs2 : List Str) (c1 c2 : Str → Char) (f1 f2 : Str → Str) :
    pushColumn (seqs1.map c1 ++ seqs2.map c2) (seqs1.map f1 ++ seqs2.map f2)
      = seqs1.map (fun s => c1 s :: f1 s) ++ seqs2.map (fun s => c2 s :: f2 s) := by
  unfold pushColumn
  rw [List.zipWith_append _ _ _ _ _ (by simp)]
  congr 1
  · induction seqs1 with
    | nil => rfl
    | cons s rest ih => simp [ih]
  · induction seqs2 with
    | nil => rfl
    | cons s rest ih => simp [ih]

/-- A run of `k` extend tags that ends in another tag at column `js`: the loop
`while(Bp(i, j) == 1)` of `backtracking_profile` writes `k` columns, gaps in the rows of the
first operand and the columns `js .. js + k - 1` in the rows of the second. -/
theorem insRunP_chain (Bp : Nat → Nat → Int) (seqs1 seqs2 : List Str) (i js : Nat)
    (hjs : Bp i js ≠ 1) (k : Nat) : ∀ (fuel : Nat) (f1 f2 : Str → Str),
    (∀ j2, js < j2 → j2 ≤ js + k → Bp i j2 = 1) → k + 1 ≤ fuel →
    insRunP Bp seqs1 seqs2 i fuel (js + k) (seqs1.map f1 ++ seqs2.map f2)
      = .ok (js, seqs1.map (fun s => List.replicate k '-' ++ f1 s)
          ++ seqs2.map (fun s => slice s js (js + k) ++ f2 s)) := by
  induction k with
  | zero =>
    intro fuel f1 f2 _ hf
    obtain ⟨f, rfl⟩ : ∃ f, fuel = f + 1 := ⟨fuel - 1, by omega⟩
    unfold insRunP
    simp [hjs, slice_empty]
  | succ k ih =>
    intro fuel f1 f2 hrun hf
    obtain ⟨f, rfl⟩ : ∃ f, fuel = f + 1 := ⟨fuel - 1, by omega⟩
    unfold insRunP
    rw [if_pos (hrun (js + (k + 1)) (by omega) (le_refl _)), if_neg (by omega)]
    have e : js + (k + 1) - 1 = js + k := by omega
    unfold gapColumn columnAt
    rw [pushColumn_maps, e, ih f _ _ (fun j2 h1 h2 => hrun j2 h1 (by omega)) (by omega)]
    have e2 : ∀ s : Str, slice s js (js + (k + 1))
        = slice s js (js + k) ++ [charAt s (js + k)] := fun s => slice_succ s js (js + k) (by omega)
    have e3 : List.replicate (k + 1) '-' = List.replicate k '-' ++ ['-'] :=
      List.replicate_succ' _ _
    simp only [e2, e3, e, List.append_assoc, List.singleton_append]

/-- The mirror image of `insRunP_chain` for the loop `while(Bq(i, j) == 1)`. -/
theorem delRunP_chain (Bq : Nat → Nat → Int) (seqs1 seqs2 : List Str) (j is : Nat)
    (his : Bq is j ≠ 1) (k : Nat) : ∀ (fuel : Nat) (f1 f2 : Str → Str),
    (∀ i2, is < i2 → i2 ≤ is + k → Bq i2 j = 1) → k + 1 ≤ fuel →
    delRunP Bq seqs1 seqs2 j fuel (is + k) (seqs1.map f1 ++ seqs2.map f2)
      = .ok (is, seqs1.map (fun s => slice s is (is + k) ++ f1 s)
          ++ seqs2.map (fun s => List.replicate k '-' ++ f2 s)) := by
  induction k with
  | zero =>
    intro fuel f1 f2 _ hf
    obtain ⟨f, rfl⟩ : ∃ f, fuel = f + 1 := ⟨fuel - 1, by omega⟩
    unfold delRunP
    simp [his, slice_empty]
  | succ k ih =>
    intro fuel f1 f2 hrun hf
    obtain ⟨f, rfl⟩ : ∃ f, fuel = f + 1 := ⟨fuel - 1, by omega⟩
    unfold delRunP
    rw [if_pos (hrun (is + (k + 1)) (by omega) (le_refl _)), if_neg (by omega)]
    have e : is + (k + 1) - 1 = is + k := by omega
    unfold gapColumn columnAt
    rw [pushColumn_maps, e, ih f _ _ (fun i2 h1 h2 => hrun i2 h1 (by omega)) (by omega)]
    have e2 : ∀ s : Str, slice s is (is + (k + 1))
        = slice s is (is + k) ++ [charAt s (is + k)] := fun s => slice_succ s is (is + k) (by omega)
    have e3 : List.replicate (k + 1) '-' = List.replicate k '-' ++ ['-'] :=
      List.replicate_succ' _ _
    simp only [e2, e3, e, List.append_assoc, List.singleton_append]

/-- On well-formed tags the walk of `backtracking_profile` from cell (i,j) ends at (0,0): it
returns, and what it writes in front of the rows is, for every row of the first operand, its
first `i` symbols laid out along one mask `K1` and, for every row of the second operand, its
first `j` symbols laid out along one mask `K2`; the two masks have the same length and no
column is a gap in both operands. -/
theorem btLoopP_ok (Bd Bp Bq : Nat → Nat → Int) (seqs1 seqs2 : List Str) (m n : Nat)
    (hT : TagsOK Bd Bp Bq m n)
    (hR : ∀ i j, i ≤ m → j ≤ n → Bd i j = 0 ∨ Bd i j = 1 ∨ Bd i j = 2) (s : Nat) :
    ∀ (i j fuel : Nat) (f1 f2 : Str → Str), i + j ≤ s → i ≤ m → j ≤ n → i + j ≤ fuel →
    ∃ K1 K2 : List Bool,
      btLoopP Bd Bp Bq seqs1 seqs2 fuel i j (seqs1.map f1 ++ seqs2.map f2)
        = .ok (seqs1.map (fun r => spread K1 (slice r 0 i) ++ f1 r)
            ++ seqs2.map (fun r => spread K2 (slice r 0 j) ++ f2 r)) ∧
      K1.length = K2.length ∧ K1.count true = i ∧ K2.count true = j ∧
      ∀ x ∈ K1.zip K2, x.1 = true ∨ x.2 = true := by
  induction s with
  | zero =>
    intro i j fuel f1 f2 hs _ _ _
    have hi : i = 0 := by omega
    have hj : j = 0 := by omega
    subst hi hj
    refine ⟨[], [], ?_, rfl, rfl, rfl, by simp⟩
    cases fuel <;> simp [btLoopP, slice_empty, spread]
  | succ s ih =>
    intro i j fuel f1 f2 hs him hjn hf
    by_cases h00 : i = 0 ∧ j = 0
    · obtain ⟨hi, hj⟩ := h00
      subst hi hj
      refine ⟨[], [], ?_, rfl, rfl, rfl, by simp⟩
      cases fuel <;> simp [btLoopP, slice_empty, spread]
    · obtain ⟨f, rfl⟩ : ∃ f, fuel = f + 1 := ⟨fuel - 1, by omega⟩
      unfold btLoopP
      rw [if_neg h00]
      rcases hT i j him hjn h00 with ⟨hd, hi1, hj1⟩ | ⟨hd, js, hjs1, hjs2, hjs3, hrun⟩ |
        ⟨hd0, hd1, is, his1, his2, his3, hrun⟩
      · -- match
        rw [if_pos hd, if_neg (by omega)]
        unfold columnAt
        rw [pushColumn_maps]
        obtain ⟨K1, K2, hrec, hlen, hc1, hc2, hz⟩ := ih (i - 1) (j - 1) f
          (fun r => charAt r (i - 1) :: f1 r) (fun r => charAt r (j - 1) :: f2 r) (by omega)
          (by omega) (by omega) (by omega)
        refine ⟨K1 ++ List.replicate (i - (i - 1)) true,
          K2 ++ List.replicate (j - (j - 1)) true, ?_, ?_, ?_, ?_, ?_⟩
        · rw [hrec]
          have e1 : ∀ r : Str, slice r (i - 1) i = [charAt r (i - 1)] := fun r => by
            have := slice_succ r (i - 1) (i - 1) (le_refl _)
            rw [slice_empty, show i - 1 + 1 = i by omega] at this
            simpa using this
          have e2 : ∀ r : Str, slice r (j - 1) j = [charAt r (j - 1)] := fun r => by
            have := slice_succ r (j - 1) (j - 1) (le_refl _)
            rw [slice_empty, show j - 1 + 1 = j by omega] at this
            simpa using this
          simp only [spread_block K1 _ (i - 1) i (by omega) hc1,
            spread_block K2 _ (j - 1) j (by omega) hc2, e1, e2, List.append_assoc,
            List.singleton_append]
        · simp only [List.length_append, List.length_replicate, hlen]
          omega
        · rw [List.count_append, List.count_replicate_self, hc1]; omega
        · rw [List.count_append, List.count_replicate_self, hc2]; omega
        · intro x hx
          rw [List.zip_append hlen, List.mem_append] at hx
          rcases hx with hx | hx
          · exact hz x hx
          · exact Or.inl (List.eq_of_mem_replicate (List.of_mem_zip hx).1)
      · -- insertion
        have hd0 : Bd i j ≠ 0 := by rw [hd]; decide
        rw [if_neg hd0, if_pos hd]
        have hchain := insRunP_chain Bp seqs1 seqs2 i js hjs3 (j - js) (j + 1) f1 f2
          (fun j2 h1 h2 => hrun j2 h1 (by omega)) (by omega)
        have e : js + (j - js) = j := by omega
        rw [e] at hchain
        rw [hchain]
        simp only []
        rw [if_neg (by omega)]
        unfold gapColumn columnAt
        rw [pushColumn_maps]
        obtain ⟨K1, K2, hrec, hlen, hc1, hc2, hz⟩ := ih i (js - 1) f
          (fun r => '-' :: (List.replicate (j - js) '-' ++ f1 r))
          (fun r => charAt r (js - 1) :: (slice r js j ++ f2 r)) (by omega) him (by omega)
          (by omega)
        refine ⟨K1 ++ List.replicate (j - (js - 1)) false,
          K2 ++ List.replicate (j - (js - 1)) true, ?_, ?_, ?_, ?_, ?_⟩
        · rw [hrec]
          have e1 : ∀ r : Str, slice r (js - 1) j = charAt r (js - 1) :: slice r js j :=
            fun r => by
              have := slice_succ r (js - 1) (js - 1) (le_refl _)
              rw [slice_empty, show js - 1 + 1 = js by omega] at this
              rw [← slice_append r (js - 1) js j (by omega) hjs2, this]
              rfl
          have e2 : List.replicate (j - (js - 1)) '-' = '-' :: List.replicate (j - js) '-' := by
            rw [show j - (js - 1) = (j - js) + 1 by omega, List.replicate_succ]
          simp only [spread_block K2 _ (js - 1) j (by omega) hc2,
            spread_gaps_right K1 _ _ (show K1.count true = (slice _ 0 i).length by
              simp [slice, hc1]), e1, e2, List.append_assoc, List.cons_append]
        · simp only [List.length_append, List.length_replicate, hlen]
        · rw [List.count_append, hc1]
          simp [List.count_replicate]
        · rw [List.count_append, List.count_replicate_self, hc2]; omega
        · intro x hx
          rw [List.zip_append hlen, List.mem_append] at hx
          rcases hx with hx | hx
          · exact hz x hx
          · exact Or.inr (List.eq_of_mem_replicate (List.of_mem_zip hx).2)
      · -- deletion
        have hd2 : Bd i j = 2 := by
          rcases hR i j him hjn with h | h | h
          · exact absurd h hd0
          · exact absurd h hd1
          · exact h
        rw [if_neg hd0, if_neg hd1, if_pos hd2]
        have hchain := delRunP_chain Bq seqs1 seqs2 j is his3 (i - is) (i + 1) f1 f2
          (fun i2 h1 h2 => hrun i2 h1 (by omega)) (by omega)
        have e : is + (i - is) = i := by omega
        rw [e] at hchain
        rw [hchain]
        simp only []
        rw [if_neg (by omega)]
        unfold gapColumn columnAt
        rw [pushColumn_maps]
        obtain ⟨K1, K2, hrec, hlen, hc1, hc2, hz⟩ := ih (is - 1) j f
          (fun r => charAt r (is - 1) :: (slice r is i ++ f1 r))
          (fun r => '-' :: (List.replicate (i - is) '-' ++ f2 r)) (by omega) (by omega) hjn
          (by omega)
        refine ⟨K1 ++ List.replicate (i - (is - 1)) true,
          K2 ++ List.replicate (i - (is - 1)) false, ?_, ?_, ?_, ?_, ?_⟩
        · rw [hrec]
          have e1 : ∀ r : Str, slice r (is - 1) i = charAt r (is - 1) :: slice r is i :=
            fun r => by
              have := slice_succ r (is - 1) (is - 1) (le_refl _)
              rw [slice_empty, show is - 1 + 1 = is by omega] at this
              rw [← slice_append r (is - 1) is i (by omega) his2, this]
              rfl
          have e2 : List.replicate (i - (is - 1)) '-' = '-' :: List.replicate (i - is) '-' := by
            rw [show i - (is - 1) = (i - is) + 1 by omega, List.replicate_succ]
          simp only [spread_block K1 _ (is - 1) i (by omega) hc1,
            spread_gaps_right K2 _ _ (show K2.count true = (slice _ 0 j).length by
              simp [slice, hc2]), e1, e2, List.append_assoc, List.cons_append]
        · simp only [List.length_append, List.length_replicate, hlen]
        · rw [List.count_append, List.count_replicate_self, hc1]; omega
        · rw [List.count_append, hc2]
          simp [List.count_replicate]
        · intro x hx
          rw [List.zip_append hlen, List.mem_append] at hx
          rcases hx with hx | hx
          · exact hz x hx
          · exact Or.inl (List.eq_of_mem_replicate (List.of_mem_zip hx).1)

/-! ## `gotoh_profile_marginal` returns on every pair of operands -/

/-- The profile that `create_profile` builds from a non-empty alignment with rows of equal
length: as many columns as the rows are long, entries that are not negative and columns
that sum to at most 1. -/
theorem create_profile_bounds (aln : List Str) (hne : aln ≠ [])
    (hlen : ∀ s ∈ aln, s.length = (aln.getD 0 []).length) :
    ∃ pro : Profile α, create_profile aln = .ok pro ∧ pro.cols = (aln.getD 0 []).length ∧
      ∀ j, j < pro.cols → (∀ k, 0 ≤ pro.val k j) ∧
        pro.val 0 j + pro.val 1 j + pro.val 2 j + pro.val 3 j ≤ 1 := by
  obtain ⟨s0, rest, rfl⟩ : ∃ s0 rest, aln = s0 :: rest := by
    cases aln with
    | nil => exact absurd rfl hne
    | cons s0 rest => exact ⟨s0, rest, rfl⟩
  have hany : (s0 :: rest).any (fun s => decide (s.length ≠ ((s0 :: rest).getD 0 []).length))
      = false := by
    rw [List.any_eq_false]
    intro s hs
    simp only [decide_eq_true_eq, ne_eq, not_not]
    exact hlen s hs
  have hrows : (0 : α) < (((s0 :: rest).length : Nat) : α) := by
    have : 0 < (s0 :: rest).length := by simp
    exact_mod_cast this
  have hval : ∀ k j, j < s0.length →
      forLoop 0 s0.length (fun j profile =>
        forLoop 0 (s0 :: rest).length
          (fun i profile => profileCount (s0 :: rest) (s0 :: rest).length j i profile) profile)
        (fun _ _ => (0 : α)) k j
        = ((nucCount (s0 :: rest) k j : Nat) : α) / (((s0 :: rest).length : Nat) : α) := by
    intro k j hj
    rw [forLoop_columns (fun j profile =>
        forLoop 0 (s0 :: rest).length
          (fun i profile => profileCount (s0 :: rest) (s0 :: rest).length j i profile) profile)
      ?_ ?_ _ s0.length j k, if_pos hj]
    · rw [profile_rows _ _ _ _ _ (le_refl _), if_pos rfl, List.take_length]
      unfold nucCount
      ring
    · intro j M r c hc
      beta_reduce
      rw [profile_rows _ _ _ _ _ (le_refl _), if_neg hc]
    · intro j M M2 h r
      beta_reduce
      rw [profile_rows _ _ _ _ _ (le_refl _), profile_rows _ _ _ _ _ (le_refl _), if_pos rfl,
        if_pos rfl, h r]
  refine ⟨_, by unfold create_profile; rw [if_neg (by rw [hany]; decide)], rfl, ?_⟩
  intro j hj
  have hj2 : j < s0.length := hj
  constructor
  · intro k
    refine le_of_le_of_eq ?_ (hval k j hj2).symm
    exact div_nonneg (Nat.cast_nonneg _) hrows.le
  · have hsum : ((nucCount (s0 :: rest) 0 j : Nat) : α) / (((s0 :: rest).length : Nat) : α)
        + ((nucCount (s0 :: rest) 1 j : Nat) : α) / (((s0 :: rest).length : Nat) : α)
        + ((nucCount (s0 :: rest) 2 j : Nat) : α) / (((s0 :: rest).length : Nat) : α)
        + ((nucCount (s0 :: rest) 3 j : Nat) : α) / (((s0 :: rest).length : Nat) : α)
        = ((nucRows (s0 :: rest) j : Nat) : α) / (((s0 :: rest).length : Nat) : α) := by
      rw [← nucCount_sum]
      push_cast
      ring
    have hle : nucRows (s0 :: rest) j ≤ (s0 :: rest).length := List.countP_le_length _
    have hle2 : ((nucRows (s0 :: rest) j : Nat) : α) ≤ (((s0 :: rest).length : Nat) : α) := by
      exact_mod_cast hle
    have h1 := (div_le_one hrows).mpr hle2
    have e0 := hval 0 j hj2
    have e1 := hval 1 j hj2
    have e2 := hval 2 j hj2
    have e3 := hval 3 j hj2
    show _ + _ + _ + _ ≤ (1 : α)
    rw [← hsum] at h1
    exact le_of_eq_of_le (by rw [← e0, ← e1, ← e2, ← e3]) h1

/-- Over the real numbers `nuc_pi` of a vector of non-negative entries that sum to at most 1
and the vector `nuc_freqs` lies between 0 and 1. -/
theorem real_nuc_pi_bounds (n : Nat → ℝ) (h0 : ∀ k, 0 ≤ n k) (h1 : n 0 + n 1 + n 2 + n 3 ≤ 1) :
    0 ≤ nuc_pi realNum n (nuc_freqs realNum) ∧ nuc_pi realNum n (nuc_freqs realNum) ≤ 1 := by
  have e : ∀ (k : Nat) (f : ℝ), 0 < f → nuc_freqs realNum k = Real.log f →
      (if n k = 0 then 0 else n k * realNum.exp (nuc_freqs realNum k)) = n k * f := by
    intro k f hf hk
    split_ifs with h
    · rw [h, zero_mul]
    · rw [hk]
      show n k * Real.exp (Real.log f) = n k * f
      rw [Real.exp_log hf]
  have hv : nuc_pi realNum n (nuc_freqs realNum)
      = n 0 * (308 / 1000) + n 1 * (185 / 1000) + n 2 * (199 / 1000) + n 3 * (308 / 1000) := by
    unfold nuc_pi
    simp only []
    rw [e 0 (308 / 1000) (by norm_num) (by show Real.log 0.308 = _; norm_num),
      e 1 (185 / 1000) (by norm_num) (by show Real.log 0.185 = _; norm_num),
      e 2 (199 / 1000) (by norm_num) (by show Real.log 0.199 = _; norm_num),
      e 3 (308 / 1000) (by norm_num) (by show Real.log 0.308 = _; norm_num)]
    ring
  rw [hv]
  have a0 := h0 0
  have a1 := h0 1
  have a2 := h0 2
  have a3 := h0 3
  constructor <;> linarith only [a0, a1, a2, a3, h1]

/-- Lengths within the range of `int` keep 1010 per symbol below the sentinel. -/
theorem real_size_margin (m n : Nat) (hm : m < 2 ^ 31) (hn : n < 2 ^ 31) :
    1010 * ((m : ℝ) + (n : ℝ)) < fltMax := by
  have h1 : (m : ℝ) < 2 ^ 31 := by exact_mod_cast hm
  have h2 : (n : ℝ) < 2 ^ 31 := by exact_mod_cast hn
  have h3 : (2 : ℝ) ^ 127 ≤ fltMax := fltMax_large
  have h5 : (1010 : ℝ) * (2 ^ 31 + 2 ^ 31) < 2 ^ 127 := by norm_num
  linarith

/-- Over the real numbers, for two non-empty operands with rows of equal length within each
operand (lengths within the range of `int`), the profiles exist, the traceback over the tags
of the forward pass returns 0 and replaces the strings of the alignment by the rows of the
first operand laid out along one mask followed by the rows of the second laid out along one
mask; the masks have the same length, mark as many columns as the rows are long and no
column is a gap in both operands. -/
theorem prof_traceback_ok (p : Nat → Nat → Nat → ℝ) (seqs1 seqs2 : List Str)
    (h1 : seqs1 ≠ []) (h2 : seqs2 ≠ [])
    (hl1 : ∀ s ∈ seqs1, s.length = (seqs1.getD 0 []).length)
    (hl2 : ∀ s ∈ seqs2, s.length = (seqs2.getD 0 []).length)
    (hm : (seqs1.getD 0 []).length < 2 ^ 31) (hn : (seqs2.getD 0 []).length < 2 ^ 31) :
    ∃ (pro1 pro2 : Profile ℝ) (K1 K2 : List Bool),
      create_profile seqs1 = .ok pro1 ∧ create_profile seqs2 = .ok pro2 ∧
      pro1.cols = (seqs1.getD 0 []).length ∧ pro2.cols = (seqs2.getD 0 []).length ∧
      (∀ aln : alignment_t ℝ,
        backtracking_profile (prof.forward realNum p pro1 pro2).Bd
          (prof.forward realNum p pro1 pro2).Bp (prof.forward realNum p pro1 pro2).Bq
          seqs1 seqs2 aln
        = .ok (0, { f := { seq_names := aln.f.seq_names,
                           seq_data := seqs1.map (spread K1) ++ seqs2.map (spread K2) },
                    weight := aln.weight })) ∧
      K1.length = K2.length ∧ K1.count true = (seqs1.getD 0 []).length ∧
      K2.count true = (seqs2.getD 0 []).length ∧
      ∀ x ∈ K1.zip K2, x.1 = true ∨ x.2 = true := by
  obtain ⟨pro1, hp1, hc1, -⟩ := @create_profile_bounds ℝ _ seqs1 h1 hl1
  obtain ⟨pro2, hp2, hc2, hb2⟩ := @create_profile_bounds ℝ _ seqs2 h2 hl2
  have hg : ∀ k, k < pro2.cols → 0 ≤ nuc_pi realNum (pro2.col k) (nuc_freqs realNum) ∧
      nuc_pi realNum (pro2.col k) (nuc_freqs realNum) ≤ 1 := fun k hk =>
    real_nuc_pi_bounds (pro2.col k) (fun r => (hb2 k hk).1 r) (hb2 k hk).2
  have hsize : 1010 * ((pro1.cols : ℝ) + (pro2.cols : ℝ)) < fltMax := by
    rw [hc1, hc2]
    exact real_size_margin _ _ hm hn
  have hT := prof_tags_ok realNum realNum_sound p pro1 pro2 hg hsize
  have hR := fun i j hi hj => prof_Bd_range realNum p pro1 pro2 i j hi hj
  obtain ⟨K1, K2, hrun, hlen, hk1, hk2, hz⟩ := btLoopP_ok _ _ _ seqs1 seqs2 pro1.cols pro2.cols
    hT hR (pro1.cols + pro2.cols) pro1.cols pro2.cols (pro1.cols + pro2.cols)
    (fun _ => []) (fun _ => []) (le_refl _) (le_refl _) (le_refl _) (le_refl _)
  refine ⟨pro1, pro2, K1, K2, hp1, hp2, hc1, hc2, ?_, hlen, hk1.trans hc1, hk2.trans hc2, hz⟩
  intro aln
  obtain ⟨a, r1, rfl⟩ : ∃ a r1, seqs1 = a :: r1 := by
    cases seqs1 with
    | nil => exact absurd rfl h1
    | cons a r1 => exact ⟨a, r1, rfl⟩
  obtain ⟨b, r2, rfl⟩ : ∃ b r2, seqs2 = b :: r2 := by
    cases seqs2 with
    | nil => exact absurd rfl h2
    | cons b r2 => exact ⟨b, r2, rfl⟩
  have ha : a.length = pro1.cols := hc1.symm
  have hb : b.length = pro2.cols := hc2.symm
  have hstart : List.replicate ((a :: r1).length + (b :: r2).length) ([] : Str)
      = (a :: r1).map (fun _ => []) ++ (b :: r2).map (fun _ => []) := by
    rw [List.replicate_add, List.map_const', List.map_const']
  have hrows1 : (a :: r1).map (fun r => spread K1 (slice r 0 pro1.cols) ++ [])
      = (a :: r1).map (spread K1) := by
    apply List.map_congr_left
    intro r hr
    have : r.length = pro1.cols := (hl1 r hr).trans hc1.symm
    rw [← this, slice_all, List.append_nil]
  have hrows2 : (b :: r2).map (fun r => spread K2 (slice r 0 pro2.cols) ++ [])
      = (b :: r2).map (spread K2) := by
    apply List.map_congr_left
    intro r hr
    have : r.length = pro2.cols := (hl2 r hr).trans hc2.symm
    rw [← this, slice_all, List.append_nil]
  unfold backtracking_profile
  simp only []
  rw [ha, hb, hstart, hrun, hrows1, hrows2]

/-- The symbol at column `c` of a row laid out along a mask: where the mask is `true`, the
symbol of the row whose index is the number of `true` positions before `c`; where it is
`false`, the gap symbol. -/
theorem spread_charAt (K : List Bool) : ∀ (s : Str) (c : Nat), c < K.length →
    K.count true = s.length →
    charAt (spread K s) c
      = if K.getD c false = true then charAt s ((K.take c).count true) else '-' := by
  induction K with
  | nil => intro s c hc; simp at hc
  | cons b ks ih =>
    intro s c hc hs
    cases b with
    | false =>
      have e : spread (false :: ks) s = '-' :: spread ks s := by cases s <;> rfl
      have hs2 : ks.count true = s.length := by simpa using hs
      rw [e]
      cases c with
      | zero => simp [charAt]
      | succ c =>
        have := ih s c (by simpa using hc) hs2
        simp only [charAt] at this ⊢
        simpa using this
    | true =>
      cases s with
      | nil => simp at hs
      | cons x xs =>
        have e : spread (true :: ks) (x :: xs) = x :: spread ks xs := rfl
        have hs2 : ks.count true = xs.length := by simpa using hs
        rw [e]
        cases c with
        | zero => simp [charAt]
        | succ c =>
          have := ih xs c (by simpa using hc) hs2
          simp only [charAt] at this ⊢
          simpa using this

/-- C32: over the real numbers, for all non-empty operands `seqs1` and `seqs2` whose rows
are non-empty and of equal length within each operand (lengths within the range of `int`),
the profiles exist and, on the tag matrices that the forward pass of
`gotoh_profile_marginal` computes from them, `backtracking_profile` returns 0 and leaves
exactly `|seqs1| + |seqs2|` strings of one common length: the rows of `seqs1` in input order
followed by the rows of `seqs2` in input order, every row of an operand laid out along the
mask of that operand.  A column of the output carries, in all rows of an operand at once,
either one original column of the operand (the columns in their order) or the gap symbol;
no column is a gap in both operands; removing the columns that the mask marks as inserted
restores every original row.  When the length of the rows of `seqs1` is divisible by 3,
`gotoh_profile_marginal` itself returns 0 with these strings. -/
theorem backtracking_profile_rows (p : Nat → Nat → Nat → ℝ) (seqs1 seqs2 : List Str)
    (aln : alignment_t ℝ) (h1 : seqs1 ≠ []) (h2 : seqs2 ≠ [])
    (hl1 : ∀ s ∈ seqs1, s.length = (seqs1.getD 0 []).length)
    (hl2 : ∀ s ∈ seqs2, s.length = (seqs2.getD 0 []).length)
    (hr1 : 0 < (seqs1.getD 0 []).length) (hr2 : 0 < (seqs2.getD 0 []).length)
    (hm : (seqs1.getD 0 []).length < 2 ^ 31) (hn : (seqs2.getD 0 []).length < 2 ^ 31) :
    ∃ (pro1 pro2 : Profile ℝ) (K1 K2 : List Bool),
      create_profile seqs1 = .ok pro1 ∧ create_profile seqs2 = .ok pro2 ∧
      backtracking_profile (prof.forward realNum p pro1 pro2).Bd
          (prof.forward realNum p pro1 pro2).Bp (prof.forward realNum p pro1 pro2).Bq
          seqs1 seqs2 aln
        = .ok (0, { f := { seq_names := aln.f.seq_names,
                           seq_data := seqs1.map (spread K1) ++ seqs2.map (spread K2) },
                    weight := aln.weight }) ∧
      ((seqs1.getD 0 []).length % 3 = 0 →
        gotoh_profile_marginal realNum p seqs1 seqs2 aln
          = .ok (0, { f := { seq_names := aln.f.seq_names,
                             seq_data := seqs1.map (spread K1) ++ seqs2.map (spread K2) },
                      weight := aln.weight
                        + (prof.forward realNum p pro1 pro2).D pro1.cols pro2.cols })) ∧
      (seqs1.map (spread K1) ++ seqs2.map (spread K2)).length = seqs1.length + seqs2.length ∧
      (∀ r ∈ seqs1.map (spread K1) ++ seqs2.map (spread K2), r.length = K1.length) ∧
      K1.length = K2.length ∧
      K1.count true = (seqs1.getD 0 []).length ∧ K2.count true = (seqs2.getD 0 []).length ∧
      (∀ x ∈ K1.zip K2, x.1 = true ∨ x.2 = true) ∧
      (∀ s ∈ seqs1, pick K1 (spread K1 s) = s ∧
        ∀ c, c < K1.length → charAt (spread K1 s) c
          = if K1.getD c false = true then charAt s ((K1.take c).count true) else '-') ∧
      (∀ s ∈ seqs2, pick K2 (spread K2 s) = s ∧
        ∀ c, c < K2.length → charAt (spread K2 s) c
          = if K2.getD c false = true then charAt s ((K2.take c).count true) else '-') := by
  obtain ⟨pro1, pro2, K1, K2, hp1, hp2, hc1, hc2, hbt, hlen, hk1, hk2, hz⟩ :=
    prof_traceback_ok p seqs1 seqs2 h1 h2 hl1 hl2 hm hn
  refine ⟨pro1, pro2, K1, K2, hp1, hp2, hbt aln, ?_, by simp, ?_, hlen, hk1, hk2, hz, ?_, ?_⟩
  · intro hm3
    unfold gotoh_profile_marginal
    rw [hp1]
    simp only []
    rw [hp2]
    simp only []
    rw [if_neg (by rw [hc1, hm3]; decide), hbt]
  · intro r hr
    rw [List.mem_append, List.mem_map, List.mem_map] at hr
    rcases hr with ⟨s, _, rfl⟩ | ⟨s, _, rfl⟩
    · exact spread_length K1 s
    · rw [spread_length K2 s, hlen]
  · intro s hs
    have hks : K1.count true = s.length := hk1.trans (hl1 s hs).symm
    exact ⟨pick_spread K1 s hks, fun c hc => spread_charAt K1 s c hc hks⟩
  · intro s hs
    have hks : K2.count true = s.length := hk2.trans (hl2 s hs).symm
    exact ⟨pick_spread K2 s hks, fun c hc => spread_charAt K2 s c hc hks⟩

/-- Claim C32 at the alignment of the test of `create_profile` (four rows of length 12, two
of them with gaps) and the single row CTCTGGATAGTG: five rows of one length come back, and
removing the inserted columns restores the second row of the first operand. -/
theorem backtracking_profile_rows_witness :
    ∃ (pro1 pro2 : Profile ℝ) (K1 K2 : List Bool),
      backtracking_profile (prof.forward realNum nearTensor pro1 pro2).Bd
          (prof.forward realNum nearTensor pro1 pro2).Bp
          (prof.forward realNum nearTensor pro1 pro2).Bq
          testAlignment [['C', 'T', 'C', 'T', 'G', 'G', 'A', 'T', 'A', 'G', 'T', 'G']]
          (⟨⟨[], []⟩, 0⟩ : alignment_t ℝ)
        = .ok (0, { f := { seq_names := [],
                           seq_data := testAlignment.map (spread K1)
                             ++ [['C', 'T', 'C', 'T', 'G', 'G', 'A', 'T', 'A', 'G', 'T',
                                  'G']].map (spread K2) },
                    weight := 0 }) ∧
      (testAlignment.map (spread K1)
        ++ [['C', 'T', 'C', 'T', 'G', 'G', 'A', 'T', 'A', 'G', 'T', 'G']].map
          (spread K2)).length = 5 ∧
      K1.length = K2.length ∧
      pick K1 (spread K1 ['C', 'T', '-', '-', '-', '-', 'A', 'T', 'A', 'G', 'T', 'G'])
        = ['C', 'T', '-', '-', '-', '-', 'A', 'T', 'A', 'G', 'T', 'G'] := by
  obtain ⟨pro1, pro2, K1, K2, -, -, hbt, -, hlen, -, hk, -, -, -, hp, -⟩ :=
    backtracking_profile_rows nearTensor testAlignment
      [['C', 'T', 'C', 'T', 'G', 'G', 'A', 'T', 'A', 'G', 'T', 'G']] ⟨⟨[], []⟩, 0⟩
      (by decide) (by decide) (by decide) (by decide) (by decide) (by decide)
      (by norm_num [testAlignment]) (by norm_num)
  exact ⟨pro1, pro2, K1, K2, hbt, hlen, hk,
    (hp ['C', 'T', '-', '-', '-', '-', 'A', 'T', 'A', 'G', 'T', 'G'] (by decide)).1⟩

/-! ## The traceback of `backtracking` writes in front of whatever the alignment holds -/

/-- One column written when the alignment holds more than two strings: strings 0 and 1 get
the symbols, the others are kept. -/
theorem emit_front (c0 c1 : Char) (x0 x1 : Str) (rest : List Str) :
    emit c0 c1 (x0 :: x1 :: rest) = .ok ((c0 :: x0) :: (c1 :: x1) :: rest) := by
  simp [emit, insertFront]

/-- The gap block of an insertion does the same whatever strings 0 and 1 hold and whatever
strings follow them: it fails, or it puts two fixed prefixes in front of strings 0 and 1. -/
theorem insSteps_uniform (seqb : Str) (h : Nat) : ∀ j : Nat,
    (∃ (j2 : Nat) (y0 y1 : Str), ∀ (x0 x1 : Str) (rest : List Str),
      insRun.insSteps seqb h j (x0 :: x1 :: rest)
        = .ok (j2, (y0 ++ x0) :: (y1 ++ x1) :: rest)) ∨
    (∃ e, ∀ (x0 x1 : Str) (rest : List Str),
      insRun.insSteps seqb h j (x0 :: x1 :: rest) = .error e) := by
  induction h with
  | zero =>
    intro j
    exact Or.inl ⟨j, [], [], fun x0 x1 rest => by simp [insRun.insSteps]⟩
  | succ h ih =>
    intro j
    by_cases hj : j = 0
    · exact Or.inr ⟨.outOfRange, fun x0 x1 rest => by simp [insRun.insSteps, hj]⟩
    · rcases ih (j - 1) with ⟨j2, y0, y1, hok⟩ | ⟨e, herr⟩
      · refine Or.inl ⟨j2, y0 ++ ['-'], y1 ++ [charAt seqb (j - 1)], fun x0 x1 rest => ?_⟩
        unfold insRun.insSteps
        rw [if_neg hj, emit_front]
        simp only []
        rw [hok]
        simp
      · refine Or.inr ⟨e, fun x0 x1 rest => ?_⟩
        unfold insRun.insSteps
        rw [if_neg hj, emit_front]
        simp only []
        rw [herr]

/-- The mirror image of `insSteps_uniform` for the gap block of a deletion. -/
theorem delSteps_uniform (seqa : Str) (h : Nat) : ∀ i : Nat,
    (∃ (i2 : Nat) (y0 y1 : Str), ∀ (x0 x1 : Str) (rest : List Str),
      delRun.delSteps seqa h i (x0 :: x1 :: rest)
        = .ok (i2, (y0 ++ x0) :: (y1 ++ x1) :: rest)) ∨
    (∃ e, ∀ (x0 x1 : Str) (rest : List Str),
      delRun.delSteps seqa h i (x0 :: x1 :: rest) = .error e) := by
  induction h with
  | zero =>
    intro i
    exact Or.inl ⟨i, [], [], fun x0 x1 rest => by simp [delRun.delSteps]⟩
  | succ h ih =>
    intro i
    by_cases hi : i = 0
    · exact Or.inr ⟨.outOfRange, fun x0 x1 rest => by simp [delRun.delSteps, hi]⟩
    · rcases ih (i - 1) with ⟨i2, y0, y1, hok⟩ | ⟨e, herr⟩
      · refine Or.inl ⟨i2, y0 ++ [charAt seqa (i - 1)], y1 ++ ['-'], fun x0 x1 rest => ?_⟩
        unfold delRun.delSteps
        rw [if_neg hi, emit_front]
        simp only []
        rw [hok]
        simp
      · refine Or.inr ⟨e, fun x0 x1 rest => ?_⟩
        unfold delRun.delSteps
        rw [if_neg hi, emit_front]
        simp only []
        rw [herr]

/-- The loop `while(Bp(i, j) == 1)` does the same whatever the alignment holds. -/
theorem insRun_uniform (Bp : Nat → Nat → Int) (seqb : Str) (steps i : Nat) (fuel : Nat) :
    ∀ j : Nat,
    (∃ (j2 : Nat) (y0 y1 : Str), ∀ (x0 x1 : Str) (rest : List Str),
      insRun Bp seqb steps i fuel j (x0 :: x1 :: rest)
        = .ok (j2, (y0 ++ x0) :: (y1 ++ x1) :: rest)) ∨
    (∃ e, ∀ (x0 x1 : Str) (rest : List Str),
      insRun Bp seqb steps i fuel j (x0 :: x1 :: rest) = .error e) := by
  induction fuel with
  | zero =>
    intro j
    exact Or.inr ⟨.diverged, fun x0 x1 rest => by simp [insRun]⟩
  | succ fuel ih =>
    intro j
    by_cases hb : Bp i j = 1
    · rcases insSteps_uniform seqb steps j with ⟨j2, y0, y1, hok⟩ | ⟨e, herr⟩
      · rcases ih j2 with ⟨j3, z0, z1, hok2⟩ | ⟨e, herr2⟩
        · refine Or.inl ⟨j3, z0 ++ y0, z1 ++ y1, fun x0 x1 rest => ?_⟩
          unfold insRun
          rw [if_pos hb, hok]
          simp only []
          rw [hok2]
          simp
        · refine Or.inr ⟨e, fun x0 x1 rest => ?_⟩
          unfold insRun
          rw [if_pos hb, hok]
          simp only []
          rw [herr2]
      · refine Or.inr ⟨e, fun x0 x1 rest => ?_⟩
        unfold insRun
        rw [if_pos hb, herr]
    · refine Or.inl ⟨j, [], [], fun x0 x1 rest => ?_⟩
      unfold insRun
      rw [if_neg hb]
      simp

/-- The loop `while(Bq(i, j) == 1)` does the same whatever the alignment holds. -/
theorem delRun_uniform (Bq : Nat → Nat → Int) (seqa : Str) (steps j : Nat) (fuel : Nat) :
    ∀ i : Nat,
    (∃ (i2 : Nat) (y0 y1 : Str), ∀ (x0 x1 : Str) (rest : List Str),
      delRun Bq seqa steps j fuel i (x0 :: x1 :: rest)
        = .ok (i2, (y0 ++ x0) :: (y1 ++ x1) :: rest)) ∨
    (∃ e, ∀ (x0 x1 : Str) (rest : List Str),
      delRun Bq seqa steps j fuel i (x0 :: x1 :: rest) = .error e) := by
  induction fuel with
  | zero =>
    intro i
    exact Or.inr ⟨.diverged, fun x0 x1 rest => by simp [delRun]⟩
  | succ fuel ih =>
    intro i
    by_cases hb : Bq i j = 1
    · rcases delSteps_uniform seqa steps i with ⟨i2, y0, y1, hok⟩ | ⟨e, herr⟩
      · rcases ih i2 with ⟨i3, z0, z1, hok2⟩ | ⟨e, herr2⟩
        · refine Or.inl ⟨i3, z0 ++ y0, z1 ++ y1, fun x0 x1 rest => ?_⟩
          unfold delRun
          rw [if_pos hb, hok]
          simp only []
          rw [hok2]
          simp
        · refine Or.inr ⟨e, fun x0 x1 rest => ?_⟩
          unfold delRun
          rw [if_pos hb, hok]
          simp only []
          rw [herr2]
      · refine Or.inr ⟨e, fun x0 x1 rest => ?_⟩
        unfold delRun
        rw [if_pos hb, herr]
    · refine Or.inl ⟨i, [], [], fun x0 x1 rest => ?_⟩
      unfold delRun
      rw [if_neg hb]
      simp

/-- The walk of `backtracking` and of `backtracking_noframeshifts` does the same whatever
the alignment holds: it fails, or it puts two fixed rows in front of strings 0 and 1 and
keeps every other string. -/
theorem btLoop_uniform (Bd Bp Bq : Nat → Nat → Int) (seqa seqb : Str) (steps : Nat)
    (fuel : Nat) : ∀ i j : Nat,
    (∃ (y0 y1 : Str), ∀ (x0 x1 : Str) (rest : List Str),
      btLoop Bd Bp Bq seqa seqb steps fuel i j (x0 :: x1 :: rest)
        = .ok ((y0 ++ x0) :: (y1 ++ x1) :: rest)) ∨
    (∃ e, ∀ (x0 x1 : Str) (rest : List Str),
      btLoop Bd Bp Bq seqa seqb steps fuel i j (x0 :: x1 :: rest) = .error e) := by
  induction fuel with
  | zero =>
    intro i j
    by_cases h00 : i = 0 ∧ j = 0
    · exact Or.inl ⟨[], [], fun x0 x1 rest => by simp [btLoop, h00]⟩
    · exact Or.inr ⟨.diverged, fun x0 x1 rest => by simp only [btLoop, if_neg h00]⟩
  | succ fuel ih =>
    intro i j
    by_cases h00 : i = 0 ∧ j = 0
    · exact Or.inl ⟨[], [], fun x0 x1 rest => by
        unfold btLoop
        rw [if_pos h00]
        simp⟩
    by_cases hd0 : Bd i j = 0
    · by_cases hij : i = 0 ∨ j = 0
      · exact Or.inr ⟨.outOfRange, fun x0 x1 rest => by
          unfold btLoop
          rw [if_neg h00, if_pos hd0, if_pos hij]⟩
      · rcases ih (i - 1) (j - 1) with ⟨y0, y1, hok⟩ | ⟨e, herr⟩
        · refine Or.inl ⟨y0 ++ [charAt seqa (i - 1)], y1 ++ [charAt seqb (j - 1)],
            fun x0 x1 rest => ?_⟩
          unfold btLoop
          rw [if_neg h00, if_pos hd0, if_neg hij, emit_front]
          simp only []
          rw [hok]
          simp
        · refine Or.inr ⟨e, fun x0 x1 rest => ?_⟩
          unfold btLoop
          rw [if_neg h00, if_pos hd0, if_neg hij, emit_front]
          simp only []
          rw [herr]
    by_cases hd1 : Bd i j = 1
    · rcases insRun_uniform Bp seqb steps i (j + 1) j with ⟨j2, y0, y1, hok⟩ | ⟨e, herr⟩
      · rcases insSteps_uniform seqb steps j2 with ⟨j3, z0, z1, hok2⟩ | ⟨e, herr2⟩
        · rcases ih i j3 with ⟨u0, u1, hok3⟩ | ⟨e, herr3⟩
          · refine Or.inl ⟨u0 ++ (z0 ++ y0), u1 ++ (z1 ++ y1), fun x0 x1 rest => ?_⟩
            unfold btLoop
            rw [if_neg h00, if_neg hd0, if_pos hd1, hok]
            simp only []
            rw [hok2]
            simp only []
            rw [hok3]
            simp
          · refine Or.inr ⟨e, fun x0 x1 rest => ?_⟩
            unfold btLoop
            rw [if_neg h00, if_neg hd0, if_pos hd1, hok]
            simp only []
            rw [hok2]
            simp only []
            rw [herr3]
        · refine Or.inr ⟨e, fun x0 x1 rest => ?_⟩
          unfold btLoop
          rw [if_neg h00, if_neg hd0, if_pos hd1, hok]
          simp only []
          rw [herr2]
      · refine Or.inr ⟨e, fun x0 x1 rest => ?_⟩
        unfold btLoop
        rw [if_neg h00, if_neg hd0, if_pos hd1, herr]
    · rcases delRun_uniform Bq seqa steps j (i + 1) i with ⟨i2, y0, y1, hok⟩ | ⟨e, herr⟩
      · rcases delSteps_uniform seqa steps i2 with ⟨i3, z0, z1, hok2⟩ | ⟨e, herr2⟩
        · rcases ih i3 j with ⟨u0, u1, hok3⟩ | ⟨e, herr3⟩
          · refine Or.inl ⟨u0 ++ (z0 ++ y0), u1 ++ (z1 ++ y1), fun x0 x1 rest => ?_⟩
            unfold btLoop
            rw [if_neg h00, if_neg hd0, if_neg hd1, hok]
            simp only []
            rw [hok2]
            simp only []
            rw [hok3]
            simp
          · refine Or.inr ⟨e, fun x0 x1 rest => ?_⟩
            unfold btLoop
            rw [if_neg h00, if_neg hd0, if_neg hd1, hok]
            simp only []
            rw [hok2]
            simp only []
            rw [herr3]
        · refine Or.inr ⟨e, fun x0 x1 rest => ?_⟩
          unfold btLoop
          rw [if_neg h00, if_neg hd0, if_neg hd1, hok]
          simp only []
          rw [herr2]
      · refine Or.inr ⟨e, fun x0 x1 rest => ?_⟩
        unfold btLoop
        rw [if_neg h00, if_neg hd0, if_neg hd1, herr]

/-- The function `backtracking` on an alignment that already holds strings: the two pushed
strings come after them, and the rows of the new alignment are written in front of the
strings 0 and 1 that were there.  With `y0`, `y1` the rows left in an empty alignment, an
alignment that held the single string `x` ends as `[y0 ++ x, y1, ""]`, and one that held
`x0, x1, ...` as `[y0 ++ x0, y1 ++ x1, ..., "", ""]`. -/
theorem backtracking_prior (Bd Bp Bq : Nat → Nat → Int) (seqa seqb : Str) :
    (∃ y0 y1 : Str, ∀ aln : alignment_t α,
      (aln.f.seq_data = [] → backtracking Bd Bp Bq seqa seqb aln
        = .ok (0, { f := { seq_names := aln.f.seq_names, seq_data := [y0, y1] },
                    weight := aln.weight })) ∧
      (∀ x, aln.f.seq_data = [x] → backtracking Bd Bp Bq seqa seqb aln
        = .ok (0, { f := { seq_names := aln.f.seq_names, seq_data := [y0 ++ x, y1, []] },
                    weight := aln.weight })) ∧
      (∀ x0 x1 rest, aln.f.seq_data = x0 :: x1 :: rest → backtracking Bd Bp Bq seqa seqb aln
        = .ok (0, { f := { seq_names := aln.f.seq_names,
                           seq_data := (y0 ++ x0) :: (y1 ++ x1) :: (rest ++ [[], []]) },
                    weight := aln.weight }))) ∨
    (∃ e, ∀ aln : alignment_t α, aln.f.seq_data.length ≠ 1 →
      backtracking Bd Bp Bq seqa seqb aln = .error e) := by
  rcases btLoop_uniform Bd Bp Bq seqa seqb 1 (seqa.length + seqb.length) seqa.length
    seqb.length with ⟨y0, y1, hok⟩ | ⟨e, herr⟩
  · refine Or.inl ⟨y0, y1, fun aln => ⟨?_, ?_, ?_⟩⟩
    · intro h
      unfold backtracking
      simp only [h, List.nil_append, List.singleton_append]
      rw [hok]
      simp
    · intro x h
      unfold backtracking
      simp only [h, List.singleton_append, List.cons_append, List.nil_append]
      rw [hok]
      simp
    · intro x0 x1 rest h
      unfold backtracking
      simp only [h, List.cons_append, List.append_assoc, List.singleton_append]
      rw [hok]
      simp
  · refine Or.inr ⟨e, fun aln hl => ?_⟩
    unfold backtracking
    cases hd : aln.f.seq_data with
    | nil =>
      simp only [List.nil_append, List.singleton_append]
      rw [herr]
    | cons x0 r =>
      cases r with
      | nil => rw [hd] at hl; simp at hl
      | cons x1 rest =>
        simp only [List.cons_append, List.append_assoc, List.singleton_append]
        rw [herr]

/-- The function `backtracking_noframeshifts` on an alignment that already holds strings:
as `backtracking_prior`. -/
theorem backtracking_noframeshifts_prior (Bd Bp Bq : Nat → Nat → Int) (seqa seqb : Str) :
    (∃ y0 y1 : Str, ∀ aln : alignment_t α,
      (aln.f.seq_data = [] → backtracking_noframeshifts Bd Bp Bq seqa seqb aln
        = .ok (0, { f := { seq_names := aln.f.seq_names, seq_data := [y0, y1] },
                    weight := aln.weight })) ∧
      (∀ x, aln.f.seq_data = [x] → backtracking_noframeshifts Bd Bp Bq seqa seqb aln
        = .ok (0, { f := { seq_names := aln.f.seq_names, seq_data := [y0 ++ x, y1, []] },
                    weight := aln.weight })) ∧
      (∀ x0 x1 rest, aln.f.seq_data = x0 :: x1 :: rest →
        backtracking_noframeshifts Bd Bp Bq seqa seqb aln
        = .ok (0, { f := { seq_names := aln.f.seq_names,
                           seq_data := (y0 ++ x0) :: (y1 ++ x1) :: (rest ++ [[], []]) },
                    weight := aln.weight }))) ∨
    (∃ e, ∀ aln : alignment_t α, aln.f.seq_data.length ≠ 1 →
      backtracking_noframeshifts Bd Bp Bq seqa seqb aln = .error e) := by
  rcases btLoop_uniform Bd Bp Bq seqa seqb 3 (seqa.length + seqb.length) seqa.length
    seqb.length with ⟨y0, y1, hok⟩ | ⟨e, herr⟩
  · refine Or.inl ⟨y0, y1, fun aln => ⟨?_, ?_, ?_⟩⟩
    · intro h
      unfold backtracking_noframeshifts
      simp only [h, List.nil_append, List.singleton_append]
      rw [hok]
      simp
    · intro x h
      unfold backtracking_noframeshifts
      simp only [h, List.singleton_append, List.cons_append, List.nil_append]
      rw [hok]
      simp
    · intro x0 x1 rest h
      unfold backtracking_noframeshifts
      simp only [h, List.cons_append, List.append_assoc, List.singleton_append]
      rw [hok]
      simp
  · refine Or.inr ⟨e, fun aln hl => ?_⟩
    unfold backtracking_noframeshifts
    cases hd : aln.f.seq_data with
    | nil =>
      simp only [List.nil_append, List.singleton_append]
      rw [herr]
    | cons x0 r =>
      cases r with
      | nil => rw [hd] at hl; simp at hl
      | cons x1 rest =>
        simp only [List.cons_append, List.append_assoc, List.singleton_append]
        rw [herr]

/-- C31, refuted: the strings and the weight that the engines leave depend on what the
alignment held before the call.  Over the real numbers, for a gap-free reference `A` of a
length divisible by 3 and a gap-free sequence `B`, both non-empty (lengths within the range
of `int`), with `s0`, `s1` the rows that `mg94_marginal` leaves in an empty alignment: an
alignment that held the single string `x` ends as `[s0 ++ x, s1, ""]` and one that held
`x0, x1, ...` as `[s0 ++ x0, s1 ++ x1, ..., "", ""]` (`backtracking` pushes two strings and
writes strings 0 and 1); whenever `gotoh_noframeshifts` returns on an empty alignment it
does the same with its rows; and `gotoh_profile_marginal` on the operands `[A]`, `[B]`
leaves the same strings for every alignment but adds `D(m, n)` to the weight the alignment
held.  Only the weight of the first two engines is independent of the alignment. -/
theorem engines_keep_prior_alignment (p : Nat → Nat → Nat → ℝ) (A B : Str)
    (hA : A ≠ []) (hA3 : A.length % 3 = 0) (hAg : '-' ∉ A) (hB : B ≠ []) (hBg : '-' ∉ B)
    (hAlen : A.length < 2 ^ 31) (hBlen : B.length < 2 ^ 31) :
    (∃ s0 s1 : Str, s0.length = s1.length ∧ degap s0 = A ∧ degap s1 = B ∧
      ∀ (names : List Str) (w0 : ℝ),
        mg94_marginal realNum p [A, B] ⟨⟨names, []⟩, w0⟩
          = .ok (0, ⟨⟨names, [s0, s1]⟩, (mg94_forward realNum p A B).D A.length B.length⟩) ∧
        (∀ x, mg94_marginal realNum p [A, B] ⟨⟨names, [x]⟩, w0⟩
          = .ok (0, ⟨⟨names, [s0 ++ x, s1, []]⟩,
              (mg94_forward realNum p A B).D A.length B.length⟩)) ∧
        (∀ x0 x1 rest, mg94_marginal realNum p [A, B] ⟨⟨names, x0 :: x1 :: rest⟩, w0⟩
          = .ok (0, ⟨⟨names, (s0 ++ x0) :: (s1 ++ x1) :: (rest ++ [[], []])⟩,
              (mg94_forward realNum p A B).D A.length B.length⟩))) ∧
    (∀ (names : List Str) (w0 : ℝ) (r : Int × alignment_t ℝ),
      gotoh_noframeshifts realNum p [A, B] ⟨⟨names, []⟩, w0⟩ = .ok r →
      ∃ s0 s1 : Str, r = (0, ⟨⟨names, [s0, s1]⟩, r.2.weight⟩) ∧
        (∀ x, gotoh_noframeshifts realNum p [A, B] ⟨⟨names, [x]⟩, w0⟩
          = .ok (0, ⟨⟨names, [s0 ++ x, s1, []]⟩, r.2.weight⟩)) ∧
        (∀ x0 x1 rest, gotoh_noframeshifts realNum p [A, B] ⟨⟨names, x0 :: x1 :: rest⟩, w0⟩
          = .ok (0, ⟨⟨names, (s0 ++ x0) :: (s1 ++ x1) :: (rest ++ [[], []])⟩,
              r.2.weight⟩))) ∧
    (∃ (rows : List Str) (d : ℝ), ∀ aln : alignment_t ℝ,
      gotoh_profile_marginal realNum p [A] [B] aln
        = .ok (0, ⟨⟨aln.f.seq_names, rows⟩, aln.weight + d⟩)) := by
  refine ⟨?_, ?_, ?_⟩
  · -- mg94_marginal
    have hsize := (real_size_bound A.length B.length hAlen hBlen).2.1
    obtain ⟨t0, t1, hrun, hlen, hd0, hd1⟩ := mg94_marginal_ok realNum realNum_sound p A B
      ⟨⟨[], []⟩, 0⟩ hA3 hAg hBg hsize rfl
    have hfr : ¬ (A.length % 3 ≠ 0) := by rw [hA3]; decide
    unfold mg94_marginal at hrun
    simp only [if_neg hfr] at hrun
    rcases @backtracking_prior ℝ _ (mg94_forward realNum p A B).Bd (mg94_forward realNum p A B).Bp
      (mg94_forward realNum p A B).Bq A B with ⟨y0, y1, hok⟩ | ⟨e, herr⟩
    · have h1 := (hok ⟨⟨[], []⟩, (mg94_forward realNum p A B).D A.length B.length⟩).1 rfl
      rw [h1] at hrun
      have hsd := congrArg (fun r : Except Failure (Int × alignment_t ℝ) =>
        match r with
        | .ok v => v.2.f.seq_data
        | .error _ => []) hrun
      obtain ⟨e0, e1⟩ : y0 = t0 ∧ y1 = t1 := by simpa using hsd
      subst e0 e1
      refine ⟨y0, y1, hlen, hd0, hd1, fun names w0 => ⟨?_, ?_, ?_⟩⟩
      · unfold mg94_marginal
        simp only [if_neg hfr]
        exact (hok ⟨⟨names, []⟩, _⟩).1 rfl
      · intro x
        unfold mg94_marginal
        simp only [if_neg hfr]
        exact (hok ⟨⟨names, [x]⟩, _⟩).2.1 x rfl
      · intro x0 x1 rest
        unfold mg94_marginal
        simp only [if_neg hfr]
        exact (hok ⟨⟨names, x0 :: x1 :: rest⟩, _⟩).2.2 x0 x1 rest rfl
    · have h1 := herr ⟨⟨[], []⟩, (mg94_forward realNum p A B).D A.length B.length⟩ (by simp)
      rw [h1] at hrun
      exact absurd hrun (by simp)
  · -- gotoh_noframeshifts
    intro names w0 r hr
    unfold gotoh_noframeshifts at hr
    simp only [] at hr
    split_ifs at hr with hfr
    rcases @backtracking_noframeshifts_prior ℝ _ (nf.forward realNum p A B).Bd
      (nf.forward realNum p A B).Bp (nf.forward realNum p A B).Bq A B with
      ⟨y0, y1, hok⟩ | ⟨e, herr⟩
    · have h1 := (hok ⟨⟨names, []⟩, (nf.forward realNum p A B).D A.length B.length⟩).1 rfl
      rw [h1] at hr
      simp only [Except.ok.injEq] at hr
      subst hr
      refine ⟨y0, y1, rfl, ?_, ?_⟩
      · intro x
        unfold gotoh_noframeshifts
        simp only [if_neg hfr]
        exact (hok ⟨⟨names, [x]⟩, _⟩).2.1 x rfl
      · intro x0 x1 rest
        unfold gotoh_noframeshifts
        simp only [if_neg hfr]
        exact (hok ⟨⟨names, x0 :: x1 :: rest⟩, _⟩).2.2 x0 x1 rest rfl
    · have h1 := herr ⟨⟨names, []⟩, (nf.forward realNum p A B).D A.length B.length⟩ (by simp)
      rw [h1] at hr
      exact absurd hr (by simp)
  · -- gotoh_profile_marginal
    obtain ⟨pro1, pro2, K1, K2, hp1, hp2, hc1, hc2, hbt, -⟩ :=
      prof_traceback_ok p [A] [B] (by simp) (by simp) (by simp) (by simp) hAlen hBlen
    refine ⟨[A].map (spread K1) ++ [B].map (spread K2),
      (prof.forward realNum p pro1 pro2).D pro1.cols pro2.cols, fun aln => ?_⟩
    unfold gotoh_profile_marginal
    rw [hp1]
    simp only []
    rw [hp2]
    simp only []
    have hc : pro1.cols = A.length := hc1
    rw [if_neg (by rw [hc, hA3]; decide), hbt]

/-- Claim C31 at the pair AAA, AAA under `nearTensor`: the rows that `mg94_marginal` leaves
in an alignment that held the string X differ from those it leaves in an empty alignment,
and `gotoh_profile_marginal` returns the weight 5 + d from the weight 5 and 7 + d from the
weight 7. -/
theorem engines_keep_prior_alignment_witness :
    (∃ s0 s1 : Str,
      mg94_marginal realNum nearTensor [['A', 'A', 'A'], ['A', 'A', 'A']] ⟨⟨[], []⟩, 0⟩
        = .ok (0, ⟨⟨[], [s0, s1]⟩,
            (mg94_forward realNum nearTensor ['A', 'A', 'A'] ['A', 'A', 'A']).D 3 3⟩) ∧
      mg94_marginal realNum nearTensor [['A', 'A', 'A'], ['A', 'A', 'A']] ⟨⟨[], [['X']]⟩, 0⟩
        = .ok (0, ⟨⟨[], [s0 ++ ['X'], s1, []]⟩,
            (mg94_forward realNum nearTensor ['A', 'A', 'A'] ['A', 'A', 'A']).D 3 3⟩)) ∧
    (∃ (rows : List Str) (d : ℝ),
      gotoh_profile_marginal realNum nearTensor [['A', 'A', 'A']] [['A', 'A', 'A']]
          ⟨⟨[], []⟩, 5⟩ = .ok (0, ⟨⟨[], rows⟩, 5 + d⟩) ∧
      gotoh_profile_marginal realNum nearTensor [['A', 'A', 'A']] [['A', 'A', 'A']]
          ⟨⟨[], []⟩, 7⟩ = .ok (0, ⟨⟨[], rows⟩, 7 + d⟩)) := by
  obtain ⟨⟨s0, s1, -, -, -, h⟩, -, ⟨rows, d, hp⟩⟩ :=
    engines_keep_prior_alignment nearTensor ['A', 'A', 'A'] ['A', 'A', 'A'] (by decide)
      (by decide) (by decide) (by decide) (by decide) (by norm_num) (by norm_num)
  exact ⟨⟨s0, s1, (h [] 0).1, (h [] 0).2.1 ['X']⟩, ⟨rows, d, hp ⟨⟨[], []⟩, 5⟩, hp ⟨⟨[], []⟩, 7⟩⟩⟩


end Engines

end Coati
